import Mathlib

/-!
# Deap and Min-Max Heap

A shallow embedding of `Deap/Deap.h`, `Deap/Deap.cpp`, `MinMaxHeap/MinMaxHeap.h` and
`MinMaxHeap/MinMaxHeap.cpp`.

* `size_t` is modelled by `Nat` with an explicit `% 2 ^ 64` wherever the C++ arithmetic can wrap.
* `int` values are modelled by `Int`; the conversion `int → size_t` made by
  `std::less<size_t>` / `std::greater<size_t>` is `toSizeT`.
* `std::vector<int> m_data` is a `List Int`; reading index `i` is `get m_data i`.
* `while` loops are structural recursions on a fuel argument; every caller passes a fuel
  that the loop cannot exhaust: the loop index strictly moves towards the root or towards
  the leaves at every round, and the inner loop of the leaf pass of `buildDeap` lowers
  `rankSum` at every round.  The section "The fuel of the loops is never used up" proves it.
* The operations of the Deap are given a second time with every `assert` of the source and a
  bounds check at every element access, in `Option`: `none` is a failed check.  These are the
  definitions whose name ends in `C`; they are proved equal to the unchecked ones.
* `popMin` and `popMax` return `none` for the `std::out_of_range` exception.  `popMinCall`
  and `popMaxCall` give the same functions as calls on an instance: the outcome together
  with the content the instance holds after the call, also when the call throws.
-/

set_option autoImplicit false

/-! ## Index arithmetic of the Deap -/

namespace Deap_Trait

/-- `parent`: the roots `0` and `1` are their own parent. -/
def parent (id : Nat) : Nat := if id < 2 then id else (id - 2) / 2

/-- `leftChild`, computed in `size_t`. -/
def leftChild (id : Nat) : Nat := (id * 2 + 2) % 2 ^ 64

/-- `rightChild`, computed in `size_t`. -/
def rightChild (id : Nat) : Nat := (id * 2 + 3) % 2 ^ 64

/-- The loop `while ((res & id) == 0) res >>= 1;` of `highestOne`. -/
def highestOneLoop : Nat → Nat → Nat → Nat
  | 0, res, _ => res
  | fuel + 1, res, id => if res &&& id = 0 then highestOneLoop fuel (res >>> 1) id else res

/-- `highestOne`: the highest set bit of a non-zero 64-bit number. -/
def highestOne (id : Nat) : Nat := highestOneLoop 64 (1 <<< 63) id

/-- `inMinHeap`: is the node in the min heap (the left subtree of the unstored root)? -/
def inMinHeap (id : Nat) : Bool :=
  let id2 := (id + 2) % 2 ^ 64
  let high := highestOne id2
  !(decide (((high >>> 1) &&& id2) ≠ 0))

/-- `correspond`: the node at the same relative position in the other heap. -/
def correspond (id : Nat) : Nat :=
  let id2 := (id + 2) % 2 ^ 64
  let high := highestOne id2
  ((id2 ^^^ (high >>> 1)) + 2 ^ 64 - 2) % 2 ^ 64

/-- Half the width of the tree level of node `i`: with `h = half i`, the level of `i` is
the set of indices `j` with `2 * h ≤ j + 2 < 4 * h`; its first half lies in the min heap. -/
def half (i : Nat) : Nat := 2 ^ (Nat.log2 (i + 2) - 1)

/-- Node `j` is reached from node `r` by `leftChild` and `rightChild` steps, none of which
overflows (the child index plus the shift by `2` made by `inMinHeap` fits in `size_t`). -/
inductive Reachable (r : Nat) : Nat → Prop
  | root : Reachable r r
  | left {i : Nat} : Reachable r i → 2 * i + 5 < 2 ^ 64 → Reachable r (leftChild i)
  | right {i : Nat} : Reachable r i → 2 * i + 5 < 2 ^ 64 → Reachable r (rightChild i)

/-- The pair `(L, R)` is reached from `(0, 1)` by the same sequence of left and right child
steps, none of which overflows. -/
inductive Mirror : Nat → Nat → Prop
  | root : Mirror 0 1
  | left {L R : Nat} : Mirror L R → 2 * L + 5 < 2 ^ 64 → 2 * R + 5 < 2 ^ 64 →
      Mirror (leftChild L) (leftChild R)
  | right {L R : Nat} : Mirror L R → 2 * L + 5 < 2 ^ 64 → 2 * R + 5 < 2 ^ 64 →
      Mirror (rightChild L) (rightChild R)

end Deap_Trait

/-! ## `std::vector<int>` -/

namespace Vec

/-- Reading `m_data[i]`. -/
def get (m_data : List Int) (i : Nat) : Int := m_data.getD i 0

/-- `std::swap(m_data[i], m_data[j])`. -/
def swapAt (m_data : List Int) (i j : Nat) : List Int :=
  (m_data.set i (get m_data j)).set j (get m_data i)

end Vec

/-! ## The Deap -/

namespace Deap

open Deap_Trait Vec

/-- The conversion of an `int` to `size_t`. -/
def toSizeT (v : Int) : Nat := (v % 2 ^ 64).toNat

/-- `std::less<size_t>` applied to two `int` values. -/
def lessSizeT (a b : Int) : Bool := decide (toSizeT a < toSizeT b)

/-- `std::greater<size_t>` applied to two `int` values. -/
def greaterSizeT (a b : Int) : Bool := decide (toSizeT a > toSizeT b)

/-- The comparison `_less` chosen by `pullUp` and `pushDown` for node `id`. -/
def chooseLess (id : Nat) : Int → Int → Bool :=
  if inMinHeap id then lessSizeT else greaterSizeT

/-- `exist`. -/
def exist (m_data : List Int) (id : Nat) : Bool := decide (id < m_data.length)

/-- `isLeaf`. -/
def isLeaf (m_data : List Int) (id : Nat) : Bool :=
  exist m_data id && !exist m_data (leftChild id)

/-- `safeCorrespond`: the corresponding node, or its parent when it does not exist. -/
def safeCorrespond (m_data : List Int) (id : Nat) : Nat :=
  let corr := correspond id
  if exist m_data corr then corr else parent corr

/-- The `while (exist(id))` loop of `pullUp`. -/
def pullUpLoop (less : Int → Int → Bool) : Nat → List Int → Nat → List Int
  | 0, m_data, _ => m_data
  | fuel + 1, m_data, id =>
    if exist m_data id then
      let p := parent id
      if less (get m_data id) (get m_data p) then
        pullUpLoop less fuel (swapAt m_data id p) p
      else m_data
    else m_data

/-- `pullUp`. -/
def pullUp (m_data : List Int) (id : Nat) : List Int :=
  pullUpLoop (chooseLess id) m_data.length m_data id

/-- The node `_minNode` selected by one round of `pushDown`. -/
def pushDownPick (less : Int → Int → Bool) (m_data : List Int) (id : Nat) : Nat :=
  let L := leftChild id
  let R := rightChild id
  let m1 := if exist m_data L && less (get m_data L) (get m_data id) then L else id
  if exist m_data R && less (get m_data R) (get m_data m1) then R else m1

/-- The `while (exist(id))` loop of `pushDown`. -/
def pushDownLoop (less : Int → Int → Bool) : Nat → List Int → Nat → List Int
  | 0, m_data, _ => m_data
  | fuel + 1, m_data, id =>
    if exist m_data id then
      let m := pushDownPick less m_data id
      if m = id then m_data else pushDownLoop less fuel (swapAt m_data id m) m
    else m_data

/-- `pushDown`. -/
def pushDown (m_data : List Int) (id : Nat) : List Int :=
  pushDownLoop (chooseLess id) m_data.length m_data id

/-- The first loop of `buildDeap`: `pushDown(i)` for `i` from the start index down to `0`. -/
def heapifyFrom : Nat → List Int → List Int
  | 0, m_data => pushDown m_data 0
  | i + 1, m_data => heapifyFrom i (pushDown m_data (i + 1))

/-- The inner `while (m_data[minHeapNode] > m_data[maxHeapNode])` loop of `buildDeap`. -/
def fixPairLoop : Nat → List Int → Nat → Nat → List Int
  | 0, m_data, _, _ => m_data
  | fuel + 1, m_data, minHeapNode, maxHeapNode =>
    if get m_data minHeapNode > get m_data maxHeapNode then
      fixPairLoop fuel
        (pullUp (pullUp (swapAt m_data minHeapNode maxHeapNode) minHeapNode) maxHeapNode)
        minHeapNode maxHeapNode
    else m_data

/-- The body of the leaf loop of `buildDeap` for the leaf `i`.  The inner `while` loop gets
the fuel `size * size`, which it never uses up (`fixPairLoop_fuel`). -/
def fixLeaf (m_data : List Int) (i : Nat) : List Int :=
  let c := safeCorrespond m_data i
  if inMinHeap i then fixPairLoop (m_data.length * m_data.length) m_data i c
  else fixPairLoop (m_data.length * m_data.length) m_data c i

/-- The second loop of `buildDeap`: `for (i = size - 1; isLeaf(i); --i)`.  After `i = 0`
the index wraps to `SIZE_MAX`, which does not exist, and the loop stops. -/
def leafLoop : Nat → List Int → List Int
  | 0, m_data => if isLeaf m_data 0 then fixLeaf m_data 0 else m_data
  | i + 1, m_data => if isLeaf m_data (i + 1) then leafLoop i (fixLeaf m_data (i + 1)) else m_data

/-- `buildDeap`. -/
def buildDeap (m_data : List Int) : List Int :=
  if m_data.length < 2 then m_data
  else
    let d1 := heapifyFrom (parent (m_data.length - 1)) m_data
    leafLoop (d1.length - 1) d1

/-- `insert`. -/
def insert (m_data : List Int) (id : Nat) : List Int :=
  if id = 0 then m_data
  else
    let c := safeCorrespond m_data id
    let minN0 := if inMinHeap id then id else c
    let maxN := if inMinHeap id then c else id
    let minN :=
      if !isLeaf m_data minN0 && !exist m_data (rightChild minN0) then leftChild minN0 else minN0
    if isLeaf m_data minN then
      if get m_data minN ≤ get m_data maxN then pullUp m_data id
      else
        let d1 := swapAt m_data minN maxN
        pullUp d1 (safeCorrespond d1 id)
    else
      let minLeaf1 := leftChild minN
      let minLeaf2 := rightChild minN
      if get m_data minLeaf1 ≤ get m_data id && get m_data minLeaf2 ≤ get m_data id then
        pullUp m_data id
      else if get m_data minLeaf1 > get m_data minLeaf2 then
        pullUp (swapAt m_data minLeaf1 id) minLeaf1
      else
        pullUp (swapAt m_data minLeaf2 id) minLeaf2

/-- `push`. -/
def push (m_data : List Int) (v : Int) : List Int :=
  let d1 := m_data ++ [v]
  insert d1 (d1.length - 1)

/-- The constructor `Deap(first, last)`. -/
def ofList (values : List Int) : List Int := buildDeap values

/-- The loop of `popMin` and `popMax` that moves the empty slot down to a leaf; `takeLeft`
compares the two children (`<` in `popMin`, `>` in `popMax`). -/
def sinkLoop (takeLeft : Int → Int → Bool) : Nat → List Int → Nat → List Int × Nat
  | 0, m_data, emptyNode => (m_data, emptyNode)
  | fuel + 1, m_data, emptyNode =>
    if !isLeaf m_data emptyNode then
      let L := leftChild emptyNode
      let R := rightChild emptyNode
      if !exist m_data R || takeLeft (get m_data L) (get m_data R) then
        sinkLoop takeLeft fuel (m_data.set emptyNode (get m_data L)) L
      else
        sinkLoop takeLeft fuel (m_data.set emptyNode (get m_data R)) R
    else (m_data, emptyNode)

/-- `popMin`: `none` is the `std::out_of_range` exception; otherwise the returned value and
the new content. -/
def popMin (m_data : List Int) : Option (Int × List Int) :=
  if m_data.length = 0 then none
  else
    let ret := get m_data 0
    let r := sinkLoop (fun a b => decide (a < b)) m_data.length m_data 0
    let d1 := r.1
    let emptyNode := r.2
    if emptyNode = d1.length - 1 then some (ret, d1.dropLast)
    else
      let d2 := (d1.set emptyNode (get d1 (d1.length - 1))).dropLast
      some (ret, insert d2 emptyNode)

/-- `popMax`. -/
def popMax (m_data : List Int) : Option (Int × List Int) :=
  if m_data.length = 0 then none
  else if m_data.length = 1 then some (get m_data 0, m_data.dropLast)
  else
    let ret := get m_data 1
    let r := sinkLoop (fun a b => decide (a > b)) m_data.length m_data 1
    let d1 := r.1
    let emptyNode := r.2
    if emptyNode = d1.length - 1 then
      let d2 := d1.dropLast
      if isLeaf d2 (parent emptyNode) then some (ret, insert d2 (parent emptyNode))
      else some (ret, d2)
    else
      let d2 := (d1.set emptyNode (get d1 (d1.length - 1))).dropLast
      some (ret, insert d2 emptyNode)

/-- `popMin` as a call on an instance that holds `m_data`: the outcome of the call (`none`
is the `std::out_of_range` exception) and the content the instance holds after it.  The
`throw` is the first statement of the function, so the content at the throw is the one the
call found. -/
def popMinCall (m_data : List Int) : Option Int × List Int :=
  if m_data.length = 0 then (none, m_data)
  else
    let ret := get m_data 0
    let r := sinkLoop (fun a b => decide (a < b)) m_data.length m_data 0
    let d1 := r.1
    let emptyNode := r.2
    if emptyNode = d1.length - 1 then (some ret, d1.dropLast)
    else
      let d2 := (d1.set emptyNode (get d1 (d1.length - 1))).dropLast
      (some ret, insert d2 emptyNode)

/-- `popMax` as a call on an instance, like `popMinCall`. -/
def popMaxCall (m_data : List Int) : Option Int × List Int :=
  if m_data.length = 0 then (none, m_data)
  else if m_data.length = 1 then (some (get m_data 0), m_data.dropLast)
  else
    let ret := get m_data 1
    let r := sinkLoop (fun a b => decide (a > b)) m_data.length m_data 1
    let d1 := r.1
    let emptyNode := r.2
    if emptyNode = d1.length - 1 then
      let d2 := d1.dropLast
      if isLeaf d2 (parent emptyNode) then (some ret, insert d2 (parent emptyNode))
      else (some ret, d2)
    else
      let d2 := (d1.set emptyNode (get d1 (d1.length - 1))).dropLast
      (some ret, insert d2 emptyNode)

/-- The three checks `verify` makes at node `i`. -/
def verifyNode (m_data : List Int) (i : Nat) : Bool :=
  let L := leftChild i
  let R := rightChild i
  if inMinHeap i then
    !(exist m_data L && decide (get m_data i > get m_data L)) &&
    !(exist m_data R && decide (get m_data i > get m_data R)) &&
    !(decide (get m_data i > get m_data (safeCorrespond m_data i)))
  else
    !(exist m_data L && decide (get m_data i < get m_data L)) &&
    !(exist m_data R && decide (get m_data i < get m_data R)) &&
    !(decide (get m_data i < get m_data (safeCorrespond m_data i)))

/-- `verify`: every node passes its three checks (always true below two elements). -/
def verify (m_data : List Int) : Bool :=
  if m_data.length < 2 then true
  else (List.range m_data.length).all (verifyNode m_data)

/-- The order of the heap on one side: towards the leaves the values grow in the min heap
(`inMin = true`) and shrink in the max heap. -/
def sideLe (inMin : Bool) (x y : Int) : Prop := if inMin then x ≤ y else y ≤ x

/-- The comparison `_less` of `pullUp` and `pushDown` read on `int` instead of `size_t`. -/
def sideLt (inMin : Bool) (x y : Int) : Bool :=
  if inMin then decide (x < y) else decide (x > y)

/-- Every stored value is a non-negative `int`. -/
def NonNeg (m_data : List Int) : Prop := ∀ x ∈ m_data, 0 ≤ x ∧ x < 2 ^ 31

/-- Invariants 1 and 2: every node below the two roots is ordered with its parent. -/
def HeapOrd (m_data : List Int) : Prop :=
  ∀ j : Nat, 2 ≤ j → j < m_data.length →
    sideLe (inMinHeap j) (get m_data (parent j)) (get m_data j)

/-- Invariant 3 at node `i`. -/
def CrossAt (m_data : List Int) (i : Nat) : Prop :=
  sideLe (inMinHeap i) (get m_data i) (get m_data (safeCorrespond m_data i))

/-- The three Deap invariants; invariant 3 is only checked from two elements on, like
`verify` does. -/
def Valid (m_data : List Int) : Prop :=
  HeapOrd m_data ∧ (2 ≤ m_data.length → ∀ i : Nat, i < m_data.length → CrossAt m_data i)

/-- The heap order at every node whose parent is at index `s` or after, the shape of the
statement kept by the heapify pass. -/
def OrdFrom (s : Nat) (d : List Int) : Prop :=
  ∀ j, 2 ≤ j → j < d.length → s ≤ parent j →
    sideLe (inMinHeap j) (get d (parent j)) (get d j)

/-- The number of min-heap nodes whose value is above `t`: the quantity that decreases at
every round of the inner loop of the leaf pass of `buildDeap`. -/
def minCount (d : List Int) (t : Int) : Nat :=
  ((Finset.range d.length).filter (fun j => inMinHeap j = true ∧ t < get d j)).card

/-- A client that extracts along a script: `true` calls `popMin`, `false` calls `popMax`;
it stops at the end of the script or at the first failing call.  The result is the list of
the calls made with the values they returned, and the content left. -/
def drain : List Bool → List Int → List (Bool × Int) × List Int
  | [], m_data => ([], m_data)
  | c :: cs, m_data =>
    match (if c then popMin m_data else popMax m_data) with
    | none => ([], m_data)
    | some (x, r) => ((c, x) :: (drain cs r).1, (drain cs r).2)

/-- A Deap filled by pushing the values one at a time, starting from the empty one. -/
def pushAll (xs : List Int) : List Int := xs.foldl push []

/-- The sum over the stored values `x` of the number of min-heap nodes above `x`: a quantity
that every round of the inner loop of the leaf pass of `buildDeap` makes smaller, for all
`int` values. -/
def rankSum (d : List Int) : Nat := (d.map (minCount d)).sum

/-! ### The operations with their assertions and bounds checks -/

/-- `assert(c)`: `none` is the failed assertion. -/
def assertC (c : Bool) : Option Unit := if c then some () else none

/-- A read of `m_data[i]` checked against the size: `none` is an access outside the
sequence. -/
def readC (m_data : List Int) (i : Nat) : Option Int :=
  if i < m_data.length then some (get m_data i) else none

/-- A write `m_data[i] = v` checked against the size. -/
def writeC (m_data : List Int) (i : Nat) (v : Int) : Option (List Int) :=
  if i < m_data.length then some (m_data.set i v) else none

/-- `std::swap(m_data[i], m_data[j])` with both accesses checked. -/
def swapC (m_data : List Int) (i j : Nat) : Option (List Int) :=
  if i < m_data.length ∧ j < m_data.length then some (swapAt m_data i j) else none

/-- `m_data.back()` checked: the sequence is not empty. -/
def backC (m_data : List Int) : Option Int :=
  if m_data.length = 0 then none else some (get m_data (m_data.length - 1))

/-- `m_data.pop_back()` checked: the sequence is not empty. -/
def popBackC (m_data : List Int) : Option (List Int) :=
  if m_data.length = 0 then none else some m_data.dropLast

/-- `highestOne` with its assertion `id != 0`. -/
def highestOneC (id : Nat) : Option Nat := do
  assertC (decide (id ≠ 0))
  some (highestOne id)

/-- `inMinHeap` with its assertion `id >= 2`, made after `id += 2`, and the assertion of
`highestOne`. -/
def inMinHeapC (id : Nat) : Option Bool := do
  let id2 := (id + 2) % 2 ^ 64
  assertC (decide (id2 ≥ 2))
  let high ← highestOneC id2
  some (!(decide (((high >>> 1) &&& id2) ≠ 0)))

/-- `correspond` with its assertion `id >= 2`, made after `id += 2`, and the assertion of
`highestOne`. -/
def correspondC (id : Nat) : Option Nat := do
  let id2 := (id + 2) % 2 ^ 64
  assertC (decide (id2 ≥ 2))
  let high ← highestOneC id2
  some (((id2 ^^^ (high >>> 1)) + 2 ^ 64 - 2) % 2 ^ 64)

/-- `safeCorrespond` with its assertion `exist(id)`. -/
def safeCorrespondC (m_data : List Int) (id : Nat) : Option Nat := do
  assertC (exist m_data id)
  let corr ← correspondC id
  some (if exist m_data corr then corr else parent corr)

/-- The loop of `pullUp` with every element access checked. -/
def pullUpLoopC (less : Int → Int → Bool) : Nat → List Int → Nat → Option (List Int)
  | 0, m_data, _ => some m_data
  | fuel + 1, m_data, id =>
    if exist m_data id then do
      let p := parent id
      let a ← readC m_data id
      let b ← readC m_data p
      if less a b then do
        let d1 ← swapC m_data id p
        pullUpLoopC less fuel d1 p
      else some m_data
    else some m_data

/-- `pullUp` with the assertions of `inMinHeap` and every element access checked. -/
def pullUpC (m_data : List Int) (id : Nat) : Option (List Int) := do
  let b ← inMinHeapC id
  pullUpLoopC (if b then lessSizeT else greaterSizeT) m_data.length m_data id

/-- The selection of `_minNode` in `pushDown` with every element access checked. -/
def pushDownPickC (less : Int → Int → Bool) (m_data : List Int) (id : Nat) : Option Nat := do
  let L := leftChild id
  let R := rightChild id
  let m1 ←
    if exist m_data L then do
      let a ← readC m_data L
      let b ← readC m_data id
      some (if less a b then L else id)
    else some id
  if exist m_data R then do
    let a ← readC m_data R
    let b ← readC m_data m1
    some (if less a b then R else m1)
  else some m1

/-- The loop of `pushDown` with every element access checked. -/
def pushDownLoopC (less : Int → Int → Bool) : Nat → List Int → Nat → Option (List Int)
  | 0, m_data, _ => some m_data
  | fuel + 1, m_data, id =>
    if exist m_data id then do
      let m ← pushDownPickC less m_data id
      if m = id then some m_data
      else do
        let d1 ← swapC m_data id m
        pushDownLoopC less fuel d1 m
    else some m_data

/-- `pushDown` with the assertions of `inMinHeap` and every element access checked. -/
def pushDownC (m_data : List Int) (id : Nat) : Option (List Int) := do
  let b ← inMinHeapC id
  pushDownLoopC (if b then lessSizeT else greaterSizeT) m_data.length m_data id

/-- The first loop of `buildDeap`, checked. -/
def heapifyFromC : Nat → List Int → Option (List Int)
  | 0, m_data => pushDownC m_data 0
  | i + 1, m_data => do
    let d1 ← pushDownC m_data (i + 1)
    heapifyFromC i d1

/-- The inner `while` loop of `buildDeap`, checked. -/
def fixPairLoopC : Nat → List Int → Nat → Nat → Option (List Int)
  | 0, m_data, _, _ => some m_data
  | fuel + 1, m_data, minHeapNode, maxHeapNode => do
    let a ← readC m_data minHeapNode
    let b ← readC m_data maxHeapNode
    if a > b then do
      let d1 ← swapC m_data minHeapNode maxHeapNode
      let d2 ← pullUpC d1 minHeapNode
      let d3 ← pullUpC d2 maxHeapNode
      fixPairLoopC fuel d3 minHeapNode maxHeapNode
    else some m_data

/-- The body of the leaf loop of `buildDeap`, checked. -/
def fixLeafC (m_data : List Int) (i : Nat) : Option (List Int) := do
  let c ← safeCorrespondC m_data i
  let b ← inMinHeapC i
  if b then fixPairLoopC (m_data.length * m_data.length) m_data i c
  else fixPairLoopC (m_data.length * m_data.length) m_data c i

/-- The second loop of `buildDeap`, checked. -/
def leafLoopC : Nat → List Int → Option (List Int)
  | 0, m_data => if isLeaf m_data 0 then fixLeafC m_data 0 else some m_data
  | i + 1, m_data =>
    if isLeaf m_data (i + 1) then do
      let d1 ← fixLeafC m_data (i + 1)
      leafLoopC i d1
    else some m_data

/-- `buildDeap`, checked. -/
def buildDeapC (m_data : List Int) : Option (List Int) :=
  if m_data.length < 2 then some m_data
  else do
    let d1 ← heapifyFromC (parent (m_data.length - 1)) m_data
    leafLoopC (d1.length - 1) d1

/-- `insert` with its assertions `isLeaf(id)` and `maxN == id`, the assertions of the
functions it calls, and every element access checked. -/
def insertC (m_data : List Int) (id : Nat) : Option (List Int) := do
  assertC (isLeaf m_data id)
  if id = 0 then some m_data
  else do
    let c ← safeCorrespondC m_data id
    let b ← inMinHeapC id
    let minN0 := if b then id else c
    let maxN := if b then c else id
    let minN :=
      if !isLeaf m_data minN0 && !exist m_data (rightChild minN0) then leftChild minN0 else minN0
    if isLeaf m_data minN then do
      let x ← readC m_data minN
      let y ← readC m_data maxN
      if x ≤ y then pullUpC m_data id
      else do
        let d1 ← swapC m_data minN maxN
        let c1 ← safeCorrespondC d1 id
        pullUpC d1 c1
    else do
      assertC (decide (maxN = id))
      let minLeaf1 := leftChild minN
      let minLeaf2 := rightChild minN
      let x1 ← readC m_data minLeaf1
      let y1 ← readC m_data id
      let both ←
        if x1 ≤ y1 then do
          let x2 ← readC m_data minLeaf2
          let y2 ← readC m_data id
          some (decide (x2 ≤ y2))
        else some false
      if both then pullUpC m_data id
      else do
        let z1 ← readC m_data minLeaf1
        let z2 ← readC m_data minLeaf2
        if z1 > z2 then do
          let d1 ← swapC m_data minLeaf1 id
          pullUpC d1 minLeaf1
        else do
          let d1 ← swapC m_data minLeaf2 id
          pullUpC d1 minLeaf2

/-- `push`, checked. -/
def pushC (m_data : List Int) (v : Int) : Option (List Int) :=
  let d1 := m_data ++ [v]
  insertC d1 (d1.length - 1)

/-- The constructor, checked. -/
def ofListC (values : List Int) : Option (List Int) := buildDeapC values

/-- The loop of `popMin` and `popMax`, with every element access checked. -/
def sinkLoopC (takeLeft : Int → Int → Bool) : Nat → List Int → Nat → Option (List Int × Nat)
  | 0, m_data, emptyNode => some (m_data, emptyNode)
  | fuel + 1, m_data, emptyNode =>
    if !isLeaf m_data emptyNode then do
      let L := leftChild emptyNode
      let R := rightChild emptyNode
      let left ←
        if !exist m_data R then some true
        else do
          let a ← readC m_data L
          let b ← readC m_data R
          some (takeLeft a b)
      if left then do
        let v ← readC m_data L
        let d1 ← writeC m_data emptyNode v
        sinkLoopC takeLeft fuel d1 L
      else do
        let v ← readC m_data R
        let d1 ← writeC m_data emptyNode v
        sinkLoopC takeLeft fuel d1 R
    else some (m_data, emptyNode)

/-- `popMin`, checked: the outer `none` is a failed assertion or an access outside the
sequence, the inner `none` is the `std::out_of_range` exception. -/
def popMinC (m_data : List Int) : Option (Option (Int × List Int)) :=
  if m_data.length = 0 then some none
  else do
    let ret ← readC m_data 0
    let r ← sinkLoopC (fun a b => decide (a < b)) m_data.length m_data 0
    let d1 := r.1
    let emptyNode := r.2
    if emptyNode = d1.length - 1 then do
      let d2 ← popBackC d1
      some (some (ret, d2))
    else do
      let last ← backC d1
      let d2 ← writeC d1 emptyNode last
      let d3 ← popBackC d2
      let d4 ← insertC d3 emptyNode
      some (some (ret, d4))

/-- `popMax`, checked like `popMinC`. -/
def popMaxC (m_data : List Int) : Option (Option (Int × List Int)) :=
  if m_data.length = 0 then some none
  else if m_data.length = 1 then do
    let ret ← readC m_data 0
    let d1 ← popBackC m_data
    some (some (ret, d1))
  else do
    let ret ← readC m_data 1
    let r ← sinkLoopC (fun a b => decide (a > b)) m_data.length m_data 1
    let d1 := r.1
    let emptyNode := r.2
    if emptyNode = d1.length - 1 then do
      let d2 ← popBackC d1
      if isLeaf d2 (parent emptyNode) then do
        let d3 ← insertC d2 (parent emptyNode)
        some (some (ret, d3))
      else some (some (ret, d2))
    else do
      let last ← backC d1
      let d2 ← writeC d1 emptyNode last
      let d3 ← popBackC d2
      let d4 ← insertC d3 emptyNode
      some (some (ret, d4))

/-- A call of a public operation on a Deap. -/
inductive Op
  | push (v : Int)
  | popMin
  | popMax

/-- The content after one call; a pop that throws `std::out_of_range` leaves it as it is. -/
def applyOp : Op → List Int → List Int
  | Op.push v, m_data => push m_data v
  | Op.popMin, m_data => match popMin m_data with
    | none => m_data
    | some (_, r) => r
  | Op.popMax, m_data => match popMax m_data with
    | none => m_data
    | some (_, r) => r

/-- The content after a sequence of calls. -/
def run : List Op → List Int → List Int
  | [], m_data => m_data
  | op :: ops, m_data => run ops (applyOp op m_data)

/-- One call with every assertion and element access checked. -/
def applyOpC : Op → List Int → Option (List Int)
  | Op.push v, m_data => pushC m_data v
  | Op.popMin, m_data => do
    let r ← popMinC m_data
    match r with
    | none => some m_data
    | some (_, r) => some r
  | Op.popMax, m_data => do
    let r ← popMaxC m_data
    match r with
    | none => some m_data
    | some (_, r) => some r

/-- A sequence of calls with every assertion and element access checked: `none` as soon as
one call fails a check. -/
def runC : List Op → List Int → Option (List Int)
  | [], m_data => some m_data
  | op :: ops, m_data => do
    let d1 ← applyOpC op m_data
    runC ops d1

end Deap

/-! ## Index arithmetic of the Min-Max Heap -/

namespace MinMaxHeap_Trait

/-- `parent`: the root is its own parent. -/
def parent (id : Nat) : Nat := if id = 0 then 0 else (id - 1) / 2

/-- `leftChild`, computed in `size_t`. -/
def leftChild (id : Nat) : Nat := (id * 2 + 1) % 2 ^ 64

/-- `rightChild`, computed in `size_t`. -/
def rightChild (id : Nat) : Nat := (id * 2 + 2) % 2 ^ 64

/-- The loop `while (id - highest_one >= highest_one)` of `isMinNode`, in `size_t`. -/
def isMinNodeLoop : Nat → Nat → Nat → Bool → Bool
  | 0, _, _, is_min_node => is_min_node
  | fuel + 1, id, highest_one, is_min_node =>
    if (id + 2 ^ 64 - highest_one) % 2 ^ 64 ≥ highest_one then
      isMinNodeLoop fuel id ((highest_one <<< 1) % 2 ^ 64) (!is_min_node)
    else is_min_node

/-- `isMinNode`: is the node on a min level?  The loop doubles `highest_one` at most 63
times when `id + 1` is not `0` in `size_t`. -/
def isMinNode (id : Nat) : Bool := isMinNodeLoop 64 ((id + 1) % 2 ^ 64) 1 true

end MinMaxHeap_Trait

/-! ## The Min-Max Heap -/

namespace MinMaxHeap

open MinMaxHeap_Trait Vec

/-- `exist`. -/
def exist (m_data : List Int) (id : Nat) : Bool := decide (id < m_data.length)

/-- The comparison `_less` chosen by `pushDown` for `root`: `std::less<int>` on a min
node, `std::greater<int>` on a max node. -/
def chooseLess (root : Nat) : Int → Int → Bool :=
  if isMinNode root then (fun a b => decide (a < b)) else (fun a b => decide (a > b))

/-- The array `children` of `pushDown`: the two children and the four grandchildren. -/
def children (root : Nat) : List Nat :=
  let c0 := leftChild root
  let c1 := rightChild root
  [c0, c1, leftChild c0, rightChild c0, leftChild c1, rightChild c1]

/-- The node `M` found by the `for (auto id : children)` loop of `pushDown`. -/
def pickM (less : Int → Int → Bool) (m_data : List Int) (root : Nat) : Nat :=
  (children root).foldl
    (fun M id => if exist m_data id && less (get m_data id) (get m_data M) then id else M) root

/-- The `while (exist(root))` loop of `pushDown`. -/
def pushDownLoop (less : Int → Int → Bool) : Nat → List Int → Nat → List Int
  | 0, m_data, _ => m_data
  | fuel + 1, m_data, root =>
    if exist m_data root then
      let M := pickM less m_data root
      if M = root then m_data
      else
        let d1 := swapAt m_data root M
        let parentM := parent M
        if parentM = root then d1
        else
          let d2 := if less (get d1 parentM) (get d1 M) then swapAt d1 parentM M else d1
          pushDownLoop less fuel d2 M
    else m_data

/-- `pushDown`. -/
def pushDown (m_data : List Int) (root : Nat) : List Int :=
  pushDownLoop (chooseLess root) m_data.length m_data root

/-- The loop of the constructor: `pushDown(i)` for `i` from the start index down to `0`. -/
def buildFrom : Nat → List Int → List Int
  | 0, m_data => pushDown m_data 0
  | i + 1, m_data => buildFrom i (pushDown m_data (i + 1))

/-- The constructor `MinMaxHeap(first, last)`. -/
def ofList (values : List Int) : List Int :=
  if values.length = 0 then values
  else buildFrom (parent (values.length - 1)) values

/-- The `while (id != 0)` loop of `push` over the min nodes above the new node. -/
def pushMinLoop : Nat → List Int → Int → Nat → Nat → List Int × Nat
  | 0, m_data, _, id, _ => (m_data, id)
  | fuel + 1, m_data, value, id, prevMin =>
    if id ≠ 0 then
      if value < get m_data prevMin then
        pushMinLoop fuel (m_data.set id (get m_data prevMin)) value prevMin
          (parent (parent prevMin))
      else (m_data, id)
    else (m_data, id)

/-- The `while (id != 1 && id != 2)` loop of `push` over the max nodes above the new node. -/
def pushMaxLoop : Nat → List Int → Int → Nat → Nat → List Int × Nat
  | 0, m_data, _, id, _ => (m_data, id)
  | fuel + 1, m_data, value, id, prevMax =>
    if id ≠ 1 ∧ id ≠ 2 then
      if value > get m_data prevMax then
        pushMaxLoop fuel (m_data.set id (get m_data prevMax)) value prevMax
          (parent (parent prevMax))
      else (m_data, id)
    else (m_data, id)

/-- `push`. -/
def push (m_data : List Int) (value : Int) : List Int :=
  let d1 := m_data ++ [value]
  let id := d1.length - 1
  let parentId := parent id
  if get d1 id = get d1 parentId then d1
  else if get d1 id < get d1 parentId then
    let prevMin := if isMinNode id then parent parentId else parentId
    let r := pushMinLoop d1.length d1 value id prevMin
    r.1.set r.2 value
  else
    let prevMax := if isMinNode id then parentId else parent parentId
    let r := pushMaxLoop d1.length d1 value id prevMax
    r.1.set r.2 value

/-- `popMin`: `none` is the `std::out_of_range` exception; otherwise the returned value and
the new content. -/
def popMin (m_data : List Int) : Option (Int × List Int) :=
  if m_data.length = 0 then none
  else
    let ret := get m_data 0
    let d1 := (m_data.set 0 (get m_data (m_data.length - 1))).dropLast
    some (ret, pushDown d1 0)

/-- `popMax`. -/
def popMax (m_data : List Int) : Option (Int × List Int) :=
  if m_data.length = 0 then none
  else if m_data.length = 1 ∨ m_data.length = 2 then
    some (get m_data (m_data.length - 1), m_data.dropLast)
  else
    let max_node := if get m_data 1 > get m_data 2 then 1 else 2
    let ret := get m_data max_node
    let d1 := (m_data.set max_node (get m_data (m_data.length - 1))).dropLast
    some (ret, pushDown d1 max_node)

/-- `popMin` as a call on an instance that holds `m_data`: the outcome of the call (`none`
is the `std::out_of_range` exception) and the content the instance holds after it.  The
`throw` is the first statement of the function, so the content at the throw is the one the
call found. -/
def popMinCall (m_data : List Int) : Option Int × List Int :=
  if m_data.length = 0 then (none, m_data)
  else
    let ret := get m_data 0
    let d1 := (m_data.set 0 (get m_data (m_data.length - 1))).dropLast
    (some ret, pushDown d1 0)

/-- `popMax` as a call on an instance: `case 0` of the `switch` throws before anything is
read or written. -/
def popMaxCall (m_data : List Int) : Option Int × List Int :=
  if m_data.length = 0 then (none, m_data)
  else if m_data.length = 1 ∨ m_data.length = 2 then
    (some (get m_data (m_data.length - 1)), m_data.dropLast)
  else
    let max_node := if get m_data 1 > get m_data 2 then 1 else 2
    let ret := get m_data max_node
    let d1 := (m_data.set max_node (get m_data (m_data.length - 1))).dropLast
    (some ret, pushDown d1 max_node)

/-- Node `j` lies in the subtree rooted at `i`. -/
inductive InSubtree (i : Nat) : Nat → Prop
  | root : InSubtree i i
  | child {j : Nat} : 0 < j → InSubtree i (parent j) → InSubtree i j

/-- The Min-Max Heap invariant: a node on a min level is `≤` every value in its subtree,
a node on a max level is `≥` every value in its subtree. -/
def Invariant (m_data : List Int) : Prop :=
  ∀ i j : Nat, i < m_data.length → j < m_data.length → InSubtree i j →
    (isMinNode i = true → get m_data i ≤ get m_data j) ∧
    (isMinNode i = false → get m_data j ≤ get m_data i)

/-- The order a node on a min level (`isMin = true`) or on a max level keeps with the
nodes below it. -/
def levelLe (isMin : Bool) (x y : Int) : Bool :=
  if isMin then decide (x ≤ y) else decide (y ≤ x)

/-- The invariant checked locally at node `j`: `j` is ordered with its parent and with its
grandparent. -/
def checkNode (m_data : List Int) (j : Nat) : Bool :=
  (j == 0 || levelLe (isMinNode (parent j)) (get m_data (parent j)) (get m_data j)) &&
  (decide (j < 3) ||
    levelLe (isMinNode (parent (parent j))) (get m_data (parent (parent j))) (get m_data j))

/-- A decidable test of the Min-Max Heap invariant: every node passes `checkNode`. -/
def checkInvariant (m_data : List Int) : Bool :=
  (List.range m_data.length).all (checkNode m_data)

/-- Node `j` is a child or a grandchild of node `a`. -/
def Near (a j : Nat) : Prop :=
  j = 2 * a + 1 ∨ j = 2 * a + 2 ∨ j = 4 * a + 3 ∨ j = 4 * a + 4 ∨ j = 4 * a + 5 ∨ j = 4 * a + 6

/-- Every node from index `s` on is ordered with its children and its grandchildren. -/
def NearOrd (s : Nat) (d : List Int) : Prop :=
  ∀ a j, j < d.length → Near a j → s ≤ a →
    levelLe (isMinNode a) (get d a) (get d j) = true

/-- A client that extracts along a script: `true` calls `popMin`, `false` calls `popMax`;
it stops at the end of the script or at the first failing call.  The result is the list of
the calls made with the values they returned, and the content left. -/
def drain : List Bool → List Int → List (Bool × Int) × List Int
  | [], m_data => ([], m_data)
  | c :: cs, m_data =>
    match (if c then popMin m_data else popMax m_data) with
    | none => ([], m_data)
    | some (x, r) => ((c, x) :: (drain cs r).1, (drain cs r).2)

/-- A MinMaxHeap filled by pushing the values one at a time, starting from the empty one. -/
def pushAll (xs : List Int) : List Int := xs.foldl push []

/-- The check the tests make on a sequence of extractions: every value lies between the
latest `popMin` result before it (`minV`, `none` while there is none) and the latest
`popMax` result before it (`maxV`). -/
def Bounded : Option Int → Option Int → List (Bool × Int) → Prop
  | _, _, [] => True
  | minV, maxV, (c, m) :: t =>
    (∀ a, minV = some a → a ≤ m) ∧ (∀ b, maxV = some b → m ≤ b) ∧
      Bounded (if c then some m else minV) (if c then maxV else some m) t

end MinMaxHeap

/-! ## Index arithmetic of the Deap: the trait functions without bit operations -/

namespace Deap_Trait

theorem and_two_pow_mul (a s i : Nat) (hs : s < 2 ^ i) :
    (2 ^ i * a + s) &&& 2 ^ i = 2 ^ i * (a % 2) := by
  apply Nat.eq_of_testBit_eq
  intro j
  rw [Nat.testBit_and, Nat.testBit_mul_pow_two_add a hs, Nat.testBit_two_pow,
    Nat.testBit_mul_pow_two]
  by_cases h1 : j < i
  · have : ¬ i = j := by omega
    have h2 : ¬ j ≥ i := by omega
    simp [h1, this, h2]
  · by_cases h2 : i = j
    · subst h2
      simp [Nat.testBit_zero]
    · have h3 : (a % 2).testBit (j - i) = false := by
        apply Nat.testBit_lt_two_pow
        have h5 : 2 ^ 1 ≤ 2 ^ (j - i) := Nat.pow_le_pow_right (by decide) (by omega)
        have h6 : a % 2 < 2 := Nat.mod_lt _ (by decide)
        omega
      simp [h2, h3]

theorem xor_two_pow_mul (a s i : Nat) (hs : s < 2 ^ i) :
    (2 ^ i * a + s) ^^^ 2 ^ i = 2 ^ i * (a ^^^ 1) + s := by
  apply Nat.eq_of_testBit_eq
  intro j
  rw [Nat.testBit_xor, Nat.testBit_mul_pow_two_add a hs, Nat.testBit_two_pow,
    Nat.testBit_mul_pow_two_add (a ^^^ 1) hs]
  by_cases h1 : j < i
  · have : ¬ i = j := by omega
    simp [h1, this]
  · by_cases h2 : i = j
    · subst h2
      simp only [lt_self_iff_false, if_false, Nat.sub_self, Nat.testBit_xor, decide_True]
      simp
    · have h3 : Nat.testBit 1 (j - i) = false := by
        apply Nat.testBit_lt_two_pow
        have h5 : 2 ^ 1 ≤ 2 ^ (j - i) := Nat.pow_le_pow_right (by decide) (by omega)
        omega
      simp [h1, h2, h3]

theorem half_pos (i : Nat) : 0 < half i := Nat.pos_pow_of_pos _ (by decide)

theorem log2_add_two_pos (i : Nat) : 1 ≤ Nat.log2 (i + 2) := by
  rw [Nat.le_log2 (by omega)]
  omega

theorem half_bounds (i : Nat) : 2 * half i ≤ i + 2 ∧ i + 2 < 4 * half i := by
  have h1 := log2_add_two_pos i
  have h2 : 2 ^ Nat.log2 (i + 2) ≤ i + 2 := Nat.log2_self_le (by omega)
  have h3 : i + 2 < 2 ^ (Nat.log2 (i + 2) + 1) := Nat.lt_log2_self
  have h4 : 2 ^ Nat.log2 (i + 2) = 2 * half i := by
    unfold half
    conv_lhs => rw [show Nat.log2 (i + 2) = (Nat.log2 (i + 2) - 1) + 1 by omega]
    rw [Nat.pow_succ]; omega
  rw [Nat.pow_succ, h4] at h3
  omega

theorem half_unique (i m : Nat) (h1 : 2 * 2 ^ m ≤ i + 2) (h2 : i + 2 < 4 * 2 ^ m) :
    half i = 2 ^ m := by
  have h3 : Nat.log2 (i + 2) = m + 1 := by
    apply Nat.le_antisymm
    · have : Nat.log2 (i + 2) < m + 2 := by
        rw [Nat.log2_lt (by omega)]
        rw [Nat.pow_succ, Nat.pow_succ]; omega
      omega
    · rw [Nat.le_log2 (by omega), Nat.pow_succ]; omega
  unfold half
  rw [h3]; rfl

theorem half_eq_pow (i : Nat) : ∃ m, half i = 2 ^ m := ⟨_, rfl⟩

theorem half_zero : half 0 = 1 := half_unique 0 0 (by decide) (by decide)
theorem half_one : half 1 = 1 := half_unique 1 0 (by decide) (by decide)

theorem half_child (i c : Nat) (hc : c = 2 * i + 2 ∨ c = 2 * i + 3) : half c = 2 * half i := by
  obtain ⟨m, hm⟩ := half_eq_pow i
  have hb := half_bounds i
  rw [hm] at hb ⊢
  have := half_unique c (m + 1) (by rw [Nat.pow_succ]; omega) (by rw [Nat.pow_succ]; omega)
  rw [this, Nat.pow_succ]; omega

theorem half_parent (i : Nat) (h : 2 ≤ i) : half i = 2 * half ((i - 2) / 2) :=
  half_child ((i - 2) / 2) i (by omega)

theorem highestOneLoop_eq (fuel : Nat) : ∀ (j x : Nat), x ≠ 0 → x < 2 ^ (j + 1) → j < fuel →
    highestOneLoop fuel (2 ^ j) x = 2 ^ Nat.log2 x := by
  induction fuel with
  | zero => intro j x _ _ h; omega
  | succ fuel ih =>
    intro j x hx hlt hj
    have hdm : 2 ^ j * (x / 2 ^ j) + x % 2 ^ j = x := Nat.div_add_mod x (2 ^ j)
    have hs : x % 2 ^ j < 2 ^ j := Nat.mod_lt _ (Nat.two_pow_pos j)
    have ha : x / 2 ^ j < 2 := by
      rw [Nat.div_lt_iff_lt_mul (Nat.two_pow_pos j)]
      rw [Nat.pow_succ] at hlt; omega
    have hand : 2 ^ j &&& x = 2 ^ j * (x / 2 ^ j % 2) := by
      rw [Nat.and_comm]
      conv_lhs => rw [← hdm]
      exact and_two_pow_mul _ _ _ hs
    unfold highestOneLoop
    rw [hand]
    have hp := Nat.two_pow_pos j
    rcases Nat.eq_zero_or_pos (x / 2 ^ j) with h0 | h1
    · rw [h0] at hdm
      simp only [h0, Nat.zero_mod, Nat.mul_zero, if_true]
      have hj1 : 1 ≤ j := by
        rcases Nat.eq_zero_or_pos j with hj0 | hj0
        · subst hj0; simp at hs hdm; omega
        · exact hj0
      have hshift : 2 ^ j >>> 1 = 2 ^ (j - 1) := by
        rw [Nat.shiftRight_eq_div_pow]
        conv_lhs => rw [show j = (j - 1) + 1 by omega, Nat.pow_succ]
        simp
      rw [hshift]
      apply ih (j - 1) x hx _ (by omega)
      rw [show j - 1 + 1 = j by omega]; omega
    · have h1' : x / 2 ^ j = 1 := by omega
      rw [h1'] at hdm
      simp only [h1', Nat.mul_one]
      have hne : ¬ 2 ^ j = 0 := by omega
      rw [if_neg (by simp)]
      have : Nat.log2 x = j := by
        apply Nat.le_antisymm
        · have : Nat.log2 x < j + 1 := (Nat.log2_lt hx).2 hlt
          omega
        · rw [Nat.le_log2 hx]; omega
      rw [this]

theorem highestOne_eq (x : Nat) (h0 : x ≠ 0) (h1 : x < 2 ^ 64) :
    highestOne x = 2 ^ Nat.log2 x := by
  unfold highestOne
  have : (1 <<< 63 : Nat) = 2 ^ 63 := by decide
  rw [this]
  exact highestOneLoop_eq 64 63 x h0 h1 (by decide)

theorem highestOne_shift (i : Nat) (h : i + 2 < 2 ^ 64) :
    highestOne (i + 2) >>> 1 = half i := by
  rw [highestOne_eq (i + 2) (by omega) h, Nat.shiftRight_eq_div_pow]
  have h1 := log2_add_two_pos i
  unfold half
  conv_lhs => rw [show Nat.log2 (i + 2) = (Nat.log2 (i + 2) - 1) + 1 by omega, Nat.pow_succ]
  simp

theorem inMinHeap_iff (i : Nat) (h : i + 2 < 2 ^ 64) :
    inMinHeap i = true ↔ i + 2 < 3 * half i := by
  unfold inMinHeap
  simp only [Nat.mod_eq_of_lt h, highestOne_shift i h]
  have hb := half_bounds i
  obtain ⟨m, hm⟩ : ∃ m, half i = 2 ^ m := ⟨_, rfl⟩
  have hdm : 2 ^ m * ((i + 2) / 2 ^ m) + (i + 2) % 2 ^ m = i + 2 := Nat.div_add_mod _ _
  have hs : (i + 2) % 2 ^ m < 2 ^ m := Nat.mod_lt _ (Nat.two_pow_pos m)
  have hand : half i &&& (i + 2) = 2 ^ m * ((i + 2) / 2 ^ m % 2) := by
    rw [Nat.and_comm, hm]
    conv_lhs => rw [← hdm]
    exact and_two_pow_mul _ _ _ hs
  rw [hand]
  rw [hm] at hb
  have hp := Nat.two_pow_pos m
  have ha1 : 2 ≤ (i + 2) / 2 ^ m := by
    rw [Nat.le_div_iff_mul_le hp]; omega
  have ha2 : (i + 2) / 2 ^ m < 4 := by
    rw [Nat.div_lt_iff_lt_mul hp]; omega
  rw [hm]
  have hcases : (i + 2) / 2 ^ m = 2 ∨ (i + 2) / 2 ^ m = 3 := by omega
  rcases hcases with h2 | h3
  · rw [h2] at hdm ⊢
    simp
    omega
  · rw [h3] at hdm ⊢
    simp
    omega

theorem correspond_eq (i : Nat) (h63 : i + 2 < 2 ^ 63) :
    correspond i = if i + 2 < 3 * half i then i + half i else i - half i := by
  have h : i + 2 < 2 ^ 64 := by omega
  unfold correspond
  simp only [Nat.mod_eq_of_lt h, highestOne_shift i h]
  have hb := half_bounds i
  obtain ⟨m, hm⟩ : ∃ m, half i = 2 ^ m := ⟨_, rfl⟩
  have hdm : 2 ^ m * ((i + 2) / 2 ^ m) + (i + 2) % 2 ^ m = i + 2 := Nat.div_add_mod _ _
  have hs : (i + 2) % 2 ^ m < 2 ^ m := Nat.mod_lt _ (Nat.two_pow_pos m)
  have hxor : (i + 2) ^^^ half i = 2 ^ m * (((i + 2) / 2 ^ m) ^^^ 1) + (i + 2) % 2 ^ m := by
    rw [hm]
    conv_lhs => rw [← hdm]
    exact xor_two_pow_mul _ _ _ hs
  rw [hxor, hm]
  rw [hm] at hb
  have hp := Nat.two_pow_pos m
  have ha1 : 2 ≤ (i + 2) / 2 ^ m := by
    rw [Nat.le_div_iff_mul_le hp]; omega
  have ha2 : (i + 2) / 2 ^ m < 4 := by
    rw [Nat.div_lt_iff_lt_mul hp]; omega
  have hcases : (i + 2) / 2 ^ m = 2 ∨ (i + 2) / 2 ^ m = 3 := by omega
  have e23 : (2 : Nat) ^^^ 1 = 3 := by decide
  have e32 : (3 : Nat) ^^^ 1 = 2 := by decide
  simp only [Nat.reducePow] at h h63 ⊢
  clear hxor ha1 ha2 hm
  generalize (i + 2) % 2 ^ m = r at hdm hs ⊢
  generalize (i + 2) / 2 ^ m = a at hdm hcases ⊢
  generalize 2 ^ m = p at hdm hs hb hp ⊢
  rcases hcases with h2 | h3
  · subst h2
    rw [e23]
    have hlt : i + 2 < 3 * p := by omega
    rw [if_pos hlt]
    have : p * 3 + r + 18446744073709551616 - 2 = (i + p) + 18446744073709551616 := by omega
    rw [this, Nat.add_mod_right]
    apply Nat.mod_eq_of_lt
    omega
  · subst h3
    rw [e32]
    have hlt : ¬ i + 2 < 3 * p := by omega
    rw [if_neg hlt]
    have : p * 2 + r + 18446744073709551616 - 2 = (i - p) + 18446744073709551616 := by omega
    rw [this, Nat.add_mod_right]
    apply Nat.mod_eq_of_lt
    omega

theorem leftChild_eq (i : Nat) (h : i < 2 ^ 62) : leftChild i = 2 * i + 2 := by
  unfold leftChild
  rw [Nat.mod_eq_of_lt (by omega)]; omega

theorem rightChild_eq (i : Nat) (h : i < 2 ^ 62) : rightChild i = 2 * i + 3 := by
  unfold rightChild
  rw [Nat.mod_eq_of_lt (by omega)]; omega

theorem parent_of_ge (i : Nat) (h : 2 ≤ i) : parent i = (i - 2) / 2 := by
  unfold parent; rw [if_neg (by omega)]

theorem parent_of_lt (i : Nat) (h : i < 2) : parent i = i := by
  unfold parent; rw [if_pos h]

theorem parent_lt (i : Nat) (h : 2 ≤ i) : parent i < i := by
  rw [parent_of_ge i h]; omega

theorem parent_le (i : Nat) : parent i ≤ i := by
  unfold parent; split <;> omega

theorem half_of_bounds (i c : Nat) (h1 : 2 * half i ≤ c + 2) (h2 : c + 2 < 4 * half i) :
    half c = half i := by
  obtain ⟨m, hm⟩ := half_eq_pow i
  rw [hm] at h1 h2 ⊢
  exact half_unique c m h1 h2

theorem inMinHeap_eq (i : Nat) (h : i < 2 ^ 63) :
    inMinHeap i = decide (i + 2 < 3 * half i) := by
  have := inMinHeap_iff i (by omega)
  cases hb : inMinHeap i
  · have h1 : ¬ (i + 2 < 3 * half i) := fun hc => by rw [this.2 hc] at hb; cases hb
    simp [h1]
  · simp [this.1 hb]

theorem inMinHeap_zero : inMinHeap 0 = true := by decide
theorem inMinHeap_one : inMinHeap 1 = false := by decide
theorem correspond_zero : correspond 0 = 1 := by decide
theorem correspond_one : correspond 1 = 0 := by decide

theorem inMinHeap_parent (i : Nat) (h2 : 2 ≤ i) (h : i < 2 ^ 63) :
    inMinHeap (parent i) = inMinHeap i := by
  rw [parent_of_ge i h2, inMinHeap_eq i h, inMinHeap_eq _ (by omega)]
  have hp := half_parent i h2
  have hb := half_bounds i
  have hb' := half_bounds ((i - 2) / 2)
  apply decide_eq_decide.2
  constructor <;> intro _ <;> omega

theorem inMinHeap_leftChild (i : Nat) (h : i < 2 ^ 61) :
    inMinHeap (leftChild i) = inMinHeap i := by
  rw [leftChild_eq i (by omega)]
  have := inMinHeap_parent (2 * i + 2) (by omega) (by omega)
  rw [parent_of_ge _ (by omega)] at this
  rw [← this]; congr 1; omega

theorem inMinHeap_rightChild (i : Nat) (h : i < 2 ^ 61) :
    inMinHeap (rightChild i) = inMinHeap i := by
  rw [rightChild_eq i (by omega)]
  have := inMinHeap_parent (2 * i + 3) (by omega) (by omega)
  rw [parent_of_ge _ (by omega)] at this
  rw [← this]; congr 1; omega

/-- The correspondent of a min-heap node lies half a level to the right, below its left child. -/
theorem correspond_of_min (i : Nat) (h : i < 2 ^ 62) (hm : inMinHeap i = true) :
    correspond i = i + half i ∧ i < correspond i ∧ correspond i < 2 * i + 2 ∧
      inMinHeap (correspond i) = false ∧ half (correspond i) = half i := by
  have hlt := (inMinHeap_iff i (by omega)).1 hm
  have hb := half_bounds i
  have hpos := half_pos i
  have hc : correspond i = i + half i := by rw [correspond_eq i (by omega), if_pos hlt]
  have hh : half (i + half i) = half i := half_of_bounds i _ (by omega) (by omega)
  rw [hc]
  refine ⟨rfl, by omega, by omega, ?_, hh⟩
  rw [inMinHeap_eq _ (by omega), hh]
  simp; omega

/-- The correspondent of a max-heap node lies half a level to the left; its children come
after the node. -/
theorem correspond_of_max (i : Nat) (h : i < 2 ^ 62) (hm : inMinHeap i = false) :
    correspond i + half i = i ∧ correspond i < i ∧ i < 2 * correspond i + 2 ∧
      inMinHeap (correspond i) = true ∧ half (correspond i) = half i := by
  have hlt : ¬ (i + 2 < 3 * half i) := fun hc => by
    rw [(inMinHeap_iff i (by omega)).2 hc] at hm; cases hm
  have hb := half_bounds i
  have hpos := half_pos i
  have hc : correspond i = i - half i := by rw [correspond_eq i (by omega), if_neg hlt]
  have hh : half (i - half i) = half i := half_of_bounds i _ (by omega) (by omega)
  rw [hc]
  refine ⟨by omega, by omega, by omega, ?_, hh⟩
  rw [inMinHeap_eq _ (by omega), hh]
  simp; omega

theorem correspond_correspond (i : Nat) (h : i < 2 ^ 61) : correspond (correspond i) = i := by
  cases hm : inMinHeap i
  · obtain ⟨h1, h2, _, h4, h5⟩ := correspond_of_max i (by omega) hm
    obtain ⟨h6, _⟩ := correspond_of_min (correspond i) (by omega) h4
    omega
  · obtain ⟨h1, h2, h3, h4, h5⟩ := correspond_of_min i (by omega) hm
    obtain ⟨h6, _⟩ := correspond_of_max (correspond i) (by omega) h4
    omega

theorem inMinHeap_correspond (i : Nat) (h : i < 2 ^ 62) :
    inMinHeap (correspond i) = !inMinHeap i := by
  cases hm : inMinHeap i
  · simp [(correspond_of_max i h hm).2.2.2.1]
  · simp [(correspond_of_min i h hm).2.2.2.1]

/-- `correspond` commutes with `parent` below the two roots. -/
theorem parent_correspond (i : Nat) (h2 : 2 ≤ i) (h : i < 2 ^ 61) :
    2 ≤ correspond i ∧ parent (correspond i) = correspond (parent i) ∧
      (correspond i) % 2 = i % 2 := by
  have hpar := inMinHeap_parent i h2 (by omega)
  have hp := half_parent i h2
  have hpe := parent_of_ge i h2
  have hpos := half_pos (parent i)
  rw [← hpe] at hp
  cases hm : inMinHeap i
  · rw [hm] at hpar
    obtain ⟨h1, _⟩ := correspond_of_max i (by omega) hm
    obtain ⟨h3, _⟩ := correspond_of_max (parent i) (by have := parent_le i; omega) hpar
    have hb := half_bounds i
    have hc2 : 2 ≤ correspond i := by omega
    rw [parent_of_ge _ hc2]
    refine ⟨hc2, ?_, ?_⟩ <;> omega
  · rw [hm] at hpar
    obtain ⟨h1, _⟩ := correspond_of_min i (by omega) hm
    obtain ⟨h3, _⟩ := correspond_of_min (parent i) (by have := parent_le i; omega) hpar
    have hc2 : 2 ≤ correspond i := by omega
    rw [parent_of_ge _ hc2]
    refine ⟨hc2, ?_, ?_⟩ <;> omega

theorem max_ge_one (i : Nat) (hm : inMinHeap i = false) : 1 ≤ i := by
  rcases Nat.eq_zero_or_pos i with h | h
  · subst h; simp [inMinHeap_zero] at hm
  · exact h

theorem min_ne_one (i : Nat) (hm : inMinHeap i = true) : i ≠ 1 := by
  intro h; subst h; simp [inMinHeap_one] at hm

end Deap_Trait

/-! ## Reading and writing the vector -/

namespace Vec

theorem get_eq_getElem (d : List Int) (i : Nat) (h : i < d.length) : get d i = d[i] := by
  unfold get; rw [List.getD_eq_getElem _ _ h]

theorem get_of_le (d : List Int) (i : Nat) (h : d.length ≤ i) : get d i = 0 := by
  unfold get; rw [List.getD_eq_default _ _ h]

theorem get_mem (d : List Int) (i : Nat) (h : i < d.length) : get d i ∈ d := by
  rw [get_eq_getElem d i h]; exact List.getElem_mem _

theorem get_set_eq (d : List Int) (i : Nat) (v : Int) (h : i < d.length) :
    get (d.set i v) i = v := by
  unfold get
  rw [List.getD_eq_getElem _ _ (by simpa using h)]
  simp

theorem get_set_ne (d : List Int) (i j : Nat) (v : Int) (h : i ≠ j) :
    get (d.set i v) j = get d j := by
  unfold get
  simp [List.getD_eq_getElem?_getD, List.getElem?_set_ne h]

theorem get_set (d : List Int) (i j : Nat) (v : Int) (h : i < d.length) :
    get (d.set i v) j = if j = i then v else get d j := by
  by_cases hj : j = i
  · subst hj; rw [if_pos rfl, get_set_eq d j v h]
  · rw [if_neg hj, get_set_ne d i j v (Ne.symm hj)]

theorem length_swapAt (d : List Int) (i j : Nat) : (swapAt d i j).length = d.length := by
  simp [swapAt]

theorem get_swapAt (d : List Int) (i j k : Nat) (hi : i < d.length) (hj : j < d.length) :
    get (swapAt d i j) k = if k = j then get d i else if k = i then get d j else get d k := by
  unfold swapAt
  rw [get_set _ j k _ (by simpa using hj)]
  by_cases h1 : k = j
  · simp [h1]
  · rw [if_neg h1, if_neg h1, get_set _ i k _ hi]

theorem swapAt_self (d : List Int) (i : Nat) : swapAt d i i = d := by
  unfold swapAt
  apply List.ext_getElem?
  intro k
  by_cases hk : i = k
  · subst hk
    by_cases hl : i < d.length
    · simp [List.getElem?_set, hl, get_eq_getElem d i hl]
    · have : d.length ≤ i := by omega
      simp [List.getElem?_set, hl, List.getElem?_eq_none this]
  · simp [List.getElem?_set_ne hk]

theorem mem_set (d : List Int) (i : Nat) (v x : Int) (h : x ∈ d.set i v) : x ∈ d ∨ x = v :=
  List.mem_or_eq_of_mem_set h

theorem mem_swapAt (d : List Int) (i j : Nat) (x : Int) (hi : i < d.length)
    (hj : j < d.length) (h : x ∈ swapAt d i j) : x ∈ d := by
  unfold swapAt at h
  rcases mem_set _ _ _ _ h with h1 | h1
  · rcases mem_set _ _ _ _ h1 with h2 | h2
    · exact h2
    · rw [h2]; exact get_mem d j hj
  · rw [h1]; exact get_mem d i hi

theorem length_dropLast (d : List Int) : d.dropLast.length = d.length - 1 := by simp

theorem get_dropLast (d : List Int) (k : Nat) (h : k + 1 < d.length) :
    get d.dropLast k = get d k := by
  rw [get_eq_getElem _ _ (by simp; omega), get_eq_getElem _ _ (by omega)]
  simp [List.getElem_dropLast]

theorem get_append_left (d : List Int) (v : Int) (k : Nat) (h : k < d.length) :
    get (d ++ [v]) k = get d k := by
  rw [get_eq_getElem _ _ (by simp; omega), get_eq_getElem _ _ h]
  exact List.getElem_append_left h

theorem get_append_right (d : List Int) (v : Int) : get (d ++ [v]) d.length = v := by
  rw [get_eq_getElem _ _ (by simp)]
  simp

end Vec

/-! ## The invariants checked by `verify` -/

namespace Deap_Trait

theorem parent_child (i c : Nat) (hc : c = 2 * i + 2 ∨ c = 2 * i + 3) : parent c = i := by
  rw [parent_of_ge c (by omega)]; omega

theorem inMinHeap_child (i c : Nat) (hc : c = 2 * i + 2 ∨ c = 2 * i + 3) (h : i < 2 ^ 61) :
    inMinHeap c = inMinHeap i := by
  have := inMinHeap_parent c (by omega) (by omega)
  rw [parent_child i c hc] at this
  exact this.symm

theorem child_of_parent (j : Nat) (h : 2 ≤ j) :
    j = 2 * parent j + 2 ∨ j = 2 * parent j + 3 := by
  rw [parent_of_ge j h]; omega

end Deap_Trait

namespace Deap
open Deap_Trait Vec

theorem sideLe_refl (b : Bool) (x : Int) : sideLe b x x := by
  cases b <;> simp [sideLe]

theorem sideLe_trans (b : Bool) (x y z : Int) (h1 : sideLe b x y) (h2 : sideLe b y z) :
    sideLe b x z := by
  cases b <;> simp [sideLe] at * <;> omega

theorem sideLe_of_sideLt (b : Bool) (x y : Int) (h : sideLt b x y = true) : sideLe b x y := by
  cases b <;> simp [sideLe, sideLt] at * <;> omega

theorem sideLe_of_not_sideLt (b : Bool) (x y : Int) (h : sideLt b x y = false) :
    sideLe b y x := by
  cases b <;> simp [sideLe, sideLt] at * <;> omega

theorem exist_iff (d : List Int) (i : Nat) : exist d i = true ↔ i < d.length := by
  simp [exist]

theorem isLeaf_iff (d : List Int) (i : Nat) (h : d.length < 2 ^ 61) :
    isLeaf d i = true ↔ i < d.length ∧ d.length ≤ 2 * i + 2 := by
  unfold isLeaf
  by_cases hi : i < d.length
  · rw [leftChild_eq i (by omega)]
    simp [exist, hi]
  · simp [exist, hi]

theorem verifyNode_iff (d : List Int) (i : Nat) (hi : i < 2 ^ 61) :
    verifyNode d i = true ↔
      (2 * i + 2 < d.length → sideLe (inMinHeap i) (get d i) (get d (2 * i + 2))) ∧
      (2 * i + 3 < d.length → sideLe (inMinHeap i) (get d i) (get d (2 * i + 3))) ∧
      CrossAt d i := by
  unfold verifyNode CrossAt
  rw [leftChild_eq i (by omega), rightChild_eq i (by omega)]
  by_cases hl : 2 * i + 2 < d.length <;> by_cases hr : 2 * i + 3 < d.length <;>
    cases hb : inMinHeap i <;> simp [sideLe, exist, hl, hr, and_assoc]

theorem verify_iff (d : List Int) (h : d.length < 2 ^ 61) : verify d = true ↔ Valid d := by
  unfold verify Valid
  by_cases hn : d.length < 2
  · rw [if_pos hn]
    simp only [true_iff]
    exact ⟨fun j h2 hj => by omega, fun h2 => by omega⟩
  · rw [if_neg hn, List.all_eq_true]
    constructor
    · intro hall
      have hnode : ∀ i, i < d.length → _ := fun i hi =>
        (verifyNode_iff d i (by omega)).1 (hall i (List.mem_range.2 hi))
      refine ⟨fun j h2 hj => ?_, fun _ i hi => (hnode i hi).2.2⟩
      have hp := parent_lt j h2
      have hpe := parent_of_ge j h2
      have hside := inMinHeap_parent j h2 (by omega)
      obtain ⟨hl, hr, _⟩ := hnode (parent j) (by omega)
      rw [hside] at hl hr
      rcases Nat.mod_two_eq_zero_or_one j with he | ho
      · have : 2 * parent j + 2 = j := by omega
        rw [this] at hl; exact hl hj
      · have : 2 * parent j + 3 = j := by omega
        rw [this] at hr; exact hr hj
    · rintro ⟨hord, hcross⟩ i hi
      have hi' := List.mem_range.1 hi
      rw [verifyNode_iff d i (by omega)]
      refine ⟨fun hl => ?_, fun hr => ?_, hcross (by omega) i hi'⟩
      · have := hord (2 * i + 2) (by omega) hl
        rw [parent_of_ge _ (by omega)] at this
        have hside := inMinHeap_parent (2 * i + 2) (by omega) (by omega)
        rw [parent_of_ge _ (by omega)] at hside
        have e : (2 * i + 2 - 2) / 2 = i := by omega
        rw [e] at this hside
        rw [hside]; exact this
      · have := hord (2 * i + 3) (by omega) hr
        rw [parent_of_ge _ (by omega)] at this
        have hside := inMinHeap_parent (2 * i + 3) (by omega) (by omega)
        rw [parent_of_ge _ (by omega)] at hside
        have e : (2 * i + 3 - 2) / 2 = i := by omega
        rw [e] at this hside
        rw [hside]; exact this

end Deap

/-! ## The roots hold the minimum and the maximum -/

namespace Deap
open Deap_Trait Vec

theorem safeCorrespond_of_max (d : List Int) (i : Nat) (hi : i < d.length)
    (h : d.length < 2 ^ 61) (hm : inMinHeap i = false) :
    safeCorrespond d i = correspond i ∧ correspond i < d.length ∧
      inMinHeap (correspond i) = true := by
  obtain ⟨_, h2, _, h4, _⟩ := correspond_of_max i (by omega) hm
  have hsc : safeCorrespond d i = correspond i := by
    unfold safeCorrespond
    have : exist d (correspond i) = true := (exist_iff _ _).2 (by omega)
    simp only [this, if_true]
  exact ⟨hsc, by omega, h4⟩

theorem safeCorrespond_of_min (d : List Int) (i : Nat) (hi : i < d.length)
    (h : d.length < 2 ^ 61) (h2 : 2 ≤ d.length) (hm : inMinHeap i = true) :
    safeCorrespond d i < d.length ∧ inMinHeap (safeCorrespond d i) = false ∧
      (correspond i < d.length → safeCorrespond d i = correspond i) ∧
      (d.length ≤ correspond i → 2 ≤ i ∧ safeCorrespond d i = correspond (parent i)) := by
  obtain ⟨hc1, hc2, hc3, hc4, _⟩ := correspond_of_min i (by omega) hm
  by_cases hex : correspond i < d.length
  · have hsc : safeCorrespond d i = correspond i := by
      unfold safeCorrespond
      have : exist d (correspond i) = true := (exist_iff _ _).2 hex
      simp only [this, if_true]
    rw [hsc]
    exact ⟨hex, hc4, fun _ => rfl, fun hh => by omega⟩
  · have hsc : safeCorrespond d i = parent (correspond i) := by
      unfold safeCorrespond
      have : exist d (correspond i) = false := by simp [exist]; omega
      simp only [this, Bool.false_eq_true, if_false]
    rw [hsc]
    have hi2 : 2 ≤ i := by
      rcases Nat.lt_or_ge i 2 with hlt | hge
      · have : i ≠ 1 := min_ne_one i hm
        have : i = 0 := by omega
        subst this
        rw [correspond_zero] at hex; omega
      · exact hge
    obtain ⟨_, hpc, _⟩ := parent_correspond i hi2 (by omega)
    have hpm : inMinHeap (parent i) = true := by rw [inMinHeap_parent i hi2 (by omega)]; exact hm
    have hpl := parent_lt i hi2
    obtain ⟨_, _, hq3, hq4, _⟩ := correspond_of_min (parent i) (by omega) hpm
    have hch := child_of_parent i hi2
    rw [hpc]
    exact ⟨by omega, hq4, fun hh => by omega, fun _ => ⟨hi2, rfl⟩⟩

theorem min_root_le (d : List Int) (h : d.length < 2 ^ 61) (hv : Valid d) :
    ∀ i, i < d.length → inMinHeap i = true → get d 0 ≤ get d i := by
  intro i
  induction i using Nat.strong_induction_on with
  | _ i ih =>
    intro hi hm
    rcases Nat.lt_or_ge i 2 with hlt | hge
    · have : i ≠ 1 := min_ne_one i hm
      have : i = 0 := by omega
      subst this; exact le_refl _
    · have hp := parent_lt i hge
      have hpm : inMinHeap (parent i) = true := by rw [inMinHeap_parent i hge (by omega)]; exact hm
      have h1 := ih (parent i) hp (by omega) hpm
      have h2 := hv.1 i hge hi
      rw [hm] at h2
      simp [sideLe] at h2
      omega

theorem max_root_ge (d : List Int) (h : d.length < 2 ^ 61) (hv : Valid d) :
    ∀ i, i < d.length → inMinHeap i = false → get d i ≤ get d 1 := by
  intro i
  induction i using Nat.strong_induction_on with
  | _ i ih =>
    intro hi hm
    rcases Nat.lt_or_ge i 2 with hlt | hge
    · have := max_ge_one i hm
      have : i = 1 := by omega
      subst this; exact le_refl _
    · have hp := parent_lt i hge
      have hpm : inMinHeap (parent i) = false := by rw [inMinHeap_parent i hge (by omega)]; exact hm
      have h1 := ih (parent i) hp (by omega) hpm
      have h2 := hv.1 i hge hi
      rw [hm] at h2
      simp [sideLe] at h2
      omega

theorem root_le_all (d : List Int) (h : d.length < 2 ^ 61) (hv : Valid d) :
    ∀ i, i < d.length → get d 0 ≤ get d i := by
  intro i hi
  cases hm : inMinHeap i
  · have hi1 := max_ge_one i hm
    obtain ⟨hs, hc, hcm⟩ := safeCorrespond_of_max d i hi h hm
    have hx := hv.2 (by omega) i hi
    unfold CrossAt at hx
    rw [hm, hs] at hx
    simp [sideLe] at hx
    have := min_root_le d h hv (correspond i) hc hcm
    omega
  · exact min_root_le d h hv i hi hm

theorem all_le_root (d : List Int) (h : d.length < 2 ^ 61) (h2 : 2 ≤ d.length) (hv : Valid d) :
    ∀ i, i < d.length → get d i ≤ get d 1 := by
  intro i hi
  cases hm : inMinHeap i
  · exact max_root_ge d h hv i hi hm
  · obtain ⟨hs, hsm, _⟩ := safeCorrespond_of_min d i hi h h2 hm
    have hx := hv.2 h2 i hi
    unfold CrossAt at hx
    rw [hm] at hx
    simp [sideLe] at hx
    have := max_root_ge d h hv _ hs hsm
    omega

theorem exists_index_of_mem (d : List Int) (x : Int) (hx : x ∈ d) :
    ∃ i, i < d.length ∧ x = get d i := by
  obtain ⟨i, hi, rfl⟩ := List.getElem_of_mem hx
  exact ⟨i, hi, (get_eq_getElem d i hi).symm⟩

/-- C4: on a non-empty Deap that passes `verify`, `popMin` returns the element at index `0`,
which is `≤` every stored element, and `popMax` returns the element at index `1` (index `0`
when the size is `1`), which is `≥` every stored element. -/
theorem popMin_popMax_extreme (m_data : List Int) (hne : m_data ≠ [])
    (hlen : m_data.length < 2 ^ 61) (hv : verify m_data = true) :
    (∃ rest, popMin m_data = some (get m_data 0, rest) ∧ ∀ x ∈ m_data, get m_data 0 ≤ x) ∧
    (∃ rest, popMax m_data = some (get m_data (if m_data.length = 1 then 0 else 1), rest) ∧
      ∀ x ∈ m_data, x ≤ get m_data (if m_data.length = 1 then 0 else 1)) := by
  have hV := (verify_iff m_data hlen).1 hv
  have hpos : m_data.length ≠ 0 := fun h => hne (List.length_eq_zero.1 h)
  constructor
  · have hmin : ∀ x ∈ m_data, get m_data 0 ≤ x := by
      intro x hx
      obtain ⟨i, hi, rfl⟩ := exists_index_of_mem m_data x hx
      exact root_le_all m_data hlen hV i hi
    unfold popMin
    rw [if_neg hpos]
    dsimp only
    split
    · exact ⟨_, rfl, hmin⟩
    · exact ⟨_, rfl, hmin⟩
  · unfold popMax
    rw [if_neg hpos]
    by_cases h1 : m_data.length = 1
    · rw [if_pos h1, if_pos h1]
      refine ⟨_, rfl, ?_⟩
      intro x hx
      obtain ⟨i, hi, rfl⟩ := exists_index_of_mem m_data x hx
      have : i = 0 := by omega
      rw [this]
    · rw [if_neg h1, if_neg h1]
      have hmax : ∀ x ∈ m_data, x ≤ get m_data 1 := by
        intro x hx
        obtain ⟨i, hi, rfl⟩ := exists_index_of_mem m_data x hx
        exact all_le_root m_data hlen (by omega) hV i hi
      dsimp only
      split
      · split
        · exact ⟨_, rfl, hmax⟩
        · exact ⟨_, rfl, hmax⟩
      · exact ⟨_, rfl, hmax⟩

set_option maxRecDepth 100000 in
/-- C4, at the Deap `[1, 9, 3, 4, 7, 8]`. -/
theorem popMin_popMax_extreme_witness :
    (∃ rest, popMin [1, 9, 3, 4, 7, 8] = some (get [1, 9, 3, 4, 7, 8] 0, rest) ∧
      ∀ x ∈ [1, 9, 3, 4, 7, 8], get [1, 9, 3, 4, 7, 8] 0 ≤ x) ∧
    (∃ rest, popMax [1, 9, 3, 4, 7, 8] =
        some (get [1, 9, 3, 4, 7, 8] (if [1, 9, 3, 4, 7, 8].length = 1 then 0 else 1), rest) ∧
      ∀ x ∈ [1, 9, 3, 4, 7, 8],
        x ≤ get [1, 9, 3, 4, 7, 8] (if [1, 9, 3, 4, 7, 8].length = 1 then 0 else 1)) :=
  popMin_popMax_extreme [1, 9, 3, 4, 7, 8] (by decide) (by decide) (by decide)

end Deap

namespace Deap
open Deap_Trait Vec

/-! ## On non-negative values the `size_t` comparison is the `int` comparison -/

theorem toSizeT_of_nonneg (x : Int) (h0 : 0 ≤ x) (h1 : x < 2 ^ 31) : (toSizeT x : Int) = x := by
  unfold toSizeT
  have : x % 2 ^ 64 = x := Int.emod_eq_of_lt h0 (by omega)
  rw [this]
  exact Int.toNat_of_nonneg h0

theorem chooseLess_eq (id : Nat) (x y : Int) (hx : 0 ≤ x ∧ x < 2 ^ 31)
    (hy : 0 ≤ y ∧ y < 2 ^ 31) : chooseLess id x y = sideLt (inMinHeap id) x y := by
  have h1 := toSizeT_of_nonneg x hx.1 hx.2
  have h2 := toSizeT_of_nonneg y hy.1 hy.2
  unfold chooseLess sideLt lessSizeT greaterSizeT
  cases inMinHeap id
  · simp only [Bool.false_eq_true, if_false]
    apply decide_eq_decide.2
    constructor <;> intro h <;> omega
  · simp only [if_true]
    apply decide_eq_decide.2
    constructor <;> intro h <;> omega

theorem nonNeg_swapAt (d : List Int) (i j : Nat) (hi : i < d.length) (hj : j < d.length)
    (h : NonNeg d) : NonNeg (swapAt d i j) :=
  fun x hx => h x (mem_swapAt d i j x hi hj hx)

theorem pullUpLoop_congr (less less' : Int → Int → Bool)
    (hl : ∀ x y : Int, (0 ≤ x ∧ x < 2 ^ 31) → (0 ≤ y ∧ y < 2 ^ 31) → less x y = less' x y)
    (fuel : Nat) : ∀ (d : List Int) (id : Nat), NonNeg d →
      pullUpLoop less fuel d id = pullUpLoop less' fuel d id := by
  induction fuel with
  | zero => intro d id _; rfl
  | succ fuel ih =>
    intro d id hd
    unfold pullUpLoop
    by_cases he : exist d id = true
    · have hi : id < d.length := (exist_iff d id).1 he
      have hp : parent id < d.length := by have := parent_le id; omega
      rw [if_pos he, if_pos he]
      dsimp only
      rw [hl _ _ (hd _ (get_mem d id hi)) (hd _ (get_mem d _ hp))]
      rw [ih _ _ (nonNeg_swapAt d id _ hi hp hd)]
    · rw [if_neg he, if_neg he]

theorem pullUp_eq (d : List Int) (id : Nat) (hd : NonNeg d) :
    pullUp d id = pullUpLoop (sideLt (inMinHeap id)) d.length d id :=
  pullUpLoop_congr _ _ (chooseLess_eq id) _ d id hd

/-! ## `pullUp` -/

theorem pullUpLoop_stop (less : Int → Int → Bool) (fuel : Nat) (d : List Int) (id : Nat)
    (h : less (get d id) (get d (parent id)) = false) :
    pullUpLoop less (fuel + 1) d id = d := by
  rw [pullUpLoop]
  simp [h]

theorem pullUpLoop_step (less : Int → Int → Bool) (fuel : Nat) (d : List Int) (id : Nat)
    (hi : id < d.length) (h : less (get d id) (get d (parent id)) = true) :
    pullUpLoop less (fuel + 1) d id =
      pullUpLoop less fuel (swapAt d id (parent id)) (parent id) := by
  rw [pullUpLoop]
  simp [h, exist, hi]

theorem pullUpLoop_spec (b : Bool) (fuel : Nat) : ∀ (d : List Int) (id : Nat),
    id < fuel → id < d.length → d.length < 2 ^ 61 → inMinHeap id = b →
    (∀ j, 2 ≤ j → j < d.length → j ≠ id → inMinHeap j = b →
      sideLe b (get d (parent j)) (get d j)) →
    (∀ c, 2 ≤ id → c < d.length → (c = 2 * id + 2 ∨ c = 2 * id + 3) →
      sideLe b (get d (parent id)) (get d c)) →
    (pullUpLoop (sideLt b) fuel d id).length = d.length ∧
    (∀ j, 2 ≤ j → j < d.length → inMinHeap j = b →
      sideLe b (get (pullUpLoop (sideLt b) fuel d id) (parent j))
        (get (pullUpLoop (sideLt b) fuel d id) j)) ∧
    (∀ j, id < j → get (pullUpLoop (sideLt b) fuel d id) j = get d j) ∧
    (∀ j, inMinHeap j = (!b) → get (pullUpLoop (sideLt b) fuel d id) j = get d j) ∧
    (∀ j, j ≠ id → sideLe b (get (pullUpLoop (sideLt b) fuel d id) j) (get d j)) ∧
    (get (pullUpLoop (sideLt b) fuel d id) id = get d id ∨
      (2 ≤ id ∧ get (pullUpLoop (sideLt b) fuel d id) id = get d (parent id) ∧
        sideLt b (get d id) (get d (parent id)) = true)) ∧
    (∀ x ∈ pullUpLoop (sideLt b) fuel d id, x ∈ d) := by
  induction fuel with
  | zero => intro d id h; omega
  | succ fuel ih =>
    intro d id hf hi hn hb hord hch
    cases hlt : sideLt b (get d id) (get d (parent id))
    · -- the loop stops
      rw [pullUpLoop_stop _ fuel d id hlt]
      refine ⟨rfl, ?_, fun _ _ => rfl, fun _ _ => rfl, fun _ _ => sideLe_refl _ _,
        Or.inl rfl, fun _ h => h⟩
      intro j h2 hj hjb
      by_cases hji : j = id
      · subst hji
        exact sideLe_of_not_sideLt b _ _ hlt
      · exact hord j h2 hj hji hjb
    · -- the node is swapped with its parent
      rw [pullUpLoop_step _ fuel d id hi hlt]
      have h2 : 2 ≤ id := by
        rcases Nat.lt_or_ge id 2 with h | h
        · rw [parent_of_lt id h] at hlt
          cases b <;> simp [sideLt] at hlt
        · exact h
      have hp := parent_lt id h2
      have hpn : parent id < d.length := by omega
      have hpb : inMinHeap (parent id) = b := by rw [inMinHeap_parent id h2 (by omega)]; exact hb
      have hlen := length_swapAt d id (parent id)
      have hg : ∀ k, get (swapAt d id (parent id)) k =
          if k = parent id then get d id else if k = id then get d (parent id) else get d k :=
        fun k => get_swapAt d id (parent id) k hi hpn
      have hle := sideLe_of_sideLt b _ _ hlt
      obtain ⟨r1, r2, r3, r4, r5, r6, r7⟩ := ih (swapAt d id (parent id)) (parent id)
        (by omega) (by rw [hlen]; exact hpn) (by rw [hlen]; exact hn) hpb
        (by
          intro j hj2 hj hjp hjb
          rw [hlen] at hj
          rw [hg, hg]
          have hpj := parent_lt j hj2
          by_cases hj1 : j = id
          · subst hj1
            simp only [if_true, if_neg (Nat.ne_of_gt hp)]
            exact hle
          · rw [if_neg hjp, if_neg hj1]
            by_cases hj3 : parent j = parent id
            · rw [if_pos hj3]
              have := hord j hj2 hj hj1 hjb
              rw [hj3] at this
              exact sideLe_trans b _ _ _ hle this
            · rw [if_neg hj3]
              by_cases hj4 : parent j = id
              · rw [if_pos hj4]
                have hc := child_of_parent j hj2
                rw [hj4] at hc
                exact hch j h2 hj hc
              · rw [if_neg hj4]
                exact hord j hj2 hj hj1 hjb)
        (by
          intro c hp2 hc hcc
          rw [hlen] at hc
          have hpc := parent_child (parent id) c hcc
          have hpp := parent_lt (parent id) hp2
          rw [hg, hg]
          have hc2 : c ≠ parent id := by omega
          have hpp2 : parent (parent id) ≠ parent id := by omega
          have hpp3 : parent (parent id) ≠ id := by omega
          rw [if_neg hpp2, if_neg hpp3, if_neg hc2]
          have hcb : inMinHeap c = b := by
            rw [inMinHeap_child (parent id) c hcc (by omega)]; exact hpb
          have h1 := hord (parent id) hp2 hpn (by omega) hpb
          by_cases hci : c = id
          · rw [if_pos hci]; exact h1
          · rw [if_neg hci]
            have h3 := hord c (by omega) hc hci hcb
            rw [hpc] at h3
            exact sideLe_trans b _ _ _ h1 h3)
      rw [hlen] at r1 r2
      refine ⟨r1, r2, ?_, ?_, ?_, ?_, ?_⟩
      · intro j hj
        rw [r3 j (by omega), hg, if_neg (by omega), if_neg (by omega)]
      · intro j hj
        rw [r4 j hj, hg]
        have h1 : j ≠ parent id := fun h => by rw [h, hpb] at hj; cases b <;> cases hj
        have h3 : j ≠ id := fun h => by rw [h, hb] at hj; cases b <;> cases hj
        rw [if_neg h1, if_neg h3]
      · intro j hj
        by_cases hjp : j = parent id
        · subst hjp
          rcases r6 with h6 | ⟨h6a, h6b, h6c⟩
          · rw [h6, hg, if_pos rfl]; exact hle
          · rw [h6b, hg, if_neg (by have := parent_lt (parent id) h6a; omega),
              if_neg (by have := parent_lt (parent id) h6a; omega)]
            exact hord (parent id) h6a hpn (by omega) hpb
        · have := r5 j hjp
          rw [hg, if_neg hjp, if_neg hj] at this
          exact this
      · right
        refine ⟨h2, ?_, rfl⟩
        rw [r3 id hp, hg, if_neg (by omega), if_pos rfl]
      · intro x hx
        exact mem_swapAt d id (parent id) x hi hpn (r7 x hx)

end Deap

namespace Deap
open Deap_Trait Vec

theorem sideLe_true (x y : Int) : sideLe true x y ↔ x ≤ y := by simp [sideLe]

theorem sideLe_false (x y : Int) : sideLe false x y ↔ y ≤ x := by simp [sideLe]

theorem safeCorrespond_congr (d d' : List Int) (h : d.length = d'.length) (i : Nat) :
    safeCorrespond d i = safeCorrespond d' i := by
  unfold safeCorrespond exist
  rw [h]

/-- The three invariants, side by side. -/
theorem valid_iff_sides (d : List Int) (h : d.length < 2 ^ 61) :
    Valid d ↔
      (∀ j, 2 ≤ j → j < d.length → inMinHeap j = true → get d (parent j) ≤ get d j) ∧
      (∀ j, 2 ≤ j → j < d.length → inMinHeap j = false → get d j ≤ get d (parent j)) ∧
      (2 ≤ d.length → ∀ i, i < d.length → inMinHeap i = true →
        get d i ≤ get d (safeCorrespond d i)) := by
  unfold Valid HeapOrd CrossAt
  constructor
  · rintro ⟨ho, hc⟩
    refine ⟨fun j h2 hj hm => ?_, fun j h2 hj hm => ?_, fun h2 i hi hm => ?_⟩
    · have := ho j h2 hj; rw [hm, sideLe_true] at this; exact this
    · have := ho j h2 hj; rw [hm, sideLe_false] at this; exact this
    · have := hc h2 i hi; rw [hm, sideLe_true] at this; exact this
  · rintro ⟨h1, h2, h3⟩
    refine ⟨fun j hj2 hj => ?_, fun hn i hi => ?_⟩
    · cases hm : inMinHeap j
      · rw [sideLe_false]; exact h2 j hj2 hj hm
      · rw [sideLe_true]; exact h1 j hj2 hj hm
    · cases hm : inMinHeap i
      · rw [sideLe_false]
        obtain ⟨hs, hc, hcm⟩ := safeCorrespond_of_max d i hi h hm
        rw [hs]
        have := h3 hn (correspond i) hc hcm
        obtain ⟨_, _, hs2, _⟩ := safeCorrespond_of_min d (correspond i) hc h hn hcm
        rw [hs2 (by rw [correspond_correspond i (by omega)]; exact hi),
          correspond_correspond i (by omega)] at this
        exact this
      · rw [sideLe_true]; exact h3 hn i hi hm

/-- The min-heap nodes whose `safeCorrespond` is the max-heap node `e`: the correspondent
of `e` and, when their own correspondents do not exist, its children. -/
theorem safeCorrespond_eq_imp (d : List Int) (i e : Nat) (h : d.length < 2 ^ 61)
    (h2 : 2 ≤ d.length) (hi : i < d.length) (hm : inMinHeap i = true)
    (hs : safeCorrespond d i = e) :
    i = correspond e ∨ (2 ≤ i ∧ parent i = correspond e ∧ d.length ≤ correspond i) := by
  obtain ⟨hlt, _, h3, h4⟩ := safeCorrespond_of_min d i hi h h2 hm
  by_cases hc : correspond i < d.length
  · left
    rw [← hs, h3 hc, correspond_correspond i (by omega)]
  · right
    obtain ⟨hi2, h5⟩ := h4 (by omega)
    have hp := parent_lt i hi2
    refine ⟨hi2, ?_, by omega⟩
    rw [← hs, h5, correspond_correspond _ (by omega)]

theorem pullUp_min (d : List Int) (id : Nat) (hd : NonNeg d) (hi : id < d.length)
    (hn : d.length < 2 ^ 61) (hm : inMinHeap id = true)
    (hord : ∀ j, 2 ≤ j → j < d.length → j ≠ id → inMinHeap j = true →
      get d (parent j) ≤ get d j)
    (hch : ∀ c, 2 ≤ id → c < d.length → (c = 2 * id + 2 ∨ c = 2 * id + 3) →
      get d (parent id) ≤ get d c)
    (R : List Int) (hR : R = pullUp d id) :
    R.length = d.length ∧ NonNeg R ∧
    (∀ j, 2 ≤ j → j < d.length → inMinHeap j = true → get R (parent j) ≤ get R j) ∧
    (∀ j, inMinHeap j = false → get R j = get d j) ∧
    (∀ j, id < j → get R j = get d j) ∧
    (∀ j, j ≠ id → get R j ≤ get d j) ∧
    (get R id = get d id ∨
      (2 ≤ id ∧ get R id = get d (parent id) ∧ get d id < get d (parent id))) := by
  rw [pullUp_eq d id hd, hm] at hR
  obtain ⟨r1, r2, r3, r4, r5, r6, r7⟩ := pullUpLoop_spec true d.length d id hi hi hn hm
    (fun j a b c e => (sideLe_true _ _).2 (hord j a b c e))
    (fun c a b e => (sideLe_true _ _).2 (hch c a b e))
  rw [← hR] at r1 r2 r3 r4 r5 r6 r7
  refine ⟨r1, fun x hx => hd x (r7 x hx), fun j a b c => (sideLe_true _ _).1 (r2 j a b c),
    fun j hj => r4 j (by simpa using hj), r3, fun j hj => (sideLe_true _ _).1 (r5 j hj), ?_⟩
  rcases r6 with h | ⟨h1, h2, h3⟩
  · exact Or.inl h
  · right
    refine ⟨h1, h2, ?_⟩
    simpa [sideLt] using h3

theorem pullUp_max (d : List Int) (id : Nat) (hd : NonNeg d) (hi : id < d.length)
    (hn : d.length < 2 ^ 61) (hm : inMinHeap id = false)
    (hord : ∀ j, 2 ≤ j → j < d.length → j ≠ id → inMinHeap j = false →
      get d j ≤ get d (parent j))
    (hch : ∀ c, 2 ≤ id → c < d.length → (c = 2 * id + 2 ∨ c = 2 * id + 3) →
      get d c ≤ get d (parent id))
    (R : List Int) (hR : R = pullUp d id) :
    R.length = d.length ∧ NonNeg R ∧
    (∀ j, 2 ≤ j → j < d.length → inMinHeap j = false → get R j ≤ get R (parent j)) ∧
    (∀ j, inMinHeap j = true → get R j = get d j) ∧
    (∀ j, id < j → get R j = get d j) ∧
    (∀ j, j ≠ id → get d j ≤ get R j) ∧
    (get R id = get d id ∨
      (2 ≤ id ∧ get R id = get d (parent id) ∧ get d (parent id) < get d id)) := by
  rw [pullUp_eq d id hd, hm] at hR
  obtain ⟨r1, r2, r3, r4, r5, r6, r7⟩ := pullUpLoop_spec false d.length d id hi hi hn hm
    (fun j a b c e => (sideLe_false _ _).2 (hord j a b c e))
    (fun c a b e => (sideLe_false _ _).2 (hch c a b e))
  rw [← hR] at r1 r2 r3 r4 r5 r6 r7
  refine ⟨r1, fun x hx => hd x (r7 x hx), fun j a b c => (sideLe_false _ _).1 (r2 j a b c),
    fun j hj => r4 j (by simpa using hj), r3, fun j hj => (sideLe_false _ _).1 (r5 j hj), ?_⟩
  rcases r6 with h | ⟨h1, h2, h3⟩
  · exact Or.inl h
  · right
    refine ⟨h1, h2, ?_⟩
    simpa [sideLt] using h3

end Deap

namespace Deap
open Deap_Trait Vec

/-! ## `insert` at a leaf whose value was replaced -/

theorem nonNeg_set (d : List Int) (i : Nat) (v : Int) (hd : NonNeg d)
    (hv : 0 ≤ v ∧ v < 2 ^ 31) : NonNeg (d.set i v) := by
  intro x hx
  rcases mem_set d i v x hx with h | h
  · exact hd x h
  · rw [h]; exact hv

theorem ne_of_side_ne (i j : Nat) (hi : inMinHeap i = true) (hj : inMinHeap j = false) :
    i ≠ j := by
  intro h; rw [h, hj] at hi; cases hi

theorem insert_of_min (d : List Int) (e : Nat) (he0 : e ≠ 0) (hm : inMinHeap e = true)
    (hleaf : isLeaf d e = true) :
    insert d e = if get d e ≤ get d (safeCorrespond d e) then pullUp d e
      else pullUp (swapAt d e (safeCorrespond d e)) (safeCorrespond d e) := by
  unfold insert
  simp only [if_neg he0, hm, if_true, hleaf, Bool.not_true, Bool.false_and, Bool.false_eq_true,
    if_false]
  rw [safeCorrespond_congr (swapAt d e (safeCorrespond d e)) d (length_swapAt _ _ _)]

/-- `insert` after the value of a min-heap leaf was replaced. -/
theorem insert_min_valid (D0 : List Int) (e : Nat) (v : Int) (hN : D0.length < 2 ^ 61)
    (hV : Valid D0) (hnn : NonNeg D0) (hv : 0 ≤ v ∧ v < 2 ^ 31) (he : e < D0.length)
    (hleaf : D0.length ≤ 2 * e + 2) (he0 : e ≠ 0) (hm : inMinHeap e = true) :
    Valid (insert (D0.set e v) e) ∧ NonNeg (insert (D0.set e v) e) ∧
      (insert (D0.set e v) e).length = D0.length := by
  have he2 : 2 ≤ e := by have := min_ne_one e hm; omega
  have hN2 : 2 ≤ D0.length := by omega
  obtain ⟨A1, A2, A3⟩ := (valid_iff_sides D0 hN).1 hV
  have A3 := A3 hN2
  have hlenD : (D0.set e v).length = D0.length := by simp
  have hgD : ∀ k, get (D0.set e v) k = if k = e then v else get D0 k :=
    fun k => get_set D0 e k v he
  have hnnD : NonNeg (D0.set e v) := nonNeg_set D0 e v hnn hv
  have hleafD : isLeaf (D0.set e v) e = true := by
    rw [isLeaf_iff _ _ (by rw [hlenD]; exact hN), hlenD]; exact ⟨he, hleaf⟩
  have hscD : ∀ i, safeCorrespond (D0.set e v) i = safeCorrespond D0 i :=
    fun i => safeCorrespond_congr _ _ hlenD i
  obtain ⟨hq, hqm, _, _⟩ := safeCorrespond_of_min D0 e he hN hN2 hm
  have hqe : safeCorrespond D0 e ≠ e := fun h => by rw [h, hm] at hqm; cases hqm
  have hpe := parent_lt e he2
  -- no node has the leaf `e` as parent
  have hnopar : ∀ j, 2 ≤ j → j < D0.length → parent j ≠ e := by
    intro j hj2 hj h
    have := child_of_parent j hj2
    rw [h] at this; omega
  have hpmax : ∀ j, 2 ≤ j → j < D0.length → inMinHeap j = false →
      inMinHeap (parent j) = false := by
    intro j hj2 hj hjm
    rw [inMinHeap_parent j hj2 (by omega)]; exact hjm
  have hpmin : ∀ j, 2 ≤ j → j < D0.length → inMinHeap j = true →
      inMinHeap (parent j) = true := by
    intro j hj2 hj hjm
    rw [inMinHeap_parent j hj2 (by omega)]; exact hjm
  rw [insert_of_min _ e he0 hm hleafD, hscD, hgD, if_pos rfl, hgD, if_neg hqe]
  by_cases hcmp : v ≤ get D0 (safeCorrespond D0 e)
  · rw [if_pos hcmp]
    obtain ⟨r1, r2, r3, r4, _, r6, r7⟩ := pullUp_min (D0.set e v) e hnnD
      (by rw [hlenD]; exact he) (by rw [hlenD]; exact hN) hm
      (by
        intro j hj2 hj hje hjm
        rw [hlenD] at hj
        rw [hgD, hgD, if_neg hje, if_neg (hnopar j hj2 hj)]
        exact A1 j hj2 hj hjm)
      (by
        intro c _ hc hcc
        rw [hlenD] at hc; omega)
      _ rfl
    rw [hlenD] at r1 r3
    refine ⟨?_, r2, r1⟩
    rw [valid_iff_sides _ (by rw [r1]; exact hN), r1]
    refine ⟨r3, ?_, ?_⟩
    · intro j hj2 hj hjm
      rw [r4 j hjm, r4 _ (hpmax j hj2 hj hjm), hgD, hgD,
        if_neg (Ne.symm (ne_of_side_ne e j hm hjm)),
        if_neg (Ne.symm (ne_of_side_ne e _ hm (hpmax j hj2 hj hjm)))]
      exact A2 j hj2 hj hjm
    · intro _ i hi him
      rw [safeCorrespond_congr _ D0 r1]
      obtain ⟨hsi, hsim, _, _⟩ := safeCorrespond_of_min D0 i hi hN hN2 him
      rw [r4 _ hsim, hgD, if_neg (Ne.symm (ne_of_side_ne e _ hm hsim))]
      by_cases hie : i = e
      · subst hie
        rcases r7 with h | ⟨_, h, _⟩
        · rw [h, hgD, if_pos rfl]; exact hcmp
        · rw [h, hgD, if_neg (by omega)]
          have h1 := A1 i he2 he hm
          have h2 := A3 i he hm
          omega
      · have h1 := r6 i hie
        rw [hgD, if_neg hie] at h1
        have h2 := A3 i hi him
        omega
  · rw [if_neg hcmp]
    have hcmp' : get D0 (safeCorrespond D0 e) < v := by omega
    generalize hqdef : safeCorrespond D0 e = q at *
    have hg1 : ∀ k, get (swapAt (D0.set e v) e q) k =
        if k = q then v else if k = e then get D0 q else get D0 k := by
      intro k
      rw [get_swapAt _ e q k (by rw [hlenD]; exact he) (by rw [hlenD]; exact hq), hgD, hgD,
        hgD, if_pos rfl, if_neg hqe]
      by_cases h1 : k = q
      · rw [if_pos h1, if_pos h1]
      · rw [if_neg h1, if_neg h1]
        by_cases h2 : k = e
        · rw [if_pos h2, if_pos h2]
        · rw [if_neg h2, if_neg h2, if_neg h2]
    have hlen1 : (swapAt (D0.set e v) e q).length = D0.length := by
      rw [length_swapAt, hlenD]
    have hnn1 : NonNeg (swapAt (D0.set e v) e q) :=
      nonNeg_swapAt _ e q (by rw [hlenD]; exact he) (by rw [hlenD]; exact hq) hnnD
    obtain ⟨r1, r2, r3, r4, _, r6, r7⟩ := pullUp_max (swapAt (D0.set e v) e q) q hnn1
      (by rw [hlen1]; exact hq) (by rw [hlen1]; exact hN) hqm
      (by
        intro j hj2 hj hjq hjm
        rw [hlen1] at hj
        have hpjm := hpmax j hj2 hj hjm
        rw [hg1, hg1, if_neg hjq, if_neg (Ne.symm (ne_of_side_ne e j hm hjm))]
        have h1 := A2 j hj2 hj hjm
        by_cases hpq : parent j = q
        · rw [if_pos hpq]; rw [hpq] at h1; omega
        · rw [if_neg hpq, if_neg (Ne.symm (ne_of_side_ne e _ hm hpjm))]; exact h1)
      (by
        intro c hq2 hc hcc
        rw [hlen1] at hc
        have hcm : inMinHeap c = false := by
          rw [inMinHeap_child q c hcc (by omega)]; exact hqm
        have hpc := parent_child q c hcc
        have hpq := parent_lt q hq2
        rw [hg1, hg1, if_neg (by omega), if_neg (Ne.symm (ne_of_side_ne e c hm hcm)),
          if_neg (by omega),
          if_neg (Ne.symm (ne_of_side_ne e _ hm (hpmax q hq2 hq hqm)))]
        have h1 := A2 c (by omega) hc hcm
        rw [hpc] at h1
        have h2 := A2 q hq2 hq hqm
        omega)
      _ rfl
    rw [hlen1] at r1 r3
    -- the max heap only grew
    have hup : ∀ j, j < D0.length → inMinHeap j = false → get D0 j ≤ get (pullUp (swapAt (D0.set e v) e q) q) j := by
      intro j hj hjm
      by_cases hjq : j = q
      · subst hjq
        rcases r7 with h | ⟨hq2, h, _⟩
        · rw [h, hg1, if_pos rfl]; omega
        · rw [h, hg1, if_neg (by have := parent_lt j hq2; omega),
            if_neg (Ne.symm (ne_of_side_ne e _ hm (hpmax j hq2 hq hqm)))]
          exact A2 j hq2 hq hqm
      · have := r6 j hjq
        rw [hg1, if_neg hjq, if_neg (Ne.symm (ne_of_side_ne e j hm hjm))] at this
        exact this
    refine ⟨?_, r2, r1⟩
    rw [valid_iff_sides _ (by rw [r1]; exact hN), r1]
    refine ⟨?_, r3, ?_⟩
    · intro j hj2 hj hjm
      have hpjm := hpmin j hj2 hj hjm
      rw [r4 j hjm, r4 _ hpjm, hg1, hg1, if_neg (ne_of_side_ne j q hjm hqm),
        if_neg (ne_of_side_ne _ q hpjm hqm), if_neg (hnopar j hj2 hj)]
      by_cases hje : j = e
      · subst hje
        rw [if_pos rfl]
        have h1 := A1 j hj2 hj hjm
        have h2 := A3 j hj hjm
        rw [hqdef] at h2
        omega
      · rw [if_neg hje]; exact A1 j hj2 hj hjm
    · intro _ i hi him
      rw [safeCorrespond_congr _ D0 r1]
      obtain ⟨hsi, hsim, _, _⟩ := safeCorrespond_of_min D0 i hi hN hN2 him
      rw [r4 i him, hg1, if_neg (ne_of_side_ne i q him hqm)]
      have h3 := hup _ hsi hsim
      by_cases hie : i = e
      · subst hie
        rw [if_pos rfl]
        rw [hqdef] at h3 ⊢
        exact h3
      · rw [if_neg hie]
        have h2 := A3 i hi him
        omega

/-- After the value of the max-heap leaf `e` was replaced by `v`, when every min-heap node
facing `e` is `≤ v`, `pullUp(e)` restores the invariants. -/
theorem pullUp_max_leaf_valid (D0 : List Int) (e : Nat) (v : Int) (hN : D0.length < 2 ^ 61)
    (hV : Valid D0) (hnn : NonNeg D0) (hv : 0 ≤ v ∧ v < 2 ^ 31) (he : e < D0.length)
    (hleaf : D0.length ≤ 2 * e + 2) (hm : inMinHeap e = false)
    (hall : ∀ i, i < D0.length → inMinHeap i = true → safeCorrespond D0 i = e →
      get D0 i ≤ v) :
    Valid (pullUp (D0.set e v) e) ∧ NonNeg (pullUp (D0.set e v) e) ∧
      (pullUp (D0.set e v) e).length = D0.length := by
  have he1 := max_ge_one e hm
  have hN2 : 2 ≤ D0.length := by omega
  obtain ⟨A1, A2, A3⟩ := (valid_iff_sides D0 hN).1 hV
  have A3 := A3 hN2
  have hlenD : (D0.set e v).length = D0.length := by simp
  have hgD : ∀ k, get (D0.set e v) k = if k = e then v else get D0 k :=
    fun k => get_set D0 e k v he
  have hnnD : NonNeg (D0.set e v) := nonNeg_set D0 e v hnn hv
  have hnopar : ∀ j, 2 ≤ j → j < D0.length → parent j ≠ e := by
    intro j hj2 hj h
    have := child_of_parent j hj2
    rw [h] at this; omega
  obtain ⟨r1, r2, r3, r4, _, r6, r7⟩ := pullUp_max (D0.set e v) e hnnD
    (by rw [hlenD]; exact he) (by rw [hlenD]; exact hN) hm
    (by
      intro j hj2 hj hje hjm
      rw [hlenD] at hj
      rw [hgD, hgD, if_neg hje, if_neg (hnopar j hj2 hj)]
      exact A2 j hj2 hj hjm)
    (by
      intro c _ hc hcc
      rw [hlenD] at hc; omega)
    _ rfl
  rw [hlenD] at r1 r3
  refine ⟨?_, r2, r1⟩
  rw [valid_iff_sides _ (by rw [r1]; exact hN), r1]
  refine ⟨?_, r3, ?_⟩
  · intro j hj2 hj hjm
    have hpjm : inMinHeap (parent j) = true := by
      rw [inMinHeap_parent j hj2 (by omega)]; exact hjm
    rw [r4 j hjm, r4 _ hpjm, hgD, hgD, if_neg (ne_of_side_ne j e hjm hm),
      if_neg (ne_of_side_ne _ e hpjm hm)]
    exact A1 j hj2 hj hjm
  · intro _ i hi him
    rw [safeCorrespond_congr _ D0 r1]
    obtain ⟨hsi, hsim, _, _⟩ := safeCorrespond_of_min D0 i hi hN hN2 him
    rw [r4 i him, hgD, if_neg (ne_of_side_ne i e him hm)]
    have h2 := A3 i hi him
    by_cases hse : safeCorrespond D0 i = e
    · rw [hse] at h2 ⊢
      rcases r7 with h | ⟨he2, h, _⟩
      · rw [h, hgD, if_pos rfl]; exact hall i hi him hse
      · rw [h, hgD, if_neg (by have := parent_lt e he2; omega)]
        have := A2 e he2 he hm
        omega
    · have := r6 _ hse
      rw [hgD, if_neg hse] at this
      omega

/-- After the value of the max-heap leaf `e` was replaced by `v`, swapping it with the
largest min-heap leaf `l` facing `e` (when `v` is below it) and `pullUp(l)` restores the
invariants. -/
theorem pullUp_swap_leaf_valid (D0 : List Int) (e l : Nat) (v : Int)
    (hN : D0.length < 2 ^ 61)
    (hV : Valid D0) (hnn : NonNeg D0) (hv : 0 ≤ v ∧ v < 2 ^ 31) (he : e < D0.length)
    (hleaf : D0.length ≤ 2 * e + 2) (hm : inMinHeap e = false)
    (hl : l < D0.length) (hlleaf : D0.length ≤ 2 * l + 2) (hlm : inMinHeap l = true)
    (hls : safeCorrespond D0 l = e) (hvl : v < get D0 l)
    (hall : ∀ i, i < D0.length → inMinHeap i = true → safeCorrespond D0 i = e →
      get D0 i ≤ get D0 l) :
    Valid (pullUp (swapAt (D0.set e v) l e) l) ∧
      NonNeg (pullUp (swapAt (D0.set e v) l e) l) ∧
      (pullUp (swapAt (D0.set e v) l e) l).length = D0.length := by
  have he1 := max_ge_one e hm
  have hN2 : 2 ≤ D0.length := by omega
  obtain ⟨A1, A2, A3⟩ := (valid_iff_sides D0 hN).1 hV
  have A3 := A3 hN2
  have hlenD : (D0.set e v).length = D0.length := by simp
  have hgD : ∀ k, get (D0.set e v) k = if k = e then v else get D0 k :=
    fun k => get_set D0 e k v he
  have hnnD : NonNeg (D0.set e v) := nonNeg_set D0 e v hnn hv
  have hle : l ≠ e := ne_of_side_ne l e hlm hm
  have hg1 : ∀ k, get (swapAt (D0.set e v) l e) k =
      if k = e then get D0 l else if k = l then v else get D0 k := by
    intro k
    rw [get_swapAt _ l e k (by rw [hlenD]; exact hl) (by rw [hlenD]; exact he), hgD, hgD,
      hgD, if_pos rfl, if_neg hle]
    by_cases h1 : k = e
    · rw [if_pos h1, if_pos h1]
    · rw [if_neg h1, if_neg h1, if_neg h1]
  have hlen1 : (swapAt (D0.set e v) l e).length = D0.length := by
    rw [length_swapAt, hlenD]
  have hnn1 : NonNeg (swapAt (D0.set e v) l e) :=
    nonNeg_swapAt _ l e (by rw [hlenD]; exact hl) (by rw [hlenD]; exact he) hnnD
  have hnopar : ∀ j, 2 ≤ j → j < D0.length → parent j ≠ e ∧ parent j ≠ l := by
    intro j hj2 hj
    have := child_of_parent j hj2
    constructor <;> intro h <;> rw [h] at this <;> omega
  obtain ⟨r1, r2, r3, r4, _, r6, r7⟩ := pullUp_min (swapAt (D0.set e v) l e) l hnn1
    (by rw [hlen1]; exact hl) (by rw [hlen1]; exact hN) hlm
    (by
      intro j hj2 hj hjl hjm
      rw [hlen1] at hj
      rw [hg1, hg1, if_neg (ne_of_side_ne j e hjm hm), if_neg hjl,
        if_neg (hnopar j hj2 hj).1, if_neg (hnopar j hj2 hj).2]
      exact A1 j hj2 hj hjm)
    (by
      intro c _ hc hcc
      rw [hlen1] at hc; omega)
    _ rfl
  rw [hlen1] at r1 r3
  refine ⟨?_, r2, r1⟩
  rw [valid_iff_sides _ (by rw [r1]; exact hN), r1]
  refine ⟨r3, ?_, ?_⟩
  · intro j hj2 hj hjm
    have hpjm : inMinHeap (parent j) = false := by
      rw [inMinHeap_parent j hj2 (by omega)]; exact hjm
    rw [r4 j hjm, r4 _ hpjm, hg1, hg1, if_neg (hnopar j hj2 hj).1,
      if_neg (Ne.symm (ne_of_side_ne l _ hlm hpjm))]
    have h1 := A2 j hj2 hj hjm
    by_cases hje : j = e
    · subst hje
      rw [if_pos rfl]
      have := A3 l hl hlm
      rw [hls] at this
      omega
    · rw [if_neg hje, if_neg (Ne.symm (ne_of_side_ne l j hlm hjm))]; exact h1
  · intro _ i hi him
    rw [safeCorrespond_congr _ D0 r1]
    obtain ⟨hsi, hsim, _, _⟩ := safeCorrespond_of_min D0 i hi hN hN2 him
    rw [r4 _ hsim, hg1, if_neg (Ne.symm (ne_of_side_ne l _ hlm hsim))]
    have h2 := A3 i hi him
    by_cases hil : i = l
    · subst hil
      rw [hls, if_pos rfl]
      rcases r7 with h | ⟨hl2, h, _⟩
      · rw [h, hg1, if_neg hle, if_pos rfl]; omega
      · have hpl := parent_lt i hl2
        have hplm : inMinHeap (parent i) = true := by
          rw [inMinHeap_parent i hl2 (by omega)]; exact hlm
        rw [h, hg1, if_neg (ne_of_side_ne _ e hplm hm), if_neg (by omega)]
        exact A1 i hl2 hl hlm
    · have h3 := r6 i hil
      rw [hg1, if_neg (ne_of_side_ne i e him hm), if_neg hil] at h3
      by_cases hse : safeCorrespond D0 i = e
      · rw [if_pos hse]
        have := hall i hi him hse
        omega
      · rw [if_neg hse]; omega


end Deap

/-! ## Negative values: `pullUp` and `pushDown` compare in `size_t` -/

namespace Deap

set_option maxRecDepth 100000 in
/-- C1: built from `[-1, 0, 0]`, the Deap is `[0, 0, -1]` and `verify` rejects it: the
heapify pass compares `-1` as the `size_t` value `2^64 - 1` and sinks it below `0`. -/
theorem buildDeap_negative_not_verified :
    ofList [-1, 0, 0] = [0, 0, -1] ∧ verify (ofList [-1, 0, 0]) = false := by
  decide

set_option maxRecDepth 100000 in
/-- C2: `[-1, 0]` passes `verify`, but after `push(0)` the content is `[0, 0, -1]`, which
`verify` rejects: `pullUp` compares in `size_t` and lifts `0` above `-1`. -/
theorem push_negative_not_verified :
    verify [-1, 0] = true ∧ push [-1, 0] 0 = [0, 0, -1] ∧ verify (push [-1, 0] 0) = false := by
  decide

set_option maxRecDepth 100000 in
/-- C3: `[-1, 0, -1, 0]` passes `verify`, `popMin` leaves `[0, 0, -1]`, which `verify`
rejects; `[-1, 1, -1, 1, 0]` passes `verify`, `popMax` leaves `[0, 1, -1, -1]`, which
`verify` rejects. -/
theorem pop_negative_not_verified :
    verify [-1, 0, -1, 0] = true ∧ popMin [-1, 0, -1, 0] = some (-1, [0, 0, -1]) ∧
    verify [0, 0, -1] = false ∧
    verify [-1, 1, -1, 1, 0] = true ∧ popMax [-1, 1, -1, 1, 0] = some (1, [0, 1, -1, -1]) ∧
    verify [0, 1, -1, -1] = false := by
  decide

set_option maxRecDepth 100000 in
/-- C7: pushing `-1, 0, 0` into an empty Deap gives `[0, 0, -1]`; the first `popMin`
returns `0` and the second returns `-1`, so the `popMin` results decrease. -/
theorem popMin_negative_not_monotone :
    push (push (push [] (-1)) 0) 0 = [0, 0, -1] ∧
    popMin [0, 0, -1] = some (0, [-1, 0]) ∧ popMin [-1, 0] = some (-1, [0]) := by
  decide

end Deap

/-! ## A pop of a non-empty instance succeeds -/

theorem deap_popMin_isSome (d : List Int) (h : d ≠ []) : (Deap.popMin d).isSome = true := by
  have hl : d.length ≠ 0 := fun h0 => h (List.length_eq_zero.1 h0)
  unfold Deap.popMin
  rw [if_neg hl]
  dsimp only
  split <;> rfl

theorem deap_popMax_isSome (d : List Int) (h : d ≠ []) : (Deap.popMax d).isSome = true := by
  have hl : d.length ≠ 0 := fun h0 => h (List.length_eq_zero.1 h0)
  unfold Deap.popMax
  rw [if_neg hl]
  split
  · rfl
  · dsimp only
    split
    · split <;> rfl
    · rfl

theorem mm_popMin_isSome (d : List Int) (h : d ≠ []) : (MinMaxHeap.popMin d).isSome = true := by
  have hl : d.length ≠ 0 := fun h0 => h (List.length_eq_zero.1 h0)
  unfold MinMaxHeap.popMin
  rw [if_neg hl]
  rfl

theorem mm_popMax_isSome (d : List Int) (h : d ≠ []) : (MinMaxHeap.popMax d).isSome = true := by
  have hl : d.length ≠ 0 := fun h0 => h (List.length_eq_zero.1 h0)
  unfold MinMaxHeap.popMax
  rw [if_neg hl]
  split <;> rfl

/-! ## One and two elements -/

namespace Deap
open Deap_Trait Vec

theorem popMin_pair (x y : Int) : popMin [x, y] = some (x, [y]) := by rfl
theorem popMax_pair (x y : Int) : popMax [x, y] = some (y, [x]) := by rfl
theorem popMin_single (v : Int) : popMin [v] = some (v, []) := by rfl
theorem popMax_single (v : Int) : popMax [v] = some (v, []) := by rfl

theorem pullUp_pair_zero (x y : Int) : pullUp [x, y] 0 = [x, y] := by
  have h : chooseLess 0 x x = false := by
    have : inMinHeap 0 = true := by decide
    simp [chooseLess, this, lessSizeT]
  show pullUpLoop (chooseLess 0) 2 [x, y] 0 = [x, y]
  exact pullUpLoop_stop _ 1 [x, y] 0 h

theorem pullUp_pair_one (x y : Int) : pullUp [x, y] 1 = [x, y] := by
  have h : chooseLess 1 y y = false := by
    have : inMinHeap 1 = false := by decide
    simp [chooseLess, this, greaterSizeT]
  show pullUpLoop (chooseLess 1) 2 [x, y] 1 = [x, y]
  exact pullUpLoop_stop _ 1 [x, y] 1 h

theorem fixPairLoop_pair (x y : Int) (fuel : Nat) (h : x ≤ y) :
    fixPairLoop (fuel + 1) [x, y] 0 1 = [x, y] := by
  rw [fixPairLoop]
  have : ¬ (get [x, y] 0 > get [x, y] 1) := by
    show ¬ (x > y)
    omega
  rw [if_neg this]

theorem pushDownPick_no_child (less : Int → Int → Bool) (d : List Int) (i : Nat)
    (hl : d.length ≤ leftChild i) (hr : d.length ≤ rightChild i) :
    pushDownPick less d i = i := by
  have h1 : exist d (leftChild i) = false := by simp [exist]; omega
  have h2 : exist d (rightChild i) = false := by simp [exist]; omega
  unfold pushDownPick
  simp [h1, h2]

theorem pushDown_no_child (d : List Int) (i : Nat)
    (hl : d.length ≤ leftChild i) (hr : d.length ≤ rightChild i) : pushDown d i = d := by
  unfold pushDown
  cases d.length with
  | zero => rfl
  | succ n =>
    rw [pushDownLoop]
    split
    · dsimp only
      rw [pushDownPick_no_child _ d i hl hr, if_pos rfl]
    · rfl

theorem buildDeap_pair (a b : Int) : ofList [a, b] = [min a b, max a b] := by
  have h1 : inMinHeap 1 = false := by decide
  have h0 : inMinHeap 0 = true := by decide
  have hp : parent 1 = 1 := by decide
  have hl0 : leftChild 0 = 2 := by decide
  have hr0 : rightChild 0 = 3 := by decide
  have hl1 : leftChild 1 = 4 := by decide
  have hr1 : rightChild 1 = 5 := by decide
  have hc1 : correspond 1 = 0 := by decide
  have hc0 : correspond 0 = 1 := by decide
  have hleaf : ∀ x y : Int, ∀ i, i < 2 → isLeaf [x, y] i = true := by
    intro x y i hi
    have : i = 0 ∨ i = 1 := by omega
    rcases this with h | h <;> subst h <;> simp [isLeaf, exist, hl0, hl1]
  have hsc1 : ∀ x y : Int, safeCorrespond [x, y] 1 = 0 := by
    intro x y; simp [safeCorrespond, hc1, exist]
  have hsc0 : ∀ x y : Int, safeCorrespond [x, y] 0 = 1 := by
    intro x y; simp [safeCorrespond, hc0, exist]
  have e2 : ∀ x y : Int, fixLeaf [x, y] 1 = fixPairLoop 4 [x, y] 0 1 := by
    intro x y
    unfold fixLeaf
    simp only [h1, hsc1, Bool.false_eq_true, if_false]
    rfl
  have e3 : ∀ x y : Int, fixLeaf [x, y] 0 = fixPairLoop 4 [x, y] 0 1 := by
    intro x y
    unfold fixLeaf
    simp only [h0, hsc0, if_true]
    rfl
  have hloop : ∀ x y : Int, x ≤ y → leafLoop 1 [x, y] = [x, y] := by
    intro x y hxy
    rw [leafLoop, hleaf x y 1 (by omega), if_pos rfl, e2, fixPairLoop_pair x y 3 hxy,
      leafLoop, hleaf x y 0 (by omega), if_pos rfl, e3, fixPairLoop_pair x y 3 hxy]
  have e1 : ofList [a, b] = leafLoop 1 [a, b] := by
    unfold ofList buildDeap
    have : ¬ ([a, b] : List Int).length < 2 := by simp
    rw [if_neg this]
    have hlen : ([a, b] : List Int).length - 1 = 1 := by simp
    dsimp only
    rw [hlen, hp, heapifyFrom, heapifyFrom,
      pushDown_no_child [a, b] 1 (by rw [hl1]; simp) (by rw [hr1]; simp),
      pushDown_no_child [a, b] 0 (by rw [hl0]; simp) (by rw [hr0]; simp)]
    rfl
  rw [e1]
  by_cases hab : a ≤ b
  · rw [hloop a b hab, min_eq_left hab, max_eq_right hab]
  · have hba : b ≤ a := by omega
    have e5 : fixPairLoop 4 [a, b] 0 1 = [b, a] := by
      rw [fixPairLoop]
      have : get [a, b] 0 > get [a, b] 1 := by
        show a > b
        omega
      rw [if_pos this]
      have : swapAt [a, b] 0 1 = [b, a] := by rfl
      rw [this, pullUp_pair_zero, pullUp_pair_one]
      exact fixPairLoop_pair b a 2 hba
    rw [leafLoop, hleaf a b 1 (by omega), if_pos rfl, e2, e5,
      leafLoop, hleaf b a 0 (by omega), if_pos rfl, e3, fixPairLoop_pair b a 3 hba,
      min_eq_right hba, max_eq_left hba]

end Deap

namespace MinMaxHeap
open MinMaxHeap_Trait Vec

theorem mm_popMin_pair (x y : Int) : popMin [x, y] = some (x, [y]) := by rfl
theorem mm_popMax_pair (x y : Int) : popMax [x, y] = some (y, [x]) := by rfl
theorem mm_popMin_single (v : Int) : popMin [v] = some (v, []) := by rfl
theorem mm_popMax_single (v : Int) : popMax [v] = some (v, []) := by rfl

theorem mm_ofList_pair (a b : Int) : ofList [a, b] = [min a b, max a b] := by
  have h0 : isMinNode 0 = true := by decide
  have hp : parent 1 = 0 := by decide
  have e1 : ofList [a, b] = pushDownLoop (chooseLess 0) 2 [a, b] 0 := by
    unfold ofList
    have : ¬ ([a, b] : List Int).length = 0 := by simp
    rw [if_neg this]
    have hlen : ([a, b] : List Int).length - 1 = 1 := by simp
    rw [hlen, hp, buildFrom, pushDown]
    rfl
  have e2 : chooseLess 0 = fun x y => decide (x < y) := by
    unfold chooseLess
    rw [if_pos h0]
  have hg0 : Vec.get [a, b] 0 = a := rfl
  have hg1 : Vec.get [a, b] 1 = b := rfl
  have e3 : pickM (fun x y => decide (x < y)) [a, b] 0 = if b < a then 1 else 0 := by
    unfold pickM children
    simp [List.foldl, exist, leftChild, rightChild, hg0, hg1]
  have ex : exist [a, b] 0 = true := by rfl
  rw [e1, e2, pushDownLoop, if_pos ex]
  dsimp only
  rw [e3]
  by_cases hab : a ≤ b
  · have : ¬ b < a := by omega
    rw [if_neg this, if_pos rfl, min_eq_left hab, max_eq_right hab]
  · have hba : b < a := by omega
    rw [if_pos hba, if_neg (by decide), hp, if_pos rfl, min_eq_right (by omega),
      max_eq_left (by omega)]
    rfl

end MinMaxHeap

/-- C16: for the Deap and for the Min-Max Heap, the instance holding the single value `v`
returns `v` from `popMin` and from `popMax` and is left empty; the instance built from
`[a, b]` returns `min a b` from `popMin` and `max a b` from `popMax`, whichever of the two
calls comes first. -/
theorem one_and_two_elements (v a b : Int) :
    Deap.popMin [v] = some (v, []) ∧ Deap.popMax [v] = some (v, []) ∧
    MinMaxHeap.popMin [v] = some (v, []) ∧ MinMaxHeap.popMax [v] = some (v, []) ∧
    (∃ r, Deap.popMin (Deap.ofList [a, b]) = some (min a b, r) ∧
      Deap.popMax r = some (max a b, [])) ∧
    (∃ r, Deap.popMax (Deap.ofList [a, b]) = some (max a b, r) ∧
      Deap.popMin r = some (min a b, [])) ∧
    (∃ r, MinMaxHeap.popMin (MinMaxHeap.ofList [a, b]) = some (min a b, r) ∧
      MinMaxHeap.popMax r = some (max a b, [])) ∧
    (∃ r, MinMaxHeap.popMax (MinMaxHeap.ofList [a, b]) = some (max a b, r) ∧
      MinMaxHeap.popMin r = some (min a b, [])) := by
  refine ⟨Deap.popMin_single v, Deap.popMax_single v, MinMaxHeap.mm_popMin_single v,
    MinMaxHeap.mm_popMax_single v, ?_, ?_, ?_, ?_⟩
  · rw [Deap.buildDeap_pair]
    exact ⟨_, Deap.popMin_pair _ _, Deap.popMax_single _⟩
  · rw [Deap.buildDeap_pair]
    exact ⟨_, Deap.popMax_pair _ _, Deap.popMin_single _⟩
  · rw [MinMaxHeap.mm_ofList_pair]
    exact ⟨_, MinMaxHeap.mm_popMin_pair _ _, MinMaxHeap.mm_popMax_single _⟩
  · rw [MinMaxHeap.mm_ofList_pair]
    exact ⟨_, MinMaxHeap.mm_popMax_pair _ _, MinMaxHeap.mm_popMin_single _⟩

/-! ## Invariant 3 only needs to be checked at the leaves -/

namespace Deap
open Deap_Trait Vec

/-- Invariant 3 at the leaves of two heap-ordered heaps gives invariant 3 at every node. -/
theorem cross_from_leaves (m_data : List Int) (hlen : m_data.length < 2 ^ 61)
    (h2 : 2 ≤ m_data.length) (hord : HeapOrd m_data)
    (hleaf : ∀ i, isLeaf m_data i = true → CrossAt m_data i) :
    ∀ i, i < m_data.length → CrossAt m_data i := by
  have key : ∀ k i, m_data.length - i = k → i < m_data.length → CrossAt m_data i := by
    intro k
    induction k using Nat.strong_induction_on with
    | _ k ih =>
      intro i hk hi
      by_cases hl : m_data.length ≤ 2 * i + 2
      · exact hleaf i ((isLeaf_iff m_data i hlen).2 ⟨hi, hl⟩)
      · have hL : 2 * i + 2 < m_data.length := by omega
        have hcl := ih (m_data.length - (2 * i + 2)) (by omega) (2 * i + 2) rfl hL
        have hpL := parent_child i (2 * i + 2) (Or.inl rfl)
        have hsL := inMinHeap_child i (2 * i + 2) (Or.inl rfl) (by omega)
        have hoL := hord (2 * i + 2) (by omega) hL
        rw [hpL, hsL] at hoL
        obtain ⟨hc2, hpc, _⟩ := parent_correspond (2 * i + 2) (by omega) (by omega)
        rw [hpL] at hpc
        unfold CrossAt at hcl ⊢
        rw [hsL] at hcl
        cases hm : inMinHeap i
        · rw [hm] at hcl hoL hsL
          obtain ⟨hs, hc, hcm⟩ := safeCorrespond_of_max m_data i hi hlen hm
          obtain ⟨hsl, hcL, hcLm⟩ := safeCorrespond_of_max m_data (2 * i + 2) hL hlen hsL
          rw [hs]
          rw [hsl] at hcl
          have ho := hord (correspond (2 * i + 2)) hc2 hcL
          rw [hpc, hcLm] at ho
          rw [sideLe_false] at hcl hoL ⊢
          rw [sideLe_true] at ho
          exact le_trans ho (le_trans hcl hoL)
        · rw [hm] at hcl hoL hsL
          obtain ⟨_, hci, hci2, _, _⟩ := correspond_of_min i (by omega) hm
          obtain ⟨_, _, hs3, _⟩ := safeCorrespond_of_min m_data i hi hlen h2 hm
          rw [hs3 (by omega)]
          obtain ⟨_, hsLm, hsL3, hsL4⟩ := safeCorrespond_of_min m_data (2 * i + 2) hL hlen h2 hsL
          rw [sideLe_true] at hcl hoL ⊢
          by_cases hex : correspond (2 * i + 2) < m_data.length
          · rw [hsL3 hex] at hcl hsLm
            have ho := hord (correspond (2 * i + 2)) hc2 hex
            rw [hpc, hsLm, sideLe_false] at ho
            exact le_trans hoL (le_trans hcl ho)
          · obtain ⟨_, h5⟩ := hsL4 (by omega)
            rw [h5, hpL] at hcl
            exact le_trans hoL hcl
  intro i hi
  exact key _ i rfl hi

/-- C20: in a Deap of at least two elements whose two heaps are heap-ordered, if
invariant 3 holds at every leaf then it holds at every node. -/
theorem cross_of_leaves (m_data : List Int) (hlen : m_data.length < 2 ^ 61)
    (h2 : 2 ≤ m_data.length) (hord : HeapOrd m_data)
    (hleaf : ∀ i, isLeaf m_data i = true → CrossAt m_data i) :
    ∀ i, i < m_data.length → CrossAt m_data i :=
  cross_from_leaves m_data hlen h2 hord hleaf

set_option maxRecDepth 100000 in
/-- C20 on the Deap `[1, 9, 3, 4, 7, 8]`. -/
theorem cross_of_leaves_witness :
    ([1, 9, 3, 4, 7, 8] : List Int).length < 2 ^ 61 ∧ 2 ≤ ([1, 9, 3, 4, 7, 8] : List Int).length ∧
    ∀ i, i < ([1, 9, 3, 4, 7, 8] : List Int).length → CrossAt [1, 9, 3, 4, 7, 8] i :=
  ⟨by decide, by decide,
    cross_of_leaves [1, 9, 3, 4, 7, 8] (by decide) (by decide)
      ((verify_iff _ (by decide)).1 (by decide)).1
      (fun i _ => by
        by_cases hi : i < ([1, 9, 3, 4, 7, 8] : List Int).length
        · exact ((verify_iff [1, 9, 3, 4, 7, 8] (by decide)).1 (by decide)).2 (by decide) i hi
        · rename_i h
          have := (isLeaf_iff [1, 9, 3, 4, 7, 8] i (by decide)).1 h
          exact absurd this.1 hi)⟩

end Deap

/-! ## `isMinNode`: the parity of the depth -/

namespace MinMaxHeap_Trait

theorem mm_log2_bounds (x : Nat) (hx : x ≠ 0) : 2 ^ Nat.log2 x ≤ x ∧ x < 2 * 2 ^ Nat.log2 x := by
  have h1 := Nat.log2_self_le hx
  have h2 : x < 2 ^ (Nat.log2 x + 1) := Nat.lt_log2_self
  rw [Nat.pow_succ] at h2
  omega

theorem mm_log2_unique (x j : Nat) (h1 : 2 ^ j ≤ x) (h2 : x < 2 * 2 ^ j) : Nat.log2 x = j := by
  have hx : x ≠ 0 := by
    have := Nat.two_pow_pos j
    omega
  apply Nat.le_antisymm
  · have : Nat.log2 x < j + 1 := by
      rw [Nat.log2_lt hx, Nat.pow_succ]; omega
    omega
  · rw [Nat.le_log2 hx]; exact h1

/-- With enough fuel the loop of `isMinNode` leaves through its own test, after
`log2 x - j` rounds. -/
theorem isMinNodeLoop_eq (fuel : Nat) : ∀ (j x : Nat) (b : Bool), x < 2 ^ 64 → 2 ^ j ≤ x →
    Nat.log2 x - j < fuel →
    isMinNodeLoop fuel x (2 ^ j) b = if (Nat.log2 x - j) % 2 = 0 then b else !b := by
  induction fuel with
  | zero => intro j x b _ _ h; omega
  | succ fuel ih =>
    intro j x b hx hj hf
    have hx0 : x ≠ 0 := by
      have := Nat.two_pow_pos j
      omega
    have hjl : j ≤ Nat.log2 x := (Nat.le_log2 hx0).2 hj
    have hsub : (x + 2 ^ 64 - 2 ^ j) % 2 ^ 64 = x - 2 ^ j := by
      have : x + 2 ^ 64 - 2 ^ j = (x - 2 ^ j) + 2 ^ 64 := by omega
      rw [this, Nat.add_mod_right]
      exact Nat.mod_eq_of_lt (lt_of_le_of_lt (Nat.sub_le _ _) hx)
    rw [isMinNodeLoop, hsub]
    by_cases hc : x - 2 ^ j ≥ 2 ^ j
    · rw [if_pos hc]
      have h2j : 2 ^ (j + 1) ≤ x := by rw [Nat.pow_succ]; omega
      have hshift : (2 ^ j <<< 1) % 2 ^ 64 = 2 ^ (j + 1) := by
        have e1 : 2 ^ j <<< 1 = 2 ^ (j + 1) := by
          rw [Nat.shiftLeft_eq]; rfl
        rw [e1]
        exact Nat.mod_eq_of_lt (lt_of_le_of_lt h2j hx)
      have hjl1 : j + 1 ≤ Nat.log2 x := (Nat.le_log2 hx0).2 h2j
      rw [hshift, ih (j + 1) x (!b) hx h2j (by omega)]
      have e : Nat.log2 x - j = (Nat.log2 x - (j + 1)) + 1 := by omega
      rw [e]
      rcases Nat.mod_two_eq_zero_or_one (Nat.log2 x - (j + 1)) with h | h
      · have : (Nat.log2 x - (j + 1) + 1) % 2 = 1 := by omega
        simp [h, this]
      · have : (Nat.log2 x - (j + 1) + 1) % 2 = 0 := by omega
        simp [h, this]
    · rw [if_neg hc]
      have : Nat.log2 x = j := mm_log2_unique x j hj (by omega)
      simp [this]

/-- `isMinNode` with any fuel from `64` on, for an index whose successor is not `0`. -/
theorem isMinNodeLoop_depth (i fuel : Nat) (h : i + 1 < 2 ^ 64) (hf : 64 ≤ fuel) :
    isMinNodeLoop fuel ((i + 1) % 2 ^ 64) 1 true = decide (Nat.log2 (i + 1) % 2 = 0) := by
  rw [Nat.mod_eq_of_lt h]
  have hl : Nat.log2 (i + 1) < 64 := (Nat.log2_lt (by omega)).2 h
  have := isMinNodeLoop_eq fuel 0 (i + 1) true h (by simp) (by omega)
  rw [Nat.pow_zero] at this
  rw [this]
  by_cases hp : Nat.log2 (i + 1) % 2 = 0
  · simp [hp]
  · simp [hp]

theorem isMinNode_depth (i : Nat) (h : i + 1 < 2 ^ 64) :
    isMinNode i = decide (Nat.log2 (i + 1) % 2 = 0) :=
  isMinNodeLoop_depth i 64 h (Nat.le_refl _)

theorem mm_log2_child (i c : Nat) (hc : c = 2 * i + 1 ∨ c = 2 * i + 2) :
    Nat.log2 (c + 1) = Nat.log2 (i + 1) + 1 := by
  have hb := mm_log2_bounds (i + 1) (by omega)
  apply mm_log2_unique
  · rw [Nat.pow_succ]; omega
  · rw [Nat.pow_succ]; omega

theorem isMinNode_child (i c : Nat) (hc : c = 2 * i + 1 ∨ c = 2 * i + 2) (h : c + 1 < 2 ^ 64) :
    isMinNode c = !isMinNode i := by
  rw [isMinNode_depth c h, isMinNode_depth i (by omega), mm_log2_child i c hc]
  rcases Nat.mod_two_eq_zero_or_one (Nat.log2 (i + 1)) with h0 | h1
  · have : (Nat.log2 (i + 1) + 1) % 2 = 1 := by omega
    simp [h0, this]
  · have : (Nat.log2 (i + 1) + 1) % 2 = 0 := by omega
    simp [h1, this]

/-- C19: `isMinNode(0)` is true and `isMinNode(2^64 - 2)` is false; for an index `i` whose
children are computed without overflow, `isMinNode` of both children is the negation of
`isMinNode(i)`; `isMinNode(i)` is true exactly when the depth `log2 (i + 1)` is even; and
the loop leaves through its own test within `64` rounds (every fuel from `64` on gives
the same result) whenever `i + 1` is not `0` in `size_t`. -/
theorem isMinNode_spec (i : Nat) (h : 2 * i + 3 < 2 ^ 64) :
    isMinNode 0 = true ∧ isMinNode (2 ^ 64 - 2) = false ∧
    isMinNode (leftChild i) = (!isMinNode i) ∧ isMinNode (rightChild i) = (!isMinNode i) ∧
    (isMinNode i = true ↔ Nat.log2 (i + 1) % 2 = 0) ∧
    (∀ k fuel : Nat, k + 1 < 2 ^ 64 → 64 ≤ fuel →
      isMinNodeLoop fuel ((k + 1) % 2 ^ 64) 1 true = isMinNode k) := by
  have hl : leftChild i = 2 * i + 1 := by
    unfold leftChild; rw [Nat.mod_eq_of_lt (by omega)]; omega
  have hr : rightChild i = 2 * i + 2 := by
    unfold rightChild; rw [Nat.mod_eq_of_lt (by omega)]; omega
  refine ⟨by decide, by decide, ?_, ?_, ?_, ?_⟩
  · rw [hl]; exact isMinNode_child i _ (Or.inl rfl) (by omega)
  · rw [hr]; exact isMinNode_child i _ (Or.inr rfl) (by omega)
  · rw [isMinNode_depth i (by omega)]; simp
  · intro k fuel hk hf
    rw [isMinNodeLoop_depth k fuel hk hf, isMinNode_depth k hk]

/-- C19 at index `5`. -/
theorem isMinNode_spec_witness :
    2 * 5 + 3 < 2 ^ 64 ∧ isMinNode (leftChild 5) = (!isMinNode 5) ∧
      isMinNode (rightChild 5) = (!isMinNode 5) :=
  ⟨by decide, (isMinNode_spec 5 (by decide)).2.2.1, (isMinNode_spec 5 (by decide)).2.2.2.1⟩

end MinMaxHeap_Trait

/-! ## `inMinHeap` and `correspond` on the whole `size_t` range -/

namespace Deap_Trait

theorem half_le_pow62 (i : Nat) (h : i + 2 < 2 ^ 64) : half i ≤ 2 ^ 62 := by
  have h1 : Nat.log2 (i + 2) < 64 := (Nat.log2_lt (by omega)).2 h
  unfold half
  exact Nat.pow_le_pow_right (by decide) (by omega)

theorem correspond_eq_wide (i : Nat) (h : i + 2 < 2 ^ 64) :
    correspond i = if i + 2 < 3 * half i then i + half i else i - half i := by
  have h62 := half_le_pow62 i h
  unfold correspond
  simp only [Nat.mod_eq_of_lt h, highestOne_shift i h]
  have hb := half_bounds i
  obtain ⟨m, hm⟩ : ∃ m, half i = 2 ^ m := ⟨_, rfl⟩
  have hdm : 2 ^ m * ((i + 2) / 2 ^ m) + (i + 2) % 2 ^ m = i + 2 := Nat.div_add_mod _ _
  have hs : (i + 2) % 2 ^ m < 2 ^ m := Nat.mod_lt _ (Nat.two_pow_pos m)
  have hxor : (i + 2) ^^^ half i = 2 ^ m * (((i + 2) / 2 ^ m) ^^^ 1) + (i + 2) % 2 ^ m := by
    rw [hm]
    conv_lhs => rw [← hdm]
    exact xor_two_pow_mul _ _ _ hs
  rw [hxor, hm]
  rw [hm] at hb h62
  have hp := Nat.two_pow_pos m
  have ha1 : 2 ≤ (i + 2) / 2 ^ m := by
    rw [Nat.le_div_iff_mul_le hp]; omega
  have ha2 : (i + 2) / 2 ^ m < 4 := by
    rw [Nat.div_lt_iff_lt_mul hp]; omega
  have hcases : (i + 2) / 2 ^ m = 2 ∨ (i + 2) / 2 ^ m = 3 := by omega
  have e23 : (2 : Nat) ^^^ 1 = 3 := by decide
  have e32 : (3 : Nat) ^^^ 1 = 2 := by decide
  clear hxor ha1 ha2 hm
  simp only [Nat.reducePow] at h h62 ⊢
  generalize (i + 2) % 2 ^ m = r at hdm hs ⊢
  generalize (i + 2) / 2 ^ m = a at hdm hcases ⊢
  generalize 2 ^ m = p at hdm hs hb hp h62 ⊢
  rcases hcases with h2 | h3
  · subst h2
    rw [e23]
    have hlt : i + 2 < 3 * p := by omega
    rw [if_pos hlt]
    have : p * 3 + r + 18446744073709551616 - 2 = (i + p) + 18446744073709551616 := by omega
    rw [this, Nat.add_mod_right]
    apply Nat.mod_eq_of_lt
    omega
  · subst h3
    rw [e32]
    have hlt : ¬ i + 2 < 3 * p := by omega
    rw [if_neg hlt]
    have : p * 2 + r + 18446744073709551616 - 2 = (i - p) + 18446744073709551616 := by omega
    rw [this, Nat.add_mod_right]
    apply Nat.mod_eq_of_lt
    omega

theorem inMinHeap_child_wide (i c : Nat) (hc : c = 2 * i + 2 ∨ c = 2 * i + 3)
    (h : c + 2 < 2 ^ 64) : inMinHeap c = inMinHeap i := by
  have h1 := inMinHeap_iff c h
  have h2 := inMinHeap_iff i (by omega)
  have hh := half_child i c hc
  have hb := half_bounds i
  have hiff : inMinHeap c = true ↔ inMinHeap i = true := by
    rw [h1, h2, hh]
    constructor <;> intro _ <;> omega
  cases hci : inMinHeap c <;> cases hii : inMinHeap i <;> simp [hci, hii] at hiff ⊢

theorem inMinHeap_testBit (i : Nat) (h : i + 2 < 2 ^ 64) :
    inMinHeap i = !(Nat.testBit (i + 2) (Nat.log2 (i + 2) - 1)) := by
  have h1 := inMinHeap_iff i h
  have hb := half_bounds i
  have hhalf : half i = 2 ^ (Nat.log2 (i + 2) - 1) := rfl
  have hp := half_pos i
  rw [Nat.testBit_to_div_mod, ← hhalf]
  have ha1 : 2 ≤ (i + 2) / half i := by
    rw [Nat.le_div_iff_mul_le hp]; omega
  have ha2 : (i + 2) / half i < 4 := by
    rw [Nat.div_lt_iff_lt_mul hp]; omega
  have hdm : half i * ((i + 2) / half i) + (i + 2) % half i = i + 2 := Nat.div_add_mod _ _
  have hs : (i + 2) % half i < half i := Nat.mod_lt _ hp
  have hcases : (i + 2) / half i = 2 ∨ (i + 2) / half i = 3 := by omega
  rcases hcases with hq | hq
  · rw [hq] at hdm ⊢
    have : inMinHeap i = true := h1.2 (by omega)
    rw [this]; simp
  · rw [hq] at hdm ⊢
    have : ¬ inMinHeap i = true := fun hc => by
      have := h1.1 hc
      omega
    simp at this
    rw [this]; simp

end Deap_Trait

namespace Deap_Trait

theorem leftChild_wide (i : Nat) (h : 2 * i + 5 < 2 ^ 64) : leftChild i = 2 * i + 2 := by
  unfold leftChild
  rw [Nat.mod_eq_of_lt (by omega)]; omega

theorem rightChild_wide (i : Nat) (h : 2 * i + 5 < 2 ^ 64) : rightChild i = 2 * i + 3 := by
  unfold rightChild
  rw [Nat.mod_eq_of_lt (by omega)]; omega

theorem inMinHeap_reachable (r j : Nat) (h : Reachable r j) : inMinHeap j = inMinHeap r := by
  induction h with
  | root => rfl
  | left _ hb ih =>
    rw [leftChild_wide _ hb, inMinHeap_child_wide _ _ (Or.inl rfl) (by omega), ih]
  | right _ hb ih =>
    rw [rightChild_wide _ hb, inMinHeap_child_wide _ _ (Or.inr rfl) (by omega), ih]

/-- C17: `inMinHeap(0)` is true and `inMinHeap(1)` is false; when the children of `i` and
the shift by `2` do not overflow, both children of `i` are in the same heap as `i`; so
every node reached from `0` is in the min heap and every node reached from `1` is not;
and `inMinHeap(i)` is true exactly when the second-highest bit of `i + 2` is `0`. -/
theorem inMinHeap_spec (i : Nat) (h : 2 * i + 5 < 2 ^ 64) :
    inMinHeap 0 = true ∧ inMinHeap 1 = false ∧
    inMinHeap (leftChild i) = inMinHeap i ∧ inMinHeap (rightChild i) = inMinHeap i ∧
    (Reachable 0 i → inMinHeap i = true) ∧ (Reachable 1 i → inMinHeap i = false) ∧
    inMinHeap i = !(Nat.testBit (i + 2) (Nat.log2 (i + 2) - 1)) := by
  refine ⟨inMinHeap_zero, inMinHeap_one, ?_, ?_, ?_, ?_, inMinHeap_testBit i (by omega)⟩
  · rw [leftChild_wide i h]; exact inMinHeap_child_wide i _ (Or.inl rfl) (by omega)
  · rw [rightChild_wide i h]; exact inMinHeap_child_wide i _ (Or.inr rfl) (by omega)
  · intro hr; rw [inMinHeap_reachable 0 i hr]; exact inMinHeap_zero
  · intro hr; rw [inMinHeap_reachable 1 i hr]; exact inMinHeap_one

/-- C17 at index `6`, the left child of the left child of `0`. -/
theorem inMinHeap_spec_witness :
    2 * 6 + 5 < 2 ^ 64 ∧ Reachable 0 6 ∧ inMinHeap 6 = true ∧
      inMinHeap (leftChild 6) = inMinHeap 6 :=
  ⟨by decide,
    Reachable.left (Reachable.left Reachable.root (by decide)) (by decide),
    (inMinHeap_spec 6 (by decide)).2.2.2.2.1
      (Reachable.left (Reachable.left Reachable.root (by decide)) (by decide)),
    (inMinHeap_spec 6 (by decide)).2.2.1⟩

theorem correspond_wide (i : Nat) (h : i + 2 < 2 ^ 64) :
    correspond i + 2 < 2 ^ 64 ∧ half (correspond i) = half i ∧
    (inMinHeap i = true → correspond i = i + half i) ∧
    (inMinHeap i = false → correspond i + half i = i) ∧
    inMinHeap (correspond i) = (!inMinHeap i) := by
  have he := correspond_eq_wide i h
  have hb := half_bounds i
  have hp := half_pos i
  have h62 := half_le_pow62 i h
  have hiff := inMinHeap_iff i h
  by_cases hlt : i + 2 < 3 * half i
  · rw [if_pos hlt] at he
    have hh : half (i + half i) = half i := half_of_bounds i _ (by omega) (by omega)
    have hm : inMinHeap i = true := hiff.2 hlt
    have hc2 : i + half i + 2 < 2 ^ 64 := by omega
    have hcm : inMinHeap (i + half i) = false := by
      have := inMinHeap_iff (i + half i) hc2
      rw [hh] at this
      cases hx : inMinHeap (i + half i)
      · rfl
      · have := this.1 hx; omega
    rw [he, hm]
    refine ⟨hc2, hh, fun _ => rfl, fun hf => ?_, ?_⟩
    · cases hf
    · simpa using hcm
  · rw [if_neg hlt] at he
    have hh : half (i - half i) = half i := half_of_bounds i _ (by omega) (by omega)
    have hm : inMinHeap i = false := by
      cases hx : inMinHeap i
      · rfl
      · exact absurd (hiff.1 hx) hlt
    have hcm : inMinHeap (i - half i) = true := by
      have := inMinHeap_iff (i - half i) (by omega)
      rw [hh] at this
      exact this.2 (by omega)
    have hge : half i ≤ i := by omega
    have hsub : i - half i + half i = i := Nat.sub_add_cancel hge
    have hc2 : i - half i + 2 < 2 ^ 64 := by omega
    rw [he, hm]
    refine ⟨hc2, hh, fun hf => ?_, fun _ => hsub, ?_⟩
    · cases hf
    · simpa using hcm

theorem correspond_involutive_wide (i : Nat) (h : i + 2 < 2 ^ 64) :
    correspond (correspond i) = i := by
  obtain ⟨h1, h2, h3, h4, h5⟩ := correspond_wide i h
  obtain ⟨_, _, k3, k4, _⟩ := correspond_wide (correspond i) h1
  cases hm : inMinHeap i
  · rw [hm] at h5
    have a := h4 hm
    have b := k3 (by simpa using h5)
    omega
  · rw [hm] at h5
    have a := h3 hm
    have b := k4 (by simpa using h5)
    omega

theorem correspond_child_wide (i c : Nat) (hc : c = 2 * i + 2 ∨ c = 2 * i + 3)
    (h : c + 2 < 2 ^ 64) :
    (c = 2 * i + 2 → correspond c = 2 * correspond i + 2) ∧
    (c = 2 * i + 3 → correspond c = 2 * correspond i + 3) ∧
    2 * correspond i + 5 < 2 ^ 64 := by
  obtain ⟨h1, _, h3, h4, _⟩ := correspond_wide c h
  obtain ⟨_, _, k3, k4, _⟩ := correspond_wide i (by omega)
  have hside := inMinHeap_child_wide i c hc h
  have hh := half_child i c hc
  have hb := half_bounds i
  cases hm : inMinHeap i
  · rw [hm] at hside
    have a := h4 hside
    have b := k4 hm
    refine ⟨fun _ => by omega, fun _ => by omega, by omega⟩
  · rw [hm] at hside
    have a := h3 hside
    have b := k3 hm
    refine ⟨fun _ => by omega, fun _ => by omega, by omega⟩

theorem correspond_leftChild_wide (i : Nat) (h : 2 * i + 5 < 2 ^ 64) :
    correspond (leftChild i) = leftChild (correspond i) := by
  obtain ⟨h1, _, h3⟩ := correspond_child_wide i (2 * i + 2) (Or.inl rfl) (by omega)
  rw [leftChild_wide i h, h1 rfl, leftChild_wide _ h3]

theorem correspond_rightChild_wide (i : Nat) (h : 2 * i + 5 < 2 ^ 64) :
    correspond (rightChild i) = rightChild (correspond i) := by
  obtain ⟨_, h2, h3⟩ := correspond_child_wide i (2 * i + 3) (Or.inr rfl) (by omega)
  rw [rightChild_wide i h, h2 rfl, rightChild_wide _ h3]

theorem correspond_mirror (L R : Nat) (h : Mirror L R) : correspond L = R ∧ correspond R = L := by
  induction h with
  | root => exact ⟨correspond_zero, correspond_one⟩
  | left _ hL hR ih =>
    rw [correspond_leftChild_wide _ hL, correspond_leftChild_wide _ hR, ih.1, ih.2]
    exact ⟨rfl, rfl⟩
  | right _ hL hR ih =>
    rw [correspond_rightChild_wide _ hL, correspond_rightChild_wide _ hR, ih.1, ih.2]
    exact ⟨rfl, rfl⟩

/-- C18: `correspond(0) = 1`; every pair `(L, R)` reached from `(0, 1)` by the same child
steps is exchanged by `correspond`; and for every `i` whose children and shift by `2` do
not overflow, `correspond` is an involution at `i`, commutes with `leftChild` and with
`rightChild`, and flips `inMinHeap`. -/
theorem correspond_spec (i L R : Nat) (h : 2 * i + 5 < 2 ^ 64) (hm : Mirror L R) :
    correspond 0 = 1 ∧ (correspond L = R ∧ correspond R = L) ∧
    correspond (correspond i) = i ∧
    correspond (leftChild i) = leftChild (correspond i) ∧
    correspond (rightChild i) = rightChild (correspond i) ∧
    inMinHeap (correspond i) = (!inMinHeap i) :=
  ⟨correspond_zero, correspond_mirror L R hm, correspond_involutive_wide i (by omega),
    correspond_leftChild_wide i h, correspond_rightChild_wide i h,
    (correspond_wide i (by omega)).2.2.2.2⟩

/-- C18 at index `3` and the pair `(leftChild 0, leftChild 1)`. -/
theorem correspond_spec_witness :
    2 * 3 + 5 < 2 ^ 64 ∧ Mirror (leftChild 0) (leftChild 1) ∧
      correspond (leftChild 0) = leftChild 1 ∧ correspond (correspond 3) = 3 :=
  ⟨by decide, Mirror.left Mirror.root (by decide) (by decide),
    (correspond_spec 3 _ _ (by decide) (Mirror.left Mirror.root (by decide) (by decide))).2.1.1,
    (correspond_spec 3 _ _ (by decide)
      (Mirror.left Mirror.root (by decide) (by decide))).2.2.1⟩

end Deap_Trait

/-! ## The Min-Max Heap invariant, node by node -/

namespace MinMaxHeap
open MinMaxHeap_Trait Vec

theorem mm_parent_lt (j : Nat) (h : 0 < j) : parent j < j := by
  unfold parent; rw [if_neg (by omega)]; omega

theorem mm_parent_eq (j : Nat) (h : 0 < j) : parent j = (j - 1) / 2 := by
  unfold parent; rw [if_neg (by omega)]

theorem mm_isMinNode_parent (j : Nat) (h : 0 < j) (hb : j + 1 < 2 ^ 64) :
    isMinNode j = !isMinNode (parent j) := by
  rw [mm_parent_eq j h]
  exact isMinNode_child ((j - 1) / 2) j (by omega) hb

theorem inSubtree_inv (i j : Nat) (h : InSubtree i j) :
    i = j ∨ (0 < j ∧ InSubtree i (parent j)) := by
  cases h with
  | root => exact Or.inl rfl
  | child h0 hp => exact Or.inr ⟨h0, hp⟩

theorem inSubtree_le (i j : Nat) (h : InSubtree i j) : i ≤ j := by
  induction h with
  | root => exact Nat.le_refl _
  | child h0 _ ih => have := mm_parent_lt _ h0; omega

theorem levelLe_true (x y : Int) : levelLe true x y = true ↔ x ≤ y := by simp [levelLe]

theorem levelLe_false (x y : Int) : levelLe false x y = true ↔ y ≤ x := by simp [levelLe]

theorem checkNode_iff (d : List Int) (j : Nat) :
    checkNode d j = true ↔
      (0 < j → levelLe (isMinNode (parent j)) (get d (parent j)) (get d j) = true) ∧
      (3 ≤ j → levelLe (isMinNode (parent (parent j))) (get d (parent (parent j)))
        (get d j) = true) := by
  unfold checkNode
  simp only [Bool.and_eq_true, Bool.or_eq_true, beq_iff_eq, decide_eq_true_eq]
  constructor
  · rintro ⟨h1, h2⟩
    exact ⟨fun h => by rcases h1 with h1 | h1; omega; exact h1,
      fun h => by rcases h2 with h2 | h2; omega; exact h2⟩
  · rintro ⟨h1, h2⟩
    refine ⟨?_, ?_⟩
    · by_cases h : j = 0
      · exact Or.inl h
      · exact Or.inr (h1 (by omega))
    · by_cases h : j < 3
      · exact Or.inl h
      · exact Or.inr (h2 (by omega))

/-- The local test implies the invariant on whole subtrees. -/
theorem invariant_of_check (d : List Int) (hlen : d.length < 2 ^ 63)
    (hc : checkInvariant d = true) : Invariant d := by
  have hnode : ∀ j, j < d.length → _ := fun j hj =>
    (checkNode_iff d j).1 (List.all_eq_true.1 hc j (List.mem_range.2 hj))
  have key : ∀ j, j < d.length → ∀ i, InSubtree i j →
      (isMinNode i = true → get d i ≤ get d j) ∧ (isMinNode i = false → get d j ≤ get d i) := by
    intro j
    induction j using Nat.strong_induction_on with
    | _ j ih =>
      intro hj i hij
      rcases inSubtree_inv i j hij with h | ⟨hj0, hp⟩
      · subst h
        exact ⟨fun _ => le_refl _, fun _ => le_refl _⟩
      · have hpl := mm_parent_lt j hj0
        obtain ⟨l1, l2⟩ := hnode j hj
        have l1 := l1 hj0
        have ihp := ih (parent j) hpl (by omega) i hp
        cases hmp : isMinNode (parent j)
        · -- the parent is on a max level
          rw [hmp, levelLe_false] at l1
          refine ⟨fun hi => ?_, fun hi => le_trans l1 (ihp.2 hi)⟩
          rcases inSubtree_inv i _ hp with h | ⟨hp0, hg⟩
          · rw [h, hmp] at hi; cases hi
          · have hgl := mm_parent_lt _ hp0
            have hmg : isMinNode (parent (parent j)) = true := by
              have := mm_isMinNode_parent (parent j) hp0 (by omega)
              rw [hmp] at this
              cases hx : isMinNode (parent (parent j))
              · rw [hx] at this; cases this
              · rfl
            have hj3 : 3 ≤ j := by
              rw [mm_parent_eq j hj0] at hp0; omega
            have l2 := l2 hj3
            rw [hmg, levelLe_true] at l2
            exact le_trans ((ih _ (by omega) (by omega) i hg).1 hi) l2
        · -- the parent is on a min level
          rw [hmp, levelLe_true] at l1
          refine ⟨fun hi => le_trans (ihp.1 hi) l1, fun hi => ?_⟩
          rcases inSubtree_inv i _ hp with h | ⟨hp0, hg⟩
          · rw [h, hmp] at hi; cases hi
          · have hgl := mm_parent_lt _ hp0
            have hmg : isMinNode (parent (parent j)) = false := by
              have := mm_isMinNode_parent (parent j) hp0 (by omega)
              rw [hmp] at this
              cases hx : isMinNode (parent (parent j))
              · rfl
              · rw [hx] at this; cases this
            have hj3 : 3 ≤ j := by
              rw [mm_parent_eq j hj0] at hp0; omega
            have l2 := l2 hj3
            rw [hmg, levelLe_false] at l2
            exact le_trans l2 ((ih _ (by omega) (by omega) i hg).2 hi)
  intro i j _ hj hij
  exact key j hj i hij

/-- The invariant implies the local test. -/
theorem check_of_invariant (d : List Int) (hinv : Invariant d) : checkInvariant d = true := by
  unfold checkInvariant
  rw [List.all_eq_true]
  intro j hj
  have hj := List.mem_range.1 hj
  rw [checkNode_iff]
  constructor
  · intro hj0
    have hpl := mm_parent_lt j hj0
    have := hinv (parent j) j (by omega) hj (InSubtree.child hj0 InSubtree.root)
    cases hm : isMinNode (parent j)
    · rw [levelLe_false]; exact this.2 hm
    · rw [levelLe_true]; exact this.1 hm
  · intro hj3
    have hj0 : 0 < j := by omega
    have hpl := mm_parent_lt j hj0
    have hp0 : 0 < parent j := by rw [mm_parent_eq j hj0]; omega
    have hgl := mm_parent_lt _ hp0
    have := hinv (parent (parent j)) j (by omega) hj
      (InSubtree.child hj0 (InSubtree.child hp0 InSubtree.root))
    cases hm : isMinNode (parent (parent j))
    · rw [levelLe_false]; exact this.2 hm
    · rw [levelLe_true]; exact this.1 hm

theorem inSubtree_zero (j : Nat) : InSubtree 0 j := by
  induction j using Nat.strong_induction_on with
  | _ j ih =>
    rcases Nat.eq_zero_or_pos j with h | h
    · subst h; exact InSubtree.root
    · exact InSubtree.child h (ih _ (mm_parent_lt j h))

theorem inSubtree_one_or_two (j : Nat) (hj : 1 ≤ j) : InSubtree 1 j ∨ InSubtree 2 j := by
  induction j using Nat.strong_induction_on with
  | _ j ih =>
    by_cases h1 : j = 1
    · subst h1; exact Or.inl InSubtree.root
    · by_cases h2 : j = 2
      · subst h2; exact Or.inr InSubtree.root
      · have hp := mm_parent_lt j (by omega)
        have hp1 : 1 ≤ parent j := by rw [mm_parent_eq j (by omega)]; omega
        rcases ih _ hp hp1 with h | h
        · exact Or.inl (InSubtree.child (by omega) h)
        · exact Or.inr (InSubtree.child (by omega) h)

end MinMaxHeap

/-! ## The extracted values of the Min-Max Heap -/

namespace MinMaxHeap
open MinMaxHeap_Trait Vec

theorem mm_exists_index_of_mem (d : List Int) (x : Int) (hx : x ∈ d) :
    ∃ i, i < d.length ∧ x = get d i := by
  obtain ⟨i, hi, rfl⟩ := List.getElem_of_mem hx
  exact ⟨i, hi, (get_eq_getElem d i hi).symm⟩

theorem mm_root_le_all (d : List Int) (hinv : Invariant d) (i : Nat) (hi : i < d.length) :
    get d 0 ≤ get d i :=
  (hinv 0 i (by omega) hi (inSubtree_zero i)).1 (by decide)

theorem mm_all_le_max (d : List Int) (hinv : Invariant d) (h3 : 3 ≤ d.length) (i : Nat)
    (hi : i < d.length) : get d i ≤ max (get d 1) (get d 2) := by
  rcases Nat.eq_zero_or_pos i with h0 | h0
  · subst h0
    have := mm_root_le_all d hinv 1 (by omega)
    exact le_trans this (le_max_left _ _)
  · rcases inSubtree_one_or_two i h0 with h | h
    · exact le_trans ((hinv 1 i (by omega) hi h).2 (by decide)) (le_max_left _ _)
    · exact le_trans ((hinv 2 i (by omega) hi h).2 (by decide)) (le_max_right _ _)

set_option maxRecDepth 100000 in
/-- C11: on a non-empty Min-Max Heap that satisfies the invariant, `popMin` returns the
element at index `0`, which is `≤` every stored element, and `popMax` returns the larger of
the elements at indices `1` and `2` (the last element when the size is `1` or `2`), which
is `≥` every stored element.  Built from `[9, 1, 6, 3, 3, 8]`, the calls `popMin`, `popMin`,
`popMin`, `popMax`, `popMax`, `popMax` return `1, 3, 3, 9, 8, 6`. -/
theorem mm_pop_extreme (m_data : List Int) (hne : m_data ≠ []) (hinv : Invariant m_data) :
    (∃ rest, popMin m_data = some (get m_data 0, rest) ∧ ∀ x ∈ m_data, get m_data 0 ≤ x) ∧
    (∃ rest, popMax m_data =
        some (if m_data.length ≤ 2 then get m_data (m_data.length - 1)
          else max (get m_data 1) (get m_data 2), rest) ∧
      ∀ x ∈ m_data, x ≤ (if m_data.length ≤ 2 then get m_data (m_data.length - 1)
          else max (get m_data 1) (get m_data 2))) ∧
    (ofList [9, 1, 6, 3, 3, 8] = [1, 9, 8, 3, 3, 6] ∧
      popMin [1, 9, 8, 3, 3, 6] = some (1, [3, 9, 8, 6, 3]) ∧
      popMin [3, 9, 8, 6, 3] = some (3, [3, 9, 8, 6]) ∧
      popMin [3, 9, 8, 6] = some (3, [6, 9, 8]) ∧
      popMax [6, 9, 8] = some (9, [6, 8]) ∧
      popMax [6, 8] = some (8, [6]) ∧
      popMax [6] = some (6, [])) := by
  have hpos : m_data.length ≠ 0 := fun h => hne (List.length_eq_zero.1 h)
  refine ⟨?_, ?_, by decide⟩
  · have hmin : ∀ x ∈ m_data, get m_data 0 ≤ x := by
      intro x hx
      obtain ⟨i, hi, rfl⟩ := mm_exists_index_of_mem m_data x hx
      exact mm_root_le_all m_data hinv i hi
    unfold popMin
    rw [if_neg hpos]
    exact ⟨_, rfl, hmin⟩
  · unfold popMax
    rw [if_neg hpos]
    by_cases h12 : m_data.length = 1 ∨ m_data.length = 2
    · have hle : m_data.length ≤ 2 := by omega
      rw [if_pos h12, if_pos hle]
      refine ⟨_, rfl, ?_⟩
      intro x hx
      obtain ⟨i, hi, rfl⟩ := mm_exists_index_of_mem m_data x hx
      rcases h12 with h1 | h2
      · have : i = 0 := by omega
        rw [this, h1]
      · rw [h2]
        have hi01 : i = 0 ∨ i = 1 := by omega
        rcases hi01 with h | h
        · rw [h]; exact mm_root_le_all m_data hinv 1 (by omega)
        · rw [h]
    · have hgt : ¬ m_data.length ≤ 2 := by omega
      rw [if_neg h12, if_neg hgt]
      dsimp only
      have hret : get m_data (if get m_data 1 > get m_data 2 then 1 else 2) =
          max (get m_data 1) (get m_data 2) := by
        by_cases hc : get m_data 1 > get m_data 2
        · rw [if_pos hc, max_eq_left (le_of_lt hc)]
        · rw [if_neg hc, max_eq_right (by omega)]
      rw [hret]
      refine ⟨_, rfl, ?_⟩
      intro x hx
      obtain ⟨i, hi, rfl⟩ := mm_exists_index_of_mem m_data x hx
      exact mm_all_le_max m_data hinv (by omega) i hi

set_option maxRecDepth 100000 in
/-- C11 at the Min-Max Heap `[1, 9, 8, 3, 3, 6]`. -/
theorem mm_pop_extreme_witness :
    ([1, 9, 8, 3, 3, 6] : List Int) ≠ [] ∧ Invariant [1, 9, 8, 3, 3, 6] ∧
    (∃ rest, popMin [1, 9, 8, 3, 3, 6] = some (get [1, 9, 8, 3, 3, 6] 0, rest) ∧
      ∀ x ∈ ([1, 9, 8, 3, 3, 6] : List Int), get [1, 9, 8, 3, 3, 6] 0 ≤ x) :=
  ⟨by decide, invariant_of_check _ (by decide) (by decide),
    (mm_pop_extreme [1, 9, 8, 3, 3, 6] (by decide)
      (invariant_of_check _ (by decide) (by decide))).1⟩

end MinMaxHeap

/-! ## Size accounting -/

namespace Deap
open Deap_Trait Vec

theorem length_pullUpLoop (less : Int → Int → Bool) (fuel : Nat) : ∀ (d : List Int) (id : Nat),
    (pullUpLoop less fuel d id).length = d.length := by
  induction fuel with
  | zero => intro d id; rfl
  | succ fuel ih =>
    intro d id
    rw [pullUpLoop]
    split
    · dsimp only
      split
      · rw [ih, length_swapAt]
      · rfl
    · rfl

theorem length_pullUp (d : List Int) (id : Nat) : (pullUp d id).length = d.length :=
  length_pullUpLoop _ _ d id

theorem length_pushDownLoop (less : Int → Int → Bool) (fuel : Nat) :
    ∀ (d : List Int) (id : Nat), (pushDownLoop less fuel d id).length = d.length := by
  induction fuel with
  | zero => intro d id; rfl
  | succ fuel ih =>
    intro d id
    rw [pushDownLoop]
    split
    · dsimp only
      split
      · rfl
      · rw [ih, length_swapAt]
    · rfl

theorem length_pushDown (d : List Int) (id : Nat) : (pushDown d id).length = d.length :=
  length_pushDownLoop _ _ d id

theorem length_heapifyFrom (i : Nat) : ∀ d : List Int, (heapifyFrom i d).length = d.length := by
  induction i with
  | zero => intro d; exact length_pushDown d 0
  | succ i ih => intro d; rw [heapifyFrom, ih, length_pushDown]

theorem length_fixPairLoop (fuel : Nat) : ∀ (d : List Int) (a b : Nat),
    (fixPairLoop fuel d a b).length = d.length := by
  induction fuel with
  | zero => intro d a b; rfl
  | succ fuel ih =>
    intro d a b
    rw [fixPairLoop]
    split
    · rw [ih, length_pullUp, length_pullUp, length_swapAt]
    · rfl

theorem length_fixLeaf (d : List Int) (i : Nat) : (fixLeaf d i).length = d.length := by
  unfold fixLeaf
  dsimp only
  split <;> exact length_fixPairLoop _ _ _ _

theorem length_leafLoop (i : Nat) : ∀ d : List Int, (leafLoop i d).length = d.length := by
  induction i with
  | zero =>
    intro d
    rw [leafLoop]
    split
    · exact length_fixLeaf d 0
    · rfl
  | succ i ih =>
    intro d
    rw [leafLoop]
    split
    · rw [ih, length_fixLeaf]
    · rfl

theorem length_buildDeap (d : List Int) : (buildDeap d).length = d.length := by
  unfold buildDeap
  split
  · rfl
  · dsimp only
    rw [length_leafLoop, length_heapifyFrom]

theorem length_insert (d : List Int) (id : Nat) : (insert d id).length = d.length := by
  unfold insert
  dsimp only
  repeat' split
  all_goals simp only [length_pullUp, length_swapAt]

theorem length_push (d : List Int) (v : Int) : (push d v).length = d.length + 1 := by
  unfold push
  dsimp only
  rw [length_insert]
  simp

theorem length_sinkLoop (takeLeft : Int → Int → Bool) (fuel : Nat) :
    ∀ (d : List Int) (e : Nat), (sinkLoop takeLeft fuel d e).1.length = d.length := by
  induction fuel with
  | zero => intro d e; rfl
  | succ fuel ih =>
    intro d e
    rw [sinkLoop]
    split
    · dsimp only
      split
      · rw [ih]; simp
      · rw [ih]; simp
    · rfl

theorem length_popMin (d : List Int) (v : Int) (r : List Int) (h : popMin d = some (v, r)) :
    r.length + 1 = d.length := by
  unfold popMin at h
  split at h
  · cases h
  · rename_i hne
    dsimp only at h
    have hs := length_sinkLoop (fun a b => decide (a < b)) d.length d 0
    split at h
    · cases h
      rw [length_dropLast, hs]; omega
    · cases h
      rw [length_insert, length_dropLast, List.length_set, hs]; omega

theorem length_popMax (d : List Int) (v : Int) (r : List Int) (h : popMax d = some (v, r)) :
    r.length + 1 = d.length := by
  unfold popMax at h
  split at h
  · cases h
  · rename_i hne
    split at h
    · cases h
      rw [length_dropLast]; omega
    · dsimp only at h
      have hs := length_sinkLoop (fun a b => decide (a > b)) d.length d 1
      split at h
      · split at h
        · cases h
          rw [length_insert, length_dropLast, hs]; omega
        · cases h
          rw [length_dropLast, hs]; omega
      · cases h
        rw [length_insert, length_dropLast, List.length_set, hs]; omega

end Deap

namespace MinMaxHeap
open MinMaxHeap_Trait Vec

theorem mm_length_pushDownLoop (less : Int → Int → Bool) (fuel : Nat) :
    ∀ (d : List Int) (root : Nat), (pushDownLoop less fuel d root).length = d.length := by
  induction fuel with
  | zero => intro d root; rfl
  | succ fuel ih =>
    intro d root
    rw [pushDownLoop]
    dsimp only
    repeat' split
    all_goals simp only [ih, length_swapAt]

theorem mm_length_pushDown (d : List Int) (root : Nat) : (pushDown d root).length = d.length :=
  mm_length_pushDownLoop _ _ d root

theorem mm_length_buildFrom (i : Nat) : ∀ d : List Int, (buildFrom i d).length = d.length := by
  induction i with
  | zero => intro d; exact mm_length_pushDown d 0
  | succ i ih => intro d; rw [buildFrom, ih, mm_length_pushDown]

theorem mm_length_ofList (d : List Int) : (ofList d).length = d.length := by
  unfold ofList
  split
  · rfl
  · exact mm_length_buildFrom _ _

theorem mm_length_pushMinLoop (fuel : Nat) : ∀ (d : List Int) (v : Int) (id prev : Nat),
    (pushMinLoop fuel d v id prev).1.length = d.length := by
  induction fuel with
  | zero => intro d v id prev; rfl
  | succ fuel ih =>
    intro d v id prev
    rw [pushMinLoop]
    repeat' split
    all_goals simp only [ih, List.length_set]

theorem mm_length_pushMaxLoop (fuel : Nat) : ∀ (d : List Int) (v : Int) (id prev : Nat),
    (pushMaxLoop fuel d v id prev).1.length = d.length := by
  induction fuel with
  | zero => intro d v id prev; rfl
  | succ fuel ih =>
    intro d v id prev
    rw [pushMaxLoop]
    repeat' split
    all_goals simp only [ih, List.length_set]

theorem mm_length_push (d : List Int) (v : Int) : (push d v).length = d.length + 1 := by
  unfold push
  dsimp only
  repeat' split
  all_goals simp [mm_length_pushMinLoop, mm_length_pushMaxLoop]

theorem mm_length_popMin (d : List Int) (v : Int) (r : List Int)
    (h : popMin d = some (v, r)) : r.length + 1 = d.length := by
  unfold popMin at h
  split at h
  · cases h
  · cases h
    rw [mm_length_pushDown, length_dropLast, List.length_set]; omega

theorem mm_length_popMax (d : List Int) (v : Int) (r : List Int)
    (h : popMax d = some (v, r)) : r.length + 1 = d.length := by
  unfold popMax at h
  split at h
  · cases h
  · split at h
    · cases h
      rw [length_dropLast]; omega
    · cases h
      rw [mm_length_pushDown, length_dropLast, List.length_set]; omega

end MinMaxHeap

/-- C15: for the Deap and for the Min-Max Heap, the size after the construction from a
sequence is the length of the sequence, `push` adds exactly one to the size, and a
successful `popMin` or `popMax` removes exactly one. -/
theorem size_accounting (values m_data rest : List Int) (v w : Int) :
    (Deap.ofList values).length = values.length ∧
    (MinMaxHeap.ofList values).length = values.length ∧
    (Deap.push m_data v).length = m_data.length + 1 ∧
    (MinMaxHeap.push m_data v).length = m_data.length + 1 ∧
    (Deap.popMin m_data = some (w, rest) → rest.length + 1 = m_data.length) ∧
    (Deap.popMax m_data = some (w, rest) → rest.length + 1 = m_data.length) ∧
    (MinMaxHeap.popMin m_data = some (w, rest) → rest.length + 1 = m_data.length) ∧
    (MinMaxHeap.popMax m_data = some (w, rest) → rest.length + 1 = m_data.length) :=
  ⟨Deap.length_buildDeap values, MinMaxHeap.mm_length_ofList values,
    Deap.length_push m_data v, MinMaxHeap.mm_length_push m_data v,
    Deap.length_popMin m_data w rest, Deap.length_popMax m_data w rest,
    MinMaxHeap.mm_length_popMin m_data w rest, MinMaxHeap.mm_length_popMax m_data w rest⟩

/-! ## `insert` at a max-heap leaf -/

namespace Deap
open Deap_Trait Vec

/-- The children of the correspondent of a max-heap leaf `e` are min-heap leaves facing `e`. -/
theorem child_of_correspond_leaf (d : List Int) (e i : Nat) (hN : d.length < 2 ^ 61)
    (he : e < d.length) (hleaf : d.length ≤ 2 * e + 2) (hm : inMinHeap e = false)
    (hi : i < d.length) (hp : i = 2 * correspond e + 2 ∨ i = 2 * correspond e + 3) :
    inMinHeap i = true ∧ safeCorrespond d i = e ∧ d.length ≤ 2 * i + 2 := by
  obtain ⟨_, hce, _, hcm, _⟩ := correspond_of_max e (by omega) hm
  have hi2 : 2 ≤ i := by omega
  have hpi := parent_child (correspond e) i hp
  have him : inMinHeap i = true := by
    rw [inMinHeap_child (correspond e) i hp (by omega)]; exact hcm
  obtain ⟨hc1, hc2, hc3, _, _⟩ := correspond_of_min i (by omega) him
  obtain ⟨hq2, hq, _⟩ := parent_correspond i hi2 (by omega)
  rw [hpi, correspond_correspond e (by omega)] at hq
  have hch := child_of_parent (correspond i) hq2
  rw [hq] at hch
  obtain ⟨_, _, _, h4⟩ := safeCorrespond_of_min d i hi hN (by omega) him
  obtain ⟨_, h5⟩ := h4 (by omega)
  rw [hpi, correspond_correspond e (by omega)] at h5
  exact ⟨him, h5, by omega⟩

/-- The min-heap nodes facing the max-heap leaf `e` are its correspondent and the
children of its correspondent. -/
theorem facing_leaf (d : List Int) (e i : Nat) (hN : d.length < 2 ^ 61)
    (he : e < d.length) (hm : inMinHeap e = false) (hi : i < d.length)
    (him : inMinHeap i = true) (hs : safeCorrespond d i = e) :
    i = correspond e ∨ i = 2 * correspond e + 2 ∨ i = 2 * correspond e + 3 := by
  have hne := ne_of_side_ne i e him hm
  rcases safeCorrespond_eq_imp d i e hN (by omega) hi him hs with h | ⟨h2, hp, _⟩
  · exact Or.inl h
  · right
    have := child_of_parent i h2
    rw [hp] at this
    exact this

theorem exist_false_iff (d : List Int) (i : Nat) : exist d i = false ↔ d.length ≤ i := by
  simp [exist]

theorem isLeaf_false_of_child (d : List Int) (i : Nat) (h : d.length < 2 ^ 61)
    (hc : 2 * i + 2 < d.length) : isLeaf d i = false := by
  cases hl : isLeaf d i
  · rfl
  · have := (isLeaf_iff d i h).1 hl
    omega

/-- `insert` at a max-heap node, with the node `minN` it compares with. -/
theorem insert_of_max (d : List Int) (e minN : Nat) (he0 : e ≠ 0) (hm : inMinHeap e = false)
    (hminN : (if !isLeaf d (safeCorrespond d e) && !exist d (rightChild (safeCorrespond d e))
      then leftChild (safeCorrespond d e) else safeCorrespond d e) = minN) :
    insert d e =
      if isLeaf d minN then
        if get d minN ≤ get d e then pullUp d e
        else pullUp (swapAt d minN e) (safeCorrespond d e)
      else
        if get d (leftChild minN) ≤ get d e && get d (rightChild minN) ≤ get d e then
          pullUp d e
        else if get d (leftChild minN) > get d (rightChild minN) then
          pullUp (swapAt d (leftChild minN) e) (leftChild minN)
        else
          pullUp (swapAt d (rightChild minN) e) (rightChild minN) := by
  subst hminN
  unfold insert
  simp only [if_neg he0, hm, Bool.false_eq_true, if_false]
  rw [safeCorrespond_congr (swapAt d _ e) d (length_swapAt _ _ _)]

/-- `insert` at a max-heap leaf whose correspondent is a leaf. -/
theorem insert_max_leaf_valid (D0 : List Int) (e : Nat) (v : Int) (hN : D0.length < 2 ^ 61)
    (hV : Valid D0) (hnn : NonNeg D0) (hv : 0 ≤ v ∧ v < 2 ^ 31) (he : e < D0.length)
    (hleaf : D0.length ≤ 2 * e + 2) (hm : inMinHeap e = false)
    (hcl : D0.length ≤ 2 * correspond e + 2) :
    Valid (insert (D0.set e v) e) ∧ NonNeg (insert (D0.set e v) e) ∧
      (insert (D0.set e v) e).length = D0.length := by
  have he1 := max_ge_one e hm
  have hlenD : (D0.set e v).length = D0.length := by simp
  have hgD : ∀ k, get (D0.set e v) k = if k = e then v else get D0 k :=
    fun k => get_set D0 e k v he
  obtain ⟨hsc, hc, hcm⟩ := safeCorrespond_of_max D0 e he hN hm
  have hscD : safeCorrespond (D0.set e v) e = correspond e := by
    rw [safeCorrespond_congr _ D0 hlenD, hsc]
  have hce : correspond e ≠ e := ne_of_side_ne _ e hcm hm
  have hcleaf : isLeaf (D0.set e v) (correspond e) = true := by
    rw [isLeaf_iff _ _ (by rw [hlenD]; exact hN), hlenD]; exact ⟨hc, hcl⟩
  have hfacing : ∀ i, i < D0.length → inMinHeap i = true → safeCorrespond D0 i = e →
      i = correspond e := by
    intro i hi him hs
    rcases facing_leaf D0 e i hN he hm hi him hs with h | h | h
    · exact h
    · omega
    · omega
  rw [insert_of_max (D0.set e v) e (correspond e) (by omega) hm
    (by rw [hscD, hcleaf]; simp), hcleaf, if_pos rfl, hscD, hgD, hgD, if_neg hce, if_pos rfl]
  by_cases hcmp : get D0 (correspond e) ≤ v
  · rw [if_pos hcmp]
    exact pullUp_max_leaf_valid D0 e v hN hV hnn hv he hleaf hm
      (fun i hi him hs => by rw [hfacing i hi him hs]; exact hcmp)
  · rw [if_neg hcmp]
    have hcs : safeCorrespond D0 (correspond e) = e := by
      obtain ⟨_, _, h3, _⟩ := safeCorrespond_of_min D0 (correspond e) hc hN (by omega) hcm
      rw [h3 (by rw [correspond_correspond e (by omega)]; exact he),
        correspond_correspond e (by omega)]
    exact pullUp_swap_leaf_valid D0 e (correspond e) v hN hV hnn hv he hleaf hm hc hcl hcm
      hcs (by omega) (fun i hi him hs => by rw [hfacing i hi him hs])

/-- `insert` at a max-heap leaf whose correspondent has two children. -/
theorem insert_max_two_valid (D0 : List Int) (e : Nat) (v : Int) (hN : D0.length < 2 ^ 61)
    (hV : Valid D0) (hnn : NonNeg D0) (hv : 0 ≤ v ∧ v < 2 ^ 31) (he : e < D0.length)
    (hleaf : D0.length ≤ 2 * e + 2) (hm : inMinHeap e = false)
    (hc2 : 2 * correspond e + 3 < D0.length) :
    Valid (insert (D0.set e v) e) ∧ NonNeg (insert (D0.set e v) e) ∧
      (insert (D0.set e v) e).length = D0.length := by
  have he1 := max_ge_one e hm
  have hN2 : 2 ≤ D0.length := by omega
  obtain ⟨A1, _, A3⟩ := (valid_iff_sides D0 hN).1 hV
  have A3 := A3 hN2
  have hlenD : (D0.set e v).length = D0.length := by simp
  have hgD : ∀ k, get (D0.set e v) k = if k = e then v else get D0 k :=
    fun k => get_set D0 e k v he
  obtain ⟨hsc, hc, hcm⟩ := safeCorrespond_of_max D0 e he hN hm
  have hscD : safeCorrespond (D0.set e v) e = correspond e := by
    rw [safeCorrespond_congr _ D0 hlenD, hsc]
  obtain ⟨_, hclt, _, _, _⟩ := correspond_of_max e (by omega) hm
  obtain ⟨hLm, hLs, hLl⟩ := child_of_correspond_leaf D0 e (2 * correspond e + 2) hN he hleaf hm
    (by omega) (Or.inl rfl)
  obtain ⟨hRm, hRs, hRl⟩ := child_of_correspond_leaf D0 e (2 * correspond e + 3) hN he hleaf hm
    (by omega) (Or.inr rfl)
  have hcnl : isLeaf (D0.set e v) (correspond e) = false :=
    isLeaf_false_of_child _ _ (by rw [hlenD]; exact hN) (by rw [hlenD]; omega)
  have hex : exist (D0.set e v) (rightChild (correspond e)) = true := by
    rw [rightChild_eq _ (by omega), exist_iff, hlenD]; exact hc2
  rw [insert_of_max (D0.set e v) e (correspond e) (by omega) hm
    (by rw [hscD, hcnl, hex]; simp), hcnl, if_neg (by simp),
    leftChild_eq _ (show correspond e < 2 ^ 62 by omega),
    rightChild_eq _ (show correspond e < 2 ^ 62 by omega), hgD, hgD, hgD,
    if_neg (ne_of_side_ne _ e hLm hm), if_neg (ne_of_side_ne _ e hRm hm), if_pos rfl]
  have hcL := A1 (2 * correspond e + 2) (by omega) (by omega) hLm
  rw [parent_child (correspond e) _ (Or.inl rfl)] at hcL
  have hcR := A1 (2 * correspond e + 3) (by omega) (by omega) hRm
  rw [parent_child (correspond e) _ (Or.inr rfl)] at hcR
  have hLlt : 2 * correspond e + 2 < D0.length := by omega
  clear A1 A3 hRl hLl
  by_cases hcmp : get D0 (2 * correspond e + 2) ≤ v ∧ get D0 (2 * correspond e + 3) ≤ v
  · rw [if_pos (by simpa using hcmp)]
    refine pullUp_max_leaf_valid D0 e v hN hV hnn hv he hleaf hm (fun i hi him hs => ?_)
    rcases facing_leaf D0 e i hN he hm hi him hs with h | h | h
    · rw [h]; exact le_trans hcL hcmp.1
    · rw [h]; exact hcmp.1
    · rw [h]; exact hcmp.2
  · rw [if_neg (by simpa using hcmp)]
    obtain ⟨_, _, hLl⟩ := child_of_correspond_leaf D0 e (2 * correspond e + 2) hN he hleaf hm
      hLlt (Or.inl rfl)
    obtain ⟨_, _, hRl⟩ := child_of_correspond_leaf D0 e (2 * correspond e + 3) hN he hleaf hm
      hc2 (Or.inr rfl)
    by_cases hLR : get D0 (2 * correspond e + 2) > get D0 (2 * correspond e + 3)
    · rw [if_pos hLR]
      have hvl : v < get D0 (2 * correspond e + 2) := by
        by_contra hcon
        exact hcmp ⟨not_lt.1 hcon, le_trans (le_of_lt hLR) (not_lt.1 hcon)⟩
      refine pullUp_swap_leaf_valid D0 e _ v hN hV hnn hv he hleaf hm hLlt hLl hLm hLs
        hvl (fun i hi him hs => ?_)
      rcases facing_leaf D0 e i hN he hm hi him hs with h | h | h
      · rw [h]; exact hcL
      · rw [h]
      · rw [h]; exact le_of_lt hLR
    · rw [if_neg hLR]
      have hRL : get D0 (2 * correspond e + 2) ≤ get D0 (2 * correspond e + 3) := not_lt.1 hLR
      have hvl : v < get D0 (2 * correspond e + 3) := by
        by_contra hcon
        exact hcmp ⟨le_trans hRL (not_lt.1 hcon), not_lt.1 hcon⟩
      refine pullUp_swap_leaf_valid D0 e _ v hN hV hnn hv he hleaf hm hc2 hRl hRm hRs
        hvl (fun i hi him hs => ?_)
      rcases facing_leaf D0 e i hN he hm hi him hs with h | h | h
      · rw [h]; exact hcR
      · rw [h]; exact hRL
      · rw [h]

end Deap

namespace Deap
open Deap_Trait Vec

/-- `insert` at a max-heap leaf whose correspondent has one child, when the new value is
not below the correspondent (in `popMax` the new value comes from below the correspondent). -/
theorem insert_max_one_valid (D0 : List Int) (e : Nat) (v : Int) (hN : D0.length < 2 ^ 61)
    (hV : Valid D0) (hnn : NonNeg D0) (hv : 0 ≤ v ∧ v < 2 ^ 31) (he : e < D0.length)
    (hleaf : D0.length ≤ 2 * e + 2) (hm : inMinHeap e = false)
    (hc1 : 2 * correspond e + 2 < D0.length) (hc2 : D0.length ≤ 2 * correspond e + 3)
    (hcv : get D0 (correspond e) ≤ v) :
    Valid (insert (D0.set e v) e) ∧ NonNeg (insert (D0.set e v) e) ∧
      (insert (D0.set e v) e).length = D0.length := by
  have he1 := max_ge_one e hm
  have hN2 : 2 ≤ D0.length := by omega
  obtain ⟨A1, A2, A3⟩ := (valid_iff_sides D0 hN).1 hV
  have A3 := A3 hN2
  have hlenD : (D0.set e v).length = D0.length := by simp
  have hgD : ∀ k, get (D0.set e v) k = if k = e then v else get D0 k :=
    fun k => get_set D0 e k v he
  have hnnD : NonNeg (D0.set e v) := nonNeg_set D0 e v hnn hv
  obtain ⟨hsc, hc, hcm⟩ := safeCorrespond_of_max D0 e he hN hm
  have hscD : safeCorrespond (D0.set e v) e = correspond e := by
    rw [safeCorrespond_congr _ D0 hlenD, hsc]
  obtain ⟨_, hclt, _, _, _⟩ := correspond_of_max e (by omega) hm
  obtain ⟨hLm, hLs, hLl⟩ := child_of_correspond_leaf D0 e (2 * correspond e + 2) hN he hleaf hm
    hc1 (Or.inl rfl)
  have hLe : 2 * correspond e + 2 ≠ e := ne_of_side_ne _ e hLm hm
  have hce : correspond e ≠ e := ne_of_side_ne _ e hcm hm
  have hcnl : isLeaf (D0.set e v) (correspond e) = false :=
    isLeaf_false_of_child _ _ (by rw [hlenD]; exact hN) (by rw [hlenD]; omega)
  have hex : exist (D0.set e v) (rightChild (correspond e)) = false := by
    rw [rightChild_eq _ (by omega), exist_false_iff, hlenD]; exact hc2
  have hLleaf : isLeaf (D0.set e v) (2 * correspond e + 2) = true := by
    rw [isLeaf_iff _ _ (by rw [hlenD]; exact hN), hlenD]; exact ⟨hc1, hLl⟩
  have hcL := A1 (2 * correspond e + 2) (by omega) hc1 hLm
  rw [parent_child (correspond e) _ (Or.inl rfl)] at hcL
  have hLE := A3 _ hc1 hLm
  rw [hLs] at hLE
  rw [insert_of_max (D0.set e v) e (2 * correspond e + 2) (by omega) hm
    (by rw [hscD, hcnl, hex, leftChild_eq _ (show correspond e < 2 ^ 62 by omega)]; simp),
    hLleaf, if_pos rfl, hscD, hgD, hgD, if_neg hLe, if_pos rfl]
  by_cases hcmp : get D0 (2 * correspond e + 2) ≤ v
  · rw [if_pos hcmp]
    refine pullUp_max_leaf_valid D0 e v hN hV hnn hv he hleaf hm (fun i hi him hs => ?_)
    rcases facing_leaf D0 e i hN he hm hi him hs with h | h | h
    · rw [h]; exact le_trans hcL hcmp
    · rw [h]; exact hcmp
    · rw [h] at hi; omega
  · rw [if_neg hcmp]
    have hvl : v < get D0 (2 * correspond e + 2) := not_le.1 hcmp
    have hg1 : ∀ k, get (swapAt (D0.set e v) (2 * correspond e + 2) e) k =
        if k = e then get D0 (2 * correspond e + 2)
        else if k = 2 * correspond e + 2 then v else get D0 k := by
      intro k
      rw [get_swapAt _ _ e k (by rw [hlenD]; exact hc1) (by rw [hlenD]; exact he), hgD, hgD,
        hgD, if_pos rfl, if_neg hLe]
      by_cases h1 : k = e
      · rw [if_pos h1, if_pos h1]
      · rw [if_neg h1, if_neg h1, if_neg h1]
    have hlen1 : (swapAt (D0.set e v) (2 * correspond e + 2) e).length = D0.length := by
      rw [length_swapAt, hlenD]
    have hnn1 : NonNeg (swapAt (D0.set e v) (2 * correspond e + 2) e) :=
      nonNeg_swapAt _ _ e (by rw [hlenD]; exact hc1) (by rw [hlenD]; exact he) hnnD
    have hnopar : ∀ j, 2 ≤ j → j < D0.length → parent j ≠ e ∧
        parent j ≠ 2 * correspond e + 2 := by
      intro j hj2 hj
      have := child_of_parent j hj2
      constructor <;> intro h <;> rw [h] at this <;> omega
    have hpmin : ∀ j, 2 ≤ j → j < D0.length → inMinHeap j = true →
        inMinHeap (parent j) = true := by
      intro j hj2 hj hjm
      rw [inMinHeap_parent j hj2 (by omega)]; exact hjm
    obtain ⟨r1, r2, r3, r4, _, r6, r7⟩ := pullUp_min
      (swapAt (D0.set e v) (2 * correspond e + 2) e) (correspond e) hnn1
      (by rw [hlen1]; exact hc) (by rw [hlen1]; exact hN) hcm
      (by
        intro j hj2 hj hjc hjm
        rw [hlen1] at hj
        rw [hg1, hg1, if_neg (ne_of_side_ne j e hjm hm),
          if_neg (ne_of_side_ne _ e (hpmin j hj2 hj hjm) hm), if_neg (hnopar j hj2 hj).2]
        by_cases hjL : j = 2 * correspond e + 2
        · rw [if_pos hjL, hjL, parent_child (correspond e) _ (Or.inl rfl)]
          exact hcv
        · rw [if_neg hjL]; exact A1 j hj2 hj hjm)
      (by
        intro ch hc2' hch hcc
        rw [hlen1] at hch
        have hchL : ch = 2 * correspond e + 2 := by omega
        have hpc := parent_lt (correspond e) hc2'
        have hpcm := hpmin (correspond e) hc2' hc hcm
        rw [hg1, hg1, if_neg (ne_of_side_ne _ e hpcm hm), if_neg (by omega), hchL,
          if_neg hLe, if_pos rfl]
        exact le_trans (A1 (correspond e) hc2' hc hcm) hcv)
      _ rfl
    rw [hlen1] at r1 r3
    refine ⟨?_, r2, r1⟩
    rw [valid_iff_sides _ (by rw [r1]; exact hN), r1]
    refine ⟨r3, ?_, ?_⟩
    · intro j hj2 hj hjm
      have hpjm : inMinHeap (parent j) = false := by
        rw [inMinHeap_parent j hj2 (by omega)]; exact hjm
      rw [r4 j hjm, r4 _ hpjm, hg1, hg1, if_neg (hnopar j hj2 hj).1,
        if_neg (Ne.symm (ne_of_side_ne _ _ hLm hpjm))]
      have h1 := A2 j hj2 hj hjm
      by_cases hje : j = e
      · subst hje
        rw [if_pos rfl]
        exact le_trans hLE h1
      · rw [if_neg hje, if_neg (Ne.symm (ne_of_side_ne _ j hLm hjm))]; exact h1
    · intro _ i hi him
      rw [safeCorrespond_congr _ D0 r1]
      obtain ⟨hsi, hsim, _, _⟩ := safeCorrespond_of_min D0 i hi hN hN2 him
      rw [r4 _ hsim, hg1, if_neg (Ne.symm (ne_of_side_ne _ _ hLm hsim))]
      have h2 := A3 i hi him
      by_cases hic : i = correspond e
      · rw [hic]
        have hsce : safeCorrespond D0 (correspond e) = e := by
          obtain ⟨_, _, h3, _⟩ := safeCorrespond_of_min D0 (correspond e) hc hN hN2 hcm
          rw [h3 (by rw [correspond_correspond e (by omega)]; exact he),
            correspond_correspond e (by omega)]
        rw [hsce, if_pos rfl]
        rcases r7 with h | ⟨hc2', h, _⟩
        · rw [h, hg1, if_neg hce, if_neg (by omega)]; exact hcL
        · have hpc := parent_lt (correspond e) hc2'
          have hpcm := hpmin (correspond e) hc2' hc hcm
          rw [h, hg1, if_neg (ne_of_side_ne _ e hpcm hm), if_neg (by omega)]
          exact le_trans (A1 (correspond e) hc2' hc hcm) hcL
      · have h3 := r6 i hic
        rw [hg1, if_neg (ne_of_side_ne i e him hm)] at h3
        by_cases hiL : i = 2 * correspond e + 2
        · rw [if_pos hiL] at h3
          rw [hiL, hLs, if_pos rfl]
          rw [hiL] at h3
          exact le_trans h3 (le_of_lt hvl)
        · rw [if_neg hiL] at h3
          by_cases hse : safeCorrespond D0 i = e
          · rcases facing_leaf D0 e i hN he hm hi him hse with h | h | h
            · exact absurd h hic
            · exact absurd h hiL
            · rw [h] at hi; omega
          · rw [if_neg hse]
            exact le_trans h3 h2

end Deap

namespace Deap
open Deap_Trait Vec

/-! ## `push` on non-negative values -/

theorem append_set_last (d : List Int) (w v : Int) : (d ++ [w]).set d.length v = d ++ [v] := by
  induction d with
  | nil => rfl
  | cons a t ih => simp [List.set, ih]

theorem get_append (d : List Int) (w : Int) (k : Nat) :
    get (d ++ [w]) k = if k < d.length then get d k else if k = d.length then w else 0 := by
  by_cases h1 : k < d.length
  · rw [if_pos h1, get_append_left d w k h1]
  · rw [if_neg h1]
    by_cases h2 : k = d.length
    · rw [if_pos h2, h2, get_append_right]
    · rw [if_neg h2, get_of_le _ _ (by simp; omega)]

/-- A valid Deap stays valid when a copy of a suitable stored value is appended: the
parent's value for a new min-heap node, the correspondent's value for a new max-heap node. -/
theorem valid_append (d : List Int) (hN : d.length + 1 < 2 ^ 61) (hV : Valid d)
    (hn1 : 1 ≤ d.length) :
    Valid (d ++ [if inMinHeap d.length then get d (parent d.length)
      else get d (correspond d.length)]) := by
  generalize hw : (if inMinHeap d.length then get d (parent d.length)
      else get d (correspond d.length)) = w
  have hlen : (d ++ [w]).length = d.length + 1 := by simp
  obtain ⟨A1, A2, A3⟩ := (valid_iff_sides d (by omega)).1 hV
  have hg := get_append d w
  rw [valid_iff_sides _ (by rw [hlen]; exact hN), hlen]
  refine ⟨?_, ?_, ?_⟩
  · intro j hj2 hj hjm
    have hp := parent_lt j hj2
    rw [hg, hg, if_pos (show parent j < d.length by omega)]
    by_cases hjn : j < d.length
    · rw [if_pos hjn]; exact A1 j hj2 hjn hjm
    · have hje : j = d.length := by omega
      rw [if_neg hjn, if_pos hje]
      rw [← hje, hjm] at hw
      simp only [if_true] at hw
      rw [← hw]
  · intro j hj2 hj hjm
    have hp := parent_lt j hj2
    rw [hg, hg, if_pos (show parent j < d.length by omega)]
    by_cases hjn : j < d.length
    · rw [if_pos hjn]; exact A2 j hj2 hjn hjm
    · have hje : j = d.length := by omega
      rw [if_neg hjn, if_pos hje]
      rw [← hje, hjm] at hw
      simp only [Bool.false_eq_true, if_false] at hw
      rw [← hw]
      obtain ⟨_, hcl, _, hcm, _⟩ := correspond_of_max j (by omega) hjm
      have hcn : correspond j < d.length := by omega
      have h2 : 2 ≤ d.length := by omega
      obtain ⟨_, _, _, h4⟩ := safeCorrespond_of_min d (correspond j) hcn (by omega) h2 hcm
      obtain ⟨_, h5⟩ := h4 (by rw [correspond_correspond j (by omega)]; omega)
      obtain ⟨_, hpc, _⟩ := parent_correspond j hj2 (by omega)
      have := A3 h2 (correspond j) hcn hcm
      rw [h5, hpc, correspond_correspond _ (by omega)] at this
      exact this
  · intro _ i hi him
    obtain ⟨hc1, hc2, hc3, hc4, _⟩ := correspond_of_min i (by omega) him
    by_cases hin : i < d.length
    · rw [hg i, if_pos hin]
      by_cases hex : correspond i < d.length
      · have h2 : 2 ≤ d.length := by omega
        obtain ⟨_, _, h3, _⟩ := safeCorrespond_of_min d i hin (by omega) h2 him
        obtain ⟨_, _, k3, _⟩ := safeCorrespond_of_min (d ++ [w]) i (by rw [hlen]; omega)
          (by rw [hlen]; omega) (by rw [hlen]; omega) him
        rw [k3 (by rw [hlen]; omega), hg, if_pos hex]
        have := A3 h2 i hin him
        rw [h3 hex] at this
        exact this
      · by_cases hcn : correspond i = d.length
        · obtain ⟨_, _, k3, _⟩ := safeCorrespond_of_min (d ++ [w]) i (by rw [hlen]; omega)
            (by rw [hlen]; omega) (by rw [hlen]; omega) him
          rw [k3 (by rw [hlen]; omega), hcn, hg, if_neg (by omega), if_pos rfl]
          rw [← hcn, hc4] at hw
          simp only [Bool.false_eq_true, if_false] at hw
          rw [← hw, correspond_correspond i (by omega)]
        · have h2 : 2 ≤ d.length := by
            rcases Nat.lt_or_ge i 2 with hlt | hge
            · have : i ≠ 1 := min_ne_one i him
              have : i = 0 := by omega
              rw [this, correspond_zero] at hex hcn
              omega
            · omega
          obtain ⟨_, _, _, h4⟩ := safeCorrespond_of_min d i hin (by omega) h2 him
          obtain ⟨hi2, h5⟩ := h4 (by omega)
          obtain ⟨_, _, _, k4⟩ := safeCorrespond_of_min (d ++ [w]) i (by rw [hlen]; omega)
            (by rw [hlen]; omega) (by rw [hlen]; omega) him
          obtain ⟨_, k5⟩ := k4 (by rw [hlen]; omega)
          have hs := (safeCorrespond_of_min d i hin (by omega) h2 him).1
          rw [h5] at hs
          have := A3 h2 i hin him
          rw [h5] at this
          rw [k5, hg (correspond (parent i)), if_pos hs]
          exact this
    · have hie : i = d.length := by omega
      have hi2 : 2 ≤ i := by
        have : i ≠ 1 := min_ne_one i him
        omega
      have h2 : 2 ≤ d.length := by omega
      have hp := parent_lt i hi2
      have hpm : inMinHeap (parent i) = true := by
        rw [inMinHeap_parent i hi2 (by omega)]; exact him
      obtain ⟨_, _, _, k4⟩ := safeCorrespond_of_min (d ++ [w]) i (by rw [hlen]; omega)
        (by rw [hlen]; omega) (by rw [hlen]; omega) him
      obtain ⟨_, k5⟩ := k4 (by rw [hlen]; omega)
      have hks := (safeCorrespond_of_min (d ++ [w]) i (by rw [hlen]; omega)
        (by rw [hlen]; omega) (by rw [hlen]; omega) him).1
      obtain ⟨_, _, q3, _, _⟩ := correspond_of_min (parent i) (by omega) hpm
      have hch := child_of_parent i hi2
      have hqn : correspond (parent i) < d.length := by omega
      obtain ⟨_, _, h3, _⟩ := safeCorrespond_of_min d (parent i) (by omega) (by omega) h2 hpm
      have := A3 h2 (parent i) (by omega) hpm
      rw [h3 hqn] at this
      rw [k5, hg i, if_neg hin, if_pos hie, hg, if_pos hqn]
      rw [← hie, him] at hw
      simp only [if_true] at hw
      rw [← hw]
      exact this

end Deap

namespace Deap
open Deap_Trait Vec

theorem nonNeg_append (d : List Int) (w : Int) (hd : NonNeg d) (hw : 0 ≤ w ∧ w < 2 ^ 31) :
    NonNeg (d ++ [w]) := by
  intro x hx
  rcases List.mem_append.1 hx with h | h
  · exact hd x h
  · rw [List.mem_singleton.1 h]; exact hw

theorem valid_of_length_le_one (d : List Int) (h : d.length ≤ 1) : Valid d :=
  ⟨fun j hj2 hj => by omega, fun h2 => by omega⟩

/-- `push` keeps the three invariants on non-negative values. -/
theorem push_valid (d : List Int) (v : Int) (hN : d.length + 1 < 2 ^ 61) (hV : Valid d)
    (hnn : NonNeg d) (hv : 0 ≤ v ∧ v < 2 ^ 31) :
    Valid (push d v) ∧ NonNeg (push d v) ∧ (push d v).length = d.length + 1 := by
  have hpush : push d v = insert (d ++ [v]) d.length := by
    unfold push
    simp
  rw [hpush]
  rcases Nat.eq_zero_or_pos d.length with h0 | hpos
  · have hins : insert (d ++ [v]) d.length = d ++ [v] := by
      rw [h0]; unfold insert; rw [if_pos rfl]
    rw [hins]
    exact ⟨valid_of_length_le_one _ (by rw [List.length_append, h0]; simp),
      nonNeg_append d v hnn hv, by simp⟩
  · generalize hw : (if inMinHeap d.length then get d (parent d.length)
        else get d (correspond d.length)) = w
    have hD0 := valid_append d hN hV hpos
    rw [hw] at hD0
    have hlen : (d ++ [w]).length = d.length + 1 := by simp
    have hwr : 0 ≤ w ∧ w < 2 ^ 31 := by
      rw [← hw]
      split
      · rename_i hm
        have : 2 ≤ d.length := by
          have := min_ne_one d.length hm
          omega
        exact hnn _ (get_mem d _ (by have := parent_lt d.length this; omega))
      · rename_i hm
        have hm' : inMinHeap d.length = false := by simpa using hm
        obtain ⟨_, hcl, _⟩ := correspond_of_max d.length (by omega) hm'
        exact hnn _ (get_mem d _ hcl)
    have hnn0 : NonNeg (d ++ [w]) := nonNeg_append d w hnn hwr
    have hset : (d ++ [w]).set d.length v = d ++ [v] := append_set_last d w v
    rw [← hset]
    cases hm : inMinHeap d.length
    · obtain ⟨_, _, hc3, _⟩ := correspond_of_max d.length (by omega) hm
      have := insert_max_leaf_valid (d ++ [w]) d.length v (by rw [hlen]; exact hN) hD0 hnn0 hv
        (by rw [hlen]; omega) (by rw [hlen]; omega) hm (by rw [hlen]; omega)
      rw [hlen] at this
      exact this
    · have := insert_min_valid (d ++ [w]) d.length v (by rw [hlen]; exact hN) hD0 hnn0 hv
        (by rw [hlen]; omega) (by rw [hlen]; omega) (by omega) hm
      rw [hlen] at this
      exact this

end Deap

namespace Deap
open Deap_Trait Vec

/-! ## `pushDown` and the heapify pass of `buildDeap` -/

theorem pushDownPick_cases (less : Int → Int → Bool) (d : List Int) (id : Nat)
    (hn : d.length < 2 ^ 61) (hi : id < d.length) :
    (pushDownPick less d id = id ∨
      (pushDownPick less d id = 2 * id + 2 ∧ 2 * id + 2 < d.length) ∨
      (pushDownPick less d id = 2 * id + 3 ∧ 2 * id + 3 < d.length)) := by
  unfold pushDownPick
  rw [leftChild_eq id (by omega), rightChild_eq id (by omega)]
  dsimp only
  by_cases hR : (exist d (2 * id + 3) && less (get d (2 * id + 3))
      (get d (if (exist d (2 * id + 2) && less (get d (2 * id + 2)) (get d id)) = true
        then 2 * id + 2 else id))) = true
  · rw [if_pos hR]
    simp only [Bool.and_eq_true] at hR
    exact Or.inr (Or.inr ⟨rfl, (exist_iff _ _).1 hR.1⟩)
  · rw [if_neg hR]
    by_cases hL : (exist d (2 * id + 2) && less (get d (2 * id + 2)) (get d id)) = true
    · rw [if_pos hL]
      simp only [Bool.and_eq_true] at hL
      exact Or.inr (Or.inl ⟨rfl, (exist_iff _ _).1 hL.1⟩)
    · rw [if_neg hL]
      exact Or.inl rfl

theorem sideLt_iff (b : Bool) (x y : Int) :
    sideLt b x y = true ↔ (sideLe b x y ∧ x ≠ y) := by
  cases b <;> simp [sideLt, sideLe] <;> omega

theorem sideLe_total (b : Bool) (x y : Int) : sideLe b x y ∨ sideLe b y x := by
  cases b <;> simp [sideLe] <;> omega

/-- The node picked by one round of `pushDown` holds the first value, in the order of the
heap, among the node and its existing children. -/
theorem pushDownPick_least (b : Bool) (d : List Int) (id : Nat)
    (hn : d.length < 2 ^ 61) (hi : id < d.length) :
    sideLe b (get d (pushDownPick (sideLt b) d id)) (get d id) ∧
    (pushDownPick (sideLt b) d id ≠ id →
      sideLt b (get d (pushDownPick (sideLt b) d id)) (get d id) = true) ∧
    (∀ c, c < d.length → (c = 2 * id + 2 ∨ c = 2 * id + 3) →
      sideLe b (get d (pushDownPick (sideLt b) d id)) (get d c)) := by
  unfold pushDownPick
  rw [leftChild_eq id (by omega), rightChild_eq id (by omega)]
  dsimp only
  have hex : ∀ k, exist d k = true ↔ k < d.length := exist_iff d
  by_cases hL : (exist d (2 * id + 2) && sideLt b (get d (2 * id + 2)) (get d id)) = true
  · rw [if_pos hL]
    simp only [Bool.and_eq_true] at hL
    have hLlt := sideLe_of_sideLt b _ _ hL.2
    by_cases hR : (exist d (2 * id + 3) && sideLt b (get d (2 * id + 3))
        (get d (2 * id + 2))) = true
    · rw [if_pos hR]
      simp only [Bool.and_eq_true] at hR
      have hRlt := sideLe_of_sideLt b _ _ hR.2
      have hRid : sideLt b (get d (2 * id + 3)) (get d id) = true := by
        rw [sideLt_iff] at hR hL ⊢
        obtain ⟨h1, h2⟩ := hR.2
        obtain ⟨h3, h4⟩ := hL.2
        cases b <;> simp [sideLe] at * <;> omega
      refine ⟨sideLe_of_sideLt b _ _ hRid, fun _ => hRid, ?_⟩
      intro c _ hc
      rcases hc with h | h
      · rw [h]; exact hRlt
      · rw [h]; exact sideLe_refl _ _
    · rw [if_neg hR]
      refine ⟨hLlt, fun _ => hL.2, ?_⟩
      intro c hcn hc
      rcases hc with h | h
      · rw [h]; exact sideLe_refl _ _
      · rw [h]
        rw [h] at hcn
        have : sideLt b (get d (2 * id + 3)) (get d (2 * id + 2)) = false := by
          cases hx : sideLt b (get d (2 * id + 3)) (get d (2 * id + 2))
          · rfl
          · exact absurd (by simp [hx, (hex _).2 hcn]) hR
        exact sideLe_of_not_sideLt b _ _ this
  · rw [if_neg hL]
    have hLle : 2 * id + 2 < d.length → sideLe b (get d id) (get d (2 * id + 2)) := by
      intro hlt
      have : sideLt b (get d (2 * id + 2)) (get d id) = false := by
        cases hx : sideLt b (get d (2 * id + 2)) (get d id)
        · rfl
        · exact absurd (by simp [hx, (hex _).2 hlt]) hL
      exact sideLe_of_not_sideLt b _ _ this
    by_cases hR : (exist d (2 * id + 3) && sideLt b (get d (2 * id + 3)) (get d id)) = true
    · rw [if_pos hR]
      simp only [Bool.and_eq_true] at hR
      have hRlt := sideLe_of_sideLt b _ _ hR.2
      refine ⟨hRlt, fun _ => hR.2, ?_⟩
      intro c hcn hc
      rcases hc with h | h
      · rw [h]
        rw [h] at hcn
        exact sideLe_trans b _ _ _ hRlt (hLle hcn)
      · rw [h]; exact sideLe_refl _ _
    · rw [if_neg hR]
      refine ⟨sideLe_refl _ _, fun h => absurd rfl h, ?_⟩
      intro c hcn hc
      rcases hc with h | h
      · rw [h]; rw [h] at hcn; exact hLle hcn
      · rw [h]
        rw [h] at hcn
        have : sideLt b (get d (2 * id + 3)) (get d id) = false := by
          cases hx : sideLt b (get d (2 * id + 3)) (get d id)
          · rfl
          · exact absurd (by simp [hx, (hex _).2 hcn]) hR
        exact sideLe_of_not_sideLt b _ _ this

theorem nonNeg_get (d : List Int) (hd : NonNeg d) (k : Nat) :
    0 ≤ get d k ∧ get d k < 2 ^ 31 := by
  by_cases hk : k < d.length
  · exact hd _ (get_mem d k hk)
  · rw [get_of_le d k (by omega)]
    decide

theorem pushDownPick_congr (less less' : Int → Int → Bool)
    (hl : ∀ x y : Int, (0 ≤ x ∧ x < 2 ^ 31) → (0 ≤ y ∧ y < 2 ^ 31) → less x y = less' x y)
    (d : List Int) (id : Nat) (hd : NonNeg d) :
    pushDownPick less d id = pushDownPick less' d id := by
  unfold pushDownPick
  dsimp only
  rw [hl _ _ (nonNeg_get d hd _) (nonNeg_get d hd _)]
  rw [hl _ _ (nonNeg_get d hd _) (nonNeg_get d hd _)]

theorem pushDownLoop_congr (less less' : Int → Int → Bool)
    (hl : ∀ x y : Int, (0 ≤ x ∧ x < 2 ^ 31) → (0 ≤ y ∧ y < 2 ^ 31) → less x y = less' x y)
    (fuel : Nat) : ∀ (d : List Int) (id : Nat), NonNeg d → d.length < 2 ^ 61 →
      pushDownLoop less fuel d id = pushDownLoop less' fuel d id := by
  induction fuel with
  | zero => intro d id _ _; rfl
  | succ fuel ih =>
    intro d id hd hn
    unfold pushDownLoop
    by_cases he : exist d id = true
    · have hi : id < d.length := (exist_iff d id).1 he
      rw [if_pos he, if_pos he]
      dsimp only
      rw [pushDownPick_congr less less' hl d id hd]
      by_cases hm : pushDownPick less' d id = id
      · rw [if_pos hm, if_pos hm]
      · rw [if_neg hm, if_neg hm]
        have hlt : pushDownPick less' d id < d.length := by
          rcases pushDownPick_cases less' d id hn hi with h | h | h
          · exact absurd h hm
          · omega
          · omega
        exact ih _ _ (nonNeg_swapAt d id _ hi hlt hd) (by rw [length_swapAt]; exact hn)
    · rw [if_neg he, if_neg he]

theorem pushDown_eq (d : List Int) (id : Nat) (hd : NonNeg d) (hn : d.length < 2 ^ 61) :
    pushDown d id = pushDownLoop (sideLt (inMinHeap id)) d.length d id :=
  pushDownLoop_congr _ _ (chooseLess_eq id) _ d id hd hn

theorem pushDownLoop_spec (b : Bool) (s : Nat) (fuel : Nat) : ∀ (d : List Int) (id : Nat),
    d.length ≤ fuel + id → id < d.length → d.length < 2 ^ 61 → inMinHeap id = b → s ≤ id →
    (∀ j, 2 ≤ j → j < d.length → s ≤ parent j → parent j ≠ id →
      sideLe (inMinHeap j) (get d (parent j)) (get d j)) →
    (∀ c, 2 ≤ id → s ≤ parent id → c < d.length → (c = 2 * id + 2 ∨ c = 2 * id + 3) →
      sideLe b (get d (parent id)) (get d c)) →
    (pushDownLoop (sideLt b) fuel d id).length = d.length ∧
    (∀ x ∈ pushDownLoop (sideLt b) fuel d id, x ∈ d) ∧
    OrdFrom s (pushDownLoop (sideLt b) fuel d id) := by
  induction fuel with
  | zero => intro d id hf hi; omega
  | succ fuel ih =>
    intro d id hf hi hn hb hs pre1 pre2
    rw [pushDownLoop, if_pos ((exist_iff d id).2 hi)]
    dsimp only
    obtain ⟨hle, hlt, hleast⟩ := pushDownPick_least b d id hn hi
    have hcases := pushDownPick_cases (sideLt b) d id hn hi
    generalize pushDownPick (sideLt b) d id = m at hle hlt hleast hcases
    by_cases hm : m = id
    · rw [if_pos hm]
      refine ⟨rfl, fun x hx => hx, ?_⟩
      intro j hj2 hjn hsj
      by_cases hp : parent j = id
      · have hc := child_of_parent j hj2
        rw [hp] at hc
        have hside := inMinHeap_child id j hc (by omega)
        rw [hp, hside, hb]
        have := hleast j hjn hc
        rw [hm] at this
        exact this
      · exact pre1 j hj2 hjn hsj hp
    · rw [if_neg hm]
      have hmc : (m = 2 * id + 2 ∨ m = 2 * id + 3) ∧ m < d.length := by
        rcases hcases with h | h | h
        · exact absurd h hm
        · exact ⟨Or.inl h.1, by omega⟩
        · exact ⟨Or.inr h.1, by omega⟩
      obtain ⟨hmc, hmn⟩ := hmc
      have hpm : parent m = id := parent_child id m hmc
      have hsm : inMinHeap m = b := by rw [inMinHeap_child id m hmc (by omega)]; exact hb
      have hg : ∀ k, get (swapAt d id m) k =
          if k = m then get d id else if k = id then get d m else get d k :=
        fun k => get_swapAt d id m k hi hmn
      have hmid : sideLe b (get d m) (get d id) := hle
      have hres := ih (swapAt d id m) m (by rw [length_swapAt]; omega)
        (by rw [length_swapAt]; exact hmn) (by rw [length_swapAt]; exact hn) hsm (by omega)
        (by
          intro j hj2 hjn hsj hpj
          rw [length_swapAt] at hjn
          rw [hg, hg]
          by_cases hjm : j = m
          · rw [hjm, hpm, hsm]
            rw [if_neg (by omega), if_pos rfl, if_pos rfl]
            exact hmid
          · by_cases hji : j = id
            · have hpl := parent_lt id (by omega)
              rw [hji]
              rw [if_neg (by omega), if_neg (by omega), if_neg (by omega), if_pos rfl, hb]
              exact pre2 m (by omega) (by rw [hji] at hsj; exact hsj) hmn hmc
            · rw [if_neg hpj, if_neg hjm, if_neg hji]
              by_cases hp : parent j = id
              · have hc := child_of_parent j hj2
                rw [hp] at hc
                have hside := inMinHeap_child id j hc (by omega)
                rw [if_pos hp, hside, hb]
                exact hleast j hjn hc
              · rw [if_neg hp]
                exact pre1 j hj2 hjn hsj hp)
        (by
          intro c hm2 hsp hcn hc
          rw [length_swapAt] at hcn
          rw [hg, hg, hpm]
          rw [if_neg (by omega), if_pos rfl, if_neg (by omega), if_neg (by omega)]
          have hpc : parent c = m := parent_child m c hc
          have hsc : inMinHeap c = b := by
            rw [inMinHeap_child m c hc (by omega)]; exact hsm
          have := pre1 c (by omega) hcn (by rw [hpc]; omega) (by rw [hpc]; exact hm)
          rw [hpc, hsc] at this
          exact this)
      obtain ⟨h1, h2, h3⟩ := hres
      rw [length_swapAt] at h1
      exact ⟨h1, fun x hx => mem_swapAt d id m x hi hmn (h2 x hx), h3⟩

theorem heapifyFrom_spec : ∀ (i : Nat) (d : List Int), NonNeg d → d.length < 2 ^ 61 →
    i < d.length → OrdFrom (i + 1) d →
    (heapifyFrom i d).length = d.length ∧ NonNeg (heapifyFrom i d) ∧
      HeapOrd (heapifyFrom i d) := by
  intro i
  induction i with
  | zero =>
    intro d hd hn hi hord
    rw [heapifyFrom, pushDown_eq d 0 hd hn]
    obtain ⟨h1, h2, h3⟩ := pushDownLoop_spec (inMinHeap 0) 0 d.length d 0 (by omega) hi hn rfl
      (le_refl _)
      (fun j hj2 hjn _ hp => hord j hj2 hjn (by omega))
      (fun c h => by omega)
    exact ⟨h1, fun x hx => hd x (h2 x hx), fun j hj2 hjn => h3 j hj2 hjn (Nat.zero_le _)⟩
  | succ i ih =>
    intro d hd hn hi hord
    rw [heapifyFrom, pushDown_eq d (i + 1) hd hn]
    obtain ⟨h1, h2, h3⟩ := pushDownLoop_spec (inMinHeap (i + 1)) (i + 1) d.length d (i + 1)
      (by omega) hi hn rfl (le_refl _)
      (fun j hj2 hjn hs hp => hord j hj2 hjn (by omega))
      (fun c h hs => by
        have := parent_lt (i + 1) h
        omega)
    have := ih _ (fun x hx => hd x (h2 x hx)) (by rw [h1]; exact hn) (by rw [h1]; omega) h3
    rw [h1] at this
    exact this

end Deap

namespace Deap
open Deap_Trait Vec

/-! ## The leaf pass of `buildDeap` -/

theorem minCount_le (d : List Int) (t : Int) : minCount d t ≤ d.length := by
  unfold minCount
  exact le_trans (Finset.card_filter_le _ _) (by rw [Finset.card_range])

theorem minCount_congr (d d' : List Int) (t : Int) (hl : d'.length = d.length)
    (h : ∀ j, inMinHeap j = true → get d' j = get d j) : minCount d' t = minCount d t := by
  unfold minCount
  rw [hl]
  congr 1
  apply Finset.filter_congr
  intro j _
  constructor
  · rintro ⟨h1, h2⟩
    rw [h j h1] at h2
    exact ⟨h1, h2⟩
  · rintro ⟨h1, h2⟩
    rw [← h j h1] at h2
    exact ⟨h1, h2⟩

theorem minCount_mono (d : List Int) (t t' : Int) (h : t ≤ t') :
    minCount d t' ≤ minCount d t := by
  unfold minCount
  apply Finset.card_le_card
  intro j hj
  rw [Finset.mem_filter] at hj ⊢
  exact ⟨hj.1, hj.2.1, lt_of_le_of_lt h hj.2.2⟩

theorem minCount_swap_same (d : List Int) (t : Int) (i p : Nat) (hi : i < d.length)
    (hp : p < d.length) (hs : inMinHeap i = inMinHeap p) :
    minCount (swapAt d i p) t = minCount d t := by
  unfold minCount
  rw [length_swapAt]
  have himg : (Finset.range d.length).filter
      (fun j => inMinHeap j = true ∧ t < get (swapAt d i p) j) =
      ((Finset.range d.length).filter (fun j => inMinHeap j = true ∧ t < get d j)).image
        (Equiv.swap i p) := by
    ext j
    simp only [Finset.mem_filter, Finset.mem_range, Finset.mem_image]
    rw [get_swapAt d i p j hi hp]
    constructor
    · rintro ⟨h1, h2, h3⟩
      refine ⟨Equiv.swap i p j, ?_, Equiv.swap_apply_self i p j⟩
      by_cases hjp : j = p
      · rw [if_pos hjp] at h3
        rw [hjp, Equiv.swap_apply_right]
        rw [hjp] at h2
        exact ⟨hi, by rw [hs]; exact h2, h3⟩
      · rw [if_neg hjp] at h3
        by_cases hji : j = i
        · rw [if_pos hji] at h3
          rw [hji, Equiv.swap_apply_left]
          rw [hji] at h2
          exact ⟨hp, by rw [← hs]; exact h2, h3⟩
        · rw [if_neg hji] at h3
          rw [Equiv.swap_apply_of_ne_of_ne hji hjp]
          exact ⟨h1, h2, h3⟩
    · rintro ⟨k, ⟨h1, h2, h3⟩, hk⟩
      rw [← hk]
      by_cases hki : k = i
      · rw [hki, Equiv.swap_apply_left, if_pos rfl]
        rw [hki] at h2 h3
        exact ⟨hp, by rw [← hs]; exact h2, h3⟩
      · by_cases hkp : k = p
        · rw [hkp, Equiv.swap_apply_right]
          rw [hkp] at h2 h3
          refine ⟨hi, by rw [hs]; exact h2, ?_⟩
          by_cases hip : i = p
          · rw [if_pos hip, hip]; exact h3
          · rw [if_neg hip, if_pos rfl]; exact h3
        · rw [Equiv.swap_apply_of_ne_of_ne hki hkp, if_neg hkp, if_neg hki]
          exact ⟨h1, h2, h3⟩
  rw [himg]
  exact Finset.card_image_of_injective _ (Equiv.swap i p).injective

theorem minCount_pullUpLoop (less : Int → Int → Bool) (t : Int) (fuel : Nat) :
    ∀ (d : List Int) (id : Nat), d.length < 2 ^ 61 →
      minCount (pullUpLoop less fuel d id) t = minCount d t := by
  induction fuel with
  | zero => intro d id _; rfl
  | succ fuel ih =>
    intro d id hn
    rw [pullUpLoop]
    by_cases he : exist d id = true
    · have hi : id < d.length := (exist_iff d id).1 he
      have hp : parent id < d.length := by have := parent_le id; omega
      rw [if_pos he]
      dsimp only
      by_cases hl : less (get d id) (get d (parent id)) = true
      · rw [if_pos hl, ih _ _ (by rw [length_swapAt]; exact hn)]
        by_cases h2 : 2 ≤ id
        · exact minCount_swap_same d t id _ hi hp (inMinHeap_parent id h2 (by omega)).symm
        · have : parent id = id := by unfold parent; rw [if_pos (by omega)]
          rw [this, swapAt_self]
      · rw [if_neg hl]
    · rw [if_neg he]

theorem minCount_pullUp (d : List Int) (id : Nat) (t : Int) (hn : d.length < 2 ^ 61) :
    minCount (pullUp d id) t = minCount d t :=
  minCount_pullUpLoop _ t _ d id hn

theorem minCount_swap_cross (d : List Int) (mn mx : Nat) (hmn : mn < d.length)
    (hmx : mx < d.length) (hsn : inMinHeap mn = true) (hsx : inMinHeap mx = false)
    (hgt : get d mx < get d mn) :
    minCount (swapAt d mn mx) (get d mx) < minCount d (get d mx) := by
  unfold minCount
  rw [length_swapAt]
  have hmem : mn ∈ (Finset.range d.length).filter
      (fun j => inMinHeap j = true ∧ get d mx < get d j) := by
    rw [Finset.mem_filter, Finset.mem_range]
    exact ⟨hmn, hsn, hgt⟩
  have hsub : (Finset.range d.length).filter
      (fun j => inMinHeap j = true ∧ get d mx < get (swapAt d mn mx) j) ⊆
      ((Finset.range d.length).filter
        (fun j => inMinHeap j = true ∧ get d mx < get d j)).erase mn := by
    intro j hj
    rw [Finset.mem_filter, Finset.mem_range, get_swapAt d mn mx j hmn hmx] at hj
    obtain ⟨h1, h2, h3⟩ := hj
    have hjx : j ≠ mx := fun h => by rw [h, hsx] at h2; cases h2
    rw [if_neg hjx] at h3
    have hjn : j ≠ mn := fun h => by
      rw [if_pos h] at h3
      exact lt_irrefl _ h3
    rw [if_neg hjn] at h3
    rw [Finset.mem_erase, Finset.mem_filter, Finset.mem_range]
    exact ⟨hjn, h1, h2, h3⟩
  have h1 := Finset.card_le_card hsub
  rw [Finset.card_erase_of_mem hmem] at h1
  have h2 : 0 < ((Finset.range d.length).filter
      (fun j => inMinHeap j = true ∧ get d mx < get d j)).card :=
    Finset.card_pos.2 ⟨mn, hmem⟩
  omega

end Deap

namespace Deap
open Deap_Trait Vec

theorem fixPair_step (d : List Int) (mn mx : Nat) (hn : d.length < 2 ^ 61) (hd : NonNeg d)
    (hmn : mn < d.length) (hmx : mx < d.length) (hsn : inMinHeap mn = true)
    (hsx : inMinHeap mx = false)
    (hmin : ∀ j, 2 ≤ j → j < d.length → inMinHeap j = true → get d (parent j) ≤ get d j)
    (hmax : ∀ j, 2 ≤ j → j < d.length → inMinHeap j = false → get d j ≤ get d (parent j))
    (hgt : get d mx < get d mn) (R : List Int)
    (hR : R = pullUp (pullUp (swapAt d mn mx) mn) mx) :
    R.length = d.length ∧ NonNeg R ∧
    (∀ j, 2 ≤ j → j < d.length → inMinHeap j = true → get R (parent j) ≤ get R j) ∧
    (∀ j, 2 ≤ j → j < d.length → inMinHeap j = false → get R j ≤ get R (parent j)) ∧
    (∀ j, inMinHeap j = true → get R j ≤ get d j) ∧
    (∀ j, inMinHeap j = false → get d j ≤ get R j) ∧
    minCount R (get R mx) < minCount d (get d mx) := by
  have hne : mn ≠ mx := fun h => by rw [h, hsx] at hsn; cases hsn
  have hside : ∀ j, inMinHeap j = true → j ≠ mx := fun j hj h => by
    rw [h, hsx] at hj; cases hj
  have hside' : ∀ j, inMinHeap j = false → j ≠ mn := fun j hj h => by
    rw [h, hsn] at hj; cases hj
  have hpside : ∀ j, 2 ≤ j → j < d.length → inMinHeap (parent j) = inMinHeap j :=
    fun j h2 hj => inMinHeap_parent j h2 (by omega)
  have hg1 : ∀ k, get (swapAt d mn mx) k =
      if k = mx then get d mn else if k = mn then get d mx else get d k :=
    fun k => get_swapAt d mn mx k hmn hmx
  have hl1 : (swapAt d mn mx).length = d.length := length_swapAt d mn mx
  obtain ⟨len2, nn2, ord2, keepmax2, -, le2, at2⟩ :=
    pullUp_min (swapAt d mn mx) mn (nonNeg_swapAt d mn mx hmn hmx hd) (by rw [hl1]; exact hmn)
      (by rw [hl1]; exact hn) hsn
      (by
        intro j h2 hj hjn hjs
        rw [hl1] at hj
        have hps : inMinHeap (parent j) = true := by rw [hpside j h2 hj]; exact hjs
        rw [hg1, hg1, if_neg (hside _ hps), if_neg (hside _ hjs), if_neg hjn]
        by_cases hp : parent j = mn
        · rw [if_pos hp]
          have := hmin j h2 hj hjs
          rw [hp] at this
          exact le_trans (le_of_lt hgt) this
        · rw [if_neg hp]
          exact hmin j h2 hj hjs)
      (by
        intro c h2 hc hcc
        rw [hl1] at hc
        have hpc : parent c = mn := parent_child mn c hcc
        have hcs : inMinHeap c = true := by
          rw [inMinHeap_child mn c hcc (by omega)]; exact hsn
        have hps : inMinHeap (parent mn) = true := by rw [hpside mn h2 hmn]; exact hsn
        have hpl := parent_lt mn h2
        rw [hg1, hg1, if_neg (hside _ hps), if_neg (by omega), if_neg (hside _ hcs),
          if_neg (by omega)]
        have h1 := hmin mn h2 hmn hsn
        have h3 := hmin c (by omega) hc hcs
        rw [hpc] at h3
        exact le_trans h1 h3)
      _ rfl
  rw [hl1] at len2 ord2
  obtain ⟨len3, nn3, ord3, keepmin3, -, ge3, at3⟩ :=
    pullUp_max (pullUp (swapAt d mn mx) mn) mx nn2 (by rw [len2]; exact hmx)
      (by rw [len2]; exact hn) hsx
      (by
        intro j h2 hj hjx hjs
        rw [len2] at hj
        have hps : inMinHeap (parent j) = false := by rw [hpside j h2 hj]; exact hjs
        rw [keepmax2 _ hjs, keepmax2 _ hps, hg1, hg1, if_neg hjx, if_neg (hside' _ hjs)]
        by_cases hp : parent j = mx
        · rw [if_pos hp]
          have := hmax j h2 hj hjs
          rw [hp] at this
          exact le_trans this (le_of_lt hgt)
        · rw [if_neg hp, if_neg (hside' _ hps)]
          exact hmax j h2 hj hjs)
      (by
        intro c h2 hc hcc
        rw [len2] at hc
        have hpc : parent c = mx := parent_child mx c hcc
        have hcs : inMinHeap c = false := by
          rw [inMinHeap_child mx c hcc (by omega)]; exact hsx
        have hps : inMinHeap (parent mx) = false := by rw [hpside mx h2 hmx]; exact hsx
        have hpl := parent_lt mx h2
        rw [keepmax2 _ hcs, keepmax2 _ hps, hg1, hg1, if_neg (by omega),
          if_neg (hside' _ hcs), if_neg (by omega), if_neg (hside' _ hps)]
        have h1 := hmax mx h2 hmx hsx
        have h3 := hmax c (by omega) hc hcs
        rw [hpc] at h3
        exact le_trans h3 h1)
      R hR
  rw [len2] at len3 ord3
  have hminmono : ∀ j, inMinHeap j = true → get R j ≤ get d j := by
    intro j hjs
    rw [keepmin3 j hjs]
    by_cases hj : j = mn
    · rw [hj]
      rcases at2 with h | ⟨h2, h, _⟩
      · rw [h, hg1, if_neg hne, if_pos rfl]
        exact le_of_lt hgt
      · have hps : inMinHeap (parent mn) = true := by rw [hpside mn h2 hmn]; exact hsn
        have hpl := parent_lt mn h2
        rw [h, hg1, if_neg (hside _ hps), if_neg (by omega)]
        exact hmin mn h2 hmn hsn
    · have := le2 j hj
      rw [hg1, if_neg (hside _ hjs), if_neg hj] at this
      exact this
  have hmaxmono : ∀ j, inMinHeap j = false → get d j ≤ get R j := by
    intro j hjs
    by_cases hj : j = mx
    · rw [hj]
      rcases at3 with h | ⟨h2, h, _⟩
      · rw [h, keepmax2 _ hsx, hg1, if_pos rfl]
        exact le_of_lt hgt
      · have hps : inMinHeap (parent mx) = false := by rw [hpside mx h2 hmx]; exact hsx
        have hpl := parent_lt mx h2
        rw [h, keepmax2 _ hps, hg1, if_neg (by omega), if_neg (hside' _ hps)]
        exact hmax mx h2 hmx hsx
    · have := ge3 j hj
      rw [keepmax2 _ hjs, hg1, if_neg hj, if_neg (hside' _ hjs)] at this
      exact this
  refine ⟨len3, nn3, ?_, ord3, hminmono, hmaxmono, ?_⟩
  · intro j h2 hj hjs
    have hps : inMinHeap (parent j) = true := by rw [hpside j h2 hj]; exact hjs
    rw [keepmin3 _ hjs, keepmin3 _ hps]
    exact ord2 j h2 hj hjs
  · calc minCount R (get R mx) ≤ minCount R (get d mx) :=
          minCount_mono R _ _ (hmaxmono mx hsx)
      _ = minCount (pullUp (swapAt d mn mx) mn) (get d mx) :=
          minCount_congr _ R _ (by rw [len3, len2]) (fun j hj => keepmin3 j hj)
      _ = minCount (swapAt d mn mx) (get d mx) :=
          minCount_pullUp _ _ _ (by rw [hl1]; exact hn)
      _ < minCount d (get d mx) := minCount_swap_cross d mn mx hmn hmx hsn hsx hgt

theorem fixPairLoop_spec (mn mx : Nat) (hsn : inMinHeap mn = true)
    (hsx : inMinHeap mx = false) (fuel : Nat) : ∀ (d : List Int), d.length < 2 ^ 61 →
    NonNeg d → mn < d.length → mx < d.length →
    (∀ j, 2 ≤ j → j < d.length → inMinHeap j = true → get d (parent j) ≤ get d j) →
    (∀ j, 2 ≤ j → j < d.length → inMinHeap j = false → get d j ≤ get d (parent j)) →
    minCount d (get d mx) ≤ fuel →
    (fixPairLoop fuel d mn mx).length = d.length ∧ NonNeg (fixPairLoop fuel d mn mx) ∧
    (∀ j, 2 ≤ j → j < d.length → inMinHeap j = true →
      get (fixPairLoop fuel d mn mx) (parent j) ≤ get (fixPairLoop fuel d mn mx) j) ∧
    (∀ j, 2 ≤ j → j < d.length → inMinHeap j = false →
      get (fixPairLoop fuel d mn mx) j ≤ get (fixPairLoop fuel d mn mx) (parent j)) ∧
    (∀ j, inMinHeap j = true → get (fixPairLoop fuel d mn mx) j ≤ get d j) ∧
    (∀ j, inMinHeap j = false → get d j ≤ get (fixPairLoop fuel d mn mx) j) ∧
    get (fixPairLoop fuel d mn mx) mn ≤ get (fixPairLoop fuel d mn mx) mx := by
  induction fuel with
  | zero =>
    intro d hn hd hmn hmx hmin hmax hc
    rw [fixPairLoop]
    refine ⟨rfl, hd, hmin, hmax, fun _ _ => le_refl _, fun _ _ => le_refl _, ?_⟩
    by_contra hgt
    have := minCount_swap_cross d mn mx hmn hmx hsn hsx (not_le.1 hgt)
    omega
  | succ fuel ih =>
    intro d hn hd hmn hmx hmin hmax hc
    rw [fixPairLoop]
    by_cases hgt : get d mx < get d mn
    · rw [if_pos hgt]
      obtain ⟨l1, n1, o1, o2, m1, m2, c1⟩ :=
        fixPair_step d mn mx hn hd hmn hmx hsn hsx hmin hmax hgt _ rfl
      obtain ⟨l3, n3, o3, o4, m3, m4, c3⟩ := ih _ (by rw [l1]; exact hn) n1
        (by rw [l1]; exact hmn) (by rw [l1]; exact hmx) (by rw [l1]; exact o1)
        (by rw [l1]; exact o2) (by omega)
      rw [l1] at l3 o3 o4
      exact ⟨l3, n3, o3, o4, fun j hj => le_trans (m3 j hj) (m1 j hj),
        fun j hj => le_trans (m2 j hj) (m4 j hj), c3⟩
    · rw [if_neg hgt]
      exact ⟨rfl, hd, hmin, hmax, fun _ _ => le_refl _, fun _ _ => le_refl _, not_lt.1 hgt⟩

theorem fixLeaf_spec (d : List Int) (i : Nat) (hn : d.length < 2 ^ 61) (hd : NonNeg d)
    (h2 : 2 ≤ d.length) (hi : i < d.length)
    (hmin : ∀ j, 2 ≤ j → j < d.length → inMinHeap j = true → get d (parent j) ≤ get d j)
    (hmax : ∀ j, 2 ≤ j → j < d.length → inMinHeap j = false → get d j ≤ get d (parent j)) :
    (fixLeaf d i).length = d.length ∧ NonNeg (fixLeaf d i) ∧
    (∀ j, 2 ≤ j → j < d.length → inMinHeap j = true →
      get (fixLeaf d i) (parent j) ≤ get (fixLeaf d i) j) ∧
    (∀ j, 2 ≤ j → j < d.length → inMinHeap j = false →
      get (fixLeaf d i) j ≤ get (fixLeaf d i) (parent j)) ∧
    (∀ j, inMinHeap j = true → get (fixLeaf d i) j ≤ get d j) ∧
    (∀ j, inMinHeap j = false → get d j ≤ get (fixLeaf d i) j) ∧
    CrossAt (fixLeaf d i) i := by
  cases hm : inMinHeap i
  · obtain ⟨hs, hc, hcm⟩ := safeCorrespond_of_max d i hi hn hm
    have hf : fixLeaf d i = fixPairLoop (d.length * d.length) d (safeCorrespond d i) i := by
      unfold fixLeaf
      simp only [hm, Bool.false_eq_true, if_false]
    have hspec := fixPairLoop_spec (safeCorrespond d i) i (by rw [hs]; exact hcm) hm
      (d.length * d.length) d hn hd (by rw [hs]; exact hc) hi hmin hmax
      (le_trans (minCount_le _ _) (Nat.le_mul_self _))
    rw [← hf] at hspec
    obtain ⟨l, n, o1, o2, m1, m2, c⟩ := hspec
    refine ⟨l, n, o1, o2, m1, m2, ?_⟩
    unfold CrossAt
    rw [hm, sideLe_false, safeCorrespond_congr (fixLeaf d i) d l i]
    exact c
  · obtain ⟨hc, hcm, _, _⟩ := safeCorrespond_of_min d i hi hn h2 hm
    have hf : fixLeaf d i = fixPairLoop (d.length * d.length) d i (safeCorrespond d i) := by
      unfold fixLeaf
      simp only [hm, if_true]
    have hspec := fixPairLoop_spec i (safeCorrespond d i) hm hcm (d.length * d.length) d
      hn hd hi hc hmin hmax (le_trans (minCount_le _ _) (Nat.le_mul_self _))
    rw [← hf] at hspec
    obtain ⟨l, n, o1, o2, m1, m2, c⟩ := hspec
    refine ⟨l, n, o1, o2, m1, m2, ?_⟩
    unfold CrossAt
    rw [hm, sideLe_true, safeCorrespond_congr (fixLeaf d i) d l i]
    exact c

theorem crossAt_mono (d R : List Int) (j : Nat) (hn : d.length < 2 ^ 61) (h2 : 2 ≤ d.length)
    (hj : j < d.length) (hl : R.length = d.length)
    (m1 : ∀ k, inMinHeap k = true → get R k ≤ get d k)
    (m2 : ∀ k, inMinHeap k = false → get d k ≤ get R k) (h : CrossAt d j) : CrossAt R j := by
  unfold CrossAt at h ⊢
  rw [safeCorrespond_congr R d hl j]
  cases hm : inMinHeap j
  · obtain ⟨hs, hc, hcm⟩ := safeCorrespond_of_max d j hj hn hm
    rw [hm, sideLe_false] at h
    rw [sideLe_false]
    rw [hs] at h ⊢
    exact le_trans (m1 _ hcm) (le_trans h (m2 _ hm))
  · obtain ⟨hc, hcm, _, _⟩ := safeCorrespond_of_min d j hj hn h2 hm
    rw [hm, sideLe_true] at h
    rw [sideLe_true]
    exact le_trans (m1 _ hm) (le_trans h (m2 _ hcm))

theorem leafLoop_spec : ∀ (i : Nat) (d : List Int), d.length < 2 ^ 61 → NonNeg d →
    2 ≤ d.length → i < d.length →
    (∀ j, 2 ≤ j → j < d.length → inMinHeap j = true → get d (parent j) ≤ get d j) →
    (∀ j, 2 ≤ j → j < d.length → inMinHeap j = false → get d j ≤ get d (parent j)) →
    (∀ j, i < j → j < d.length → CrossAt d j) →
    (leafLoop i d).length = d.length ∧ NonNeg (leafLoop i d) ∧
    (∀ j, 2 ≤ j → j < d.length → inMinHeap j = true →
      get (leafLoop i d) (parent j) ≤ get (leafLoop i d) j) ∧
    (∀ j, 2 ≤ j → j < d.length → inMinHeap j = false →
      get (leafLoop i d) j ≤ get (leafLoop i d) (parent j)) ∧
    (∀ j, isLeaf (leafLoop i d) j = true → CrossAt (leafLoop i d) j) := by
  intro i
  induction i with
  | zero =>
    intro d hn hd h2 hi hmin hmax hcr
    rw [leafLoop]
    by_cases hl : isLeaf d 0 = true
    · rw [if_pos hl]
      obtain ⟨l, n, o1, o2, m1, m2, c⟩ := fixLeaf_spec d 0 hn hd h2 hi hmin hmax
      refine ⟨l, n, o1, o2, ?_⟩
      intro j hj
      have hjl := ((isLeaf_iff _ j (by rw [l]; exact hn)).1 hj).1
      rw [l] at hjl
      by_cases hj0 : j = 0
      · rw [hj0]; exact c
      · exact crossAt_mono d _ j hn h2 hjl l m1 m2 (hcr j (by omega) hjl)
    · rw [if_neg hl]
      refine ⟨rfl, hd, hmin, hmax, ?_⟩
      intro j hj
      have hjl := (isLeaf_iff _ j hn).1 hj
      have : j ≠ 0 := fun h => by rw [h] at hj; exact hl hj
      exact hcr j (by omega) hjl.1
  | succ i ih =>
    intro d hn hd h2 hi hmin hmax hcr
    rw [leafLoop]
    by_cases hl : isLeaf d (i + 1) = true
    · rw [if_pos hl]
      obtain ⟨l, n, o1, o2, m1, m2, c⟩ := fixLeaf_spec d (i + 1) hn hd h2 hi hmin hmax
      have := ih (fixLeaf d (i + 1)) (by rw [l]; exact hn) n (by rw [l]; exact h2)
        (by rw [l]; omega) (by rw [l]; exact o1) (by rw [l]; exact o2)
        (by
          intro j hij hj
          rw [l] at hj
          by_cases hj1 : j = i + 1
          · rw [hj1]; exact c
          · exact crossAt_mono d _ j hn h2 hj l m1 m2 (hcr j (by omega) hj))
      rw [l] at this
      exact this
    · rw [if_neg hl]
      refine ⟨rfl, hd, hmin, hmax, ?_⟩
      intro j hj
      have hjl := (isLeaf_iff _ j hn).1 hj
      have hnl : ¬ (i + 1 < d.length ∧ d.length ≤ 2 * (i + 1) + 2) :=
        fun h => hl ((isLeaf_iff d (i + 1) hn).2 h)
      exact hcr j (by omega) hjl.1

theorem heapOrd_iff_sides (d : List Int) :
    HeapOrd d ↔
      (∀ j, 2 ≤ j → j < d.length → inMinHeap j = true → get d (parent j) ≤ get d j) ∧
      (∀ j, 2 ≤ j → j < d.length → inMinHeap j = false → get d j ≤ get d (parent j)) := by
  unfold HeapOrd
  constructor
  · intro h
    refine ⟨fun j h2 hj hs => ?_, fun j h2 hj hs => ?_⟩
    · have := h j h2 hj
      rw [hs, sideLe_true] at this
      exact this
    · have := h j h2 hj
      rw [hs, sideLe_false] at this
      exact this
  · rintro ⟨h1, h2⟩ j hj2 hj
    cases hs : inMinHeap j
    · rw [sideLe_false]; exact h2 j hj2 hj hs
    · rw [sideLe_true]; exact h1 j hj2 hj hs

/-- On non-negative values `buildDeap` produces a Deap that meets the three invariants. -/
theorem buildDeap_valid (d : List Int) (hn : d.length < 2 ^ 61) (hd : NonNeg d) :
    Valid (buildDeap d) ∧ NonNeg (buildDeap d) ∧ (buildDeap d).length = d.length := by
  unfold buildDeap
  by_cases h2 : d.length < 2
  · rw [if_pos h2]
    exact ⟨valid_of_length_le_one d (by omega), hd, rfl⟩
  · rw [if_neg h2]
    dsimp only
    have hpl : parent (d.length - 1) < d.length := by
      have := parent_le (d.length - 1)
      omega
    obtain ⟨l1, n1, o1⟩ := heapifyFrom_spec (parent (d.length - 1)) d hd hn hpl
      (by
        intro j hj2 hj hs
        rw [parent_of_ge j hj2] at hs
        by_cases h3 : 2 ≤ d.length - 1
        · rw [parent_of_ge _ h3] at hs
          omega
        · have : parent (d.length - 1) = d.length - 1 := by
            unfold parent; rw [if_pos (by omega)]
          rw [this] at hs
          omega)
    generalize heapifyFrom (parent (d.length - 1)) d = d1 at l1 n1 o1 ⊢
    obtain ⟨om, ox⟩ := (heapOrd_iff_sides _).1 o1
    obtain ⟨l2, n2, o3, o4, c⟩ := leafLoop_spec (d1.length - 1) d1 (by rw [l1]; exact hn) n1
      (by rw [l1]; omega) (by rw [l1]; omega) om ox (fun j h1 h2 => by omega)
    have ho : HeapOrd (leafLoop (d1.length - 1) d1) := by
      rw [heapOrd_iff_sides, l2]
      exact ⟨o3, o4⟩
    exact ⟨⟨ho, fun _ => cross_from_leaves _ (by rw [l2, l1]; exact hn) (by rw [l2, l1]; omega)
      ho c⟩, n2, by rw [l2, l1]⟩

end Deap

namespace Deap
open Deap_Trait Vec

/-! ## C5: building and pushing non-negative values -/

/-- C5: restricted to non-negative `int` values, the Deap built from any sequence `xs` meets
the three Deap invariants (and passes `verify`), and pushing a non-negative `v` onto a Deap
`d` of non-negative values that meets them gives a Deap that meets them (and passes
`verify`); the values stay non-negative and the sizes are `|xs|` and `|d| + 1`. -/
theorem build_push_nonneg_valid (xs d : List Int) (v : Int)
    (hxl : xs.length < 2 ^ 61) (hxn : NonNeg xs)
    (hdl : d.length + 1 < 2 ^ 61) (hdn : NonNeg d) (hdv : Valid d)
    (hv : 0 ≤ v ∧ v < 2 ^ 31) :
    (Valid (ofList xs) ∧ verify (ofList xs) = true ∧ NonNeg (ofList xs) ∧
      (ofList xs).length = xs.length) ∧
    (Valid (push d v) ∧ verify (push d v) = true ∧ NonNeg (push d v) ∧
      (push d v).length = d.length + 1) := by
  obtain ⟨b1, b2, b3⟩ := buildDeap_valid xs hxl hxn
  change Valid (ofList xs) at b1
  change NonNeg (ofList xs) at b2
  change (ofList xs).length = xs.length at b3
  obtain ⟨p1, p2, p3⟩ := push_valid d v hdl hdv hdn hv
  exact ⟨⟨b1, (verify_iff _ (by rw [b3]; exact hxl)).2 b1, b2, b3⟩,
    ⟨p1, (verify_iff _ (by rw [p3]; exact hdl)).2 p1, p2, p3⟩⟩

set_option maxRecDepth 100000 in
/-- C5 on the sequence `[5, 3, 8, 1, 9, 2]` and on pushing `4` onto the Deap `[1, 9, 3]`. -/
theorem build_push_nonneg_valid_witness :
    (Valid (ofList [5, 3, 8, 1, 9, 2]) ∧ verify (ofList [5, 3, 8, 1, 9, 2]) = true ∧
      NonNeg (ofList [5, 3, 8, 1, 9, 2]) ∧
      (ofList [5, 3, 8, 1, 9, 2]).length = ([5, 3, 8, 1, 9, 2] : List Int).length) ∧
    (Valid (push [1, 9, 3] 4) ∧ verify (push [1, 9, 3] 4) = true ∧ NonNeg (push [1, 9, 3] 4) ∧
      (push [1, 9, 3] 4).length = ([1, 9, 3] : List Int).length + 1) :=
  build_push_nonneg_valid [5, 3, 8, 1, 9, 2] [1, 9, 3] 4 (by decide)
    (by unfold NonNeg; decide) (by decide) (by unfold NonNeg; decide)
    ((verify_iff _ (by decide)).1 (by decide)) (by decide)

end Deap

namespace Deap
open Deap_Trait Vec

/-! ## `popMin` and `popMax` on non-negative values -/

theorem get_dropLast_all (d : List Int) (k : Nat) :
    get d.dropLast k = if k + 1 < d.length then get d k else 0 := by
  by_cases h : k + 1 < d.length
  · rw [if_pos h, get_dropLast d k h]
  · rw [if_neg h, get_of_le _ _ (by rw [length_dropLast]; omega)]

theorem nonNeg_dropLast (d : List Int) (hd : NonNeg d) : NonNeg d.dropLast :=
  fun x hx => hd x (List.mem_of_mem_dropLast hx)

theorem dropLast_set (d : List Int) (i : Nat) (v : Int) :
    (d.set i v).dropLast = d.dropLast.set i v := by
  apply List.ext_getElem
  · simp
  · intro k h1 h2
    simp only [List.length_dropLast, List.length_set] at h1 h2
    rw [List.getElem_dropLast, List.getElem_set, List.getElem_set, List.getElem_dropLast]

/-- The states that meet the three invariants are closed under removing the last element. -/
theorem valid_dropLast (d : List Int) (hN : d.length < 2 ^ 61) (hV : Valid d) :
    Valid d.dropLast := by
  by_cases h3 : d.length ≤ 2
  · exact valid_of_length_le_one _ (by rw [length_dropLast]; omega)
  · have hl := length_dropLast d
    obtain ⟨A1, A2, A3⟩ := (valid_iff_sides d hN).1 hV
    have A3 := A3 (by omega)
    rw [valid_iff_sides _ (by rw [hl]; omega)]
    refine ⟨?_, ?_, ?_⟩
    · intro j h2 hj hs
      rw [hl] at hj
      have := parent_lt j h2
      rw [get_dropLast d j (by omega), get_dropLast d _ (by omega)]
      exact A1 j h2 (by omega) hs
    · intro j h2 hj hs
      rw [hl] at hj
      have := parent_lt j h2
      rw [get_dropLast d j (by omega), get_dropLast d _ (by omega)]
      exact A2 j h2 (by omega) hs
    · intro h2 i hi hs
      rw [hl] at hi
      obtain ⟨s1, s2, s3, s4⟩ := safeCorrespond_of_min d i (by omega) hN (by omega) hs
      obtain ⟨t1, t2, t3, t4⟩ :=
        safeCorrespond_of_min d.dropLast i (by rw [hl]; exact hi) (by rw [hl]; omega) h2 hs
      rw [hl] at t1 t3 t4
      rw [get_dropLast d i (by omega), get_dropLast d _ (by omega)]
      have hA := A3 i (by omega) hs
      by_cases hc : correspond i < d.length - 1
      · rw [t3 hc, ← s3 (by omega)]
        exact hA
      · obtain ⟨hi2, ht⟩ := t4 (by omega)
        rw [ht]
        by_cases hc' : d.length ≤ correspond i
        · rw [← (s4 hc').2]
          exact hA
        · have hce : correspond i = d.length - 1 := by omega
          rw [s3 (by omega)] at hA s2
          obtain ⟨p1, p2, _⟩ := parent_correspond i hi2 (by omega)
          have := A2 (correspond i) p1 (by omega) s2
          rw [p2] at this
          exact le_trans hA this

theorem sc_child_le (d : List Int) (e c : Nat) (hN : d.length < 2 ^ 61)
    (A2 : ∀ j, 2 ≤ j → j < d.length → inMinHeap j = false → get d j ≤ get d (parent j))
    (hc : c < d.length) (hcc : c = 2 * e + 2 ∨ c = 2 * e + 3) (hs : inMinHeap e = true) :
    get d (safeCorrespond d c) ≤ get d (safeCorrespond d e) := by
  have hpc : parent c = e := parent_child e c hcc
  have hsc : inMinHeap c = true := by rw [inMinHeap_child e c hcc (by omega)]; exact hs
  obtain ⟨s1, s2, s3, s4⟩ := safeCorrespond_of_min d c hc hN (by omega) hsc
  obtain ⟨t1, t2, t3, t4⟩ := safeCorrespond_of_min d e (by omega) hN (by omega) hs
  obtain ⟨p1, p2, _⟩ := parent_correspond c (by omega) (by omega)
  rw [hpc] at p2
  by_cases h : correspond c < d.length
  · have hpl := parent_lt (correspond c) p1
    rw [s3 h, t3 (by rw [← p2]; omega), ← p2]
    rw [s3 h] at s2
    exact A2 _ p1 h s2
  · obtain ⟨_, q⟩ := s4 (by omega)
    rw [hpc] at q
    rw [q] at s1
    rw [q, t3 s1]

theorem sink_min_step (d : List Int) (e c : Nat) (hN : d.length < 2 ^ 61) (hV : Valid d)
    (hc : c < d.length) (hcc : c = 2 * e + 2 ∨ c = 2 * e + 3) (hs : inMinHeap e = true)
    (hleast : ∀ k, k < d.length → (k = 2 * e + 2 ∨ k = 2 * e + 3) → get d c ≤ get d k) :
    Valid (d.set e (get d c)) := by
  have he : e < d.length := by omega
  have hl : (d.set e (get d c)).length = d.length := by simp
  have hg : ∀ k, get (d.set e (get d c)) k = if k = e then get d c else get d k :=
    fun k => get_set d e k _ he
  obtain ⟨A1, A2, A3⟩ := (valid_iff_sides d hN).1 hV
  have A3 := A3 (by omega)
  have hpc : parent c = e := parent_child e c hcc
  have hsc : inMinHeap c = true := by rw [inMinHeap_child e c hcc (by omega)]; exact hs
  have hec : get d e ≤ get d c := by
    have := A1 c (by omega) hc hsc
    rw [hpc] at this
    exact this
  have hside : ∀ j, inMinHeap j = false → j ≠ e := fun j hj h => by
    rw [h, hs] at hj; cases hj
  rw [valid_iff_sides _ (by rw [hl]; exact hN)]
  refine ⟨?_, ?_, ?_⟩
  · intro j h2 hj hjs
    rw [hl] at hj
    rw [hg, hg]
    have hpl := parent_lt j h2
    by_cases hje : j = e
    · rw [if_neg (by omega), if_pos hje]
      have := A1 j h2 hj hjs
      rw [hje] at this ⊢
      exact le_trans this hec
    · rw [if_neg hje]
      by_cases hp : parent j = e
      · rw [if_pos hp]
        have hch := child_of_parent j h2
        rw [hp] at hch
        exact hleast j hj hch
      · rw [if_neg hp]
        exact A1 j h2 hj hjs
  · intro j h2 hj hjs
    rw [hl] at hj
    have hps : inMinHeap (parent j) = false := by
      rw [inMinHeap_parent j h2 (by omega)]; exact hjs
    rw [hg, hg, if_neg (hside _ hjs), if_neg (hside _ hps)]
    exact A2 j h2 hj hjs
  · intro h2 i hi his
    rw [hl] at hi
    rw [safeCorrespond_congr _ d hl i]
    obtain ⟨s1, s2, _, _⟩ := safeCorrespond_of_min d i hi hN (by omega) his
    rw [hg, hg, if_neg (hside _ s2)]
    by_cases hie : i = e
    · rw [if_pos hie, hie]
      exact le_trans (A3 c hc hsc) (sc_child_le d e c hN A2 hc hcc hs)
    · rw [if_neg hie]
      exact A3 i hi his

theorem sinkLoop_leaf (takeLeft : Int → Int → Bool) (fuel : Nat) (d : List Int) (e : Nat)
    (h : isLeaf d e = true) : sinkLoop takeLeft fuel d e = (d, e) := by
  cases fuel with
  | zero => rfl
  | succ fuel =>
    rw [sinkLoop]
    simp [h]

theorem sinkLoop_step (takeLeft : Int → Int → Bool) (fuel : Nat) (d : List Int) (e : Nat)
    (hN : d.length < 2 ^ 61) (he : e < d.length) (h : isLeaf d e = false) :
    sinkLoop takeLeft (fuel + 1) d e =
      if (!exist d (2 * e + 3) || takeLeft (get d (2 * e + 2)) (get d (2 * e + 3))) = true then
        sinkLoop takeLeft fuel (d.set e (get d (2 * e + 2))) (2 * e + 2)
      else sinkLoop takeLeft fuel (d.set e (get d (2 * e + 3))) (2 * e + 3) := by
  rw [sinkLoop, leftChild_eq e (by omega), rightChild_eq e (by omega)]
  simp [h]

theorem sinkLoop_min_spec (fuel : Nat) : ∀ (d : List Int) (e : Nat), d.length < 2 ^ 61 →
    Valid d → NonNeg d → e < d.length → inMinHeap e = true → d.length ≤ fuel + e →
    (sinkLoop (fun a b => decide (a < b)) fuel d e).1.length = d.length ∧
    Valid (sinkLoop (fun a b => decide (a < b)) fuel d e).1 ∧
    NonNeg (sinkLoop (fun a b => decide (a < b)) fuel d e).1 ∧
    (sinkLoop (fun a b => decide (a < b)) fuel d e).2 < d.length ∧
    d.length ≤ 2 * (sinkLoop (fun a b => decide (a < b)) fuel d e).2 + 2 ∧
    inMinHeap (sinkLoop (fun a b => decide (a < b)) fuel d e).2 = true := by
  induction fuel with
  | zero => intro d e _ _ _ he _ hf; omega
  | succ fuel ih =>
    intro d e hN hV hd he hs hf
    cases hleaf : isLeaf d e
    · have hL : 2 * e + 2 < d.length := by
        by_contra hc
        have := (isLeaf_iff d e hN).2 ⟨he, by omega⟩
        rw [hleaf] at this
        cases this
      obtain ⟨A1, _, _⟩ := (valid_iff_sides d hN).1 hV
      rw [sinkLoop_step _ fuel d e hN he hleaf]
      by_cases hcnd : (!exist d (2 * e + 3) ||
          (fun a b => decide (a < b)) (get d (2 * e + 2)) (get d (2 * e + 3))) = true
      · rw [if_pos hcnd]
        have hleast : ∀ k, k < d.length → (k = 2 * e + 2 ∨ k = 2 * e + 3) →
            get d (2 * e + 2) ≤ get d k := by
          intro k hk hkc
          rcases hkc with h | h
          · rw [h]
          · rw [h] at hk ⊢
            have hex : exist d (2 * e + 3) = true := (exist_iff _ _).2 hk
            simp only [hex, Bool.not_true, Bool.false_or, decide_eq_true_eq] at hcnd
            exact le_of_lt hcnd
        have hV1 := sink_min_step d e (2 * e + 2) hN hV hL (Or.inl rfl) hs hleast
        have := ih (d.set e (get d (2 * e + 2))) (2 * e + 2) (by simp; exact hN) hV1
          (nonNeg_set d e _ hd (nonNeg_get d hd _)) (by simp; exact hL)
          (by rw [inMinHeap_child e _ (Or.inl rfl) (by omega)]; exact hs) (by simp; omega)
        simp only [List.length_set] at this
        exact this
      · rw [if_neg hcnd]
        simp only [Bool.or_eq_true, Bool.not_eq_true', decide_eq_true_eq, not_or,
          Bool.not_eq_false, not_lt] at hcnd
        have hR : 2 * e + 3 < d.length := (exist_iff _ _).1 hcnd.1
        have hleast : ∀ k, k < d.length → (k = 2 * e + 2 ∨ k = 2 * e + 3) →
            get d (2 * e + 3) ≤ get d k := by
          intro k hk hkc
          rcases hkc with h | h
          · rw [h]; exact hcnd.2
          · rw [h]
        have hV1 := sink_min_step d e (2 * e + 3) hN hV hR (Or.inr rfl) hs hleast
        have := ih (d.set e (get d (2 * e + 3))) (2 * e + 3) (by simp; exact hN) hV1
          (nonNeg_set d e _ hd (nonNeg_get d hd _)) (by simp; exact hR)
          (by rw [inMinHeap_child e _ (Or.inr rfl) (by omega)]; exact hs) (by simp; omega)
        simp only [List.length_set] at this
        exact this
    · rw [sinkLoop_leaf _ _ d e hleaf]
      exact ⟨rfl, hV, hd, he, ((isLeaf_iff d e hN).1 hleaf).2, hs⟩

/-- On non-negative values `popMin` keeps the three invariants. -/
theorem popMin_valid (d : List Int) (hN : d.length < 2 ^ 61) (h1 : 1 ≤ d.length)
    (hV : Valid d) (hd : NonNeg d) :
    ∃ x r, popMin d = some (x, r) ∧ x = get d 0 ∧ Valid r ∧ NonNeg r ∧
      r.length + 1 = d.length := by
  unfold popMin
  rw [if_neg (by omega)]
  dsimp only
  obtain ⟨l, v, n, e1, e2, e3⟩ := sinkLoop_min_spec d.length d 0 hN hV hd (by omega)
    inMinHeap_zero (by omega)
  generalize sinkLoop (fun a b => decide (a < b)) d.length d 0 = r at l v n e1 e2 e3
  obtain ⟨d1, e⟩ := r
  dsimp only at l v n e1 e2 e3 ⊢
  have hvd := valid_dropLast d1 (by rw [l]; exact hN) v
  have hnd := nonNeg_dropLast d1 n
  have hld := length_dropLast d1
  by_cases hlast : e = d1.length - 1
  · rw [if_pos hlast]
    exact ⟨_, _, rfl, rfl, hvd, hnd, by rw [hld, l]; omega⟩
  · rw [if_neg hlast, dropLast_set]
    refine ⟨_, _, rfl, rfl, ?_⟩
    by_cases he0 : e = 0
    · have hins : insert (d1.dropLast.set e (get d1 (d1.length - 1))) e =
          d1.dropLast.set e (get d1 (d1.length - 1)) := by
        unfold insert
        rw [if_pos he0]
      rw [hins]
      refine ⟨valid_of_length_le_one _ (by simp; omega),
        nonNeg_set _ _ _ hnd (nonNeg_get d1 n _), by simp; omega⟩
    · obtain ⟨i1, i2, i3⟩ := insert_min_valid d1.dropLast e (get d1 (d1.length - 1))
        (by rw [hld]; omega) hvd hnd (nonNeg_get d1 n _) (by rw [hld]; omega)
        (by rw [hld]; omega) he0 e3
      exact ⟨i1, i2, by rw [i3, hld, l]; omega⟩

end Deap

namespace Deap
open Deap_Trait Vec

theorem sink_max_step (d : List Int) (e c : Nat) (hN : d.length < 2 ^ 61) (hV : Valid d)
    (hR : 2 * e + 3 < d.length) (hcc : c = 2 * e + 2 ∨ c = 2 * e + 3)
    (hs : inMinHeap e = false)
    (hgreat : ∀ k, k < d.length → (k = 2 * e + 2 ∨ k = 2 * e + 3) → get d k ≤ get d c) :
    Valid (d.set e (get d c)) := by
  have he : e < d.length := by omega
  have hc : c < d.length := by omega
  have hl : (d.set e (get d c)).length = d.length := by simp
  have hg : ∀ k, get (d.set e (get d c)) k = if k = e then get d c else get d k :=
    fun k => get_set d e k _ he
  obtain ⟨A1, A2, A3⟩ := (valid_iff_sides d hN).1 hV
  have A3 := A3 (by omega)
  have hpc : parent c = e := parent_child e c hcc
  have hsc : inMinHeap c = false := by rw [inMinHeap_child e c hcc (by omega)]; exact hs
  have hec : get d c ≤ get d e := by
    have := A2 c (by omega) hc hsc
    rw [hpc] at this
    exact this
  have hside : ∀ j, inMinHeap j = true → j ≠ e := fun j hj h => by
    rw [h, hs] at hj; cases hj
  rw [valid_iff_sides _ (by rw [hl]; exact hN)]
  refine ⟨?_, ?_, ?_⟩
  · intro j h2 hj hjs
    rw [hl] at hj
    have hps : inMinHeap (parent j) = true := by
      rw [inMinHeap_parent j h2 (by omega)]; exact hjs
    rw [hg, hg, if_neg (hside _ hjs), if_neg (hside _ hps)]
    exact A1 j h2 hj hjs
  · intro j h2 hj hjs
    rw [hl] at hj
    rw [hg, hg]
    have hpl := parent_lt j h2
    by_cases hje : j = e
    · rw [if_pos hje, if_neg (by omega)]
      have := A2 j h2 hj hjs
      rw [hje] at this ⊢
      exact le_trans hec this
    · rw [if_neg hje]
      by_cases hp : parent j = e
      · rw [if_pos hp]
        have hch := child_of_parent j h2
        rw [hp] at hch
        exact hgreat j hj hch
      · rw [if_neg hp]
        exact A2 j h2 hj hjs
  · intro h2 i hi his
    rw [hl] at hi
    rw [safeCorrespond_congr _ d hl i]
    obtain ⟨s1, s2, s3, s4⟩ := safeCorrespond_of_min d i hi hN (by omega) his
    rw [hg, hg, if_neg (hside _ his)]
    by_cases hse : safeCorrespond d i = e
    · rw [if_pos hse]
      have hie : i = correspond e := by
        by_cases hci : correspond i < d.length
        · rw [← hse, s3 hci, correspond_correspond i (by omega)]
        · exfalso
          obtain ⟨hi2, q⟩ := s4 (by omega)
          obtain ⟨p1, p2, _⟩ := parent_correspond i hi2 (by omega)
          have hch := child_of_parent (correspond i) p1
          rw [p2, ← q, hse] at hch
          omega
      obtain ⟨t1, t2, t3⟩ := safeCorrespond_of_max d c hc hN hsc
      obtain ⟨p1, p2, _⟩ := parent_correspond c (by omega) (by omega)
      rw [hpc] at p2
      have h1 := A1 (correspond c) p1 t2 t3
      rw [p2] at h1
      have h3 := A3 (correspond c) t2 t3
      obtain ⟨_, _, u3, _⟩ := safeCorrespond_of_min d (correspond c) t2 hN (by omega) t3
      rw [correspond_correspond c (by omega)] at u3
      rw [u3 hc] at h3
      rw [hie]
      exact le_trans h1 h3
    · rw [if_neg hse]
      exact A3 i hi his

theorem sinkLoop_max_spec (fuel : Nat) : ∀ (d : List Int) (e : Nat), d.length < 2 ^ 61 →
    Valid d → NonNeg d → e < d.length → inMinHeap e = false → d.length ≤ fuel + e →
    (sinkLoop (fun a b => decide (a > b)) fuel d e).1.length = d.length ∧
    NonNeg (sinkLoop (fun a b => decide (a > b)) fuel d e).1 ∧
    (sinkLoop (fun a b => decide (a > b)) fuel d e).2 < d.length ∧
    d.length ≤ 2 * (sinkLoop (fun a b => decide (a > b)) fuel d e).2 + 2 ∧
    inMinHeap (sinkLoop (fun a b => decide (a > b)) fuel d e).2 = false ∧
    ((Valid (sinkLoop (fun a b => decide (a > b)) fuel d e).1 ∧
        ((sinkLoop (fun a b => decide (a > b)) fuel d e).2 = e ∨
          2 * parent (sinkLoop (fun a b => decide (a > b)) fuel d e).2 + 3 < d.length)) ∨
      ((sinkLoop (fun a b => decide (a > b)) fuel d e).2 + 1 = d.length ∧
        (sinkLoop (fun a b => decide (a > b)) fuel d e).2 =
          2 * parent (sinkLoop (fun a b => decide (a > b)) fuel d e).2 + 2 ∧
        ∃ D : List Int, Valid D ∧ NonNeg D ∧ D.length = d.length ∧
          (sinkLoop (fun a b => decide (a > b)) fuel d e).1 =
            D.set (parent (sinkLoop (fun a b => decide (a > b)) fuel d e).2)
              (get D (sinkLoop (fun a b => decide (a > b)) fuel d e).2))) := by
  induction fuel with
  | zero => intro d e _ _ _ he _ hf; omega
  | succ fuel ih =>
    intro d e hN hV hd he hs hf
    cases hleaf : isLeaf d e
    · have hL : 2 * e + 2 < d.length := by
        by_contra hc
        have := (isLeaf_iff d e hN).2 ⟨he, by omega⟩
        rw [hleaf] at this
        cases this
      rw [sinkLoop_step _ fuel d e hN he hleaf]
      by_cases hR : 2 * e + 3 < d.length
      · have hex : exist d (2 * e + 3) = true := (exist_iff _ _).2 hR
        have key : ∀ c, (c = 2 * e + 2 ∨ c = 2 * e + 3) →
            (∀ k, k < d.length → (k = 2 * e + 2 ∨ k = 2 * e + 3) → get d k ≤ get d c) →
            _ := fun c hcc hgreat =>
          ih (d.set e (get d c)) c (by simp; exact hN)
            (sink_max_step d e c hN hV hR hcc hs hgreat)
            (nonNeg_set d e _ hd (nonNeg_get d hd _)) (by simp; omega)
            (by rw [inMinHeap_child e _ hcc (by omega)]; exact hs) (by simp; omega)
        by_cases hcnd : (!exist d (2 * e + 3) ||
            (fun a b => decide (a > b)) (get d (2 * e + 2)) (get d (2 * e + 3))) = true
        · rw [if_pos hcnd]
          simp only [hex, Bool.not_true, Bool.false_or, decide_eq_true_eq] at hcnd
          have := key (2 * e + 2) (Or.inl rfl) (by
            intro k hk hkc
            rcases hkc with h | h
            · rw [h]
            · rw [h]; exact le_of_lt hcnd)
          simp only [List.length_set] at this
          obtain ⟨a1, a2, a3, a4, a5, a6⟩ := this
          refine ⟨a1, a2, a3, a4, a5, ?_⟩
          rcases a6 with ⟨v, h | h⟩ | h
          · refine Or.inl ⟨v, Or.inr ?_⟩
            rw [h, parent_child e _ (Or.inl rfl)]
            exact hR
          · exact Or.inl ⟨v, Or.inr h⟩
          · exact Or.inr h
        · rw [if_neg hcnd]
          simp only [hex, Bool.not_true, Bool.false_or, decide_eq_true_eq, not_lt] at hcnd
          have := key (2 * e + 3) (Or.inr rfl) (by
            intro k hk hkc
            rcases hkc with h | h
            · rw [h]; exact hcnd
            · rw [h])
          simp only [List.length_set] at this
          obtain ⟨a1, a2, a3, a4, a5, a6⟩ := this
          refine ⟨a1, a2, a3, a4, a5, ?_⟩
          rcases a6 with ⟨v, h | h⟩ | h
          · refine Or.inl ⟨v, Or.inr ?_⟩
            rw [h, parent_child e _ (Or.inr rfl)]
            exact hR
          · exact Or.inl ⟨v, Or.inr h⟩
          · exact Or.inr h
      · have hex : exist d (2 * e + 3) = false := by
          cases hx : exist d (2 * e + 3)
          · rfl
          · exact absurd ((exist_iff _ _).1 hx) hR
        rw [if_pos (by simp [hex])]
        have hlf : isLeaf (d.set e (get d (2 * e + 2))) (2 * e + 2) = true :=
          (isLeaf_iff _ _ (by simp; exact hN)).2 ⟨by simp; exact hL, by simp; omega⟩
        rw [sinkLoop_leaf _ _ _ _ hlf]
        dsimp only
        have hp : parent (2 * e + 2) = e := parent_child e _ (Or.inl rfl)
        refine ⟨by simp, nonNeg_set d e _ hd (nonNeg_get d hd _), hL, by omega,
          by rw [inMinHeap_child e _ (Or.inl rfl) (by omega)]; exact hs, Or.inr ⟨by omega, ?_, ?_⟩⟩
        · rw [hp]
        · exact ⟨d, hV, hd, rfl, by rw [hp]⟩
    · rw [sinkLoop_leaf _ _ d e hleaf]
      exact ⟨rfl, hd, he, ((isLeaf_iff d e hN).1 hleaf).2, hs, Or.inl ⟨hV, Or.inl rfl⟩⟩

/-- On non-negative values `popMax` keeps the three invariants. -/
theorem popMax_valid (d : List Int) (hN : d.length < 2 ^ 61) (h1 : 1 ≤ d.length)
    (hV : Valid d) (hd : NonNeg d) :
    ∃ x r, popMax d = some (x, r) ∧ Valid r ∧ NonNeg r ∧ r.length + 1 = d.length := by
  unfold popMax
  rw [if_neg (by omega)]
  by_cases hone : d.length = 1
  · rw [if_pos hone]
    exact ⟨_, _, rfl, valid_of_length_le_one _ (by rw [length_dropLast]; omega),
      nonNeg_dropLast d hd, by rw [length_dropLast]; omega⟩
  · rw [if_neg hone]
    dsimp only
    obtain ⟨l, n, e1, e2, e3, hcase⟩ := sinkLoop_max_spec d.length d 1 hN hV hd (by omega)
      inMinHeap_one (by omega)
    generalize sinkLoop (fun a b => decide (a > b)) d.length d 1 = r at l n e1 e2 e3 hcase
    obtain ⟨d1, e⟩ := r
    dsimp only at l n e1 e2 e3 hcase ⊢
    have hnd := nonNeg_dropLast d1 n
    have hld := length_dropLast d1
    by_cases hlast : e = d1.length - 1
    · rw [if_pos hlast]
      rcases hcase with ⟨v, hst⟩ | ⟨b1, b2, D, DV, Dn, Dl, hD⟩
      · have hnl : isLeaf d1.dropLast (parent e) = false := by
          cases hx : isLeaf d1.dropLast (parent e)
          · rfl
          · exfalso
            have := (isLeaf_iff _ _ (by rw [hld]; omega)).1 hx
            rw [hld, l] at this
            rcases hst with h | h
            · rw [h] at this hlast
              have hp1 : parent 1 = 1 := by decide
              rw [hp1] at this
              omega
            · omega
        rw [hnl]
        exact ⟨_, _, rfl, valid_dropLast d1 (by rw [l]; exact hN) v, hnd,
          by rw [hld, l]; omega⟩
      · have he4 : 2 ≤ e := by omega
        have hps : inMinHeap (parent e) = false := by
          rw [inMinHeap_parent e he4 (by omega)]; exact e3
        have hp1 := max_ge_one _ hps
        have hlf : isLeaf d1.dropLast (parent e) = true :=
          (isLeaf_iff _ _ (by rw [hld]; omega)).2 ⟨by rw [hld, l]; omega, by rw [hld, l]; omega⟩
        rw [hlf, if_pos rfl]
        refine ⟨_, _, rfl, ?_⟩
        rw [hD, dropLast_set]
        obtain ⟨p1, p2, p3⟩ := parent_correspond e he4 (by omega)
        obtain ⟨c1, c2, _, _, _⟩ := correspond_of_max e (by omega) e3
        have hb := half_bounds e
        have hch := child_of_parent (correspond e) p1
        rw [p2] at hch
        obtain ⟨i1, i2, i3⟩ := insert_max_two_valid D.dropLast (parent e) (get D e)
          (by rw [length_dropLast]; omega) (valid_dropLast D (by rw [Dl]; exact hN) DV)
          (nonNeg_dropLast D Dn) (nonNeg_get D Dn _) (by rw [length_dropLast, Dl]; omega)
          (by rw [length_dropLast, Dl]; omega) hps (by rw [length_dropLast, Dl]; omega)
        exact ⟨i1, i2, by rw [i3, length_dropLast, Dl]; omega⟩
    · rw [if_neg hlast, dropLast_set]
      refine ⟨_, _, rfl, ?_⟩
      rcases hcase with ⟨v, _⟩ | ⟨b1, _⟩
      · have hvd := valid_dropLast d1 (by rw [l]; exact hN) v
        have hv := nonNeg_get d1 n (d1.length - 1)
        obtain ⟨c1, c2, _, c4, _⟩ := correspond_of_max e (by omega) e3
        by_cases hk1 : d1.length - 1 ≤ 2 * correspond e + 2
        · obtain ⟨i1, i2, i3⟩ := insert_max_leaf_valid d1.dropLast e (get d1 (d1.length - 1))
            (by rw [hld]; omega) hvd hnd hv (by rw [hld]; omega) (by rw [hld]; omega) e3
            (by rw [hld]; exact hk1)
          exact ⟨i1, i2, by rw [i3, hld, l]; omega⟩
        · by_cases hk2 : 2 * correspond e + 3 < d1.length - 1
          · obtain ⟨i1, i2, i3⟩ := insert_max_two_valid d1.dropLast e (get d1 (d1.length - 1))
              (by rw [hld]; omega) hvd hnd hv (by rw [hld]; omega) (by rw [hld]; omega) e3
              (by rw [hld]; exact hk2)
            exact ⟨i1, i2, by rw [i3, hld, l]; omega⟩
          · have hcv : get d1.dropLast (correspond e) ≤ get d1 (d1.length - 1) := by
              rw [get_dropLast d1 _ (by omega)]
              obtain ⟨A1, _, _⟩ := (valid_iff_sides d1 (by rw [l]; exact hN)).1 v
              have hl3 : d1.length - 1 = 2 * correspond e + 3 := by omega
              have := A1 (2 * correspond e + 3) (by omega) (by omega)
                (by rw [inMinHeap_child (correspond e) _ (Or.inr rfl) (by omega)]; exact c4)
              rw [parent_child (correspond e) _ (Or.inr rfl)] at this
              rw [hl3]
              exact this
            obtain ⟨i1, i2, i3⟩ := insert_max_one_valid d1.dropLast e (get d1 (d1.length - 1))
              (by rw [hld]; omega) hvd hnd hv (by rw [hld]; omega) (by rw [hld]; omega) e3
              (by rw [hld]; omega) (by rw [hld]; omega) hcv
            exact ⟨i1, i2, by rw [i3, hld, l]; omega⟩
      · omega

/-! ## C6: popping from a Deap of non-negative values -/

/-- C6: restricted to non-negative `int` values, for every non-empty Deap that meets the
three Deap invariants both `popMin` and `popMax` succeed and leave a state that meets the
three invariants (and passes `verify`), holds non-negative values and is one element
shorter; this covers every branch of `popMax`. -/
theorem pop_nonneg_valid (d : List Int) (hN : d.length < 2 ^ 61) (h1 : 1 ≤ d.length)
    (hV : Valid d) (hd : NonNeg d) :
    (∃ x r, popMin d = some (x, r) ∧ Valid r ∧ verify r = true ∧ NonNeg r ∧
      r.length + 1 = d.length) ∧
    (∃ x r, popMax d = some (x, r) ∧ Valid r ∧ verify r = true ∧ NonNeg r ∧
      r.length + 1 = d.length) := by
  obtain ⟨x, r, a1, _, a3, a4, a5⟩ := popMin_valid d hN h1 hV hd
  obtain ⟨y, s, b1, b3, b4, b5⟩ := popMax_valid d hN h1 hV hd
  exact ⟨⟨x, r, a1, a3, (verify_iff r (by omega)).2 a3, a4, a5⟩,
    ⟨y, s, b1, b3, (verify_iff s (by omega)).2 b3, b4, b5⟩⟩

set_option maxRecDepth 100000 in
/-- C6 on the Deap `[0, 10, 1, 9, 5]`, where `popMax` vacates the last index and the parent
of that leaf becomes a leaf. -/
theorem pop_nonneg_valid_witness :
    (∃ x r, popMin [0, 10, 1, 9, 5] = some (x, r) ∧ Valid r ∧ verify r = true ∧ NonNeg r ∧
      r.length + 1 = ([0, 10, 1, 9, 5] : List Int).length) ∧
    (∃ x r, popMax [0, 10, 1, 9, 5] = some (x, r) ∧ Valid r ∧ verify r = true ∧ NonNeg r ∧
      r.length + 1 = ([0, 10, 1, 9, 5] : List Int).length) :=
  pop_nonneg_valid [0, 10, 1, 9, 5] (by decide) (by decide)
    ((verify_iff _ (by decide)).1 (by decide)) (by unfold NonNeg; decide)

end Deap

namespace MinMaxHeap
open MinMaxHeap_Trait Vec

/-! ## `pushDown` of the Min-Max Heap -/

theorem mm_leftChild_eq (i : Nat) (h : i < 2 ^ 62) : leftChild i = 2 * i + 1 := by
  unfold leftChild
  rw [Nat.mod_eq_of_lt (by omega)]; omega

theorem mm_rightChild_eq (i : Nat) (h : i < 2 ^ 62) : rightChild i = 2 * i + 2 := by
  unfold rightChild
  rw [Nat.mod_eq_of_lt (by omega)]; omega

theorem mm_exist_iff (d : List Int) (i : Nat) : exist d i = true ↔ i < d.length := by
  simp [exist]

theorem mm_children_eq (r : Nat) (h : r + 1 < 2 ^ 61) :
    children r = [2 * r + 1, 2 * r + 2, 4 * r + 3, 4 * r + 4, 4 * r + 5, 4 * r + 6] := by
  unfold children
  rw [mm_leftChild_eq r (by omega), mm_rightChild_eq r (by omega)]
  dsimp only
  rw [mm_leftChild_eq _ (by omega), mm_rightChild_eq _ (by omega),
    mm_leftChild_eq _ (by omega), mm_rightChild_eq _ (by omega)]
  have e1 : 2 * (2 * r + 1) + 1 = 4 * r + 3 := by omega
  have e2 : 2 * (2 * r + 1) + 2 = 4 * r + 4 := by omega
  have e3 : 2 * (2 * r + 2) + 1 = 4 * r + 5 := by omega
  have e4 : 2 * (2 * r + 2) + 2 = 4 * r + 6 := by omega
  rw [e1, e2, e3, e4]

theorem near_iff_mem (r j : Nat) (h : r + 1 < 2 ^ 61) : Near r j ↔ j ∈ children r := by
  rw [mm_children_eq r h]
  simp [Near]

theorem levelLe_refl (b : Bool) (x : Int) : levelLe b x x = true := by
  cases b <;> simp [levelLe]

theorem levelLe_trans (b : Bool) (x y z : Int) (h1 : levelLe b x y = true)
    (h2 : levelLe b y z = true) : levelLe b x z = true := by
  cases b <;> simp [levelLe] at * <;> omega

theorem levelLe_total (b : Bool) (x y : Int) (h : levelLe b x y = false) :
    levelLe b y x = true := by
  cases b <;> simp [levelLe] at * <;> omega

theorem levelLe_not (b : Bool) (x y : Int) : levelLe (!b) x y = levelLe b y x := by
  cases b <;> simp [levelLe]

theorem chooseLess_levelLe (r : Nat) :
    chooseLess r = fun x y => !levelLe (isMinNode r) y x := by
  unfold chooseLess
  funext x y
  cases isMinNode r
  · by_cases h : x ≤ y
    · simp [levelLe, h, not_lt.2 h]
    · simp [levelLe, h, not_le.1 h]
  · by_cases h : y ≤ x
    · simp [levelLe, h, not_lt.2 h]
    · simp [levelLe, h, not_le.1 h]

theorem near_level (a j : Nat) (h : Near a j) (hj : j < 2 ^ 62) :
    isMinNode j = if j ≤ 2 * a + 2 then !isMinNode a else isMinNode a := by
  unfold Near at h
  by_cases hc : j ≤ 2 * a + 2
  · rw [if_pos hc]
    exact isMinNode_child a j (by omega) (by omega)
  · rw [if_neg hc]
    have h1 : isMinNode j = !isMinNode ((j - 1) / 2) :=
      isMinNode_child ((j - 1) / 2) j (by omega) (by omega)
    have h2 : isMinNode ((j - 1) / 2) = !isMinNode a :=
      isMinNode_child a ((j - 1) / 2) (by omega) (by omega)
    rw [h1, h2, Bool.not_not]

theorem pickFold_spec (b : Bool) (d : List Int) : ∀ (l : List Nat) (M0 : Nat),
    levelLe b (get d (l.foldl (fun M id =>
      if exist d id && !levelLe b (get d M) (get d id) then id else M) M0)) (get d M0) = true ∧
    (∀ j ∈ l, j < d.length → levelLe b (get d (l.foldl (fun M id =>
      if exist d id && !levelLe b (get d M) (get d id) then id else M) M0)) (get d j) = true) ∧
    (l.foldl (fun M id =>
      if exist d id && !levelLe b (get d M) (get d id) then id else M) M0 = M0 ∨
      (l.foldl (fun M id =>
        if exist d id && !levelLe b (get d M) (get d id) then id else M) M0 ∈ l ∧
       l.foldl (fun M id =>
        if exist d id && !levelLe b (get d M) (get d id) then id else M) M0 < d.length ∧
       levelLe b (get d M0) (get d (l.foldl (fun M id =>
        if exist d id && !levelLe b (get d M) (get d id) then id else M) M0)) = false)) := by
  intro l
  induction l with
  | nil =>
    intro M0
    refine ⟨levelLe_refl _ _, ?_, Or.inl rfl⟩
    intro j hj
    cases hj
  | cons id l ih =>
    intro M0
    rw [List.foldl_cons]
    by_cases hc : (exist d id && !levelLe b (get d M0) (get d id)) = true
    · rw [if_pos hc]
      obtain ⟨h1, h2, h3⟩ := ih id
      generalize l.foldl (fun M id =>
        if exist d id && !levelLe b (get d M) (get d id) then id else M) id = M at h1 h2 h3
      simp only [Bool.and_eq_true, Bool.not_eq_true'] at hc
      obtain ⟨hc1, hc2⟩ := hc
      have hid := (mm_exist_iff d id).1 hc1
      have hlt := levelLe_total b _ _ hc2
      refine ⟨levelLe_trans b _ _ _ h1 hlt, ?_, Or.inr ?_⟩
      · intro j hj hjn
        rcases List.mem_cons.1 hj with h | h
        · rw [h]; exact h1
        · exact h2 j h hjn
      · rcases h3 with h | ⟨h, h', h''⟩
        · rw [h]
          exact ⟨List.mem_cons_self _ _, hid, hc2⟩
        · refine ⟨List.mem_cons_of_mem _ h, h', ?_⟩
          cases hx : levelLe b (get d M0) (get d M)
          · rfl
          · have := levelLe_trans b _ _ _ hx h1
            rw [hc2] at this
            cases this
    · rw [if_neg hc]
      obtain ⟨h1, h2, h3⟩ := ih M0
      generalize l.foldl (fun M id =>
        if exist d id && !levelLe b (get d M) (get d id) then id else M) M0 = M at h1 h2 h3
      refine ⟨h1, ?_, ?_⟩
      · intro j hj hjn
        rcases List.mem_cons.1 hj with h | h
        · rw [h]
          rw [h] at hjn
          have : levelLe b (get d M0) (get d id) = true := by
            cases hx : levelLe b (get d M0) (get d id)
            · exact absurd (by simp [hx, (mm_exist_iff d id).2 hjn]) hc
            · rfl
          exact levelLe_trans b _ _ _ h1 this
        · exact h2 j h hjn
      · rcases h3 with h | ⟨h, h', h''⟩
        · exact Or.inl h
        · exact Or.inr ⟨List.mem_cons_of_mem _ h, h', h''⟩

theorem pickM_spec (b : Bool) (d : List Int) (r : Nat) (hr : r + 1 < 2 ^ 61) :
    levelLe b (get d (pickM (fun x y => !levelLe b y x) d r)) (get d r) = true ∧
    (∀ j, j < d.length → Near r j →
      levelLe b (get d (pickM (fun x y => !levelLe b y x) d r)) (get d j) = true) ∧
    (pickM (fun x y => !levelLe b y x) d r = r ∨
      (Near r (pickM (fun x y => !levelLe b y x) d r) ∧
        pickM (fun x y => !levelLe b y x) d r < d.length ∧
        levelLe b (get d r) (get d (pickM (fun x y => !levelLe b y x) d r)) = false)) := by
  obtain ⟨h1, h2, h3⟩ := pickFold_spec b d (children r) r
  unfold pickM
  refine ⟨h1, fun j hj hn => h2 j ((near_iff_mem r j hr).1 hn) hj, ?_⟩
  rcases h3 with h | ⟨h, h', h''⟩
  · exact Or.inl h
  · exact Or.inr ⟨(near_iff_mem r _ hr).2 h, h', h''⟩

theorem levelLe_flip (b : Bool) (a : Nat) (x y : Int) (h : isMinNode a = !b) :
    levelLe (isMinNode a) x y = levelLe b y x := by
  rw [h, levelLe_not]

/-- The state left by one round of `pushDown` that ends at a child of `root`. -/
theorem mm_step_child (b : Bool) (s : Nat) (d d1 : List Int) (r M : Nat)
    (hN : d.length < 2 ^ 61) (hb : isMinNode r = b) (hMn : M < d.length)
    (hM : M = 2 * r + 1 ∨ M = 2 * r + 2)
    (pre1 : ∀ a j, j < d.length → Near a j → s ≤ a → a ≠ r →
      levelLe (isMinNode a) (get d a) (get d j) = true)
    (pre2 : ∀ t j, j < d.length → s ≤ t →
      (r = 4 * t + 3 ∨ r = 4 * t + 4 ∨ r = 4 * t + 5 ∨ r = 4 * t + 6) → Near r j →
      levelLe b (get d t) (get d j) = true)
    (hmin : ∀ j, j < d.length → Near r j → levelLe b (get d M) (get d j) = true)
    (hlt : levelLe b (get d M) (get d r) = true) (hs : s ≤ r)
    (hl : d1.length = d.length)
    (hg : ∀ k, get d1 k = if k = M then get d r else if k = r then get d M else get d k) :
    NearOrd s d1 := by
  intro a j hj hn hsa
  rw [hl] at hj
  have hnr : Near r M := by unfold Near; omega
  have hlM : isMinNode M = !b := by
    rw [near_level r M hnr (by omega), if_pos (by omega), hb]
  rw [hg, hg]
  by_cases har : a = r
  · rw [har, if_neg (by omega), if_pos rfl, hb]
    rw [har] at hn
    by_cases hjM : j = M
    · rw [if_pos hjM]; exact hlt
    · rw [if_neg hjM, if_neg (by unfold Near at hn; omega)]
      exact hmin j hj hn
  · by_cases haM : a = M
    · rw [haM, if_pos rfl, levelLe_flip b M _ _ hlM]
      rw [haM] at hn
      rw [if_neg (by unfold Near at hn; omega), if_neg (by unfold Near at hn; omega)]
      have := pre1 M j hj hn (by omega) (by omega)
      rw [levelLe_flip b M _ _ hlM] at this
      exact levelLe_trans b _ _ _ this hlt
    · rw [if_neg haM, if_neg har]
      by_cases hjM : j = M
      · rw [if_pos hjM]
        have hnar : Near a r := by unfold Near at hn ⊢; omega
        have hla : isMinNode a = !b := by
          have := near_level a r hnar (by omega)
          rw [if_pos (by unfold Near at hn; omega), hb] at this
          rw [this, Bool.not_not]
        exact pre1 a r (by omega) hnar hsa har
      · rw [if_neg hjM]
        by_cases hjr : j = r
        · rw [if_pos hjr]
          rw [hjr] at hn
          by_cases hpar : r ≤ 2 * a + 2
          · have hla : isMinNode a = !b := by
              have := near_level a r hn (by omega)
              rw [if_pos hpar, hb] at this
              rw [this, Bool.not_not]
            have := pre1 a r (by omega) hn hsa har
            rw [levelLe_flip b a _ _ hla] at this ⊢
            exact levelLe_trans b _ _ _ hlt this
          · have hla : isMinNode a = b := by
              have := near_level a r hn (by omega)
              rw [if_neg hpar, hb] at this
              exact this.symm
            rw [hla]
            exact pre2 a M hMn hsa (by unfold Near at hn; omega) hnr
        · rw [if_neg hjr]
          exact pre1 a j hj hn hsa har

/-- The state left by one round of `pushDown` that continues at a grandchild of `root`
meets the requirements of the next round. -/
theorem mm_step_grand (b : Bool) (s : Nat) (d d2 : List Int) (r M p : Nat) (y z : Int)
    (hN : d.length < 2 ^ 61) (hb : isMinNode r = b) (hMn : M < d.length)
    (hM : M = 4 * r + 3 ∨ M = 4 * r + 4 ∨ M = 4 * r + 5 ∨ M = 4 * r + 6)
    (hp : M = 2 * p + 1 ∨ M = 2 * p + 2)
    (pre1 : ∀ a j, j < d.length → Near a j → s ≤ a → a ≠ r →
      levelLe (isMinNode a) (get d a) (get d j) = true)
    (pre2 : ∀ t j, j < d.length → s ≤ t →
      (r = 4 * t + 3 ∨ r = 4 * t + 4 ∨ r = 4 * t + 5 ∨ r = 4 * t + 6) → Near r j →
      levelLe b (get d t) (get d j) = true)
    (hmin : ∀ j, j < d.length → Near r j → levelLe b (get d M) (get d j) = true)
    (hlt : levelLe b (get d M) (get d r) = true) (hs : s ≤ r)
    (hyz : levelLe b y z = true) (hz1 : levelLe b (get d p) z = true)
    (hz2 : z = get d p ∨ z = get d r) (hy2 : levelLe b (get d M) y = true)
    (hl : d2.length = d.length)
    (hg : ∀ k, get d2 k =
      if k = M then y else if k = p then z else if k = r then get d M else get d k) :
    (∀ a j, j < d2.length → Near a j → s ≤ a → a ≠ M →
      levelLe (isMinNode a) (get d2 a) (get d2 j) = true) ∧
    (∀ t j, j < d2.length → s ≤ t →
      (M = 4 * t + 3 ∨ M = 4 * t + 4 ∨ M = 4 * t + 5 ∨ M = 4 * t + 6) → Near M j →
      levelLe b (get d2 t) (get d2 j) = true) := by
  have hnr : Near r M := by unfold Near; omega
  have hnp : Near r p := by unfold Near; omega
  have hlM : isMinNode M = b := by
    rw [near_level r M hnr (by omega), if_neg (by omega), hb]
  have hlp : isMinNode p = !b := by
    rw [near_level r p hnp (by omega), if_pos (by omega), hb]
  have hmp : levelLe b (get d M) (get d p) = true := hmin p (by omega) hnp
  constructor
  · intro a j hj hn hsa haM
    rw [hl] at hj
    rw [hg, hg, if_neg haM]
    by_cases har : a = r
    · rw [har, if_neg (by omega), if_pos rfl, hb]
      rw [har] at hn
      by_cases hjM : j = M
      · rw [if_pos hjM]; exact hy2
      · rw [if_neg hjM]
        by_cases hjp : j = p
        · rw [if_pos hjp]; exact levelLe_trans b _ _ _ hmp hz1
        · rw [if_neg hjp, if_neg (by unfold Near at hn; omega)]
          exact hmin j hj hn
    · by_cases hap : a = p
      · rw [hap, if_pos rfl, levelLe_flip b p _ _ hlp]
        rw [hap] at hn
        by_cases hjM : j = M
        · rw [if_pos hjM]; exact hyz
        · rw [if_neg hjM, if_neg (by unfold Near at hn; omega),
            if_neg (by unfold Near at hn; omega)]
          have := pre1 p j hj hn (by omega) (by omega)
          rw [levelLe_flip b p _ _ hlp] at this
          exact levelLe_trans b _ _ _ this hz1
      · rw [if_neg hap, if_neg har]
        by_cases hjM : j = M
        · exfalso
          unfold Near at hn
          omega
        · rw [if_neg hjM]
          by_cases hjp : j = p
          · rw [if_pos hjp]
            have hnar : Near a r := by unfold Near at hn ⊢; omega
            have hnap : Near a p := by rw [← hjp]; exact hn
            have hla : isMinNode a = !b := by
              have := near_level a r hnar (by omega)
              rw [if_pos (by unfold Near at hn; omega), hb] at this
              rw [this, Bool.not_not]
            rcases hz2 with h | h
            · rw [h]; exact pre1 a p (by omega) hnap hsa har
            · rw [h]; exact pre1 a r (by omega) hnar hsa har
          · rw [if_neg hjp]
            by_cases hjr : j = r
            · rw [if_pos hjr]
              rw [hjr] at hn
              by_cases hpar : r ≤ 2 * a + 2
              · have hla : isMinNode a = !b := by
                  have := near_level a r hn (by omega)
                  rw [if_pos hpar, hb] at this
                  rw [this, Bool.not_not]
                have := pre1 a r (by omega) hn hsa har
                rw [levelLe_flip b a _ _ hla] at this ⊢
                exact levelLe_trans b _ _ _ hlt this
              · have hla : isMinNode a = b := by
                  have := near_level a r hn (by omega)
                  rw [if_neg hpar, hb] at this
                  exact this.symm
                rw [hla]
                exact pre2 a M hMn hsa (by unfold Near at hn; omega) hnr
            · rw [if_neg hjr]
              exact pre1 a j hj hn hsa har
  · intro t j hj hst htM hn
    rw [hl] at hj
    have htr : t = r := by omega
    rw [htr, hg, hg, if_neg (by omega), if_neg (by omega), if_pos rfl,
      if_neg (by unfold Near at hn; omega), if_neg (by unfold Near at hn; omega),
      if_neg (by unfold Near at hn; omega)]
    have := pre1 M j hj hn (by omega) (by omega)
    rw [hlM] at this
    exact this

end MinMaxHeap

namespace MinMaxHeap
open MinMaxHeap_Trait Vec

theorem mm_pushDownLoop_spec (b : Bool) (s : Nat) (fuel : Nat) : ∀ (d : List Int) (r : Nat),
    d.length ≤ fuel + r → d.length < 2 ^ 61 → isMinNode r = b → s ≤ r →
    (∀ a j, j < d.length → Near a j → s ≤ a → a ≠ r →
      levelLe (isMinNode a) (get d a) (get d j) = true) →
    (∀ t j, j < d.length → s ≤ t →
      (r = 4 * t + 3 ∨ r = 4 * t + 4 ∨ r = 4 * t + 5 ∨ r = 4 * t + 6) → Near r j →
      levelLe b (get d t) (get d j) = true) →
    NearOrd s (pushDownLoop (fun x y => !levelLe b y x) fuel d r) := by
  induction fuel with
  | zero =>
    intro d r hf hN hb hs pre1 pre2
    rw [pushDownLoop]
    intro a j hj hn hsa
    exact pre1 a j hj hn hsa (by unfold Near at hn; omega)
  | succ fuel ih =>
    intro d r hf hN hb hs pre1 pre2
    rw [pushDownLoop]
    by_cases hr : r < d.length
    · rw [if_pos ((mm_exist_iff d r).2 hr)]
      dsimp only
      obtain ⟨hlt, hmin, hM⟩ := pickM_spec b d r (by omega)
      generalize pickM (fun x y => !levelLe b y x) d r = M at hlt hmin hM
      by_cases hMr : M = r
      · rw [if_pos hMr]
        intro a j hj hn hsa
        by_cases har : a = r
        · rw [har, hb]
          rw [har] at hn
          have := hmin j hj hn
          rw [hMr] at this
          exact this
        · exact pre1 a j hj hn hsa har
      · rw [if_neg hMr]
        rcases hM with h | ⟨hMnear, hMn, hstrict⟩
        · exact absurd h hMr
        · have hM0 : 0 < M := by unfold Near at hMnear; omega
          have hpe := mm_parent_eq M hM0
          have hg1 : ∀ k, get (swapAt d r M) k =
              if k = M then get d r else if k = r then get d M else get d k :=
            fun k => get_swapAt d r M k hr hMn
          by_cases hch : M ≤ 2 * r + 2
          · have hpr : parent M = r := by rw [hpe]; unfold Near at hMnear; omega
            rw [if_pos hpr]
            exact mm_step_child b s d _ r M hN hb hMn (by unfold Near at hMnear; omega)
              pre1 pre2 hmin hlt hs (length_swapAt d r M) hg1
          · have hpr : parent M ≠ r := by rw [hpe]; unfold Near at hMnear; omega
            rw [if_neg hpr]
            have hMg : M = 4 * r + 3 ∨ M = 4 * r + 4 ∨ M = 4 * r + 5 ∨ M = 4 * r + 6 := by
              unfold Near at hMnear; omega
            have hp : M = 2 * parent M + 1 ∨ M = 2 * parent M + 2 := by rw [hpe]; omega
            have hpn : parent M < d.length := by omega
            have hpM : parent M ≠ M := by omega
            have hl1 : (swapAt d r M).length = d.length := length_swapAt d r M
            have e1 : get (swapAt d r M) (parent M) = get d (parent M) := by
              rw [hg1, if_neg hpM, if_neg hpr]
            have e2 : get (swapAt d r M) M = get d r := by
              rw [hg1, if_pos rfl]
            rw [e1, e2]
            have hmp : levelLe b (get d M) (get d (parent M)) = true :=
              hmin _ hpn (by unfold Near; omega)
            have hlM : isMinNode M = b := by
              rw [near_level r M hMnear (by omega), if_neg hch, hb]
            by_cases hsw : (!levelLe b (get d r) (get d (parent M))) = true
            · rw [if_pos hsw]
              simp only [Bool.not_eq_true'] at hsw
              have hsw' := levelLe_total b _ _ hsw
              have hg2 : ∀ k, get (swapAt (swapAt d r M) (parent M) M) k =
                  if k = M then get d (parent M) else if k = parent M then get d r
                    else if k = r then get d M else get d k := by
                intro k
                rw [get_swapAt _ _ _ k (by rw [hl1]; exact hpn) (by rw [hl1]; exact hMn),
                  e1, e2, hg1]
                by_cases hkM : k = M
                · rw [if_pos hkM, if_pos hkM]
                · rw [if_neg hkM, if_neg hkM, if_neg hkM]
              have hl2 : (swapAt (swapAt d r M) (parent M) M).length = d.length := by
                rw [length_swapAt, hl1]
              obtain ⟨q1, q2⟩ := mm_step_grand b s d _ r M (parent M) (get d (parent M))
                (get d r) hN hb hMn hMg hp pre1 pre2 hmin hlt hs hsw' hsw' (Or.inr rfl) hmp
                hl2 hg2
              exact ih _ M (by rw [hl2]; omega) (by rw [hl2]; exact hN) hlM (by omega) q1 q2
            · rw [if_neg hsw]
              have hsw' : levelLe b (get d r) (get d (parent M)) = true := by
                cases hx : levelLe b (get d r) (get d (parent M))
                · exact absurd (by simp [hx]) hsw
                · rfl
              have hg2 : ∀ k, get (swapAt d r M) k =
                  if k = M then get d r else if k = parent M then get d (parent M)
                    else if k = r then get d M else get d k := by
                intro k
                rw [hg1]
                by_cases hkM : k = M
                · rw [if_pos hkM, if_pos hkM]
                · rw [if_neg hkM, if_neg hkM]
                  by_cases hkp : k = parent M
                  · rw [if_pos hkp, if_neg (by omega), hkp]
                  · rw [if_neg hkp]
              obtain ⟨q1, q2⟩ := mm_step_grand b s d _ r M (parent M) (get d r)
                (get d (parent M)) hN hb hMn hMg hp pre1 pre2 hmin hlt hs hsw'
                (levelLe_refl _ _) (Or.inl rfl) hlt hl1 hg2
              exact ih _ M (by rw [hl1]; omega) (by rw [hl1]; exact hN) hlM (by omega) q1 q2
    · have hex : exist d r = false := by
        cases hx : exist d r
        · rfl
        · exact absurd ((mm_exist_iff d r).1 hx) hr
      rw [hex]
      simp only [Bool.false_eq_true, if_false]
      intro a j hj hn hsa
      exact pre1 a j hj hn hsa (by unfold Near at hn; omega)

theorem mm_pushDown_spec (s : Nat) (d : List Int) (r : Nat) (hN : d.length < 2 ^ 61)
    (hs : s ≤ r)
    (pre1 : ∀ a j, j < d.length → Near a j → s ≤ a → a ≠ r →
      levelLe (isMinNode a) (get d a) (get d j) = true)
    (pre2 : ∀ t j, j < d.length → s ≤ t →
      (r = 4 * t + 3 ∨ r = 4 * t + 4 ∨ r = 4 * t + 5 ∨ r = 4 * t + 6) → Near r j →
      levelLe (isMinNode r) (get d t) (get d j) = true) :
    NearOrd s (pushDown d r) := by
  unfold pushDown
  rw [chooseLess_levelLe]
  exact mm_pushDownLoop_spec (isMinNode r) s d.length d r (by omega) hN rfl hs pre1 pre2

theorem nearOrd_iff_check (d : List Int) : NearOrd 0 d ↔ checkInvariant d = true := by
  unfold checkInvariant
  rw [List.all_eq_true]
  constructor
  · intro h j hj
    have hjn := List.mem_range.1 hj
    rw [checkNode_iff]
    constructor
    · intro h0
      have hp := mm_parent_eq j h0
      exact h (parent j) j hjn (by unfold Near; omega) (Nat.zero_le _)
    · intro h3
      have hp := mm_parent_eq j (by omega)
      have hpp := mm_parent_eq (parent j) (by omega)
      exact h (parent (parent j)) j hjn (by unfold Near; omega) (Nat.zero_le _)
  · intro h a j hj hn _
    have hc := (checkNode_iff d j).1 (h j (List.mem_range.2 hj))
    have h0 : 0 < j := by unfold Near at hn; omega
    have hp := mm_parent_eq j h0
    by_cases hch : j ≤ 2 * a + 2
    · have : parent j = a := by unfold Near at hn; omega
      rw [← this]
      exact hc.1 h0
    · have h3 : 3 ≤ j := by unfold Near at hn; omega
      have hpp := mm_parent_eq (parent j) (by omega)
      have : parent (parent j) = a := by unfold Near at hn; omega
      rw [← this]
      exact hc.2 h3

theorem nearOrd_iff_invariant (d : List Int) (hN : d.length < 2 ^ 61) :
    NearOrd 0 d ↔ Invariant d :=
  ⟨fun h => invariant_of_check d (by omega) ((nearOrd_iff_check d).1 h),
    fun h => (nearOrd_iff_check d).2 (check_of_invariant d h)⟩

theorem mm_buildFrom_spec : ∀ (i : Nat) (d : List Int), d.length < 2 ^ 61 →
    NearOrd (i + 1) d → NearOrd 0 (buildFrom i d) := by
  intro i
  induction i with
  | zero =>
    intro d hN h
    rw [buildFrom]
    exact mm_pushDown_spec 0 d 0 hN (le_refl _)
      (fun a j hj hn _ ha => h a j hj hn (by omega))
      (fun t j _ _ ht _ => by omega)
  | succ i ih =>
    intro d hN h
    rw [buildFrom]
    exact ih _ (by rw [mm_length_pushDown]; exact hN)
      (mm_pushDown_spec (i + 1) d (i + 1) hN (le_refl _)
        (fun a j hj hn hs ha => h a j hj hn (by omega))
        (fun t j _ hs ht _ => by omega))

theorem mm_ofList_invariant (xs : List Int) (hN : xs.length < 2 ^ 61) :
    Invariant (ofList xs) := by
  rw [← nearOrd_iff_invariant _ (by rw [mm_length_ofList]; exact hN)]
  unfold ofList
  by_cases h0 : xs.length = 0
  · rw [if_pos h0]
    intro a j hj
    omega
  · rw [if_neg h0]
    apply mm_buildFrom_spec _ _ hN
    intro a j hj hn hs
    exfalso
    by_cases h1 : xs.length - 1 = 0
    · unfold Near at hn
      omega
    · have hp := mm_parent_eq (xs.length - 1) (by omega)
      rw [hp] at hs
      unfold Near at hn
      omega

theorem nearOrd_dropLast (d : List Int) (h : NearOrd 0 d) : NearOrd 0 d.dropLast := by
  intro a j hj hn _
  rw [length_dropLast] at hj
  rw [get_dropLast d j (by omega), get_dropLast d a (by unfold Near at hn; omega)]
  exact h a j (by omega) hn (Nat.zero_le _)

theorem mm_popMin_invariant (d : List Int) (hN : d.length < 2 ^ 61) (h1 : 1 ≤ d.length)
    (hinv : Invariant d) : ∃ x r, popMin d = some (x, r) ∧ Invariant r := by
  unfold popMin
  rw [if_neg (by omega)]
  refine ⟨_, _, rfl, ?_⟩
  have hno := (nearOrd_iff_invariant d hN).2 hinv
  have hl : ((d.set 0 (get d (d.length - 1))).dropLast).length = d.length - 1 := by simp
  rw [← nearOrd_iff_invariant _ (by rw [mm_length_pushDown, hl]; omega)]
  apply mm_pushDown_spec 0 _ 0 (by rw [hl]; omega) (le_refl _)
  · intro a j hj hn _ ha
    rw [hl] at hj
    have hja : a < j := by unfold Near at hn; omega
    rw [get_dropLast _ j (by simp; omega), get_dropLast _ a (by simp; omega),
      get_set_ne d 0 j _ (by omega), get_set_ne d 0 a _ (by omega)]
    exact hno a j (by omega) hn (Nat.zero_le _)
  · intro t j _ _ ht _
    omega

theorem mm_popMax_invariant (d : List Int) (hN : d.length < 2 ^ 61) (h1 : 1 ≤ d.length)
    (hinv : Invariant d) : ∃ x r, popMax d = some (x, r) ∧ Invariant r := by
  unfold popMax
  rw [if_neg (by omega)]
  have hno := (nearOrd_iff_invariant d hN).2 hinv
  by_cases h12 : d.length = 1 ∨ d.length = 2
  · rw [if_pos h12]
    refine ⟨_, _, rfl, ?_⟩
    rw [← nearOrd_iff_invariant _ (by rw [length_dropLast]; omega)]
    exact nearOrd_dropLast d hno
  · rw [if_neg h12]
    dsimp only
    refine ⟨_, _, rfl, ?_⟩
    generalize hr : (if get d 1 > get d 2 then 1 else 2) = r
    have hr12 : r = 1 ∨ r = 2 := by
      rw [← hr]
      split
      · exact Or.inl rfl
      · exact Or.inr rfl
    have hl : ((d.set r (get d (d.length - 1))).dropLast).length = d.length - 1 := by simp
    rw [← nearOrd_iff_invariant _ (by rw [mm_length_pushDown, hl]; omega)]
    apply mm_pushDown_spec 0 _ r (by rw [hl]; omega) (Nat.zero_le _)
    · intro a j hj hn _ ha
      rw [hl] at hj
      have hja : a < j := by unfold Near at hn; omega
      rw [get_dropLast _ j (by simp; omega), get_dropLast _ a (by simp; omega),
        get_set_ne d r a _ (Ne.symm ha)]
      by_cases hjr : j = r
      · have ha0 : a = 0 := by unfold Near at hn; omega
        have hmin0 : isMinNode 0 = true := by decide
        rw [hjr, get_set_eq d r _ (by omega), ha0, hmin0, levelLe_true]
        exact mm_root_le_all d hinv _ (by omega)
      · rw [get_set_ne d r j _ (Ne.symm hjr)]
        exact hno a j (by omega) hn (Nat.zero_le _)
    · intro t j _ _ ht _
      omega

/-! ## C8 and C10: the constructor and the two pops keep the Min-Max Heap invariant -/

/-- C8: for every sequence of ints (below the size limit `2^61` of the vector) the
MinMaxHeap built from it meets the Min-Max Heap invariant: every node on a min level is
`≤`, and every node on a max level is `≥`, every value in its subtree. -/
theorem mm_build_invariant (xs : List Int) (hN : xs.length < 2 ^ 61) :
    Invariant (ofList xs) ∧ checkInvariant (ofList xs) = true := by
  have h := mm_ofList_invariant xs hN
  exact ⟨h, check_of_invariant _ h⟩

set_option maxRecDepth 100000 in
/-- C8 on the sequence `[9, -1, 6, 3, -3, 8, 0]`. -/
theorem mm_build_invariant_witness :
    Invariant (ofList [9, -1, 6, 3, -3, 8, 0]) ∧
      checkInvariant (ofList [9, -1, 6, 3, -3, 8, 0]) = true :=
  mm_build_invariant [9, -1, 6, 3, -3, 8, 0] (by decide)

/-- C10: for every non-empty MinMaxHeap state that meets the Min-Max Heap invariant, `popMin`
and `popMax` succeed and the state each of them leaves meets the invariant. -/
theorem mm_pop_invariant (d : List Int) (hN : d.length < 2 ^ 61) (hne : d ≠ [])
    (hinv : Invariant d) :
    (∃ x r, popMin d = some (x, r) ∧ Invariant r) ∧
    (∃ x r, popMax d = some (x, r) ∧ Invariant r) := by
  have h1 : 1 ≤ d.length := by
    cases d with
    | nil => exact absurd rfl hne
    | cons a t => simp
  exact ⟨mm_popMin_invariant d hN h1 hinv, mm_popMax_invariant d hN h1 hinv⟩

set_option maxRecDepth 100000 in
/-- C10 on the MinMaxHeap `[-3, 9, 8, 3, -1, 6, 0]`. -/
theorem mm_pop_invariant_witness :
    (∃ x r, popMin [-3, 9, 8, 3, -1, 6, 0] = some (x, r) ∧ Invariant r) ∧
    (∃ x r, popMax [-3, 9, 8, 3, -1, 6, 0] = some (x, r) ∧ Invariant r) :=
  mm_pop_invariant [-3, 9, 8, 3, -1, 6, 0] (by decide) (by decide)
    (invariant_of_check _ (by decide) (by decide))

end MinMaxHeap

namespace MinMaxHeap
open MinMaxHeap_Trait Vec

/-! ## `push` of the Min-Max Heap -/

/-- One round of the ancestor walk of `push`: the new value `v` moves from `id` up to `pm`
and the value `u` of `pm` moves down to `id`. -/
theorem mm_push_step (b : Bool) (D D2 : List Int) (id pm : Nat) (v u : Int)
    (hN : D.length < 2 ^ 61) (hid : id < D.length) (hnear : Near pm id)
    (hlev : isMinNode pm = b) (hu : get D pm = u)
    (hstrict : levelLe b v u = true)
    (inv1 : ∀ a j, j < D.length → Near a j → ¬ (a = pm ∧ j = id) →
      levelLe (isMinNode a) (get D a) (get D j) = true)
    (inv2 : ∀ c, c < D.length → Near id c → levelLe (isMinNode id) u (get D c) = true)
    (hl : D2.length = D.length)
    (hg : ∀ k, get D2 k = if k = pm then v else if k = id then u else get D k) :
    (∀ a j, j < D2.length → Near a j →
      ¬ ((pm = 4 * a + 3 ∨ pm = 4 * a + 4 ∨ pm = 4 * a + 5 ∨ pm = 4 * a + 6) ∧ j = pm) →
      levelLe (isMinNode a) (get D2 a) (get D2 j) = true) ∧
    (∀ g c, (pm = 4 * g + 3 ∨ pm = 4 * g + 4 ∨ pm = 4 * g + 5 ∨ pm = 4 * g + 6) →
      c < D2.length → Near pm c → levelLe b (get D2 g) (get D2 c) = true) := by
  have hpmid : pm < id := by unfold Near at hnear; omega
  constructor
  · intro a j hj hn hex
    rw [hl] at hj
    rw [hg, hg]
    have haj : a < j := by unfold Near at hn; omega
    by_cases hapm : a = pm
    · rw [if_pos hapm, if_neg (by omega), hapm, hlev]
      rw [hapm] at hn
      by_cases hjid : j = id
      · rw [if_pos hjid]; exact hstrict
      · rw [if_neg hjid]
        have := inv1 pm j hj hn (fun h => hjid h.2)
        rw [hlev, hu] at this
        exact levelLe_trans b _ _ _ hstrict this
    · rw [if_neg hapm]
      by_cases haid : a = id
      · rw [if_pos haid, if_neg (by omega), if_neg (by omega), haid]
        rw [haid] at hn
        exact inv2 j hj hn
      · rw [if_neg haid]
        by_cases hjpm : j = pm
        · rw [if_pos hjpm]
          rw [hjpm] at hn
          have hch : pm = 2 * a + 1 ∨ pm = 2 * a + 2 := by
            unfold Near at hn
            rcases hn with h | h | h | h | h | h
            · exact Or.inl h
            · exact Or.inr h
            · exact absurd ⟨Or.inl h, hjpm⟩ hex
            · exact absurd ⟨Or.inr (Or.inl h), hjpm⟩ hex
            · exact absurd ⟨Or.inr (Or.inr (Or.inl h)), hjpm⟩ hex
            · exact absurd ⟨Or.inr (Or.inr (Or.inr h)), hjpm⟩ hex
          have hla : isMinNode a = !b := by
            have := isMinNode_child a pm hch (by omega)
            rw [hlev] at this
            rw [this, Bool.not_not]
          have := inv1 a pm (by omega) hn (fun h => hapm h.1)
          rw [levelLe_flip b a _ _ hla, hu] at this
          rw [levelLe_flip b a _ _ hla]
          exact levelLe_trans b _ _ _ hstrict this
        · rw [if_neg hjpm]
          by_cases hjid : j = id
          · rw [if_pos hjid]
            rw [hjid] at hn
            by_cases hc : id ≤ 2 * pm + 2
            · have hn' : Near a pm := by unfold Near at hn hnear ⊢; omega
              have := inv1 a pm (by omega) hn' (fun h => hapm h.1)
              rw [hu] at this
              exact this
            · have hn' : Near pm a := by unfold Near at hn hnear ⊢; omega
              have hla : isMinNode a = !b := by
                rw [near_level pm a hn' (by omega),
                  if_pos (by unfold Near at hn hnear; omega), hlev]
              have := inv1 pm a (by omega) hn' (fun h => haid h.2)
              rw [hlev, hu] at this
              rw [levelLe_flip b a _ _ hla]
              exact this
          · rw [if_neg hjid]
            exact inv1 a j hj hn (fun h => hjid h.2)
  · intro g c hg4 hc hn
    rw [hl] at hc
    have hng : Near g pm := by unfold Near; omega
    have hlg : isMinNode g = b := by
      have := near_level g pm hng (by omega)
      rw [if_neg (by omega), hlev] at this
      exact this.symm
    have h1 := inv1 g pm (by omega) hng (fun h => by omega)
    rw [hlg, hu] at h1
    rw [hg, hg, if_neg (by omega), if_neg (by omega), if_neg (by unfold Near at hn; omega)]
    by_cases hcid : c = id
    · rw [if_pos hcid]; exact h1
    · rw [if_neg hcid]
      have h2 := inv1 pm c hc hn (fun h => hcid h.2)
      rw [hlev, hu] at h2
      exact levelLe_trans b _ _ _ h1 h2

theorem mm_get_set_set (d : List Int) (id pm : Nat) (u v : Int) (hid : id < d.length)
    (hpm : pm < d.length) (k : Nat) :
    get ((d.set id u).set pm v) k =
      if k = pm then v else if k = id then u else get (d.set id v) k := by
  rw [get_set _ pm k v (by simp; exact hpm), get_set d id k u hid, get_set d id k v hid]
  by_cases h1 : k = pm
  · rw [if_pos h1, if_pos h1]
  · rw [if_neg h1, if_neg h1]
    by_cases h2 : k = id
    · rw [if_pos h2, if_pos h2]
    · rw [if_neg h2, if_neg h2, if_neg h2]

theorem mm_grand_near (pm : Nat) (h3 : 3 ≤ pm) (hb : pm < 2 ^ 62) :
    Near (parent (parent pm)) pm ∧ isMinNode (parent (parent pm)) = isMinNode pm ∧
      (pm = 4 * parent (parent pm) + 3 ∨ pm = 4 * parent (parent pm) + 4 ∨
        pm = 4 * parent (parent pm) + 5 ∨ pm = 4 * parent (parent pm) + 6) := by
  have hp := mm_parent_eq pm (by omega)
  have hpp := mm_parent_eq (parent pm) (by omega)
  have hn : Near (parent (parent pm)) pm := by unfold Near; omega
  have hl := near_level _ pm hn hb
  rw [if_neg (by omega)] at hl
  exact ⟨hn, hl.symm, by omega⟩

theorem mm_pushMinLoop_spec (v : Int) (fuel : Nat) : ∀ (d : List Int) (id pm : Nat),
    id < fuel → id < d.length → d.length < 2 ^ 61 →
    (id ≠ 0 → isMinNode pm = true ∧ Near pm id) →
    (∀ a j, j < d.length → Near a j → ¬ (a = pm ∧ j = id) →
      levelLe (isMinNode a) (get (d.set id v) a) (get (d.set id v) j) = true) →
    (id ≠ 0 → ∀ c, c < d.length → Near id c →
      levelLe (isMinNode id) (get d pm) (get (d.set id v) c) = true) →
    NearOrd 0 ((pushMinLoop fuel d v id pm).1.set (pushMinLoop fuel d v id pm).2 v) := by
  induction fuel with
  | zero => intro d id pm hf; omega
  | succ fuel ih =>
    intro d id pm hf hid hN hR inv1 inv2
    rw [pushMinLoop]
    by_cases h0 : id ≠ 0
    · rw [if_pos h0]
      obtain ⟨hlev, hnear⟩ := hR h0
      have hpmid : pm < id := by unfold Near at hnear; omega
      by_cases hlt : v < get d pm
      · rw [if_pos hlt]
        have hlD : (d.set id v).length = d.length := by simp
        have hl2 : ((d.set id (get d pm)).set pm v).length = d.length := by simp
        have hl1 : (d.set id (get d pm)).length = d.length := by simp
        obtain ⟨q1, q2⟩ := mm_push_step true (d.set id v) ((d.set id (get d pm)).set pm v)
          id pm v (get d pm) (by rw [hlD]; exact hN) (by rw [hlD]; exact hid) hnear hlev
          (get_set_ne d id pm v (by omega))
          ((levelLe_true _ _).2 (le_of_lt hlt))
          (by rw [hlD]; exact inv1) (by rw [hlD]; exact inv2 h0) (by rw [hl2, hlD])
          (mm_get_set_set d id pm (get d pm) v hid (by omega))
        rw [hl2] at q1 q2
        apply ih (d.set id (get d pm)) pm (parent (parent pm)) (by omega)
          (by rw [hl1]; omega) (by rw [hl1]; exact hN)
        · intro hpm0
          have h3 : 3 ≤ pm := by
            by_contra h
            have : pm = 1 ∨ pm = 2 := by omega
            rcases this with h | h <;> rw [h] at hlev <;> exact absurd hlev (by decide)
          obtain ⟨g1, g2, _⟩ := mm_grand_near pm h3 (by omega)
          exact ⟨by rw [g2]; exact hlev, g1⟩
        · intro a j hj hn hex
          rw [hl1] at hj
          apply q1 a j hj hn
          rintro ⟨h4, hjpm⟩
          obtain ⟨_, _, g3⟩ := mm_grand_near pm (by omega) (by omega)
          exact hex ⟨by omega, hjpm⟩
        · intro hpm0 c hc hn
          rw [hl1] at hc
          have h3 : 3 ≤ pm := by
            by_contra h
            have : pm = 1 ∨ pm = 2 := by omega
            rcases this with h | h <;> rw [h] at hlev <;> exact absurd hlev (by decide)
          obtain ⟨_, _, g3⟩ := mm_grand_near pm h3 (by omega)
          have := q2 (parent (parent pm)) c g3 hc hn
          rw [get_set_ne _ pm (parent (parent pm)) v (by omega)] at this
          rw [hlev]
          exact this
      · rw [if_neg hlt]
        dsimp only
        intro a j hj hn _
        rw [List.length_set] at hj
        by_cases hex : a = pm ∧ j = id
        · rw [hex.1, hex.2, get_set_eq d id v hid, get_set_ne d id pm v (by omega), hlev,
            levelLe_true]
          exact not_lt.1 hlt
        · exact inv1 a j hj hn hex
    · rw [if_neg h0]
      dsimp only
      intro a j hj hn _
      rw [List.length_set] at hj
      exact inv1 a j hj hn (fun h => by
        have : a < j := by unfold Near at hn; omega
        omega)

theorem mm_pushMaxLoop_spec (v : Int) (fuel : Nat) : ∀ (d : List Int) (id pm : Nat),
    id < fuel → id < d.length → d.length < 2 ^ 61 →
    (id ≠ 1 ∧ id ≠ 2 → isMinNode pm = false ∧ Near pm id) →
    (∀ a j, j < d.length → Near a j → ¬ (a = pm ∧ j = id ∧ id ≠ 1 ∧ id ≠ 2) →
      levelLe (isMinNode a) (get (d.set id v) a) (get (d.set id v) j) = true) →
    (id ≠ 1 ∧ id ≠ 2 → ∀ c, c < d.length → Near id c →
      levelLe (isMinNode id) (get d pm) (get (d.set id v) c) = true) →
    NearOrd 0 ((pushMaxLoop fuel d v id pm).1.set (pushMaxLoop fuel d v id pm).2 v) := by
  induction fuel with
  | zero => intro d id pm hf; omega
  | succ fuel ih =>
    intro d id pm hf hid hN hR inv1 inv2
    rw [pushMaxLoop]
    by_cases h0 : id ≠ 1 ∧ id ≠ 2
    · rw [if_pos h0]
      obtain ⟨hlev, hnear⟩ := hR h0
      have hpmid : pm < id := by unfold Near at hnear; omega
      by_cases hlt : v > get d pm
      · rw [if_pos hlt]
        have hlD : (d.set id v).length = d.length := by simp
        have hl2 : ((d.set id (get d pm)).set pm v).length = d.length := by simp
        have hl1 : (d.set id (get d pm)).length = d.length := by simp
        obtain ⟨q1, q2⟩ := mm_push_step false (d.set id v) ((d.set id (get d pm)).set pm v)
          id pm v (get d pm) (by rw [hlD]; exact hN) (by rw [hlD]; exact hid) hnear hlev
          (get_set_ne d id pm v (by omega))
          ((levelLe_false _ _).2 (le_of_lt hlt))
          (by
            rw [hlD]
            intro a j hj hn hex
            exact inv1 a j hj hn (fun h => hex ⟨h.1, h.2.1⟩))
          (by rw [hlD]; exact inv2 h0) (by rw [hl2, hlD])
          (mm_get_set_set d id pm (get d pm) v hid (by omega))
        rw [hl2] at q1 q2
        have hpm0 : pm ≠ 0 := by
          intro h
          rw [h] at hlev
          exact absurd hlev (by decide)
        apply ih (d.set id (get d pm)) pm (parent (parent pm)) (by omega)
          (by rw [hl1]; omega) (by rw [hl1]; exact hN)
        · intro hpm12
          obtain ⟨g1, g2, _⟩ := mm_grand_near pm (by omega) (by omega)
          exact ⟨by rw [g2]; exact hlev, g1⟩
        · intro a j hj hn hex
          rw [hl1] at hj
          apply q1 a j hj hn
          rintro ⟨h4, hjpm⟩
          obtain ⟨_, _, g3⟩ := mm_grand_near pm (by omega) (by omega)
          exact hex ⟨by omega, hjpm, by omega, by omega⟩
        · intro hpm12 c hc hn
          rw [hl1] at hc
          obtain ⟨_, _, g3⟩ := mm_grand_near pm (by omega) (by omega)
          have := q2 (parent (parent pm)) c g3 hc hn
          rw [get_set_ne _ pm (parent (parent pm)) v (by omega)] at this
          rw [hlev]
          exact this
      · rw [if_neg hlt]
        dsimp only
        intro a j hj hn _
        rw [List.length_set] at hj
        by_cases hex : a = pm ∧ j = id
        · rw [hex.1, hex.2, get_set_eq d id v hid, get_set_ne d id pm v (by omega), hlev,
            levelLe_false]
          exact not_lt.1 hlt
        · exact inv1 a j hj hn (fun h => hex ⟨h.1, h.2.1⟩)
    · rw [if_neg h0]
      dsimp only
      intro a j hj hn _
      rw [List.length_set] at hj
      exact inv1 a j hj hn (fun h => h0 ⟨h.2.2.1, h.2.2.2⟩)

end MinMaxHeap

namespace MinMaxHeap
open MinMaxHeap_Trait Vec

theorem mm_near_cases (a j : Nat) (hn : Near a j) :
    (a = parent j ∧ 0 < j) ∨ (a = parent (parent j) ∧ 3 ≤ j ∧ Near a (parent j)) := by
  have h0 : 0 < j := by unfold Near at hn; omega
  have hp := mm_parent_eq j h0
  by_cases hc : j ≤ 2 * a + 2
  · exact Or.inl ⟨by unfold Near at hn; omega, h0⟩
  · have h3 : 3 ≤ j := by unfold Near at hn; omega
    have hpp := mm_parent_eq (parent j) (by omega)
    exact Or.inr ⟨by unfold Near at hn; omega, h3, by unfold Near at hn ⊢; omega⟩

theorem mm_min_ge_three (n : Nat) (h0 : 0 < n) (hm : isMinNode n = true) : 3 ≤ n := by
  by_contra hc
  have : n = 1 ∨ n = 2 := by omega
  rcases this with h | h <;> rw [h] at hm <;> exact absurd hm (by decide)

theorem mm_parent_level (n : Nat) (h0 : 0 < n) (hb : n + 1 < 2 ^ 64) (b : Bool)
    (hm : isMinNode n = b) : isMinNode (parent n) = !b := by
  have := mm_isMinNode_parent n h0 hb
  rw [hm] at this
  rw [this, Bool.not_not]

theorem mm_push_nearOrd (d : List Int) (v : Int) (hN : d.length + 1 < 2 ^ 61)
    (h : NearOrd 0 d) : NearOrd 0 (push d v) := by
  have hl1 : (d ++ [v]).length = d.length + 1 := by simp
  have hid : (d ++ [v]).length - 1 = d.length := by simp
  have hgN : get (d ++ [v]) d.length = v := get_append_right d v
  have hset : ∀ k, get ((d ++ [v]).set d.length v) k = get (d ++ [v]) k := by
    intro k
    rw [get_set _ _ k v (by rw [hl1]; omega)]
    by_cases hk : k = d.length
    · rw [if_pos hk, hk, hgN]
    · rw [if_neg hk]
  have hold : ∀ a j, j < d.length → Near a j →
      levelLe (isMinNode a) (get (d ++ [v]) a) (get (d ++ [v]) j) = true := by
    intro a j hj hn
    rw [get_append_left d v j hj, get_append_left d v a (by unfold Near at hn; omega)]
    exact h a j hj hn (Nat.zero_le _)
  clear h
  unfold push
  dsimp only
  rw [hid, hgN]
  by_cases heq : v = get (d ++ [v]) (parent d.length)
  · rw [if_pos heq]
    intro a j hj hn _
    rw [hl1] at hj
    by_cases hjN : j = d.length
    · rw [hjN] at hn
      rw [hjN, hgN]
      rcases mm_near_cases a d.length hn with ⟨hap, _⟩ | ⟨_, _, hn'⟩
      · rw [hap, ← heq]
        exact levelLe_refl _ _
      · have := hold a (parent d.length) (mm_parent_lt _ (by omega)) hn'
        rw [← heq] at this
        exact this
    · exact hold a j (by omega) hn
  · rw [if_neg heq]
    have hN0 : 0 < d.length := by
      by_contra h0
      have h0' : d.length = 0 := by omega
      rw [h0'] at heq
      have hp0 : parent 0 = 0 := by decide
      rw [hp0, ← h0', hgN] at heq
      exact heq rfl
    have hpl : parent d.length < d.length := mm_parent_lt _ hN0
    have hgp : get (d ++ [v]) (parent d.length) = get d (parent d.length) :=
      get_append_left d v _ hpl
    have hnp : Near (parent d.length) d.length := by
      have hp := mm_parent_eq d.length hN0
      unfold Near
      omega
    by_cases hlt : v < get (d ++ [v]) (parent d.length)
    · rw [if_pos hlt]
      apply mm_pushMinLoop_spec v _ (d ++ [v]) d.length _ (by rw [hl1]; omega)
        (by rw [hl1]; omega) (by rw [hl1]; exact hN)
      · intro _
        cases hm : isMinNode d.length
        · simp only [Bool.false_eq_true, if_false]
          exact ⟨mm_parent_level _ hN0 (by omega) false hm, hnp⟩
        · simp only [if_true]
          obtain ⟨g1, g2, _⟩ :=
            mm_grand_near d.length (mm_min_ge_three _ hN0 hm) (by omega)
          exact ⟨by rw [g2]; exact hm, g1⟩
      · intro a j hj hn hex
        rw [hl1] at hj
        rw [hset, hset]
        by_cases hjN : j = d.length
        · rw [hjN] at hn
          rw [hjN, hgN]
          cases hm : isMinNode d.length
          · rw [hm] at hex
            simp only [Bool.false_eq_true, if_false] at hex
            rcases mm_near_cases a d.length hn with ⟨hap, _⟩ | ⟨hag, h3, hn'⟩
            · exact absurd ⟨hap, hjN⟩ hex
            · obtain ⟨_, g2, _⟩ := mm_grand_near d.length h3 (by omega)
              have hla : isMinNode a = false := by rw [hag, g2]; exact hm
              have := hold a (parent d.length) hpl hn'
              rw [hla, levelLe_false] at this ⊢
              exact le_trans (le_of_lt hlt) this
          · rw [hm] at hex
            simp only [if_true] at hex
            rcases mm_near_cases a d.length hn with ⟨hap, _⟩ | ⟨hag, h3, hn'⟩
            · have hla : isMinNode a = false := by
                rw [hap]; exact mm_parent_level _ hN0 (by omega) true hm
              rw [hla, levelLe_false, hap]
              exact le_of_lt hlt
            · exact absurd ⟨hag, hjN⟩ hex
        · exact hold a j (by omega) hn
      · intro _ c hc hn
        rw [hl1] at hc
        unfold Near at hn
        omega
    · rw [if_neg hlt]
      have hgt : get (d ++ [v]) (parent d.length) < v :=
        lt_of_le_of_ne (not_lt.1 hlt) (fun h' => heq h'.symm)
      apply mm_pushMaxLoop_spec v _ (d ++ [v]) d.length _ (by rw [hl1]; omega)
        (by rw [hl1]; omega) (by rw [hl1]; exact hN)
      · intro h12
        cases hm : isMinNode d.length
        · simp only [Bool.false_eq_true, if_false]
          obtain ⟨g1, g2, _⟩ := mm_grand_near d.length (by omega) (by omega)
          exact ⟨by rw [g2]; exact hm, g1⟩
        · simp only [if_true]
          exact ⟨mm_parent_level _ hN0 (by omega) true hm, hnp⟩
      · intro a j hj hn hex
        rw [hl1] at hj
        rw [hset, hset]
        by_cases hjN : j = d.length
        · rw [hjN] at hn
          rw [hjN, hgN]
          cases hm : isMinNode d.length
          · rw [hm] at hex
            simp only [Bool.false_eq_true, if_false] at hex
            rcases mm_near_cases a d.length hn with ⟨hap, _⟩ | ⟨hag, h3, hn'⟩
            · have hla : isMinNode a = true := by
                rw [hap]; exact mm_parent_level _ hN0 (by omega) false hm
              rw [hla, levelLe_true, hap]
              exact le_of_lt hgt
            · exact absurd ⟨hag, hjN, by omega, by omega⟩ hex
          · rw [hm] at hex
            simp only [if_true] at hex
            have h3 := mm_min_ge_three _ hN0 hm
            rcases mm_near_cases a d.length hn with ⟨hap, _⟩ | ⟨hag, _, hn'⟩
            · exact absurd ⟨hap, hjN, by omega, by omega⟩ hex
            · obtain ⟨_, g2, _⟩ := mm_grand_near d.length h3 (by omega)
              have hla : isMinNode a = true := by rw [hag, g2]; exact hm
              have := hold a (parent d.length) hpl hn'
              rw [hla, levelLe_true] at this ⊢
              exact le_trans this (le_of_lt hgt)
        · exact hold a j (by omega) hn
      · intro _ c hc hn
        rw [hl1] at hc
        unfold Near at hn
        omega

/-! ## C9: `push` keeps the Min-Max Heap invariant -/

/-- C9: for every MinMaxHeap state that meets the Min-Max Heap invariant (below the size
limit `2^61` of the vector) and every int `v`, the state after `push(v)` meets the
invariant; the proof goes through the early return on a value equal to its parent's and
through both ancestor walks. -/
theorem mm_push_invariant (d : List Int) (v : Int) (hN : d.length + 1 < 2 ^ 61)
    (hinv : Invariant d) : Invariant (push d v) ∧ checkInvariant (push d v) = true := by
  have h := mm_push_nearOrd d v hN ((nearOrd_iff_invariant d (by omega)).2 hinv)
  have hi := (nearOrd_iff_invariant _ (by rw [mm_length_push]; exact hN)).1 h
  exact ⟨hi, check_of_invariant _ hi⟩

set_option maxRecDepth 100000 in
/-- C9 on pushing `-5` onto the MinMaxHeap `[-3, 9, 8, 3, -1, 6, 0]`, a value that walks up
the min levels to the root. -/
theorem mm_push_invariant_witness :
    Invariant (push [-3, 9, 8, 3, -1, 6, 0] (-5)) ∧
      checkInvariant (push [-3, 9, 8, 3, -1, 6, 0] (-5)) = true :=
  mm_push_invariant [-3, 9, 8, 3, -1, 6, 0] (-5) (by decide)
    (invariant_of_check _ (by decide) (by decide))

end MinMaxHeap

namespace Vec

/-! ## Permutations: swaps and hole moves keep the stored values -/

theorem count_set_int (d : List Int) (i : Nat) (a b : Int) (h : i < d.length) :
    (d.set i a).count b + (if get d i = b then 1 else 0) =
      d.count b + (if a = b then 1 else 0) := by
  have h1 := List.count_set a b d i h
  have h2 : (if d[i] == b then 1 else 0) ≤ d.count b := by
    have := List.boole_getElem_le_countP (fun x => x == b) d i h
    simpa [List.count_eq_countP] using this
  rw [get_eq_getElem d i h]
  simp only [beq_iff_eq] at h1 h2
  omega

theorem set_set_perm (d : List Int) (i j : Nat) (w : Int) (hi : i < d.length)
    (hj : j < d.length) : ((d.set i (get d j)).set j w).Perm (d.set i w) := by
  by_cases hij : i = j
  · rw [hij, List.set_set]
  · rw [List.perm_iff_count]
    intro b
    have h1 := count_set_int (d.set i (get d j)) j w b (by simp; exact hj)
    have h2 := count_set_int d i (get d j) b hi
    have h3 := count_set_int d i w b hi
    rw [get_set_ne d i j _ hij] at h1
    omega

theorem set_get_self (d : List Int) (i : Nat) (hi : i < d.length) : d.set i (get d i) = d := by
  apply List.ext_getElem
  · simp
  · intro k h1 h2
    rw [List.getElem_set]
    by_cases hk : i = k
    · rw [if_pos hk, get_eq_getElem d i hi]
      simp [hk]
    · rw [if_neg hk]

theorem swapAt_perm (d : List Int) (i j : Nat) (hi : i < d.length) (hj : j < d.length) :
    (swapAt d i j).Perm d := by
  have := set_set_perm d i j (get d i) hi hj
  rw [set_get_self d i hi] at this
  exact this

theorem set_last_eq (d : List Int) (y : Int) (h : 1 ≤ d.length) :
    d.set (d.length - 1) y = d.dropLast ++ [y] := by
  apply List.ext_getElem
  · simp; omega
  · intro k h1 h2
    rw [List.getElem_set]
    by_cases hk : d.length - 1 = k
    · rw [if_pos hk, List.getElem_append_right (by simp; omega)]
      simp
    · rw [if_neg hk, List.getElem_append_left (by simp at h1 ⊢; omega), List.getElem_dropLast]

theorem pop_swap_perm (d : List Int) (i : Nat) (hi : i < d.length) :
    (get d i :: (d.set i (get d (d.length - 1))).dropLast).Perm d := by
  have h1 := swapAt_perm d i (d.length - 1) hi (by omega)
  unfold swapAt at h1
  have hl : (d.set i (get d (d.length - 1))).length = d.length := by simp
  have h2 := set_last_eq (d.set i (get d (d.length - 1))) (get d i) (by rw [hl]; omega)
  rw [hl] at h2
  rw [h2] at h1
  exact (List.perm_append_singleton _ _).symm.trans h1

end Vec

namespace MinMaxHeap
open MinMaxHeap_Trait Vec

/-! ## The operations of the Min-Max Heap keep the stored values -/

theorem mm_parent_le (j : Nat) : parent j ≤ j := by
  by_cases h : 0 < j
  · exact le_of_lt (mm_parent_lt j h)
  · have : j = 0 := by omega
    rw [this]
    decide

theorem pickFold_range (less : Int → Int → Bool) (d : List Int) : ∀ (l : List Nat) (M0 : Nat),
    l.foldl (fun M id => if exist d id && less (get d id) (get d M) then id else M) M0 = M0 ∨
    l.foldl (fun M id => if exist d id && less (get d id) (get d M) then id else M) M0
      < d.length := by
  intro l
  induction l with
  | nil => intro M0; exact Or.inl rfl
  | cons id l ih =>
    intro M0
    rw [List.foldl_cons]
    by_cases hc : (exist d id && less (get d id) (get d M0)) = true
    · rw [if_pos hc]
      simp only [Bool.and_eq_true] at hc
      rcases ih id with h | h
      · rw [h]; exact Or.inr ((mm_exist_iff d id).1 hc.1)
      · exact Or.inr h
    · rw [if_neg hc]
      exact ih M0

theorem mm_pushDownLoop_perm (less : Int → Int → Bool) (fuel : Nat) :
    ∀ (d : List Int) (r : Nat), (pushDownLoop less fuel d r).Perm d := by
  induction fuel with
  | zero => intro d r; exact List.Perm.refl _
  | succ fuel ih =>
    intro d r
    rw [pushDownLoop]
    by_cases hr : exist d r = true
    · rw [if_pos hr]
      dsimp only
      have hrn := (mm_exist_iff d r).1 hr
      have hM : pickM less d r = r ∨ pickM less d r < d.length := pickFold_range less d _ r
      generalize pickM less d r = M at hM
      by_cases hMr : M = r
      · rw [if_pos hMr]
      · rw [if_neg hMr]
        have hMn : M < d.length := by
          rcases hM with h | h
          · exact absurd h hMr
          · exact h
        have p1 := swapAt_perm d r M hrn hMn
        by_cases hp : parent M = r
        · rw [if_pos hp]; exact p1
        · rw [if_neg hp]
          refine (ih _ M).trans ?_
          split
          · exact (swapAt_perm _ _ _ (by rw [length_swapAt]; have := mm_parent_le M; omega)
              (by rw [length_swapAt]; exact hMn)).trans p1
          · exact p1
    · rw [if_neg hr]

theorem mm_pushDown_perm (d : List Int) (r : Nat) : (pushDown d r).Perm d :=
  mm_pushDownLoop_perm _ _ d r

theorem mm_buildFrom_perm : ∀ (i : Nat) (d : List Int), (buildFrom i d).Perm d := by
  intro i
  induction i with
  | zero => intro d; rw [buildFrom]; exact mm_pushDown_perm d 0
  | succ i ih =>
    intro d
    rw [buildFrom]
    exact (ih _).trans (mm_pushDown_perm d (i + 1))

theorem mm_ofList_perm (xs : List Int) : (ofList xs).Perm xs := by
  unfold ofList
  split
  · exact List.Perm.refl _
  · exact mm_buildFrom_perm _ xs

theorem mm_pushMinLoop_perm (v : Int) (fuel : Nat) : ∀ (d : List Int) (id pm : Nat),
    id < d.length → pm ≤ id →
    ((pushMinLoop fuel d v id pm).1.set (pushMinLoop fuel d v id pm).2 v).Perm
      (d.set id v) := by
  induction fuel with
  | zero => intro d id pm _ _; exact List.Perm.refl _
  | succ fuel ih =>
    intro d id pm hid hpm
    rw [pushMinLoop]
    split
    · split
      · have hpp : parent (parent pm) ≤ pm :=
          le_trans (mm_parent_le _) (mm_parent_le _)
        exact (ih (d.set id (get d pm)) pm (parent (parent pm)) (by simp; omega) hpp).trans
          (set_set_perm d id pm v hid (by omega))
      · exact List.Perm.refl _
    · exact List.Perm.refl _

theorem mm_pushMaxLoop_perm (v : Int) (fuel : Nat) : ∀ (d : List Int) (id pm : Nat),
    id < d.length → pm ≤ id →
    ((pushMaxLoop fuel d v id pm).1.set (pushMaxLoop fuel d v id pm).2 v).Perm
      (d.set id v) := by
  induction fuel with
  | zero => intro d id pm _ _; exact List.Perm.refl _
  | succ fuel ih =>
    intro d id pm hid hpm
    rw [pushMaxLoop]
    split
    · split
      · have hpp : parent (parent pm) ≤ pm :=
          le_trans (mm_parent_le _) (mm_parent_le _)
        exact (ih (d.set id (get d pm)) pm (parent (parent pm)) (by simp; omega) hpp).trans
          (set_set_perm d id pm v hid (by omega))
      · exact List.Perm.refl _
    · exact List.Perm.refl _

theorem mm_push_perm (d : List Int) (v : Int) : (push d v).Perm (v :: d) := by
  have hl1 : (d ++ [v]).length = d.length + 1 := by simp
  have hid : (d ++ [v]).length - 1 = d.length := by simp
  have hgN : get (d ++ [v]) d.length = v := get_append_right d v
  have hself : (d ++ [v]).set d.length v = d ++ [v] := by
    have := set_get_self (d ++ [v]) d.length (by rw [hl1]; omega)
    rw [hgN] at this
    exact this
  have hbase : (d ++ [v]).Perm (v :: d) := List.perm_append_singleton v d
  have hp1 := mm_parent_le d.length
  have hp2 := mm_parent_le (parent d.length)
  unfold push
  dsimp only
  rw [hid]
  split
  · exact hbase
  · split
    · refine (mm_pushMinLoop_perm v _ (d ++ [v]) d.length _ (by rw [hl1]; omega) ?_).trans ?_
      · split
        · omega
        · exact hp1
      · rw [hself]; exact hbase
    · refine (mm_pushMaxLoop_perm v _ (d ++ [v]) d.length _ (by rw [hl1]; omega) ?_).trans ?_
      · split
        · exact hp1
        · omega
      · rw [hself]; exact hbase

theorem mm_popMin_perm (d : List Int) (x : Int) (r : List Int)
    (h : popMin d = some (x, r)) : (x :: r).Perm d := by
  unfold popMin at h
  split at h
  · cases h
  · rename_i hne
    simp only [Option.some.injEq, Prod.mk.injEq] at h
    obtain ⟨hx, hr⟩ := h
    rw [← hx, ← hr]
    exact (List.Perm.cons _ (mm_pushDown_perm _ 0)).trans (pop_swap_perm d 0 (by omega))

theorem mm_popMax_perm (d : List Int) (x : Int) (r : List Int)
    (h : popMax d = some (x, r)) : (x :: r).Perm d := by
  unfold popMax at h
  split at h
  · cases h
  · rename_i hne
    split at h
    · simp only [Option.some.injEq, Prod.mk.injEq] at h
      obtain ⟨hx, hr⟩ := h
      rw [← hx, ← hr]
      have := pop_swap_perm d (d.length - 1) (by omega)
      rw [set_get_self d _ (by omega)] at this
      exact this
    · rename_i h12
      simp only [Option.some.injEq, Prod.mk.injEq] at h
      obtain ⟨hx, hr⟩ := h
      rw [← hx, ← hr]
      have hm : (if get d 1 > get d 2 then 1 else 2) < d.length := by
        split <;> omega
      exact (List.Perm.cons _ (mm_pushDown_perm _ _)).trans (pop_swap_perm d _ hm)

end MinMaxHeap

namespace MinMaxHeap
open MinMaxHeap_Trait Vec

/-! ## C12: interleaved extractions stay between the latest minimum and maximum -/

theorem mm_popMin_least (d : List Int) (x : Int) (r : List Int) (hinv : Invariant d)
    (h : popMin d = some (x, r)) : ∀ y ∈ d, x ≤ y := by
  unfold popMin at h
  split at h
  · cases h
  · simp only [Option.some.injEq, Prod.mk.injEq] at h
    intro y hy
    obtain ⟨i, hi, rfl⟩ := mm_exists_index_of_mem d y hy
    rw [← h.1]
    exact mm_root_le_all d hinv i hi

theorem mm_popMax_greatest (d : List Int) (x : Int) (r : List Int) (hinv : Invariant d)
    (h : popMax d = some (x, r)) : ∀ y ∈ d, y ≤ x := by
  unfold popMax at h
  split at h
  · cases h
  · rename_i hne
    intro y hy
    obtain ⟨i, hi, rfl⟩ := mm_exists_index_of_mem d y hy
    split at h
    · rename_i h12
      simp only [Option.some.injEq, Prod.mk.injEq] at h
      rw [← h.1]
      by_cases hi0 : i = d.length - 1
      · rw [hi0]
      · have hd2 : d.length = 2 := by omega
        have hi00 : i = 0 := by omega
        rw [hi00]
        exact mm_root_le_all d hinv _ (by omega)
    · rename_i h12
      simp only [Option.some.injEq, Prod.mk.injEq] at h
      rw [← h.1]
      have := mm_all_le_max d hinv (by omega) i hi
      split
      · rename_i hgt
        rw [max_eq_left (le_of_lt hgt)] at this
        exact this
      · rename_i hgt
        rw [max_eq_right (not_lt.1 hgt)] at this
        exact this

theorem mm_drain_bounded_from (script : List Bool) : ∀ (d : List Int) (minV maxV : Option Int),
    d.length < 2 ^ 61 → Invariant d →
    (∀ y ∈ d, (∀ a, minV = some a → a ≤ y) ∧ (∀ b, maxV = some b → y ≤ b)) →
    Bounded minV maxV (drain script d).1 := by
  induction script with
  | nil => intro d minV maxV _ _ _; trivial
  | cons c cs ih =>
    intro d minV maxV hN hinv hb
    rw [drain]
    by_cases h0 : d.length = 0
    · have hnone : (if c = true then popMin d else popMax d) = none := by
        cases c
        · simp [popMax, h0]
        · simp [popMin, h0]
      rw [hnone]
      trivial
    · have hsome : ∃ x r, (if c = true then popMin d else popMax d) = some (x, r) ∧
          Invariant r ∧ (x :: r).Perm d ∧ (c = true → ∀ y ∈ d, x ≤ y) ∧
          (c = false → ∀ y ∈ d, y ≤ x) := by
        cases c
        · obtain ⟨x, r, h1, h2⟩ := mm_popMax_invariant d hN (by omega) hinv
          exact ⟨x, r, by simpa using h1, h2, mm_popMax_perm d x r h1,
            (fun h => by cases h), fun _ => mm_popMax_greatest d x r hinv h1⟩
        · obtain ⟨x, r, h1, h2⟩ := mm_popMin_invariant d hN (by omega) hinv
          exact ⟨x, r, by simpa using h1, h2, mm_popMin_perm d x r h1,
            fun _ => mm_popMin_least d x r hinv h1, (fun h => by cases h)⟩
      obtain ⟨x, r, h1, h2, h3, h4, h5⟩ := hsome
      rw [h1]
      dsimp only
      have hx : x ∈ d := h3.subset (List.mem_cons_self _ _)
      have hr : ∀ y ∈ r, y ∈ d := fun y hy => h3.subset (List.mem_cons_of_mem _ hy)
      have hlen : r.length + 1 = d.length := by
        have := h3.length_eq
        simpa using this
      refine ⟨(hb x hx).1, (hb x hx).2, ?_⟩
      apply ih r _ _ (by omega) h2
      intro y hy
      cases c
      · refine ⟨fun a ha => (hb y (hr y hy)).1 a (by simpa using ha), fun b hb' => ?_⟩
        simp only [Bool.false_eq_true, if_false, Option.some.injEq] at hb'
        rw [← hb']
        exact h5 rfl y (hr y hy)
      · refine ⟨fun a ha => ?_, fun b hb' => (hb y (hr y hy)).2 b (by simpa using hb')⟩
        simp only [if_true, Option.some.injEq] at ha
        rw [← ha]
        exact h4 rfl y (hr y hy)

theorem mm_foldl_push_invariant : ∀ (xs acc : List Int), acc.length + xs.length < 2 ^ 61 →
    Invariant acc →
    Invariant (xs.foldl push acc) ∧ (xs.foldl push acc).length = acc.length + xs.length := by
  intro xs
  induction xs with
  | nil => intro acc _ h; exact ⟨h, rfl⟩
  | cons x xs ih =>
    intro acc hN h
    rw [List.foldl_cons]
    simp only [List.length_cons] at hN
    have h1 := mm_push_nearOrd acc x (by omega) ((nearOrd_iff_invariant acc (by omega)).2 h)
    have hl := mm_length_push acc x
    have h2 := (nearOrd_iff_invariant _ (by rw [hl]; omega)).1 h1
    obtain ⟨i1, i2⟩ := ih (push acc x) (by rw [hl]; omega) h2
    exact ⟨i1, by rw [i2, hl, List.length_cons]; omega⟩

theorem mm_invariant_nil : Invariant [] := by
  intro i j hi
  simp at hi

theorem mm_drain_length (script : List Bool) : ∀ (d : List Int),
    (drain script d).1.length = min script.length d.length := by
  induction script with
  | nil => intro d; simp [drain]
  | cons c cs ih =>
    intro d
    rw [drain]
    by_cases h0 : d.length = 0
    · have hnone : (if c = true then popMin d else popMax d) = none := by
        cases c
        · simp [popMax, h0]
        · simp [popMin, h0]
      rw [hnone]
      simp [h0]
    · cases hp : (if c = true then popMin d else popMax d) with
      | none =>
        exfalso
        cases c
        · simp only [Bool.false_eq_true, if_false] at hp
          unfold popMax at hp
          rw [if_neg h0] at hp
          split at hp <;> cases hp
        · simp only [if_true] at hp
          unfold popMin at hp
          rw [if_neg h0] at hp
          cases hp
      | some xr =>
        obtain ⟨x, r⟩ := xr
        have hl : r.length + 1 = d.length := by
          cases c
          · exact mm_length_popMax d x r (by simpa using hp)
          · exact mm_length_popMin d x r (by simpa using hp)
        dsimp only
        rw [List.length_cons, ih r, List.length_cons]
        omega

/-- C12: for every list of ints (below the size limit `2^61` of the vector), whether the
MinMaxHeap is built from it in bulk or by pushing its elements one at a time, and for every
script of `popMin` and `popMax` calls, every extracted value `m` satisfies
`minV ≤ m ≤ maxV`, where `minV` is the latest `popMin` result before it and `maxV` the latest
`popMax` result before it (no bound while there is none).  The extraction goes on until the
script ends or the heap is empty. -/
theorem mm_drain_bounded (xs : List Int) (script : List Bool) (hN : xs.length < 2 ^ 61) :
    (Bounded none none (drain script (ofList xs)).1 ∧
      (drain script (ofList xs)).1.length = min script.length xs.length) ∧
    (Bounded none none (drain script (pushAll xs)).1 ∧
      (drain script (pushAll xs)).1.length = min script.length xs.length) := by
  have hlp : (pushAll xs).length = xs.length := by
    have := (mm_foldl_push_invariant xs [] (by simpa using hN) mm_invariant_nil).2
    simpa using this
  refine ⟨⟨?_, by rw [mm_drain_length, mm_length_ofList]⟩,
    ⟨?_, by rw [mm_drain_length, hlp]⟩⟩
  · apply mm_drain_bounded_from script _ _ _ (by rw [mm_length_ofList]; exact hN)
      (mm_ofList_invariant xs hN)
    intro y _
    exact ⟨(fun a h => by cases h), (fun b h => by cases h)⟩
  · obtain ⟨h1, h2⟩ := mm_foldl_push_invariant xs [] (by simpa using hN) mm_invariant_nil
    apply mm_drain_bounded_from script _ _ _ (by
      show (xs.foldl push []).length < 2 ^ 61
      rw [h2]
      simpa using hN) h1
    intro y _
    exact ⟨(fun a h => by cases h), (fun b h => by cases h)⟩

set_option maxRecDepth 100000 in
/-- C12 on the list `[4, -2, 7, 0, 4]` drained by `popMax, popMin, popMax, popMin, popMax`. -/
theorem mm_drain_bounded_witness :
    (Bounded none none (drain [false, true, false, true, false] (ofList [4, -2, 7, 0, 4])).1 ∧
      (drain [false, true, false, true, false] (ofList [4, -2, 7, 0, 4])).1.length =
        min [false, true, false, true, false].length [4, -2, 7, 0, 4].length) ∧
    (Bounded none none (drain [false, true, false, true, false] (pushAll [4, -2, 7, 0, 4])).1 ∧
      (drain [false, true, false, true, false] (pushAll [4, -2, 7, 0, 4])).1.length =
        min [false, true, false, true, false].length [4, -2, 7, 0, 4].length) :=
  mm_drain_bounded [4, -2, 7, 0, 4] [false, true, false, true, false] (by decide)

end MinMaxHeap

namespace Deap
open Deap_Trait Vec

/-! ## The operations of the Deap keep the stored values -/

theorem pullUpLoop_perm (less : Int → Int → Bool) (fuel : Nat) :
    ∀ (d : List Int) (id : Nat), (pullUpLoop less fuel d id).Perm d := by
  induction fuel with
  | zero => intro d id; exact List.Perm.refl _
  | succ fuel ih =>
    intro d id
    rw [pullUpLoop]
    split
    · rename_i he
      have hi := (exist_iff d id).1 he
      dsimp only
      split
      · exact (ih _ _).trans (swapAt_perm d id _ hi (by have := parent_le id; omega))
      · exact List.Perm.refl _
    · exact List.Perm.refl _

theorem pullUp_perm (d : List Int) (id : Nat) : (pullUp d id).Perm d :=
  pullUpLoop_perm _ _ d id

theorem pushDownPick_range (less : Int → Int → Bool) (d : List Int) (id : Nat) :
    pushDownPick less d id = id ∨ pushDownPick less d id < d.length := by
  unfold pushDownPick
  dsimp only
  have h1 : (if (exist d (leftChild id) && less (get d (leftChild id)) (get d id)) = true
      then leftChild id else id) = id ∨
      (if (exist d (leftChild id) && less (get d (leftChild id)) (get d id)) = true
      then leftChild id else id) < d.length := by
    by_cases h : (exist d (leftChild id) && less (get d (leftChild id)) (get d id)) = true
    · rw [if_pos h]
      simp only [Bool.and_eq_true] at h
      exact Or.inr ((exist_iff _ _).1 h.1)
    · rw [if_neg h]
      exact Or.inl rfl
  generalize (if (exist d (leftChild id) && less (get d (leftChild id)) (get d id)) = true
      then leftChild id else id) = m1 at h1
  by_cases h : (exist d (rightChild id) && less (get d (rightChild id)) (get d m1)) = true
  · rw [if_pos h]
    simp only [Bool.and_eq_true] at h
    exact Or.inr ((exist_iff _ _).1 h.1)
  · rw [if_neg h]
    exact h1

theorem pushDownLoop_perm (less : Int → Int → Bool) (fuel : Nat) :
    ∀ (d : List Int) (id : Nat), (pushDownLoop less fuel d id).Perm d := by
  induction fuel with
  | zero => intro d id; exact List.Perm.refl _
  | succ fuel ih =>
    intro d id
    rw [pushDownLoop]
    split
    · rename_i he
      have hi := (exist_iff d id).1 he
      dsimp only
      split
      · exact List.Perm.refl _
      · rename_i hne
        have hM : pushDownPick less d id < d.length := by
          rcases pushDownPick_range less d id with h | h
          · exact absurd h hne
          · exact h
        exact (ih _ _).trans (swapAt_perm d id _ hi hM)
    · exact List.Perm.refl _

theorem pushDown_perm (d : List Int) (id : Nat) : (pushDown d id).Perm d :=
  pushDownLoop_perm _ _ d id

theorem heapifyFrom_perm : ∀ (i : Nat) (d : List Int), (heapifyFrom i d).Perm d := by
  intro i
  induction i with
  | zero => intro d; rw [heapifyFrom]; exact pushDown_perm d 0
  | succ i ih =>
    intro d
    rw [heapifyFrom]
    exact (ih _).trans (pushDown_perm d (i + 1))

theorem fixPairLoop_perm (mn mx : Nat) (fuel : Nat) : ∀ (d : List Int),
    mn < d.length → mx < d.length → (fixPairLoop fuel d mn mx).Perm d := by
  induction fuel with
  | zero => intro d _ _; exact List.Perm.refl _
  | succ fuel ih =>
    intro d hmn hmx
    rw [fixPairLoop]
    split
    · have hl : (pullUp (pullUp (swapAt d mn mx) mn) mx).length = d.length := by
        rw [length_pullUp, length_pullUp, length_swapAt]
      exact (ih _ (by rw [hl]; exact hmn) (by rw [hl]; exact hmx)).trans
        ((pullUp_perm _ _).trans ((pullUp_perm _ _).trans (swapAt_perm d mn mx hmn hmx)))
    · exact List.Perm.refl _

theorem safeCorrespond_lt (d : List Int) (i : Nat) (hi : i < d.length)
    (hN : d.length < 2 ^ 61) (h2 : 2 ≤ d.length) : safeCorrespond d i < d.length := by
  cases hm : inMinHeap i
  · obtain ⟨hs, hc, _⟩ := safeCorrespond_of_max d i hi hN hm
    rw [hs]; exact hc
  · exact (safeCorrespond_of_min d i hi hN h2 hm).1

theorem fixLeaf_perm (d : List Int) (i : Nat) (hi : i < d.length) (hN : d.length < 2 ^ 61)
    (h2 : 2 ≤ d.length) : (fixLeaf d i).Perm d := by
  unfold fixLeaf
  dsimp only
  have hc := safeCorrespond_lt d i hi hN h2
  split
  · exact fixPairLoop_perm _ _ _ d hi hc
  · exact fixPairLoop_perm _ _ _ d hc hi

theorem leafLoop_perm : ∀ (i : Nat) (d : List Int), i < d.length → d.length < 2 ^ 61 →
    2 ≤ d.length → (leafLoop i d).Perm d := by
  intro i
  induction i with
  | zero =>
    intro d hi hN h2
    rw [leafLoop]
    split
    · exact fixLeaf_perm d 0 hi hN h2
    · exact List.Perm.refl _
  | succ i ih =>
    intro d hi hN h2
    rw [leafLoop]
    split
    · have hl := length_fixLeaf d (i + 1)
      exact (ih _ (by rw [hl]; omega) (by rw [hl]; exact hN) (by rw [hl]; exact h2)).trans
        (fixLeaf_perm d (i + 1) hi hN h2)
    · exact List.Perm.refl _

theorem buildDeap_perm (d : List Int) (hN : d.length < 2 ^ 61) : (buildDeap d).Perm d := by
  unfold buildDeap
  split
  · exact List.Perm.refl _
  · dsimp only
    have hl := length_heapifyFrom (parent (d.length - 1)) d
    exact (leafLoop_perm _ _ (by rw [hl]; omega) (by rw [hl]; exact hN)
      (by rw [hl]; omega)).trans (heapifyFrom_perm _ d)

end Deap

namespace Deap
open Deap_Trait Vec

theorem insert_perm (d : List Int) (id : Nat) (hi : id < d.length) (hN : d.length < 2 ^ 61) :
    (insert d id).Perm d := by
  unfold insert
  by_cases h0 : id = 0
  · rw [if_pos h0]
  · rw [if_neg h0]
    dsimp only
    have hc := safeCorrespond_lt d id hi hN (by omega)
    have hmin0 : (if inMinHeap id = true then id else safeCorrespond d id) < d.length := by
      split
      · exact hi
      · exact hc
    have hmax : (if inMinHeap id = true then safeCorrespond d id else id) < d.length := by
      split
      · exact hc
      · exact hi
    generalize (if inMinHeap id = true then id else safeCorrespond d id) = minN0 at hmin0
    generalize (if inMinHeap id = true then safeCorrespond d id else id) = maxN at hmax
    rw [leftChild_eq minN0 (by omega), rightChild_eq minN0 (by omega)]
    have hminN : ∀ minN, minN = (if (!isLeaf d minN0 && !exist d (2 * minN0 + 3)) = true
        then 2 * minN0 + 2 else minN0) →
        minN < d.length ∧ (isLeaf d minN = false → 2 * minN + 3 < d.length) := by
      intro minN hdef
      have hleaf0 := isLeaf_iff d minN0 hN
      by_cases hcnd : (!isLeaf d minN0 && !exist d (2 * minN0 + 3)) = true
      · rw [if_pos hcnd] at hdef
        simp only [Bool.and_eq_true, Bool.not_eq_true'] at hcnd
        obtain ⟨c1, c2⟩ := hcnd
        have hL : 2 * minN0 + 2 < d.length := by
          by_contra hx
          have := hleaf0.2 ⟨hmin0, by omega⟩
          rw [c1] at this
          cases this
        have hR : ¬ 2 * minN0 + 3 < d.length := by
          intro hx
          have := (exist_iff d _).2 hx
          rw [c2] at this
          cases this
        rw [hdef]
        refine ⟨hL, fun hnl => ?_⟩
        exfalso
        have := (isLeaf_iff d (2 * minN0 + 2) hN).2 ⟨hL, by omega⟩
        rw [hnl] at this
        cases this
      · rw [if_neg hcnd] at hdef
        rw [hdef]
        refine ⟨hmin0, fun hnl => ?_⟩
        by_contra hx
        apply hcnd
        have : exist d (2 * minN0 + 3) = false := by
          cases he : exist d (2 * minN0 + 3)
          · rfl
          · exact absurd ((exist_iff d _).1 he) hx
        rw [hnl, this]
        rfl
    generalize hdef : (if (!isLeaf d minN0 && !exist d (2 * minN0 + 3)) = true
        then 2 * minN0 + 2 else minN0) = minN
    obtain ⟨hmn, hch⟩ := hminN minN hdef.symm
    rw [leftChild_eq minN (by omega), rightChild_eq minN (by omega)]
    cases hlf : isLeaf d minN
    · simp only [Bool.false_eq_true, if_false]
      have hR := hch hlf
      split
      · exact pullUp_perm d id
      · split
        · exact (pullUp_perm _ _).trans (swapAt_perm d _ id (by omega) hi)
        · exact (pullUp_perm _ _).trans (swapAt_perm d _ id hR hi)
    · simp only [if_true]
      split
      · exact pullUp_perm d id
      · exact (pullUp_perm _ _).trans (swapAt_perm d minN maxN hmn hmax)

theorem push_perm (d : List Int) (v : Int) (hN : d.length + 1 < 2 ^ 61) :
    (push d v).Perm (v :: d) := by
  unfold push
  dsimp only
  exact (insert_perm _ _ (by simp) (by simp; exact hN)).trans (List.perm_append_singleton v d)

theorem sinkLoop_perm (takeLeft : Int → Int → Bool) (fuel : Nat) : ∀ (d : List Int) (e : Nat),
    e < d.length → d.length < 2 ^ 61 →
    (sinkLoop takeLeft fuel d e).2 < d.length ∧
    ∀ w, ((sinkLoop takeLeft fuel d e).1.set (sinkLoop takeLeft fuel d e).2 w).Perm
      (d.set e w) := by
  induction fuel with
  | zero => intro d e he _; exact ⟨he, fun w => List.Perm.refl _⟩
  | succ fuel ih =>
    intro d e he hN
    cases hleaf : isLeaf d e
    · have hL : 2 * e + 2 < d.length := by
        by_contra hc
        have := (isLeaf_iff d e hN).2 ⟨he, by omega⟩
        rw [hleaf] at this
        cases this
      rw [sinkLoop_step _ fuel d e hN he hleaf]
      split
      · obtain ⟨i1, i2⟩ := ih (d.set e (get d (2 * e + 2))) (2 * e + 2) (by simp; exact hL)
          (by simp; exact hN)
        rw [List.length_set] at i1
        exact ⟨i1, fun w => (i2 w).trans (set_set_perm d e _ w he hL)⟩
      · rename_i hcnd
        have hR : 2 * e + 3 < d.length := by
          by_contra hx
          apply hcnd
          have : exist d (2 * e + 3) = false := by
            cases hx' : exist d (2 * e + 3)
            · rfl
            · exact absurd ((exist_iff d _).1 hx') hx
          rw [this]
          rfl
        obtain ⟨i1, i2⟩ := ih (d.set e (get d (2 * e + 3))) (2 * e + 3) (by simp; exact hR)
          (by simp; exact hN)
        rw [List.length_set] at i1
        exact ⟨i1, fun w => (i2 w).trans (set_set_perm d e _ w he hR)⟩
    · rw [sinkLoop_leaf _ _ d e hleaf]
      exact ⟨he, fun w => List.Perm.refl _⟩

theorem pop_tail_perm (d d1 : List Int) (e s : Nat) (hl : d1.length = d.length)
    (he : e < d.length) (hs : s < d.length)
    (hp : ∀ w, (d1.set e w).Perm (d.set s w)) :
    (e = d1.length - 1 → (get d s :: d1.dropLast).Perm d) ∧
    (get d s :: (d1.set e (get d1 (d1.length - 1))).dropLast).Perm d := by
  have h1 := hp (get d s)
  rw [set_get_self d s hs] at h1
  have hlD : (d1.set e (get d s)).length = d1.length := by simp
  constructor
  · intro hlast
    have h2 := set_last_eq d1 (get d s) (by omega)
    rw [← hlast, ] at h2
    rw [h2] at h1
    exact (List.perm_append_singleton _ _).symm.trans h1
  · have h2 := pop_swap_perm (d1.set e (get d s)) e (by rw [hlD, hl]; exact he)
    rw [get_set_eq d1 e _ (by rw [hl]; exact he), List.set_set, hlD] at h2
    by_cases hlast : e = d1.length - 1
    · rw [← hlast, get_set_eq d1 e _ (by rw [hl]; exact he)] at h2
      rw [← hlast]
      have h3 : (d1.set e (get d1 e)) = d1 := set_get_self d1 e (by rw [hl]; exact he)
      rw [h3]
      have h4 := set_last_eq d1 (get d s) (by omega)
      rw [← hlast] at h4
      rw [h4] at h1
      exact (List.perm_append_singleton _ _).symm.trans h1
    · rw [get_set_ne d1 e _ _ hlast] at h2
      exact h2.trans h1

theorem popMin_perm (d : List Int) (x : Int) (r : List Int) (hN : d.length < 2 ^ 61)
    (h : popMin d = some (x, r)) : (x :: r).Perm d := by
  unfold popMin at h
  split at h
  · cases h
  · rename_i hne
    dsimp only at h
    obtain ⟨s1, s2⟩ := sinkLoop_perm (fun a b => decide (a < b)) d.length d 0 (by omega) hN
    have sl := length_sinkLoop (fun a b => decide (a < b)) d.length d 0
    generalize sinkLoop (fun a b => decide (a < b)) d.length d 0 = res at h s1 s2 sl
    obtain ⟨d1, e⟩ := res
    dsimp only at h s1 s2 sl
    obtain ⟨t1, t2⟩ := pop_tail_perm d d1 e 0 sl s1 (by omega) s2
    split at h
    · rename_i hlast
      simp only [Option.some.injEq, Prod.mk.injEq] at h
      rw [← h.1, ← h.2]
      exact t1 hlast
    · rename_i hlast
      simp only [Option.some.injEq, Prod.mk.injEq] at h
      rw [← h.1, ← h.2]
      refine (List.Perm.cons _ (insert_perm _ e ?_ ?_)).trans t2
      · simp; omega
      · simp; omega

theorem popMax_perm (d : List Int) (x : Int) (r : List Int) (hN : d.length < 2 ^ 61)
    (h : popMax d = some (x, r)) : (x :: r).Perm d := by
  unfold popMax at h
  split at h
  · cases h
  · rename_i hne
    split at h
    · rename_i h1
      simp only [Option.some.injEq, Prod.mk.injEq] at h
      rw [← h.1, ← h.2]
      have := pop_swap_perm d 0 (by omega)
      have e0 : d.length - 1 = 0 := by omega
      rw [e0, set_get_self d 0 (by omega)] at this
      exact this
    · rename_i h1
      dsimp only at h
      obtain ⟨s1, s2⟩ := sinkLoop_perm (fun a b => decide (a > b)) d.length d 1 (by omega) hN
      have sl := length_sinkLoop (fun a b => decide (a > b)) d.length d 1
      generalize sinkLoop (fun a b => decide (a > b)) d.length d 1 = res at h s1 s2 sl
      obtain ⟨d1, e⟩ := res
      dsimp only at h s1 s2 sl
      obtain ⟨t1, t2⟩ := pop_tail_perm d d1 e 1 sl s1 (by omega) s2
      split at h
      · rename_i hlast
        split at h
        · rename_i hpl
          simp only [Option.some.injEq, Prod.mk.injEq] at h
          rw [← h.1, ← h.2]
          have hpe : parent e < d1.dropLast.length :=
            ((isLeaf_iff _ _ (by simp; omega)).1 hpl).1
          exact (List.Perm.cons _ (insert_perm _ _ hpe (by simp; omega))).trans (t1 hlast)
        · simp only [Option.some.injEq, Prod.mk.injEq] at h
          rw [← h.1, ← h.2]
          exact t1 hlast
      · rename_i hlast
        simp only [Option.some.injEq, Prod.mk.injEq] at h
        rw [← h.1, ← h.2]
        refine (List.Perm.cons _ (insert_perm _ e ?_ ?_)).trans t2
        · simp; omega
        · simp; omega

end Deap

namespace Deap
open Deap_Trait Vec

/-! ## C14: extracting everything returns the values that were put in -/

theorem deap_drain_perm (script : List Bool) : ∀ (d : List Int), d.length < 2 ^ 61 →
    (((drain script d).1.map Prod.snd) ++ (drain script d).2).Perm d ∧
    (drain script d).1.length = min script.length d.length := by
  induction script with
  | nil => intro d _; simp [drain]
  | cons c cs ih =>
    intro d hN
    rw [drain]
    by_cases h0 : d = []
    · have hnone : (if c = true then popMin d else popMax d) = none := by
        cases c
        · simp [popMax, h0]
        · simp [popMin, h0]
      rw [hnone, h0]
      simp
    · cases hp : (if c = true then popMin d else popMax d) with
      | none =>
        exfalso
        cases c
        · simp only [Bool.false_eq_true, if_false] at hp
          have := deap_popMax_isSome d h0
          rw [hp] at this
          cases this
        · simp only [if_true] at hp
          have := deap_popMin_isSome d h0
          rw [hp] at this
          cases this
      | some xr =>
        obtain ⟨x, r⟩ := xr
        have hperm : (x :: r).Perm d := by
          cases c
          · exact popMax_perm d x r hN (by simpa using hp)
          · exact popMin_perm d x r hN (by simpa using hp)
        have hl : r.length + 1 = d.length := by
          have := hperm.length_eq
          simpa using this
        obtain ⟨i1, i2⟩ := ih r (by omega)
        dsimp only
        refine ⟨?_, by rw [List.length_cons, i2, List.length_cons]; omega⟩
        rw [List.map_cons, List.cons_append]
        exact (List.Perm.cons x i1).trans hperm

theorem foldl_push_perm : ∀ (xs acc : List Int), acc.length + xs.length < 2 ^ 61 →
    (xs.foldl push acc).Perm (acc ++ xs) := by
  intro xs
  induction xs with
  | nil => intro acc _; simp
  | cons x xs ih =>
    intro acc hN
    simp only [List.length_cons] at hN
    rw [List.foldl_cons]
    have h1 := push_perm acc x (by omega)
    have h2 := ih (push acc x) (by rw [length_push]; omega)
    refine h2.trans ?_
    exact (List.Perm.append_right xs h1).trans (by
      rw [List.cons_append]
      exact List.perm_middle.symm)

end Deap

namespace MinMaxHeap
open MinMaxHeap_Trait Vec

theorem mm_drain_perm (script : List Bool) : ∀ (d : List Int),
    (((drain script d).1.map Prod.snd) ++ (drain script d).2).Perm d := by
  induction script with
  | nil => intro d; simp [drain]
  | cons c cs ih =>
    intro d
    rw [drain]
    cases hp : (if c = true then popMin d else popMax d) with
    | none => simp
    | some xr =>
      obtain ⟨x, r⟩ := xr
      have hperm : (x :: r).Perm d := by
        cases c
        · exact mm_popMax_perm d x r (by simpa using hp)
        · exact mm_popMin_perm d x r (by simpa using hp)
      dsimp only
      rw [List.map_cons, List.cons_append]
      exact (List.Perm.cons x (ih r)).trans hperm

theorem mm_foldl_push_perm : ∀ (xs acc : List Int),
    (xs.foldl push acc).Perm (acc ++ xs) := by
  intro xs
  induction xs with
  | nil => intro acc; simp
  | cons x xs ih =>
    intro acc
    rw [List.foldl_cons]
    refine (ih (push acc x)).trans ?_
    exact (List.Perm.append_right xs (mm_push_perm acc x)).trans (by
      rw [List.cons_append]
      exact List.perm_middle.symm)

end MinMaxHeap

theorem drained_all (out : List (Bool × Int)) (rest d xs : List Int) (n : Nat)
    (hp : ((out.map Prod.snd) ++ rest).Perm d) (hd : d.Perm xs)
    (hl : out.length = min n d.length) (hn : xs.length ≤ n) :
    (out.map Prod.snd).Perm xs ∧ rest = [] := by
  have h1 := hp.length_eq
  have h2 := hd.length_eq
  simp only [List.length_append, List.length_map] at h1
  have hr : rest = [] := List.length_eq_zero.1 (by omega)
  rw [hr, List.append_nil] at hp
  exact ⟨hp.trans hd, hr⟩

/-- C14: for the Deap and for the MinMaxHeap and for every list `xs` of ints (below the size
limit `2^61` of the vector): building from `xs`, or pushing the elements of `xs` one by one,
and then extracting through any script of `popMin` and `popMax` calls at least as long as
`xs` returns a sequence that is a permutation of `xs` and leaves the structure empty. -/
theorem round_trip_perm (xs : List Int) (script : List Bool) (hN : xs.length < 2 ^ 61)
    (hs : xs.length ≤ script.length) :
    (((Deap.drain script (Deap.ofList xs)).1.map Prod.snd).Perm xs ∧
      (Deap.drain script (Deap.ofList xs)).2 = []) ∧
    (((Deap.drain script (Deap.pushAll xs)).1.map Prod.snd).Perm xs ∧
      (Deap.drain script (Deap.pushAll xs)).2 = []) ∧
    (((MinMaxHeap.drain script (MinMaxHeap.ofList xs)).1.map Prod.snd).Perm xs ∧
      (MinMaxHeap.drain script (MinMaxHeap.ofList xs)).2 = []) ∧
    (((MinMaxHeap.drain script (MinMaxHeap.pushAll xs)).1.map Prod.snd).Perm xs ∧
      (MinMaxHeap.drain script (MinMaxHeap.pushAll xs)).2 = []) := by
  have b1 : (Deap.ofList xs).Perm xs := Deap.buildDeap_perm xs hN
  have b2 : (Deap.pushAll xs).Perm xs := by
    have := Deap.foldl_push_perm xs [] (by simpa using hN)
    simpa [Deap.pushAll] using this
  have b3 : (MinMaxHeap.ofList xs).Perm xs := MinMaxHeap.mm_ofList_perm xs
  have b4 : (MinMaxHeap.pushAll xs).Perm xs := by
    have := MinMaxHeap.mm_foldl_push_perm xs []
    simpa [MinMaxHeap.pushAll] using this
  obtain ⟨p1, l1⟩ := Deap.deap_drain_perm script (Deap.ofList xs) (by rw [b1.length_eq]; exact hN)
  obtain ⟨p2, l2⟩ := Deap.deap_drain_perm script (Deap.pushAll xs)
    (by rw [b2.length_eq]; exact hN)
  exact ⟨drained_all _ _ _ xs _ p1 b1 l1 hs, drained_all _ _ _ xs _ p2 b2 l2 hs,
    drained_all _ _ _ xs _ (MinMaxHeap.mm_drain_perm script _) b3
      (MinMaxHeap.mm_drain_length script _) hs,
    drained_all _ _ _ xs _ (MinMaxHeap.mm_drain_perm script _) b4
      (MinMaxHeap.mm_drain_length script _) hs⟩

set_option maxRecDepth 100000 in
/-- C14 on the list `[4, -2, 7, 0, 4]` (a negative value included) drained by
`popMax, popMin, popMax, popMin, popMax`. -/
theorem round_trip_perm_witness :
    (((Deap.drain [false, true, false, true, false] (Deap.ofList [4, -2, 7, 0, 4])).1.map
        Prod.snd).Perm [4, -2, 7, 0, 4] ∧
      (Deap.drain [false, true, false, true, false] (Deap.ofList [4, -2, 7, 0, 4])).2 = []) ∧
    (((Deap.drain [false, true, false, true, false] (Deap.pushAll [4, -2, 7, 0, 4])).1.map
        Prod.snd).Perm [4, -2, 7, 0, 4] ∧
      (Deap.drain [false, true, false, true, false] (Deap.pushAll [4, -2, 7, 0, 4])).2 = []) ∧
    (((MinMaxHeap.drain [false, true, false, true, false]
        (MinMaxHeap.ofList [4, -2, 7, 0, 4])).1.map Prod.snd).Perm [4, -2, 7, 0, 4] ∧
      (MinMaxHeap.drain [false, true, false, true, false]
        (MinMaxHeap.ofList [4, -2, 7, 0, 4])).2 = []) ∧
    (((MinMaxHeap.drain [false, true, false, true, false]
        (MinMaxHeap.pushAll [4, -2, 7, 0, 4])).1.map Prod.snd).Perm [4, -2, 7, 0, 4] ∧
      (MinMaxHeap.drain [false, true, false, true, false]
        (MinMaxHeap.pushAll [4, -2, 7, 0, 4])).2 = []) :=
  round_trip_perm [4, -2, 7, 0, 4] [false, true, false, true, false] (by decide) (by decide)

namespace Deap
open Deap_Trait Vec

/-! ## The fuel of the loops is never used up

Each `while` loop of the Deap is modelled with a fuel.  The theorems of this section show
that the loop ends by its own test before the fuel is used up: more fuel gives the same
result. -/

theorem chooseLess_irrefl (id : Nat) (x : Int) : chooseLess id x x = false := by
  unfold chooseLess lessSizeT greaterSizeT
  split <;> simp

theorem pullUpLoop_fuel (less : Int → Int → Bool) (hirr : ∀ x, less x x = false)
    (fuel : Nat) : ∀ (d : List Int) (id : Nat), id < fuel → ∀ k,
    pullUpLoop less (fuel + k) d id = pullUpLoop less fuel d id := by
  induction fuel with
  | zero => intro d id h; omega
  | succ fuel ih =>
    intro d id hid k
    have e : fuel + 1 + k = (fuel + k) + 1 := by omega
    rw [e, pullUpLoop, pullUpLoop]
    split
    · dsimp only
      split
      · rename_i hl
        by_cases h2 : 2 ≤ id
        · exact ih _ _ (by have := parent_lt id h2; omega) k
        · exfalso
          have : parent id = id := by unfold parent; rw [if_pos (by omega)]
          rw [this, hirr] at hl
          cases hl
      · rfl
    · rfl

/-- `pullUp` ends by its own test: more fuel gives the same result. -/
theorem pullUp_fuel (d : List Int) (id k : Nat) :
    pullUpLoop (chooseLess id) (d.length + k) d id = pullUp d id := by
  unfold pullUp
  by_cases hi : id < d.length
  · exact pullUpLoop_fuel _ (chooseLess_irrefl id) _ d id hi k
  · have hex : exist d id = false := by
      cases hx : exist d id
      · rfl
      · exact absurd ((exist_iff d id).1 hx) hi
    have h1 : ∀ f, pullUpLoop (chooseLess id) f d id = d := by
      intro f
      cases f with
      | zero => rfl
      | succ f => rw [pullUpLoop, hex]; rfl
    rw [h1, h1]

theorem pushDownLoop_fuel (less : Int → Int → Bool) (fuel : Nat) : ∀ (d : List Int) (id : Nat),
    d.length ≤ fuel + id → d.length < 2 ^ 61 → ∀ k,
    pushDownLoop less (fuel + k) d id = pushDownLoop less fuel d id := by
  induction fuel with
  | zero =>
    intro d id hf hN k
    have hex : exist d id = false := by
      cases hx : exist d id
      · rfl
      · have := (exist_iff d id).1 hx
        omega
    rw [pushDownLoop]
    cases k with
    | zero => rfl
    | succ k =>
      rw [show 0 + (k + 1) = k + 1 from by omega, pushDownLoop, hex]
      rfl
  | succ fuel ih =>
    intro d id hf hN k
    have e : fuel + 1 + k = (fuel + k) + 1 := by omega
    rw [e, pushDownLoop, pushDownLoop]
    split
    · rename_i hex
      have hi := (exist_iff d id).1 hex
      dsimp only
      split
      · rfl
      · rename_i hne
        have hM : id < pushDownPick less d id := by
          rcases pushDownPick_cases less d id hN hi with h | h | h
          · exact absurd h hne
          · omega
          · omega
        exact ih _ _ (by rw [length_swapAt]; omega) (by rw [length_swapAt]; exact hN) k
    · rfl

/-- `pushDown` ends by its own test: more fuel gives the same result. -/
theorem pushDown_fuel (d : List Int) (id k : Nat) (hN : d.length < 2 ^ 61) :
    pushDownLoop (chooseLess id) (d.length + k) d id = pushDown d id :=
  pushDownLoop_fuel _ _ d id (by omega) hN k

/-- The loop of `popMin` and `popMax` that moves the empty slot down ends by its own test:
more fuel gives the same result. -/
theorem sinkLoop_fuel (takeLeft : Int → Int → Bool) (fuel : Nat) : ∀ (d : List Int) (e : Nat),
    e < d.length → d.length ≤ fuel + e → d.length < 2 ^ 61 → ∀ k,
    sinkLoop takeLeft (fuel + k) d e = sinkLoop takeLeft fuel d e := by
  induction fuel with
  | zero => intro d e he hf; omega
  | succ fuel ih =>
    intro d e he hf hN k
    have e1 : fuel + 1 + k = (fuel + k) + 1 := by omega
    rw [e1]
    cases hleaf : isLeaf d e
    · have hL : 2 * e + 2 < d.length := by
        by_contra hc
        have := (isLeaf_iff d e hN).2 ⟨he, by omega⟩
        rw [hleaf] at this
        cases this
      rw [sinkLoop_step _ _ d e hN he hleaf, sinkLoop_step _ _ d e hN he hleaf]
      split
      · exact ih _ _ (by simp; exact hL) (by simp; omega) (by simp; exact hN) k
      · rename_i hcnd
        have hR : 2 * e + 3 < d.length := by
          by_contra hx
          apply hcnd
          have : exist d (2 * e + 3) = false := by
            cases hx' : exist d (2 * e + 3)
            · rfl
            · exact absurd ((exist_iff d _).1 hx') hx
          rw [this]
          rfl
        exact ih _ _ (by simp; exact hR) (by simp; omega) (by simp; exact hN) k
    · rw [sinkLoop_leaf _ _ d e hleaf, sinkLoop_leaf _ _ d e hleaf]

theorem minCount_swap_cross_le (d : List Int) (mn mx : Nat) (hmn : mn < d.length)
    (hmx : mx < d.length) (hsx : inMinHeap mx = false)
    (hgt : get d mx < get d mn) (t : Int) :
    minCount (swapAt d mn mx) t ≤ minCount d t := by
  unfold minCount
  rw [length_swapAt]
  apply Finset.card_le_card
  intro j hj
  rw [Finset.mem_filter, Finset.mem_range, get_swapAt d mn mx j hmn hmx] at hj
  obtain ⟨h1, h2, h3⟩ := hj
  have hjx : j ≠ mx := fun h => by rw [h, hsx] at h2; cases h2
  rw [if_neg hjx] at h3
  rw [Finset.mem_filter, Finset.mem_range]
  refine ⟨h1, h2, ?_⟩
  by_cases hjn : j = mn
  · rw [if_pos hjn] at h3
    rw [hjn]
    exact lt_trans h3 hgt
  · rw [if_neg hjn] at h3
    exact h3

theorem rankSum_le (d : List Int) : rankSum d ≤ d.length * d.length := by
  unfold rankSum
  have := List.sum_le_card_nsmul (d.map (minCount d)) d.length (by
    intro x hx
    obtain ⟨y, _, rfl⟩ := List.mem_map.1 hx
    exact minCount_le d y)
  simpa using this

theorem rankSum_step (d : List Int) (mn mx : Nat) (hN : d.length < 2 ^ 61)
    (hmn : mn < d.length) (hmx : mx < d.length) (hsn : inMinHeap mn = true)
    (hsx : inMinHeap mx = false) (hgt : get d mx < get d mn) :
    rankSum (pullUp (pullUp (swapAt d mn mx) mn) mx) < rankSum d := by
  have hl1 : (swapAt d mn mx).length = d.length := length_swapAt d mn mx
  have hl2 : (pullUp (swapAt d mn mx) mn).length = d.length := by rw [length_pullUp, hl1]
  have hc : ∀ t, minCount (pullUp (pullUp (swapAt d mn mx) mn) mx) t =
      minCount (swapAt d mn mx) t := by
    intro t
    rw [minCount_pullUp _ _ _ (by rw [hl2]; exact hN),
      minCount_pullUp _ _ _ (by rw [hl1]; exact hN)]
  have hp : (pullUp (pullUp (swapAt d mn mx) mn) mx).Perm d :=
    (pullUp_perm _ _).trans ((pullUp_perm _ _).trans (swapAt_perm d mn mx hmn hmx))
  unfold rankSum
  have hfun : minCount (pullUp (pullUp (swapAt d mn mx) mn) mx) =
      minCount (swapAt d mn mx) := funext hc
  rw [hfun, (hp.map _).sum_eq]
  exact List.sum_lt_sum _ _ (fun x _ => minCount_swap_cross_le d mn mx hmn hmx hsx hgt x)
    ⟨get d mx, get_mem d mx hmx, minCount_swap_cross d mn mx hmn hmx hsn hsx hgt⟩

theorem fixPairLoop_stable (mn mx : Nat) (hsn : inMinHeap mn = true)
    (hsx : inMinHeap mx = false) (fuel : Nat) : ∀ (d : List Int), rankSum d ≤ fuel →
    mn < d.length → mx < d.length → d.length < 2 ^ 61 → ∀ k,
    fixPairLoop (fuel + k) d mn mx = fixPairLoop fuel d mn mx := by
  induction fuel with
  | zero =>
    intro d hr hmn hmx hN k
    have hcond : ¬ get d mx < get d mn := by
      intro hgt
      have h1 := minCount_swap_cross d mn mx hmn hmx hsn hsx hgt
      have h2 : minCount d (get d mx) ≤ rankSum d := by
        unfold rankSum
        exact List.single_le_sum (fun _ _ => Nat.zero_le _) _
          (List.mem_map.2 ⟨get d mx, get_mem d mx hmx, rfl⟩)
      omega
    rw [fixPairLoop]
    cases k with
    | zero => rfl
    | succ k =>
      rw [show 0 + (k + 1) = k + 1 from by omega, fixPairLoop, if_neg hcond]
  | succ fuel ih =>
    intro d hr hmn hmx hN k
    have e : fuel + 1 + k = (fuel + k) + 1 := by omega
    rw [e, fixPairLoop, fixPairLoop]
    split
    · rename_i hgt
      have hl : (pullUp (pullUp (swapAt d mn mx) mn) mx).length = d.length := by
        rw [length_pullUp, length_pullUp, length_swapAt]
      have := rankSum_step d mn mx hN hmn hmx hsn hsx hgt
      exact ih _ (by omega) (by rw [hl]; exact hmn) (by rw [hl]; exact hmx)
        (by rw [hl]; exact hN) k
    · rfl

/-- The inner `while` loop of the leaf pass of `buildDeap` ends by its own test within the
fuel `size * size`, for all `int` values: more fuel gives the same result. -/
theorem fixPairLoop_fuel (d : List Int) (mn mx k : Nat) (hsn : inMinHeap mn = true)
    (hsx : inMinHeap mx = false) (hmn : mn < d.length) (hmx : mx < d.length)
    (hN : d.length < 2 ^ 61) :
    fixPairLoop (d.length * d.length + k) d mn mx =
      fixPairLoop (d.length * d.length) d mn mx :=
  fixPairLoop_stable mn mx hsn hsx _ d (rankSum_le d) hmn hmx hN k

/-- The body of the leaf pass of `buildDeap` with more fuel for its inner loop gives the same
result, for all `int` values. -/
theorem fixLeaf_fuel (d : List Int) (i k : Nat) (hi : i < d.length) (hN : d.length < 2 ^ 61)
    (h2 : 2 ≤ d.length) :
    (if inMinHeap i then fixPairLoop (d.length * d.length + k) d i (safeCorrespond d i)
      else fixPairLoop (d.length * d.length + k) d (safeCorrespond d i) i) = fixLeaf d i := by
  unfold fixLeaf
  dsimp only
  cases hm : inMinHeap i
  · obtain ⟨hs, hc, hcm⟩ := safeCorrespond_of_max d i hi hN hm
    simp only [Bool.false_eq_true, if_false]
    exact fixPairLoop_fuel d _ i k (by rw [hs]; exact hcm) hm (by rw [hs]; exact hc) hi hN
  · obtain ⟨hc, hcm, _, _⟩ := safeCorrespond_of_min d i hi hN h2 hm
    simp only [if_true]
    exact fixPairLoop_fuel d i _ k hm hcm hi hc hN

end Deap

namespace MinMaxHeap
open MinMaxHeap_Trait Vec

theorem pickFold_mem (less : Int → Int → Bool) (d : List Int) : ∀ (l : List Nat) (M0 : Nat),
    l.foldl (fun M id => if exist d id && less (get d id) (get d M) then id else M) M0 = M0 ∨
    l.foldl (fun M id => if exist d id && less (get d id) (get d M) then id else M) M0 ∈ l := by
  intro l
  induction l with
  | nil => intro M0; exact Or.inl rfl
  | cons id l ih =>
    intro M0
    rw [List.foldl_cons]
    by_cases hc : (exist d id && less (get d id) (get d M0)) = true
    · rw [if_pos hc]
      rcases ih id with h | h
      · rw [h]; exact Or.inr (List.mem_cons_self _ _)
      · exact Or.inr (List.mem_cons_of_mem _ h)
    · rw [if_neg hc]
      rcases ih M0 with h | h
      · exact Or.inl h
      · exact Or.inr (List.mem_cons_of_mem _ h)

theorem mm_pushDownLoop_fuel (less : Int → Int → Bool) (fuel : Nat) :
    ∀ (d : List Int) (r : Nat), d.length ≤ fuel + r → d.length < 2 ^ 61 → ∀ k,
    pushDownLoop less (fuel + k) d r = pushDownLoop less fuel d r := by
  induction fuel with
  | zero =>
    intro d r hf hN k
    have hex : exist d r = false := by
      cases hx : exist d r
      · rfl
      · have := (mm_exist_iff d r).1 hx
        omega
    rw [pushDownLoop]
    cases k with
    | zero => rfl
    | succ k =>
      rw [show 0 + (k + 1) = k + 1 from by omega, pushDownLoop, hex]
      rfl
  | succ fuel ih =>
    intro d r hf hN k
    have e : fuel + 1 + k = (fuel + k) + 1 := by omega
    rw [e, pushDownLoop, pushDownLoop]
    split
    · rename_i hex
      have hr := (mm_exist_iff d r).1 hex
      dsimp only
      have hM : pickM less d r = r ∨ r < pickM less d r := by
        unfold pickM
        rcases pickFold_mem less d (children r) r with h | h
        · exact Or.inl h
        · have := (near_iff_mem r _ (by omega)).2 h
          unfold Near at this
          exact Or.inr (by omega)
      generalize pickM less d r = M at hM
      split
      · rfl
      · rename_i hne
        have hlt : r < M := by
          rcases hM with h | h
          · exact absurd h hne
          · exact h
        split
        · rfl
        · apply ih _ _ _ _ k
          · split
            · rw [length_swapAt, length_swapAt]; omega
            · rw [length_swapAt]; omega
          · split
            · rw [length_swapAt, length_swapAt]; exact hN
            · rw [length_swapAt]; exact hN
    · rfl

/-- `pushDown` of the Min-Max Heap ends by its own test: more fuel gives the same result. -/
theorem mm_pushDown_fuel (d : List Int) (r k : Nat) (hN : d.length < 2 ^ 61) :
    pushDownLoop (chooseLess r) (d.length + k) d r = pushDown d r :=
  mm_pushDownLoop_fuel _ _ d r (by omega) hN k

theorem mm_pushMinLoop_fuel (v : Int) (fuel : Nat) : ∀ (d : List Int) (id pm : Nat),
    id < fuel → (id ≠ 0 → pm < id) → ∀ k,
    pushMinLoop (fuel + k) d v id pm = pushMinLoop fuel d v id pm := by
  induction fuel with
  | zero => intro d id pm h; omega
  | succ fuel ih =>
    intro d id pm hid hpm k
    have e : fuel + 1 + k = (fuel + k) + 1 := by omega
    rw [e, pushMinLoop, pushMinLoop]
    split
    · rename_i h0
      split
      · have := hpm h0
        apply ih _ _ _ (by omega) _ k
        intro hpm0
        have := mm_parent_lt pm (by omega)
        have := mm_parent_le (parent pm)
        omega
      · rfl
    · rfl

theorem mm_pushMaxLoop_fuel (v : Int) (fuel : Nat) : ∀ (d : List Int) (id pm : Nat),
    id < fuel → id < 2 ^ 61 → (id ≠ 1 ∧ id ≠ 2 → pm < id ∧ isMinNode pm = false) → ∀ k,
    pushMaxLoop (fuel + k) d v id pm = pushMaxLoop fuel d v id pm := by
  induction fuel with
  | zero => intro d id pm h; omega
  | succ fuel ih =>
    intro d id pm hid hb hpm k
    have e : fuel + 1 + k = (fuel + k) + 1 := by omega
    rw [e, pushMaxLoop, pushMaxLoop]
    split
    · rename_i h0
      split
      · obtain ⟨h1, h2⟩ := hpm h0
        apply ih _ _ _ (by omega) (by omega) _ k
        intro hpm12
        have hpm0 : pm ≠ 0 := by
          intro h
          rw [h] at h2
          exact absurd h2 (by decide)
        obtain ⟨g1, g2, _⟩ := mm_grand_near pm (by omega) (by omega)
        refine ⟨?_, by rw [g2]; exact h2⟩
        unfold Near at g1
        omega
      · rfl
    · rfl

/-- The two ancestor walks of `push` end by their own test: called as `push` calls them, with
more fuel they give the same result. -/
theorem mm_push_fuel (d : List Int) (v : Int) (k : Nat) (hN : d.length + 1 < 2 ^ 61)
    (h0 : 0 < d.length) :
    pushMinLoop ((d ++ [v]).length + k) (d ++ [v]) v d.length
        (if isMinNode d.length then parent (parent d.length) else parent d.length) =
      pushMinLoop (d ++ [v]).length (d ++ [v]) v d.length
        (if isMinNode d.length then parent (parent d.length) else parent d.length) ∧
    pushMaxLoop ((d ++ [v]).length + k) (d ++ [v]) v d.length
        (if isMinNode d.length then parent d.length else parent (parent d.length)) =
      pushMaxLoop (d ++ [v]).length (d ++ [v]) v d.length
        (if isMinNode d.length then parent d.length else parent (parent d.length)) := by
  have hl : (d ++ [v]).length = d.length + 1 := by simp
  have hp := mm_parent_lt d.length h0
  have hpp := mm_parent_le (parent d.length)
  constructor
  · apply mm_pushMinLoop_fuel v _ _ _ _ (by rw [hl]; omega) _ k
    intro _
    split <;> omega
  · apply mm_pushMaxLoop_fuel v _ _ _ _ (by rw [hl]; omega) (by omega) _ k
    intro h12
    cases hm : isMinNode d.length
    · simp only [Bool.false_eq_true, if_false]
      obtain ⟨_, g2, _⟩ := mm_grand_near d.length (by omega) (by omega)
      exact ⟨by omega, by rw [g2]; exact hm⟩
    · simp only [if_true]
      exact ⟨hp, mm_parent_level _ h0 (by omega) true hm⟩

end MinMaxHeap

namespace Deap
open Deap_Trait Vec

/-! ## C21: which child `popMin` promotes -/

theorem sinkLoop_unroll (takeLeft : Int → Int → Bool) (fuel : Nat) (d : List Int) (e : Nat) :
    sinkLoop takeLeft (fuel + 1) d e =
      sinkLoop takeLeft fuel (sinkLoop takeLeft 1 d e).1 (sinkLoop takeLeft 1 d e).2 := by
  cases hleaf : isLeaf d e
  · rw [sinkLoop, sinkLoop]
    simp only [hleaf, Bool.not_false, if_true]
    split
    · rfl
    · rfl
  · rw [sinkLoop_leaf _ _ d e hleaf, sinkLoop_leaf _ _ d e hleaf]
    exact (sinkLoop_leaf _ _ d e hleaf).symm

/-- C21 amended: one round of the loop of `popMin` on an empty slot `e` that is not a leaf
promotes the left child exactly when the right child does not exist or
`value[left] < value[right]`, and promotes the right child exactly when it exists and
`value[right] ≤ value[left]`: a tie favours the right child.  Every round of the loop is such
a round. -/
theorem popMin_promotes (d : List Int) (e fuel : Nat) (hN : d.length < 2 ^ 61)
    (hL : 2 * e + 2 < d.length) :
    ((d.length ≤ 2 * e + 3 ∨ get d (2 * e + 2) < get d (2 * e + 3)) →
      sinkLoop (fun a b => decide (a < b)) 1 d e =
        (d.set e (get d (2 * e + 2)), 2 * e + 2)) ∧
    ((2 * e + 3 < d.length ∧ get d (2 * e + 3) ≤ get d (2 * e + 2)) →
      sinkLoop (fun a b => decide (a < b)) 1 d e =
        (d.set e (get d (2 * e + 3)), 2 * e + 3)) ∧
    sinkLoop (fun a b => decide (a < b)) (fuel + 1) d e =
      sinkLoop (fun a b => decide (a < b)) fuel
        (sinkLoop (fun a b => decide (a < b)) 1 d e).1
        (sinkLoop (fun a b => decide (a < b)) 1 d e).2 := by
  have he : e < d.length := by omega
  have hleaf : isLeaf d e = false := by
    cases hx : isLeaf d e
    · rfl
    · have := ((isLeaf_iff d e hN).1 hx).2
      omega
  have hstep := sinkLoop_step (fun a b => decide (a < b)) 0 d e hN he hleaf
  rw [Nat.zero_add] at hstep
  refine ⟨?_, ?_, sinkLoop_unroll _ fuel d e⟩
  · intro h
    rw [hstep, if_pos]
    · rfl
    · rcases h with h | h
      · have : exist d (2 * e + 3) = false := by
          cases hx : exist d (2 * e + 3)
          · rfl
          · have := (exist_iff d _).1 hx
            omega
        simp [this]
      · simp [h]
  · rintro ⟨h1, h2⟩
    rw [hstep, if_neg]
    · rfl
    · simp [(exist_iff d _).2 h1, not_lt.2 h2]

set_option maxRecDepth 100000 in
/-- C21 amended, on the Deap `[0, 5, 1, 3]` at the root: the right child exists and is
larger, the left child is promoted. -/
theorem popMin_promotes_witness :
    sinkLoop (fun a b => decide (a < b)) 1 [0, 5, 1, 3] 0 =
      (([0, 5, 1, 3] : List Int).set 0 (get [0, 5, 1, 3] (2 * 0 + 2)), 2 * 0 + 2) :=
  (popMin_promotes [0, 5, 1, 3] 0 0 (by decide) (by decide)).1 (Or.inr (by decide))

set_option maxRecDepth 100000 in
/-- C21 as stated fails on the Deap `[0, 5, 1, 1]`: the two children of the root hold the same
value, so `value[left] ≤ value[right]`, and the loop of `popMin` promotes the right child
(the empty slot moves to index 3), not the left one. -/
theorem popMin_tie_promotes_right :
    verify [0, 5, 1, 1] = true ∧ get [0, 5, 1, 1] 2 ≤ get [0, 5, 1, 1] 3 ∧
    sinkLoop (fun a b => decide (a < b)) 1 [0, 5, 1, 1] 0 = ([1, 5, 1, 1], 3) ∧
    sinkLoop (fun a b => decide (a < b)) 1 [0, 5, 1, 1] 0 ≠
      (([0, 5, 1, 1] : List Int).set 0 (get [0, 5, 1, 1] 2), 2) ∧
    sinkLoop (fun a b => decide (a < b)) 4 [0, 5, 1, 1] 0 = ([1, 5, 1, 1], 3) := by
  decide

end Deap

namespace Deap
open Deap_Trait Vec

/-! ## C23: `safeCorrespond` -/

/-- C23: in a Deap of size `n ≥ 2` (below the size limit `2^61` of the vector), for every
index `i < n` the index `safeCorrespond(i)` exists and lies in the other heap; in a Deap of
size 1 the result for index 0 is index 1, which does not exist. -/
theorem safeCorrespond_spec (m_data : List Int) (i : Nat) (v : Int)
    (hN : m_data.length < 2 ^ 61) (h2 : 2 ≤ m_data.length) (hi : i < m_data.length) :
    (safeCorrespond m_data i < m_data.length ∧ exist m_data (safeCorrespond m_data i) = true ∧
      inMinHeap (safeCorrespond m_data i) = !inMinHeap i) ∧
    (safeCorrespond [v] 0 = 1 ∧ exist [v] 1 = false) := by
  refine ⟨?_, by simp [safeCorrespond, correspond_zero, exist, parent], by simp [exist]⟩
  have hlt := safeCorrespond_lt m_data i hi hN h2
  refine ⟨hlt, (exist_iff _ _).2 hlt, ?_⟩
  cases hm : inMinHeap i
  · obtain ⟨hs, _, hcm⟩ := safeCorrespond_of_max m_data i hi hN hm
    rw [hs, hcm]
    rfl
  · rw [(safeCorrespond_of_min m_data i hi hN h2 hm).2.1]
    rfl

set_option maxRecDepth 100000 in
/-- C23 on the Deap `[1, 9, 3, 4, 7]` at index 3, whose correspondent 5 does not exist: the
result is index 1, the parent of 5. -/
theorem safeCorrespond_spec_witness :
    safeCorrespond [1, 9, 3, 4, 7] 3 = 1 ∧
    (safeCorrespond [1, 9, 3, 4, 7] 3 < ([1, 9, 3, 4, 7] : List Int).length ∧
      exist [1, 9, 3, 4, 7] (safeCorrespond [1, 9, 3, 4, 7] 3) = true ∧
      inMinHeap (safeCorrespond [1, 9, 3, 4, 7] 3) = !inMinHeap 3) :=
  ⟨by decide, (safeCorrespond_spec [1, 9, 3, 4, 7] 3 0 (by decide) (by decide) (by decide)).1⟩

end Deap

namespace Deap
open Deap_Trait Vec

/-! ## C24: `buildDeap` terminates -/

theorem fixPairLoop_exit (mn mx : Nat) (hsn : inMinHeap mn = true)
    (hsx : inMinHeap mx = false) (fuel : Nat) : ∀ (d : List Int), rankSum d ≤ fuel →
    mn < d.length → mx < d.length → d.length < 2 ^ 61 →
    get (fixPairLoop fuel d mn mx) mn ≤ get (fixPairLoop fuel d mn mx) mx := by
  induction fuel with
  | zero =>
    intro d hr hmn hmx hN
    rw [fixPairLoop]
    by_contra hgt
    have h1 := minCount_swap_cross d mn mx hmn hmx hsn hsx (not_le.1 hgt)
    have h2 : minCount d (get d mx) ≤ rankSum d := by
      unfold rankSum
      exact List.single_le_sum (fun _ _ => Nat.zero_le _) _
        (List.mem_map.2 ⟨get d mx, get_mem d mx hmx, rfl⟩)
    omega
  | succ fuel ih =>
    intro d hr hmn hmx hN
    rw [fixPairLoop]
    split
    · rename_i hgt
      have hl : (pullUp (pullUp (swapAt d mn mx) mn) mx).length = d.length := by
        rw [length_pullUp, length_pullUp, length_swapAt]
      have := rankSum_step d mn mx hN hmn hmx hsn hsx hgt
      exact ih _ (by omega) (by rw [hl]; exact hmn) (by rw [hl]; exact hmx)
        (by rw [hl]; exact hN)
    · rename_i hgt
      exact not_lt.1 hgt

theorem fixLeaf_exit (d : List Int) (i : Nat) (hi : i < d.length) (hN : d.length < 2 ^ 61)
    (h2 : 2 ≤ d.length) :
    get (fixLeaf d i) (if inMinHeap i then i else safeCorrespond d i) ≤
      get (fixLeaf d i) (if inMinHeap i then safeCorrespond d i else i) := by
  unfold fixLeaf
  dsimp only
  cases hm : inMinHeap i
  · obtain ⟨hs, hc, hcm⟩ := safeCorrespond_of_max d i hi hN hm
    simp only [Bool.false_eq_true, if_false]
    exact fixPairLoop_exit _ i (by rw [hs]; exact hcm) hm _ d (rankSum_le d)
      (by rw [hs]; exact hc) hi hN
  · obtain ⟨hc, hcm, _, _⟩ := safeCorrespond_of_min d i hi hN h2 hm
    simp only [if_true]
    exact fixPairLoop_exit i _ hm hcm _ d (rankSum_le d) hi hc hN

theorem isLeaf_iff_suffix (d : List Int) (i : Nat) (hN : d.length < 2 ^ 61) :
    isLeaf d i = true ↔ ((d.length - 1) / 2 ≤ i ∧ i < d.length) := by
  rw [isLeaf_iff d i hN]
  omega

theorem leafLoop_foldl : ∀ (i : Nat) (d : List Int), i < d.length → d.length < 2 ^ 61 →
    leafLoop i d =
      (((List.range (i + 1)).reverse).filter (fun j => decide (d.length ≤ 2 * j + 2))).foldl
        fixLeaf d := by
  intro i
  induction i with
  | zero =>
    intro d hi hN
    rw [leafLoop]
    have e : (List.range (0 + 1)).reverse = [0] := by decide
    rw [e]
    by_cases hl : isLeaf d 0 = true
    · have := ((isLeaf_iff d 0 hN).1 hl).2
      rw [if_pos hl, List.filter_cons_of_pos (by simpa using this)]
      rfl
    · have : ¬ d.length ≤ 2 * 0 + 2 := fun h => hl ((isLeaf_iff d 0 hN).2 ⟨hi, h⟩)
      rw [if_neg hl, List.filter_cons_of_neg (by simpa using this)]
      rfl
  | succ i ih =>
    intro d hi hN
    rw [leafLoop]
    have e : (List.range (i + 1 + 1)).reverse = (i + 1) :: (List.range (i + 1)).reverse := by
      rw [List.range_succ, List.reverse_append]
      rfl
    rw [e]
    by_cases hl : isLeaf d (i + 1) = true
    · have := ((isLeaf_iff d (i + 1) hN).1 hl).2
      rw [if_pos hl, List.filter_cons_of_pos (by simpa using this), List.foldl_cons]
      have hlen := length_fixLeaf d (i + 1)
      rw [ih (fixLeaf d (i + 1)) (by rw [hlen]; omega) (by rw [hlen]; exact hN), hlen]
    · have hnl : ¬ d.length ≤ 2 * (i + 1) + 2 :=
        fun h => hl ((isLeaf_iff d (i + 1) hN).2 ⟨hi, h⟩)
      rw [if_neg hl, List.filter_cons_of_neg (by simpa using hnl)]
      have : ((List.range (i + 1)).reverse).filter
          (fun j => decide (d.length ≤ 2 * j + 2)) = [] := by
        rw [List.filter_eq_nil_iff]
        intro j hj
        rw [List.mem_reverse, List.mem_range] at hj
        simp only [decide_eq_true_eq]
        omega
      rw [this]
      rfl

/-- C24: `buildDeap` ends on every sequence of ints (of a size a vector can have).  Below two
elements it returns at once.  The leaves are the contiguous suffix of the indices from
`(size - 1) / 2` on, and the leaf loop runs the leaf body once at each of them, from the last
index down, and at no other index.  At each leaf, in whatever state `s` the earlier steps left
the elements, the inner `while` loop stops by its own test within `size * size` rounds: more
fuel does not change its result and the pair it leaves is ordered.  The two repair loops it
calls, `pullUp` and `pushDown`, also stop by their own tests. -/
theorem buildDeap_terminates (d : List Int) (hN : d.length < 2 ^ 61) :
    (d.length < 2 → buildDeap d = d) ∧
    (∀ i, isLeaf d i = true ↔ ((d.length - 1) / 2 ≤ i ∧ i < d.length)) ∧
    (2 ≤ d.length → buildDeap d =
      (((List.range d.length).reverse).filter (fun j => decide (d.length ≤ 2 * j + 2))).foldl
        fixLeaf (heapifyFrom (parent (d.length - 1)) d)) ∧
    (∀ s : List Int, s.length = d.length → 2 ≤ d.length → ∀ i, i < d.length →
      (∀ k, (if inMinHeap i
          then fixPairLoop (s.length * s.length + k) s i (safeCorrespond s i)
          else fixPairLoop (s.length * s.length + k) s (safeCorrespond s i) i) = fixLeaf s i) ∧
      get (fixLeaf s i) (if inMinHeap i then i else safeCorrespond s i) ≤
        get (fixLeaf s i) (if inMinHeap i then safeCorrespond s i else i)) ∧
    (∀ (s : List Int) (id k : Nat), s.length = d.length →
      pullUpLoop (chooseLess id) (s.length + k) s id = pullUp s id ∧
      pushDownLoop (chooseLess id) (s.length + k) s id = pushDown s id) := by
  refine ⟨?_, ?_, ?_, ?_, ?_⟩
  · intro h
    unfold buildDeap
    rw [if_pos h]
  · intro i
    exact isLeaf_iff_suffix d i hN
  · intro h2
    unfold buildDeap
    rw [if_neg (by omega)]
    dsimp only
    have hl := length_heapifyFrom (parent (d.length - 1)) d
    rw [hl, leafLoop_foldl (d.length - 1) _ (by rw [hl]; omega) (by rw [hl]; exact hN), hl,
      Nat.sub_add_cancel (by omega)]
  · intro s hs h2 i hi
    exact ⟨fun k => fixLeaf_fuel s i k (by rw [hs]; exact hi) (by rw [hs]; exact hN)
        (by rw [hs]; exact h2),
      fixLeaf_exit s i (by rw [hs]; exact hi) (by rw [hs]; exact hN) (by rw [hs]; exact h2)⟩
  · intro s id k hs
    exact ⟨pullUp_fuel s id k, pushDown_fuel s id k (by rw [hs]; exact hN)⟩

set_option maxRecDepth 100000 in
/-- C24 on the sequence `[3, -1, 2, -7, 5]`: the leaves are the indices `2`, `3`, `4`, and the
leaf loop is the leaf body run at `4`, `3`, `2` after the first loop. -/
theorem buildDeap_terminates_witness :
    (((List.range 5).reverse).filter (fun j => decide (5 ≤ 2 * j + 2)) = [4, 3, 2]) ∧
    (buildDeap [3, -1, 2, -7, 5] =
      (((List.range [3, -1, 2, -7, 5].length).reverse).filter
        (fun j => decide ([3, -1, 2, -7, 5].length ≤ 2 * j + 2))).foldl
        fixLeaf (heapifyFrom (parent ([3, -1, 2, -7, 5].length - 1)) [3, -1, 2, -7, 5])) :=
  ⟨by decide, (buildDeap_terminates [3, -1, 2, -7, 5] (by decide)).2.2.1 (by decide)⟩

end Deap

namespace Deap
open Deap_Trait Vec

/-! ## C22: no assertion fails and no access leaves the sequence -/

theorem readC_eq (d : List Int) (i : Nat) (h : i < d.length) : readC d i = some (get d i) := by
  unfold readC
  rw [if_pos h]

theorem writeC_eq (d : List Int) (i : Nat) (v : Int) (h : i < d.length) :
    writeC d i v = some (d.set i v) := by
  unfold writeC
  rw [if_pos h]

theorem swapC_eq (d : List Int) (i j : Nat) (hi : i < d.length) (hj : j < d.length) :
    swapC d i j = some (swapAt d i j) := by
  unfold swapC
  rw [if_pos ⟨hi, hj⟩]

theorem inMinHeapC_eq (id : Nat) (h : id + 2 < 2 ^ 64) : inMinHeapC id = some (inMinHeap id) := by
  unfold inMinHeapC inMinHeap highestOneC assertC
  have e : (id + 2) % 18446744073709551616 = id + 2 := by omega
  simp [e]

theorem correspondC_eq (id : Nat) (h : id + 2 < 2 ^ 64) :
    correspondC id = some (correspond id) := by
  unfold correspondC correspond highestOneC assertC
  have e : (id + 2) % 18446744073709551616 = id + 2 := by omega
  simp [e]

theorem safeCorrespondC_eq (d : List Int) (id : Nat) (hi : id < d.length)
    (hN : d.length < 2 ^ 61) : safeCorrespondC d id = some (safeCorrespond d id) := by
  unfold safeCorrespondC safeCorrespond assertC
  rw [correspondC_eq id (by omega), (exist_iff d id).2 hi]
  rfl

theorem pullUpLoopC_eq (less : Int → Int → Bool) (fuel : Nat) : ∀ (d : List Int) (id : Nat),
    pullUpLoopC less fuel d id = some (pullUpLoop less fuel d id) := by
  induction fuel with
  | zero => intro d id; rfl
  | succ fuel ih =>
    intro d id
    rw [pullUpLoopC, pullUpLoop]
    by_cases hex : exist d id = true
    · have hi := (exist_iff d id).1 hex
      have hp : parent id < d.length := lt_of_le_of_lt (parent_le id) hi
      rw [if_pos hex, if_pos hex]
      dsimp only
      rw [readC_eq d id hi, readC_eq d _ hp, swapC_eq d id _ hi hp]
      by_cases hl : less (get d id) (get d (parent id)) = true
      · simp only [hl, if_true, Option.bind_eq_bind, Option.some_bind]
        exact ih _ _
      · simp only [hl, if_false, Option.bind_eq_bind, Option.some_bind]
        rfl
    · rw [if_neg hex, if_neg hex]

theorem pullUpC_eq (d : List Int) (id : Nat) (h : id + 2 < 2 ^ 64) :
    pullUpC d id = some (pullUp d id) := by
  unfold pullUpC pullUp chooseLess
  rw [inMinHeapC_eq id h]
  exact pullUpLoopC_eq _ _ _ _

theorem pushDownPickC_eq (less : Int → Int → Bool) (d : List Int) (id : Nat)
    (hi : id < d.length) : pushDownPickC less d id = some (pushDownPick less d id) := by
  unfold pushDownPickC pushDownPick
  dsimp only
  have hm1 : (if less (get d (leftChild id)) (get d id) = true then leftChild id else id)
      < d.length ∨ exist d (leftChild id) = false := by
    cases hL : exist d (leftChild id)
    · exact Or.inr rfl
    · left
      split
      · exact (exist_iff _ _).1 hL
      · exact hi
  cases hL : exist d (leftChild id)
  · cases hR : exist d (rightChild id)
    · simp
    · have hr := (exist_iff _ _).1 hR
      simp [readC_eq d _ hr, readC_eq d _ hi]
  · have hl := (exist_iff _ _).1 hL
    rw [hL] at hm1
    have hm : (if less (get d (leftChild id)) (get d id) = true then leftChild id else id)
        < d.length := by
      rcases hm1 with h | h
      · exact h
      · cases h
    cases hR : exist d (rightChild id)
    · simp [readC_eq d _ hl, readC_eq d _ hi]
    · have hr := (exist_iff _ _).1 hR
      simp [readC_eq d _ hl, readC_eq d _ hi, readC_eq d _ hr, readC_eq d _ hm]

theorem pushDownLoopC_eq (less : Int → Int → Bool) (fuel : Nat) : ∀ (d : List Int) (id : Nat),
    pushDownLoopC less fuel d id = some (pushDownLoop less fuel d id) := by
  induction fuel with
  | zero => intro d id; rfl
  | succ fuel ih =>
    intro d id
    rw [pushDownLoopC, pushDownLoop]
    by_cases hex : exist d id = true
    · have hi := (exist_iff d id).1 hex
      rw [if_pos hex, if_pos hex, pushDownPickC_eq less d id hi]
      dsimp only
      by_cases hm : pushDownPick less d id = id
      · simp [hm]
      · have hr : pushDownPick less d id < d.length := by
          rcases pushDownPick_range less d id with h | h
          · exact absurd h hm
          · exact h
        simp only [hm, if_false, Option.bind_eq_bind, Option.some_bind,
          swapC_eq d id _ hi hr]
        exact ih _ _
    · rw [if_neg hex, if_neg hex]

theorem pushDownC_eq (d : List Int) (id : Nat) (h : id + 2 < 2 ^ 64) :
    pushDownC d id = some (pushDown d id) := by
  unfold pushDownC pushDown chooseLess
  rw [inMinHeapC_eq id h]
  exact pushDownLoopC_eq _ _ _ _

theorem heapifyFromC_eq (i : Nat) : ∀ d : List Int, i < 2 ^ 62 →
    heapifyFromC i d = some (heapifyFrom i d) := by
  induction i with
  | zero =>
    intro d _
    rw [heapifyFromC, heapifyFrom]
    exact pushDownC_eq d 0 (by norm_num)
  | succ i ih =>
    intro d hi
    rw [heapifyFromC, heapifyFrom, pushDownC_eq d (i + 1) (by omega)]
    exact ih _ (by omega)

theorem fixPairLoopC_eq (mn mx : Nat) (fuel : Nat) : ∀ d : List Int, mn < d.length →
    mx < d.length → d.length < 2 ^ 61 →
    fixPairLoopC fuel d mn mx = some (fixPairLoop fuel d mn mx) := by
  induction fuel with
  | zero => intro d _ _ _; rfl
  | succ fuel ih =>
    intro d hmn hmx hN
    rw [fixPairLoopC, fixPairLoop, readC_eq d mn hmn, readC_eq d mx hmx]
    by_cases hgt : get d mn > get d mx
    · have l1 : (swapAt d mn mx).length = d.length := length_swapAt d mn mx
      have l2 : (pullUp (swapAt d mn mx) mn).length = d.length := by rw [length_pullUp, l1]
      have l3 : (pullUp (pullUp (swapAt d mn mx) mn) mx).length = d.length := by
        rw [length_pullUp, l2]
      simp only [hgt, if_true, Option.bind_eq_bind, Option.some_bind,
        swapC_eq d mn mx hmn hmx, pullUpC_eq _ mn (by omega), pullUpC_eq _ mx (by omega)]
      exact ih _ (by rw [l3]; exact hmn) (by rw [l3]; exact hmx) (by rw [l3]; exact hN)
    · simp only [hgt, if_false, Option.bind_eq_bind, Option.some_bind]

theorem fixLeafC_eq (d : List Int) (i : Nat) (hi : i < d.length) (hN : d.length < 2 ^ 61)
    (h2 : 2 ≤ d.length) : fixLeafC d i = some (fixLeaf d i) := by
  unfold fixLeafC fixLeaf
  have hc := safeCorrespond_lt d i hi hN h2
  rw [safeCorrespondC_eq d i hi hN, inMinHeapC_eq i (by omega)]
  simp only [Option.bind_eq_bind, Option.some_bind]
  cases hm : inMinHeap i
  · simp only [Bool.false_eq_true, if_false]
    exact fixPairLoopC_eq _ _ _ d hc hi hN
  · simp only [if_true]
    exact fixPairLoopC_eq _ _ _ d hi hc hN

theorem leafLoopC_eq (i : Nat) : ∀ d : List Int, d.length < 2 ^ 61 → 2 ≤ d.length →
    leafLoopC i d = some (leafLoop i d) := by
  induction i with
  | zero =>
    intro d hN h2
    rw [leafLoopC, leafLoop]
    by_cases hl : isLeaf d 0 = true
    · rw [if_pos hl, if_pos hl]
      exact fixLeafC_eq d 0 ((isLeaf_iff d 0 hN).1 hl).1 hN h2
    · rw [if_neg hl, if_neg hl]
  | succ i ih =>
    intro d hN h2
    rw [leafLoopC, leafLoop]
    by_cases hl : isLeaf d (i + 1) = true
    · rw [if_pos hl, if_pos hl, fixLeafC_eq d (i + 1) ((isLeaf_iff d _ hN).1 hl).1 hN h2]
      have hlen := length_fixLeaf d (i + 1)
      exact ih _ (by rw [hlen]; exact hN) (by rw [hlen]; exact h2)
    · rw [if_neg hl, if_neg hl]

theorem buildDeapC_eq (d : List Int) (hN : d.length < 2 ^ 61) :
    buildDeapC d = some (buildDeap d) := by
  unfold buildDeapC buildDeap
  by_cases h : d.length < 2
  · rw [if_pos h, if_pos h]
  · rw [if_neg h, if_neg h,
      heapifyFromC_eq _ d (lt_of_le_of_lt (parent_le _) (by omega))]
    have hl := length_heapifyFrom (parent (d.length - 1)) d
    exact leafLoopC_eq _ _ (by rw [hl]; exact hN) (by rw [hl]; omega)

theorem insertC_eq (d : List Int) (id : Nat) (hN : d.length < 2 ^ 61)
    (hl : isLeaf d id = true) : insertC d id = some (insert d id) := by
  have hi : id < d.length := ((isLeaf_iff d id hN).1 hl).1
  unfold insertC insert assertC
  rw [if_pos hl]
  by_cases h0 : id = 0
  · simp [h0]
  have h2 : 2 ≤ d.length := by omega
  have hc := safeCorrespond_lt d id hi hN h2
  simp only [h0, if_false, Option.bind_eq_bind, Option.some_bind,
    safeCorrespondC_eq d id hi hN, inMinHeapC_eq id (by omega)]
  have pu : ∀ (x : List Int) (j : Nat), j < d.length → pullUpC x j = some (pullUp x j) :=
    fun x j hj => pullUpC_eq x j (by omega)
  cases hm : inMinHeap id
  · simp only [Bool.false_eq_true, if_false]
    generalize hmd : (if (!isLeaf d (safeCorrespond d id) &&
      !exist d (rightChild (safeCorrespond d id))) = true
      then leftChild (safeCorrespond d id) else safeCorrespond d id) = m
    by_cases hlm : isLeaf d m = true
    · have hmi : m < d.length := ((isLeaf_iff d m hN).1 hlm).1
      simp only [hlm, if_true, readC_eq d m hmi, readC_eq d id hi, Option.some_bind,
        swapC_eq d m id hmi hi]
      by_cases hle : get d m ≤ get d id
      · simp only [hle, if_true]
        exact pu _ _ hi
      · simp only [hle, if_false]
        rw [safeCorrespondC_eq _ id (by rw [length_swapAt]; exact hi)
          (by rw [length_swapAt]; exact hN)]
        simp only [Option.some_bind]
        exact pu _ _ (by
          have := safeCorrespond_lt (swapAt d m id) id (by rw [length_swapAt]; exact hi)
            (by rw [length_swapAt]; exact hN) (by rw [length_swapAt]; exact h2)
          rw [length_swapAt] at this
          exact this)
    · have hkids : leftChild m < d.length ∧ rightChild m < d.length := by
        have hlc := leftChild_eq (safeCorrespond d id) (by omega)
        have hrc := rightChild_eq (safeCorrespond d id) (by omega)
        by_cases hcnd : (!isLeaf d (safeCorrespond d id) &&
            !exist d (rightChild (safeCorrespond d id))) = true
        · rw [if_pos hcnd] at hmd
          exfalso
          apply hlm
          simp only [Bool.and_eq_true, Bool.not_eq_true', Bool.not_eq_true] at hcnd
          have a1 : ¬ d.length ≤ 2 * safeCorrespond d id + 2 := fun hx => by
            have := (isLeaf_iff d _ hN).2 ⟨hc, hx⟩
            rw [hcnd.1] at this
            cases this
          have a2 : ¬ rightChild (safeCorrespond d id) < d.length := fun hx => by
            have := (exist_iff d _).2 hx
            rw [hcnd.2] at this
            cases this
          rw [(isLeaf_iff d m hN)]
          omega
        · rw [if_neg hcnd] at hmd
          rw [← hmd]
          rw [← hmd] at hlm
          have a1 : ¬ d.length ≤ 2 * safeCorrespond d id + 2 := fun hx =>
            hlm ((isLeaf_iff d _ hN).2 ⟨hc, hx⟩)
          have hlf : isLeaf d (safeCorrespond d id) = false := by
            cases hx : isLeaf d (safeCorrespond d id)
            · rfl
            · exact absurd hx hlm
          rw [hlf] at hcnd
          have a2 : exist d (rightChild (safeCorrespond d id)) = true := by
            cases hx : exist d (rightChild (safeCorrespond d id))
            · rw [hx] at hcnd
              exact absurd rfl hcnd
            · rfl
          have := (exist_iff d _).1 a2
          omega
      simp only [hlm, if_false, decide_True, if_true, Option.some_bind,
        readC_eq d _ hkids.1, readC_eq d _ hkids.2, readC_eq d id hi,
        swapC_eq d _ id hkids.1 hi, swapC_eq d _ id hkids.2 hi]
      by_cases hx1 : get d (leftChild m) ≤ get d id
      · by_cases hx2 : get d (rightChild m) ≤ get d id
        · simp only [hx1, hx2, if_true, Option.some_bind, decide_True, Bool.and_self]
          exact pu _ _ hi
        · simp only [hx1, hx2, if_true, if_false, Option.some_bind, decide_True, decide_False,
            Bool.and_false, Bool.false_eq_true]
          split
          · exact pu _ _ hkids.1
          · exact pu _ _ hkids.2
      · simp only [hx1, if_false, Option.some_bind, decide_False,
          Bool.false_and, Bool.false_eq_true]
        split
        · exact pu _ _ hkids.1
        · exact pu _ _ hkids.2
  · simp only [if_true, hl, Bool.not_true, Bool.false_and, Bool.false_eq_true, if_false,
      readC_eq d id hi, readC_eq d _ hc, Option.some_bind, swapC_eq d id _ hi hc]
    by_cases hle : get d id ≤ get d (safeCorrespond d id)
    · simp only [hle, if_true]
      exact pu _ _ hi
    · simp only [hle, if_false]
      rw [safeCorrespondC_eq _ id (by rw [length_swapAt]; exact hi)
        (by rw [length_swapAt]; exact hN)]
      simp only [Option.some_bind]
      exact pu _ _ (by
        have := safeCorrespond_lt (swapAt d id (safeCorrespond d id)) id
          (by rw [length_swapAt]; exact hi)
          (by rw [length_swapAt]; exact hN) (by rw [length_swapAt]; exact h2)
        rw [length_swapAt] at this
        exact this)

theorem sinkLoopC_eq (takeLeft : Int → Int → Bool) (fuel : Nat) : ∀ (d : List Int) (e : Nat),
    e < d.length → d.length < 2 ^ 61 →
    sinkLoopC takeLeft fuel d e = some (sinkLoop takeLeft fuel d e) := by
  induction fuel with
  | zero => intro d e _ _; rfl
  | succ fuel ih =>
    intro d e he hN
    rw [sinkLoopC, sinkLoop]
    cases hleaf : isLeaf d e
    · have hL : 2 * e + 2 < d.length := by
        by_contra hc
        have := (isLeaf_iff d e hN).2 ⟨he, by omega⟩
        rw [hleaf] at this
        cases this
      have hlc := leftChild_eq e (by omega)
      have hrc := rightChild_eq e (by omega)
      have hLl : leftChild e < d.length := by omega
      simp only [Bool.not_false, if_true]
      cases hR : exist d (rightChild e)
      · simp only [Bool.not_false, if_true, Option.bind_eq_bind, Option.some_bind,
          Bool.true_or, readC_eq d _ hLl, writeC_eq d e _ he]
        exact ih _ _ (by rw [List.length_set]; exact hLl) (by rw [List.length_set]; exact hN)
      · have hRl := (exist_iff d _).1 hR
        simp only [Bool.not_true, Bool.false_eq_true, if_false, Option.bind_eq_bind,
          Option.some_bind, Bool.false_or, readC_eq d _ hLl, readC_eq d _ hRl,
          writeC_eq d e _ he]
        split
        · exact ih _ _ (by rw [List.length_set]; exact hLl)
            (by rw [List.length_set]; exact hN)
        · exact ih _ _ (by rw [List.length_set]; exact hRl)
            (by rw [List.length_set]; exact hN)
    · simp

theorem sinkLoop_end (takeLeft : Int → Int → Bool) (fuel : Nat) : ∀ (d : List Int) (e : Nat),
    e < d.length → d.length ≤ fuel + e → d.length < 2 ^ 61 →
    (sinkLoop takeLeft fuel d e).1.length = d.length ∧
    (sinkLoop takeLeft fuel d e).2 < d.length ∧
    d.length ≤ 2 * (sinkLoop takeLeft fuel d e).2 + 2 := by
  induction fuel with
  | zero => intro d e he hf; omega
  | succ fuel ih =>
    intro d e he hf hN
    cases hleaf : isLeaf d e
    · have hL : 2 * e + 2 < d.length := by
        by_contra hc
        have := (isLeaf_iff d e hN).2 ⟨he, by omega⟩
        rw [hleaf] at this
        cases this
      rw [sinkLoop_step _ fuel d e hN he hleaf]
      split
      · have := ih (d.set e (get d (2 * e + 2))) (2 * e + 2) (by simp; exact hL)
          (by simp; omega) (by simp; exact hN)
        rw [List.length_set] at this
        exact this
      · rename_i hcnd
        have hR : 2 * e + 3 < d.length := by
          by_contra hx
          apply hcnd
          have : exist d (2 * e + 3) = false := by
            cases hx1 : exist d (2 * e + 3)
            · rfl
            · exact absurd ((exist_iff d _).1 hx1) hx
          rw [this]
          rfl
        have := ih (d.set e (get d (2 * e + 3))) (2 * e + 3) (by simp; exact hR)
          (by simp; omega) (by simp; exact hN)
        rw [List.length_set] at this
        exact this
    · rw [sinkLoop_leaf _ _ d e hleaf]
      exact ⟨rfl, he, ((isLeaf_iff d e hN).1 hleaf).2⟩

theorem popTailC_eq (d1 : List Int) (e : Nat) (ret : Int) (hN : d1.length < 2 ^ 61)
    (he : e < d1.length) (hleaf : d1.length ≤ 2 * e + 2) (hne : e ≠ d1.length - 1) :
    (do
      let last ← backC d1
      let d2 ← writeC d1 e last
      let d3 ← popBackC d2
      let d4 ← insertC d3 e
      some (some (ret, d4))) =
    some (some (ret, insert ((d1.set e (get d1 (d1.length - 1))).dropLast) e)) := by
  have hb : backC d1 = some (get d1 (d1.length - 1)) := by
    unfold backC
    rw [if_neg (by omega)]
  have hp : popBackC (d1.set e (get d1 (d1.length - 1))) =
      some (d1.set e (get d1 (d1.length - 1))).dropLast := by
    unfold popBackC
    rw [if_neg (by rw [List.length_set]; omega)]
  have hlen : ((d1.set e (get d1 (d1.length - 1))).dropLast).length = d1.length - 1 := by
    simp
  have hi := insertC_eq ((d1.set e (get d1 (d1.length - 1))).dropLast) e
    (by rw [hlen]; omega)
    ((isLeaf_iff _ _ (by rw [hlen]; omega)).2 ⟨by rw [hlen]; omega, by rw [hlen]; omega⟩)
  simp only [hb, writeC_eq d1 e _ he, hp, hi, Option.bind_eq_bind, Option.some_bind]

theorem popMinC_eq (d : List Int) (hN : d.length < 2 ^ 61) : popMinC d = some (popMin d) := by
  unfold popMinC popMin
  by_cases h0 : d.length = 0
  · rw [if_pos h0, if_pos h0]
  rw [if_neg h0, if_neg h0]
  have h1 : 0 < d.length := by omega
  obtain ⟨e1, e2, e3⟩ := sinkLoop_end (fun a b => decide (a < b)) d.length d 0 h1
    (by omega) hN
  simp only [readC_eq d 0 h1, sinkLoopC_eq _ d.length d 0 h1 hN, Option.bind_eq_bind,
    Option.some_bind]
  generalize sinkLoop (fun a b => decide (a < b)) d.length d 0 = r at e1 e2 e3
  by_cases hlast : r.2 = r.1.length - 1
  · have hp : popBackC r.1 = some r.1.dropLast := by
      unfold popBackC
      rw [if_neg (by omega)]
    simp only [hlast, if_true, hp, Option.some_bind]
  · simp only [hlast, if_false]
    exact popTailC_eq r.1 r.2 (get d 0) (by omega) (by omega) (by omega) hlast

theorem popMaxC_eq (d : List Int) (hN : d.length < 2 ^ 61) : popMaxC d = some (popMax d) := by
  unfold popMaxC popMax
  by_cases h0 : d.length = 0
  · rw [if_pos h0, if_pos h0]
  rw [if_neg h0, if_neg h0]
  by_cases h1 : d.length = 1
  · have hp : popBackC d = some d.dropLast := by
      unfold popBackC
      rw [if_neg h0]
    rw [if_pos h1, if_pos h1]
    simp only [readC_eq d 0 (by omega), hp, Option.bind_eq_bind, Option.some_bind]
  rw [if_neg h1, if_neg h1]
  have h2 : 1 < d.length := by omega
  obtain ⟨e1, e2, e3⟩ := sinkLoop_end (fun a b => decide (a > b)) d.length d 1 h2
    (by omega) hN
  simp only [readC_eq d 1 h2, sinkLoopC_eq _ d.length d 1 h2 hN, Option.bind_eq_bind,
    Option.some_bind]
  generalize sinkLoop (fun a b => decide (a > b)) d.length d 1 = r at e1 e2 e3
  by_cases hlast : r.2 = r.1.length - 1
  · have hp : popBackC r.1 = some r.1.dropLast := by
      unfold popBackC
      rw [if_neg (by omega)]
    simp only [hlast, if_true, hp, Option.some_bind]
    by_cases hlf : isLeaf r.1.dropLast (parent (r.1.length - 1)) = true
    · simp only [hlf, if_true]
      rw [insertC_eq _ _ (by simp; omega) hlf]
      rfl
    · simp only [hlf, Bool.false_eq_true, if_false]
  · simp only [hlast, if_false]
    exact popTailC_eq r.1 r.2 (get d 1) (by omega) (by omega) (by omega) hlast

theorem pushC_eq (d : List Int) (v : Int) (hN : d.length + 1 < 2 ^ 61) :
    pushC d v = some (push d v) := by
  unfold pushC push
  dsimp only
  have hlen : (d ++ [v]).length = d.length + 1 := by simp
  exact insertC_eq _ _ (by rw [hlen]; exact hN)
    ((isLeaf_iff _ _ (by rw [hlen]; exact hN)).2 ⟨by rw [hlen]; omega, by rw [hlen]; omega⟩)

theorem length_applyOp (op : Op) (d : List Int) : (applyOp op d).length ≤ d.length + 1 := by
  cases op with
  | push v =>
    rw [applyOp, length_push]
  | popMin =>
    rw [applyOp]
    cases h : popMin d with
    | none => simp
    | some p =>
      obtain ⟨x, r⟩ := p
      have := length_popMin d x r h
      simp only
      omega
  | popMax =>
    rw [applyOp]
    cases h : popMax d with
    | none => simp
    | some p =>
      obtain ⟨x, r⟩ := p
      have := length_popMax d x r h
      simp only
      omega

theorem applyOpC_eq (op : Op) (d : List Int) (hN : d.length + 1 < 2 ^ 61) :
    applyOpC op d = some (applyOp op d) := by
  cases op with
  | push v =>
    rw [applyOpC, applyOp]
    exact pushC_eq d v hN
  | popMin =>
    rw [applyOpC, applyOp, popMinC_eq d (by omega)]
    cases popMin d with
    | none => rfl
    | some p => rfl
  | popMax =>
    rw [applyOpC, applyOp, popMaxC_eq d (by omega)]
    cases popMax d with
    | none => rfl
    | some p => rfl

theorem runC_eq (ops : List Op) : ∀ d : List Int, d.length + ops.length < 2 ^ 61 →
    runC ops d = some (run ops d) := by
  induction ops with
  | nil => intro d _; rfl
  | cons op ops ih =>
    intro d h
    rw [List.length_cons] at h
    rw [runC, run, applyOpC_eq op d (by omega)]
    have := length_applyOp op d
    exact ih _ (by omega)

/-- C22: no sequence of public operations of the Deap fails an internal assertion or reads or
writes outside the sequence.  The checked operations (`ofListC`, `pushC`, `popMinC`,
`popMaxC`) carry every `assert` of the source (`isLeaf(id)` and `maxN == id` in `insert`,
`exist(id)` in `safeCorrespond`, `id >= 2` in `inMinHeap` and `correspond`, `id != 0` in
`highestOne`) and a bounds check at every element access, and answer `none` when one of them
fails.  On every content below the size limit of a vector, whatever its values, each of them
answers what the unchecked operation computes, and so does every sequence of calls after a
construction.  The two checks named first are live: outside their condition the checked
function does answer `none`. -/
theorem deap_no_fault (values : List Int) (ops : List Op) (d : List Int) (v : Int) (id : Nat)
    (h : values.length + ops.length < 2 ^ 61) (hd : d.length + 1 < 2 ^ 61) :
    ofListC values = some (ofList values) ∧
    (ofListC values).bind (runC ops) = some (run ops (ofList values)) ∧
    pushC d v = some (push d v) ∧
    popMinC d = some (popMin d) ∧
    popMaxC d = some (popMax d) ∧
    (isLeaf d id = true → insertC d id = some (insert d id)) ∧
    (isLeaf d id = false → insertC d id = none) ∧
    (exist d id = false → safeCorrespondC d id = none) := by
  have hb : ofListC values = some (ofList values) := buildDeapC_eq values (by omega)
  refine ⟨hb, ?_, pushC_eq d v hd, popMinC_eq d (by omega), popMaxC_eq d (by omega),
    fun hl => insertC_eq d id (by omega) hl, ?_, ?_⟩
  · rw [hb, Option.some_bind]
    exact runC_eq ops _ (by
      have : (ofList values).length = values.length := length_buildDeap values
      omega)
  · intro hl
    unfold insertC assertC
    rw [hl]
    rfl
  · intro hl
    unfold safeCorrespondC assertC
    rw [hl]
    rfl

set_option maxRecDepth 100000 in
/-- C22 on a construction from `[5, -3, 8, 1]` followed by a push, a `popMax` and a `popMin`:
every check passes, and the content left is the one the unchecked operations compute. -/
theorem deap_no_fault_witness :
    (ofListC [5, -3, 8, 1]).bind (runC [Op.push 7, Op.popMax, Op.popMin]) =
      some (run [Op.push 7, Op.popMax, Op.popMin] (ofList [5, -3, 8, 1])) ∧
    popMaxC [1, 9, 3] = some (popMax [1, 9, 3]) ∧
    popMax [1, 9, 3] = some (9, [1, 3]) :=
  ⟨(deap_no_fault [5, -3, 8, 1] [Op.push 7, Op.popMax, Op.popMin] [1, 9, 3] 4 0
      (by decide) (by decide)).2.1,
    (deap_no_fault [5, -3, 8, 1] [Op.push 7, Op.popMax, Op.popMin] [1, 9, 3] 4 0
      (by decide) (by decide)).2.2.2.2.1,
    by decide⟩

end Deap

/-! ## C13: the empty error -/

namespace Deap
open Deap_Trait Vec

theorem popMinCall_eq (d : List Int) :
    popMinCall d = match popMin d with
      | none => (none, d)
      | some p => (some p.1, p.2) := by
  unfold popMinCall popMin
  dsimp only
  split_ifs <;> rfl

theorem popMaxCall_eq (d : List Int) :
    popMaxCall d = match popMax d with
      | none => (none, d)
      | some p => (some p.1, p.2) := by
  unfold popMaxCall popMax
  dsimp only
  split_ifs <;> rfl

end Deap

namespace MinMaxHeap
open MinMaxHeap_Trait Vec

theorem mm_popMinCall_eq (d : List Int) :
    popMinCall d = match popMin d with
      | none => (none, d)
      | some p => (some p.1, p.2) := by
  unfold popMinCall popMin
  dsimp only
  split_ifs <;> rfl

theorem mm_popMaxCall_eq (d : List Int) :
    popMaxCall d = match popMax d with
      | none => (none, d)
      | some p => (some p.1, p.2) := by
  unfold popMaxCall popMax
  dsimp only
  split_ifs <;> rfl

end MinMaxHeap

theorem call_of_pop (pop : List Int → Option (Int × List Int))
    (callS : List Int → Option Int × List Int) (d : List Int)
    (heq : callS d = match pop d with
      | none => (none, d)
      | some p => (some p.1, p.2))
    (hsome : d ≠ [] → (pop d).isSome = true) (hnil : pop [] = none)
    (hlen : ∀ v r, pop d = some (v, r) → r.length + 1 = d.length) :
    (pop d = none ↔ d = []) ∧
    ((callS d).1 = none ↔ d = []) ∧
    ((callS d).1 = none → (callS d).2 = d ∧ (callS d).2 = []) ∧
    ((callS d).1 ≠ none → (callS d).2.length + 1 = d.length) ∧
    (∀ x r, pop d = some (x, r) → callS d = (some x, r)) := by
  have h1 : pop d = none ↔ d = [] := by
    constructor
    · intro h
      by_contra hne
      have := hsome hne
      rw [h] at this
      cases this
    · intro h
      subst h
      exact hnil
  cases hp : pop d with
  | none =>
    rw [hp] at heq
    have hd : d = [] := h1.1 hp
    simp only at heq
    rw [heq]
    exact ⟨⟨fun _ => hd, fun _ => rfl⟩, ⟨fun _ => hd, fun _ => rfl⟩, fun _ => ⟨rfl, hd⟩,
      fun h => absurd rfl h, fun x r h => (by cases h)⟩
  | some p =>
    rw [hp] at heq
    simp only at heq
    rw [heq]
    have hne : d ≠ [] := fun h => by
      rw [h1.2 h] at hp
      cases hp
    refine ⟨⟨fun h => (by cases h), fun h => absurd h hne⟩,
      ⟨fun h => (by cases h), fun h => absurd h hne⟩, fun h => (by cases h), fun _ => ?_, ?_⟩
    · exact hlen p.1 p.2 hp
    · intro x r h
      cases h
      rfl

/-- C13: for the Deap and for the Min-Max Heap, `popMin` and `popMax` signal the empty
error (`none`, the `std::out_of_range` exception) exactly on the instance without elements,
and a failing call leaves the instance as it found it: the content after the call is the
content before it, which is `[]`.  A call that does not fail removes one element, and its
value and new content are the ones of `popMin` and `popMax`.  On the empty Min-Max Heap a
failing `popMin` followed by `popMax` fails again, as in `popTest`. -/
theorem pop_fails_iff_empty (m_data : List Int) :
    ((Deap.popMin m_data = none ↔ m_data = []) ∧
      ((Deap.popMinCall m_data).1 = none ↔ m_data = []) ∧
      ((Deap.popMinCall m_data).1 = none →
        (Deap.popMinCall m_data).2 = m_data ∧ (Deap.popMinCall m_data).2 = []) ∧
      ((Deap.popMinCall m_data).1 ≠ none →
        (Deap.popMinCall m_data).2.length + 1 = m_data.length) ∧
      (∀ x r, Deap.popMin m_data = some (x, r) → Deap.popMinCall m_data = (some x, r))) ∧
    ((Deap.popMax m_data = none ↔ m_data = []) ∧
      ((Deap.popMaxCall m_data).1 = none ↔ m_data = []) ∧
      ((Deap.popMaxCall m_data).1 = none →
        (Deap.popMaxCall m_data).2 = m_data ∧ (Deap.popMaxCall m_data).2 = []) ∧
      ((Deap.popMaxCall m_data).1 ≠ none →
        (Deap.popMaxCall m_data).2.length + 1 = m_data.length) ∧
      (∀ x r, Deap.popMax m_data = some (x, r) → Deap.popMaxCall m_data = (some x, r))) ∧
    ((MinMaxHeap.popMin m_data = none ↔ m_data = []) ∧
      ((MinMaxHeap.popMinCall m_data).1 = none ↔ m_data = []) ∧
      ((MinMaxHeap.popMinCall m_data).1 = none →
        (MinMaxHeap.popMinCall m_data).2 = m_data ∧ (MinMaxHeap.popMinCall m_data).2 = []) ∧
      ((MinMaxHeap.popMinCall m_data).1 ≠ none →
        (MinMaxHeap.popMinCall m_data).2.length + 1 = m_data.length) ∧
      (∀ x r, MinMaxHeap.popMin m_data = some (x, r) →
        MinMaxHeap.popMinCall m_data = (some x, r))) ∧
    ((MinMaxHeap.popMax m_data = none ↔ m_data = []) ∧
      ((MinMaxHeap.popMaxCall m_data).1 = none ↔ m_data = []) ∧
      ((MinMaxHeap.popMaxCall m_data).1 = none →
        (MinMaxHeap.popMaxCall m_data).2 = m_data ∧ (MinMaxHeap.popMaxCall m_data).2 = []) ∧
      ((MinMaxHeap.popMaxCall m_data).1 ≠ none →
        (MinMaxHeap.popMaxCall m_data).2.length + 1 = m_data.length) ∧
      (∀ x r, MinMaxHeap.popMax m_data = some (x, r) →
        MinMaxHeap.popMaxCall m_data = (some x, r))) ∧
    (MinMaxHeap.popMinCall [] = (none, []) ∧
      MinMaxHeap.popMaxCall (MinMaxHeap.popMinCall []).2 = (none, [])) := by
  refine ⟨?_, ?_, ?_, ?_, ⟨rfl, rfl⟩⟩
  · exact call_of_pop Deap.popMin Deap.popMinCall m_data
      (Deap.popMinCall_eq m_data) (deap_popMin_isSome m_data) rfl
      (Deap.length_popMin m_data)
  · exact call_of_pop Deap.popMax Deap.popMaxCall m_data
      (Deap.popMaxCall_eq m_data) (deap_popMax_isSome m_data) rfl
      (Deap.length_popMax m_data)
  · exact call_of_pop MinMaxHeap.popMin MinMaxHeap.popMinCall m_data
      (MinMaxHeap.mm_popMinCall_eq m_data) (mm_popMin_isSome m_data) rfl
      (MinMaxHeap.mm_length_popMin m_data)
  · exact call_of_pop MinMaxHeap.popMax MinMaxHeap.popMaxCall m_data
      (MinMaxHeap.mm_popMaxCall_eq m_data) (mm_popMax_isSome m_data) rfl
      (MinMaxHeap.mm_length_popMax m_data)
